import Mathlib

/-! Neume editor toolkit (DDMAL/verovio): pitch, geometry and edit operations

A shallow embedding of the parts of `editortoolkit_neume.cpp`, `view_neume.cpp`
and `note.h` that the specification talks about, followed by theorems about
them.  C++ `int` values are unbounded integers here; C++ `/` on `int` is
truncating division (`Int.tdiv`).

Layout: definitions first (pitch and rendering, dragging of a pitched element,
action chaining, the reorder calls of `Drag`, `Insert` and `Chain`, staff
merging and splitting, clef reassociation on the page), then the theorems.
-/

namespace Vrv

/-! ## Pitch and rendering -/

/-- Clef shapes the editor distinguishes (`data_CLEFSHAPE`): the two shapes it
handles and the "no shape" value used when none was given. -/
inductive ClefShape where
  | CLEFSHAPE_NONE
  | CLEFSHAPE_F
  | CLEFSHAPE_C
  deriving DecidableEq

/-- The part of a `Clef` the editor reads: `GetShape()` and `GetLine()`. -/
structure Clef where
  shape : ClefShape
  line : Int
  deriving DecidableEq

/-- A stored pitch: `GetPname()` as an integer (c = 1, ..., b = 7) and
`GetOct()`. -/
structure Pitch where
  pname : Int
  oct : Int
  deriving DecidableEq

/-- The pitch name lies in the range of `data_PITCHNAME` (c = 1 to b = 7). -/
def Pitch.valid (p : Pitch) : Prop := 1 ≤ p.pname ∧ p.pname ≤ 7

instance (p : Pitch) : Decidable p.valid := by
  unfold Pitch.valid
  infer_instance

/-- Method `Note::GetDiatonicPitch` (note.h):
`return this->GetPname() + (int)this->GetOct() * 7;` -/
def GetDiatonicPitch (p : Pitch) : Int := p.pname + p.oct * 7

/-- Modelled from the spec: `PitchInterface::AdjustPitchByOffset`, whose body
(pitchinterface.cpp) is not among the sources.  Spec 4.1: the diatonic pitch
integer is increased by the offset and decomposed back into (step, octave)
with the step re-normalised into 1..7 and the octave carrying the rest. -/
def AdjustPitchByOffset (p : Pitch) (pitchOffset : Int) : Pitch :=
  let d := GetDiatonicPitch p + pitchOffset
  { pname := (d - 1) % 7 + 1, oct := (d - 1) / 7 }

/-- Baseline step of a clef shape in the rendering rule of `View::DrawNc`:
the `(pname - 1)` of a C clef and the `(pname - 4)` of an F clef. -/
def clefBaseline : ClefShape → Int
  | ClefShape.CLEFSHAPE_C => 1
  | ClefShape.CLEFSHAPE_F => 4
  | ClefShape.CLEFSHAPE_NONE => 1

/-- Modelled from the spec: `PitchInterface::AdjustPitchForNewClef`, whose body
(pitchinterface.cpp) is not among the sources.  Spec 4.1 asks for the pitch
whose rendering under the new clef is the rendering of the old pitch under the
old clef; spec 4.2 fixes the compensation at two diatonic steps per clef line,
and spec 4.1 fixes the baseline steps (1 for C, 4 for F).  The function gets
the two clefs only, no staff metric. -/
def AdjustPitchForNewClef (p : Pitch) (oldClef newClef : Clef) : Pitch :=
  AdjustPitchByOffset p
    (-2 * (newClef.line - oldClef.line)
      + (clefBaseline newClef.shape - clefBaseline oldClef.shape))

/-- Method `View::DrawNc` (view_neume.cpp), the vertical coordinate `yValue` handed to
`DrawSmuflCode`.  `staffSize` is the value of
`m_doc->GetDrawingDoubleUnit(staff->m_drawingStaffSize)`, `staffLineNumber` is
`staff->m_drawingLines`, `noteY` is `element->GetDrawingY()`.
```
int clefYPosition = noteY - (staffSize * (staffLineNumber - clefLine));
int pitchOffset = 0;
int octaveOffset = (nc->GetOct() - 3) * ((staffSize / 2) * 7);
if (clef->GetShape() == CLEFSHAPE_C) pitchOffset = (nc->GetPname() - 1) * (staffSize / 2);
else if (clef->GetShape() == CLEFSHAPE_F) pitchOffset = (nc->GetPname() - 4) * (staffSize / 2);
int yValue = clefYPosition + pitchOffset + octaveOffset;
``` -/
def DrawNc (staffSize staffLineNumber noteY : Int) (clef : Clef) (nc : Pitch) : Int :=
  let clefLine := clef.line
  let clefYPosition := noteY - (staffSize * (staffLineNumber - clefLine))
  let octaveOffset := (nc.oct - 3) * ((Int.tdiv staffSize 2) * 7)
  let pitchOffset :=
    if clef.shape = ClefShape.CLEFSHAPE_C then (nc.pname - 1) * (Int.tdiv staffSize 2)
    else if clef.shape = ClefShape.CLEFSHAPE_F then (nc.pname - 4) * (Int.tdiv staffSize 2)
    else 0
  clefYPosition + pitchOffset + octaveOffset

/-- The rendering rule in the words of the specification (4.1), over the
rationals: baseline position plus `(step - baseline) * staffUnit / 2` plus
`(octave - 3) * staffUnit * 3.5`, the baseline position being
`noteY - staffUnit * (lineCount - clefLine)`. -/
def offsetForPitch_spec (staffUnit lineCount noteY : Int) (clef : Clef) (p : Pitch) : ℚ :=
  let clefYPosition : ℚ := (noteY : ℚ) - (staffUnit : ℚ) * ((lineCount : ℚ) - (clef.line : ℚ))
  clefYPosition + ((p.pname : ℚ) - (clefBaseline clef.shape : ℚ)) * (staffUnit : ℚ) / 2
    + ((p.oct : ℚ) - 3) * (staffUnit : ℚ) * (7 / 2)

/-! ## Dragging a pitched element -/

/-- C `round` applied to the quotient of two `int`s converted to `double`:
`round((double) y / (double) u)`, the nearest integer with halves away from
zero.  For 32-bit operands the `double` quotient is too close to the exact
quotient to fall on the other side of a half, so this is the exact rounding of
`y / u`.  For `u = 0` the C++ expression has no defined value; `0` stands in
and every statement about it assumes `u ≠ 0`. -/
def roundDiv (y u : Int) : Int :=
  Int.sign y * Int.sign u * (((2 * y.natAbs + u.natAbs) / (2 * u.natAbs) : Nat) : Int)

/-- A zone rectangle: `GetUlx()`, `GetUly()`, `GetLrx()`, `GetLry()`. -/
structure Zone where
  ulx : Int
  uly : Int
  lrx : Int
  lry : Int
  deriving DecidableEq

/-- Modelled from the spec: `Zone::ShiftByXY`, whose body (zone.cpp) is not
among the sources; the spec's "shift its Zone by (dx, dy)". -/
def Zone.ShiftByXY (z : Zone) (x y : Int) : Zone :=
  { ulx := z.ulx + x, uly := z.uly + y, lrx := z.lrx + x, lry := z.lry + y }

/-- What the pitched branch of `Drag` reads from the dragged element. -/
structure PitchedElement where
  pitch : Pitch
  /-- Result of `element->HasInterface(INTERFACE_FACSIMILE)`. -/
  hasFacsimileInterface : Bool
  /-- Result of `fi->GetZone()`. -/
  zone : Zone
  /-- Result of `element->Is(NC)`. -/
  isNc : Bool
  /-- Result of `nc->GetLigated() == BOOLEAN_true`. -/
  ligated : Bool
  /-- Result of `nextNc != NULL && nextNc->GetLigated() == BOOLEAN_true &&
  nextNc->GetZone() == nc->GetZone()`. -/
  nextNcSharesZone : Bool
  deriving DecidableEq

/-- Method `EditorToolkitNeume::Drag`, the branch for an element with the pitch
interface (editortoolkit_neume.cpp, `if (element->HasInterface(INTERFACE_PITCH))`).
`unit` is `m_doc->GetDrawingUnit(staff->m_drawingStaffSize)`, `drawingStaffSize`
is `staff->m_drawingStaffSize`, `clef` is the clef found before the move and
`newClef` the one found in the reordered clone of the layer.
```
int pitchDifference = round((double) y / (double) m_doc->GetDrawingUnit(staff->m_drawingStaffSize));
element->GetPitchInterface()->AdjustPitchByOffset(pitchDifference);
if (element->HasInterface(INTERFACE_FACSIMILE)) { ... if (!ignoreFacs)
    zone->ShiftByXY(x, pitchDifference * staff->m_drawingStaffSize); }
...
element->GetPitchInterface()->AdjustPitchForNewClef(clef, newClef);
``` -/
def Drag_pitched (unit drawingStaffSize : Int) (clef newClef : Clef) (x y : Int)
    (element : PitchedElement) : PitchedElement :=
  let pitchDifference := roundDiv y unit
  let pitch1 := AdjustPitchByOffset element.pitch pitchDifference
  let ignoreFacs := element.isNc && element.ligated && element.nextNcSharesZone
  let zone1 :=
    if element.hasFacsimileInterface && !ignoreFacs then
      element.zone.ShiftByXY x (pitchDifference * drawingStaffSize)
    else element.zone
  { element with pitch := AdjustPitchForNewClef pitch1 clef newClef, zone := zone1 }

/-! ## Action chaining -/

/-- How a call into the editor ends: it returns a status together with the
state it leaves behind, or it stops in a failed `assert` (a null pointer is
dereferenced when assertions are compiled out). -/
inductive Outcome (σ : Type) where
  | returned (status : Bool) (s : σ)
  | assertFailed

/-- The editor object: the document it edits and `m_editInfo`. -/
structure Toolkit (δ : Type) where
  doc : δ
  m_editInfo : String

/-- One entry of the `jsonxx::Array` given to `Chain`, as far as `Chain`
itself reads it. -/
structure ChainEntry (α : Type) where
  /-- Result of `actions.has<jsonxx::Object>(i)`. -/
  isObject : Bool
  /-- Result of `.get<jsonxx::String>("action")`. -/
  action : String
  /-- Result of `.get<jsonxx::Object>("param").get<jsonxx::String>("elementId")`,
  read when the action is a drag. -/
  elementId : String
  /-- What `.json()` hands to `ParseEditorAction`. -/
  json : α

/-- The local variables of `Chain`: `status`, `info`, `runReorder`, `id`. -/
structure ChainLocals where
  status : Bool
  info : String
  runReorder : Bool
  id : String

/-- How the `for` loop of `Chain` ends: it runs to the end, it leaves through
`return false` (an entry that is not an object), or a sub-edit stops in a
failed assertion. -/
inductive ChainLoop (δ : Type) where
  | finished (locals : ChainLocals) (tk : Toolkit δ)
  | returnedFalse (tk : Toolkit δ)
  | assertFailed

/-- The `for` loop of `EditorToolkitNeume::Chain`; `i` is the loop index and
`parse json isChain` is `this->ParseEditorAction(json, isChain)`.
```
if (!actions.has<jsonxx::Object>(i)) { LogError(...); return false; }
if (actions.get<jsonxx::Object>(i).get<jsonxx::String>("action") == "drag") {
    runReorder = true;
    id = actions.get<jsonxx::Object>(i).get<jsonxx::Object>("param").get<jsonxx::String>("elementId");
}
status |= this->ParseEditorAction(actions.get<jsonxx::Object>(i).json(), true);
if (i != 0) info += ", ";
info += "\"" + m_editInfo + "\"";
``` -/
def Chain.loop {α δ : Type} (parse : α → Bool → Toolkit δ → Outcome (Toolkit δ)) :
    List (ChainEntry α) → Nat → ChainLocals → Toolkit δ → ChainLoop δ
  | [], _, locals, tk => ChainLoop.finished locals tk
  | entry :: rest, i, locals, tk =>
    if !entry.isObject then ChainLoop.returnedFalse tk
    else
      let locals1 : ChainLocals :=
        if entry.action = "drag" then { locals with runReorder := true, id := entry.elementId }
        else locals
      match parse entry.json true tk with
      | Outcome.assertFailed => ChainLoop.assertFailed
      | Outcome.returned r tk1 =>
        let info1 := if i ≠ 0 then locals1.info ++ ", " else locals1.info
        let info2 := info1 ++ "\"" ++ tk1.m_editInfo ++ "\""
        Chain.loop parse rest (i + 1)
          { locals1 with status := locals1.status || r, info := info2 } tk1

/-- Method `EditorToolkitNeume::Chain`.  `reorderLayerOf id doc` is the block run when
`status && runReorder`: look the element up, take its layer (`assert(obj)`,
`assert(layer)`) and call `layer->ReorderByXPos()`; it has no result when one
of the assertions fails.
```
bool status = true;
std::string info = "[";
bool runReorder = false;
std::string id = "";
for (...) { ... }
info += "]";
m_editInfo = info;
if (status && runReorder) { ... layer->ReorderByXPos(); }
return status;
``` -/
def Chain {α δ : Type} (parse : α → Bool → Toolkit δ → Outcome (Toolkit δ))
    (reorderLayerOf : String → δ → Option δ) (actions : List (ChainEntry α))
    (tk : Toolkit δ) : Outcome (Toolkit δ) :=
  match Chain.loop parse actions 0
      { status := true, info := "[", runReorder := false, id := "" } tk with
  | ChainLoop.assertFailed => Outcome.assertFailed
  | ChainLoop.returnedFalse tk1 => Outcome.returned false tk1
  | ChainLoop.finished locals tk1 =>
    let tk2 : Toolkit δ := { tk1 with m_editInfo := locals.info ++ "]" }
    if locals.status && locals.runReorder then
      match reorderLayerOf locals.id tk2.doc with
      | none => Outcome.assertFailed
      | some d => Outcome.returned locals.status { tk2 with doc := d }
    else Outcome.returned locals.status tk2

/-! ## The calls of `Layer::ReorderByXPos` made by `Drag`, `Insert` and `Chain`

The document is reduced to what decides the path taken through `Drag` and
`Insert`; the state records every call of `ReorderByXPos` on a layer of the
document, in order, with the function that made it.  (`clone->ReorderByXPos()`
in `Drag` sorts a copy of the layer and is not recorded.) -/

/-- The function whose body contains a recorded `layer->ReorderByXPos()`. -/
inductive ReorderSite where
  | inDrag
  | inInsert
  | inChain
  deriving DecidableEq

/-- The cases `Drag` distinguishes on its target: `HasInterface(INTERFACE_PITCH)`
(note component, custos), `Is(NEUME)`, `Is(SYLLABLE)`, `Is(CLEF)`, `Is(STAFF)`,
`Is(SYL)`, and everything else. -/
inductive DragClass where
  | pitched
  | NEUME
  | SYLLABLE
  | CLEF
  | STAFF
  | SYL
  | other
  deriving DecidableEq

/-- An element as `Drag` and `Chain` see it. -/
structure TraceElement where
  cls : DragClass
  /-- For a staff: `GetFirst(LAYER)` is not null; otherwise
  `GetFirstParent(LAYER)` is not null. -/
  hasLayer : Bool
  /-- Result of `HasFacs()`. -/
  hasFacs : Bool
  deriving DecidableEq

/-- The document as far as the paths through `Drag` and `Insert` depend on it,
and the record of reorder calls (oldest first). -/
structure TraceDoc where
  /-- Whether `m_doc->GetDrawingPage()` is not null. -/
  hasDrawingPage : Bool
  /-- Whether `m_doc->GetType() == Facs`. -/
  isFacs : Bool
  /-- The elements `FindChildByUuid` finds, by uuid. -/
  elements : List (String × TraceElement)
  /-- Uuids that resolve to a staff. -/
  staffIds : List String
  /-- Whether `layer->GetClef(...)` is not null. -/
  clefAvailable : Bool
  /-- The uuids the constructors of new objects will hand out. -/
  freshUuids : List String
  reorders : List ReorderSite

/-- Lookup `FindChildByUuid` on the drawing page, then on the document. -/
def TraceDoc.FindChildByUuid (d : TraceDoc) (uuid : String) : Option TraceElement :=
  (d.elements.find? (fun e => e.1 == uuid)).map (fun e => e.2)

/-- Records one `layer->ReorderByXPos()`. -/
def TraceDoc.ReorderByXPos (d : TraceDoc) (site : ReorderSite) : TraceDoc :=
  { d with reorders := d.reorders ++ [site] }

/-- The end of `Drag` that the branches without an early `return` reach:
```
if (!isChain) {
    Layer *layer = dynamic_cast<Layer *>(element->GetFirstParent(LAYER));
    layer->ReorderByXPos();
}
return true;
``` -/
def Drag.finish (el : TraceElement) (isChain : Bool) (tk : Toolkit TraceDoc) :
    Outcome (Toolkit TraceDoc) :=
  if !isChain then
    if el.hasLayer then
      Outcome.returned true { tk with doc := tk.doc.ReorderByXPos ReorderSite.inDrag }
    else Outcome.assertFailed
  else Outcome.returned true tk

/-- Method `EditorToolkitNeume::Drag`, reduced to its control flow and its calls of
`ReorderByXPos` on the document's layer.  The clef branch calls
`layer->ReorderByXPos()` itself, between the two snapshots of the governed
elements; the staff branch returns before the common end. -/
def Drag (elementId : String) (isChain : Bool) (tk0 : Toolkit TraceDoc) :
    Outcome (Toolkit TraceDoc) :=
  let tk : Toolkit TraceDoc := { tk0 with m_editInfo := "" }
  if !tk.doc.hasDrawingPage then Outcome.returned false tk
  else
    match tk.doc.FindChildByUuid elementId with
    | none => Outcome.assertFailed
    | some el =>
      match el.cls with
      | DragClass.pitched =>
        if !el.hasLayer then Outcome.returned false tk else Drag.finish el isChain tk
      | DragClass.NEUME =>
        if !el.hasLayer then Outcome.returned false tk else Drag.finish el isChain tk
      | DragClass.SYLLABLE =>
        if !el.hasLayer then Outcome.returned false tk else Drag.finish el isChain tk
      | DragClass.CLEF =>
        if !el.hasLayer then Outcome.returned false tk
        else Drag.finish el isChain
          { tk with doc := tk.doc.ReorderByXPos ReorderSite.inDrag }
      | DragClass.STAFF =>
        if !el.hasFacs then Outcome.returned false tk else Outcome.returned true tk
      | DragClass.SYL =>
        if !el.hasFacs then Outcome.returned false tk else Drag.finish el isChain tk
      | DragClass.other => Outcome.returned false tk

/-- The calls of `layer->ReorderByXPos()` on a successful path through `Drag`
inside a chain, by the class of the target: one for a clef (between the two
snapshots of its branch), none otherwise. -/
def Drag.ownReorders (cls : DragClass) : List ReorderSite :=
  if cls = DragClass.CLEF then [ReorderSite.inDrag] else []

/-- The contour read from the attributes of `Insert`: the value of the last
`"contour"` entry, `""` when there is none. -/
def Insert.contour (attributes : List (String × String)) : String :=
  attributes.foldl (fun c a => if a.1 = "contour" then a.2 else c) ""

/-- The clef shape read from the attributes of `Insert`: the first `"shape"`
entry whose value is `"C"` or `"F"`. -/
def Insert.clefShape : List (String × String) → ClefShape
  | [] => ClefShape.CLEFSHAPE_NONE
  | a :: rest =>
    if a.1 = "shape" then
      if a.2 = "C" then ClefShape.CLEFSHAPE_C
      else if a.2 = "F" then ClefShape.CLEFSHAPE_F
      else Insert.clefShape rest
    else Insert.clefShape rest

/-- Adds a new element under the uuid its constructor hands out. -/
def TraceDoc.AddChild (d : TraceDoc) (el : TraceElement) : String × TraceDoc :=
  match d.freshUuids with
  | [] => ("", { d with elements := d.elements ++ [("", el)] })
  | u :: rest => (u, { d with elements := d.elements ++ [(u, el)], freshUuids := rest })

/-- The staff `Insert` works on: for `"auto"` the closest of the staves of the
document (there is one when the document has a staff), otherwise the staff
with the given uuid. -/
def TraceDoc.staffFound (d : TraceDoc) (staffId : String) : Bool :=
  if staffId = "auto" then !d.staffIds.isEmpty else d.staffIds.contains staffId

/-- Method `EditorToolkitNeume::Insert`, reduced to its control flow and its calls of
`layer->ReorderByXPos()`: none on the staff path (it returns from inside the
`"staff"` block), one inside the `"clef"` block, and the one before the final
`return true` that the note-component, grouping, clef and custos paths reach.
`Insert` has no `isChain` parameter.  Of the objects a path creates, the one
whose uuid is reported in `m_editInfo` is recorded in `elements`. -/
def Insert (elementType staffId : String) (attributes : List (String × String))
    (tk : Toolkit TraceDoc) : Outcome (Toolkit TraceDoc) :=
  if !tk.doc.hasDrawingPage then Outcome.returned false tk
  else if !tk.doc.isFacs then Outcome.returned false tk
  else if elementType = "staff" then
    let (uuid, d1) :=
      tk.doc.AddChild { cls := DragClass.STAFF, hasLayer := true, hasFacs := true }
    Outcome.returned true
      { doc := { d1 with staffIds := d1.staffIds ++ [uuid] }, m_editInfo := uuid }
  else if !tk.doc.staffFound staffId then Outcome.returned false tk
  else if elementType = "nc" ∨ elementType = "grouping" then
    if !tk.doc.clefAvailable then Outcome.returned false tk
    else
      let cls := if elementType = "nc" then DragClass.pitched else DragClass.NEUME
      let (uuid, d1) := tk.doc.AddChild { cls := cls, hasLayer := true, hasFacs := true }
      if (Insert.contour attributes).toList.all (fun c => c = 'u' ∨ c = 'd' ∨ c = 's') then
        Outcome.returned true
          { doc := d1.ReorderByXPos ReorderSite.inInsert, m_editInfo := uuid }
      else Outcome.returned false { tk with doc := d1 }
  else if elementType = "clef" then
    if Insert.clefShape attributes = ClefShape.CLEFSHAPE_NONE then Outcome.returned false tk
    else
      let (uuid, d1) :=
        tk.doc.AddChild { cls := DragClass.CLEF, hasLayer := true, hasFacs := true }
      let d2 := d1.ReorderByXPos ReorderSite.inInsert
      Outcome.returned true
        { doc := d2.ReorderByXPos ReorderSite.inInsert, m_editInfo := uuid }
  else if elementType = "custos" then
    if !tk.doc.clefAvailable then Outcome.returned false tk
    else
      let (uuid, d1) :=
        tk.doc.AddChild { cls := DragClass.pitched, hasLayer := true, hasFacs := true }
      Outcome.returned true
        { doc := d1.ReorderByXPos ReorderSite.inInsert, m_editInfo := uuid }
  else Outcome.returned false tk

/-- The calls of `layer->ReorderByXPos()` on a successful path through
`Insert`, by element type: none for a staff, two for a clef, one otherwise. -/
def Insert.ownReorders (elementType : String) : List ReorderSite :=
  if elementType = "staff" then []
  else if elementType = "clef" then [ReorderSite.inInsert, ReorderSite.inInsert]
  else [ReorderSite.inInsert]

/-- An action object as `ParseEditorAction` decodes it: a drag, an insert, or
an object it rejects without calling an operation (an action name it does not
know, or parameters that do not parse). -/
inductive EditorAction where
  | drag (elementId : String) (x y : Int)
  | insert (elementType staffId : String) (ulx uly lrx lry : Int)
      (attributes : List (String × String))
  | rejected (action : String)

/-- Method `EditorToolkitNeume::ParseEditorAction` on the actions above:
`return this->Drag(elementId, x, y, isChain);`,
`return this->Insert(elementType, staffId, ulx, uly, lrx, lry, attributes);`,
and `return false;` after the warning. -/
def ParseEditorAction (a : EditorAction) (isChain : Bool) (tk : Toolkit TraceDoc) :
    Outcome (Toolkit TraceDoc) :=
  match a with
  | EditorAction.drag elementId _ _ => Drag elementId isChain tk
  | EditorAction.insert elementType staffId _ _ _ _ attributes =>
    Insert elementType staffId attributes tk
  | EditorAction.rejected _ => Outcome.returned false tk

/-- The array entry that carries an action. -/
def EditorAction.entry (a : EditorAction) : ChainEntry EditorAction :=
  match a with
  | EditorAction.drag elementId _ _ =>
    { isObject := true, action := "drag", elementId := elementId, json := a }
  | EditorAction.insert _ _ _ _ _ _ _ =>
    { isObject := true, action := "insert", elementId := "", json := a }
  | EditorAction.rejected action =>
    { isObject := true, action := action, elementId := "", json := a }

/-- The block of `Chain` guarded by `status && runReorder`:
```
Object *obj = m_doc->GetDrawingPage()->FindChildByUuid(id);
assert(obj);
if (obj->Is(STAFF)) layer = dynamic_cast<Layer *>(obj->GetFirst(LAYER));
else layer = dynamic_cast<Layer *>(obj->GetFirstParent(LAYER));
assert(layer);
layer->ReorderByXPos();
``` -/
def Chain.reorderLayerOf (id : String) (d : TraceDoc) : Option TraceDoc :=
  match d.FindChildByUuid id with
  | none => none
  | some el => if el.hasLayer then some (d.ReorderByXPos ReorderSite.inChain) else none

/-- Method `Chain` on an array of action objects. -/
def ChainActions (actions : List EditorAction) (tk : Toolkit TraceDoc) :
    Outcome (Toolkit TraceDoc) :=
  Chain ParseEditorAction Chain.reorderLayerOf (actions.map EditorAction.entry) tk

/-- The status an outcome carries, when the call returned. -/
def Outcome.status? {σ : Type} : Outcome σ → Option Bool
  | Outcome.returned b _ => some b
  | Outcome.assertFailed => none

/-- The reorder record an outcome carries, when the call returned. -/
def Outcome.reorders? : Outcome (Toolkit TraceDoc) → Option (List ReorderSite)
  | Outcome.returned _ tk => some tk.doc.reorders
  | Outcome.assertFailed => none

/-- A small facsimile document: a staff `"s1"` with a clef `"c1"`, a note
component `"n1"` and a syl `"t1"` in its layer. -/
def sampleTraceDoc : TraceDoc :=
  { hasDrawingPage := true, isFacs := true,
    elements :=
      [("s1", { cls := DragClass.STAFF, hasLayer := true, hasFacs := true }),
       ("c1", { cls := DragClass.CLEF, hasLayer := true, hasFacs := true }),
       ("n1", { cls := DragClass.pitched, hasLayer := true, hasFacs := true }),
       ("t1", { cls := DragClass.SYL, hasLayer := true, hasFacs := true })],
    staffIds := ["s1"], clefAvailable := true,
    freshUuids := ["new1", "new2"], reorders := [] }

/-! ## Staves: `Merge` and `Split` -/

/-- A child of a staff's layer, as `Split` reads it. -/
structure LayerChild where
  uuid : String
  /-- The zone of the child when it is itself a `FacsimileInterface` with
  `HasFacs()`. -/
  ownZone : Option Zone
  /-- The zones of its descendants that carry the facsimile interface and
  `HasFacs()`, in the order of `FindAllChildByComparison`. -/
  descendantZones : List Zone
  deriving DecidableEq

/-- A staff with a zone and one layer. -/
structure Staff where
  uuid : String
  /-- Result of `GetZone()`. -/
  zone : Zone
  /-- The children of `GetFirst(LAYER)`. -/
  layer : List LayerChild
  m_drawingLines : Int
  m_drawingStaffSize : Int
  deriving DecidableEq

/-- The document as `Merge` and `Split` see it: the staves, in the order in
which their parent holds them. -/
structure StaffDoc where
  /-- Whether `m_doc->GetDrawingPage()` is not null. -/
  hasDrawingPage : Bool
  /-- Whether `m_doc->GetType() == Facs`. -/
  isFacs : Bool
  staves : List Staff
  deriving DecidableEq

/-- Helpers of the editor that are declared outside the sources at hand and
are taken as given: the comparator `StaffSort`, the comparator `ClosestBB`
(for a point), `Layer::ReorderByXPos` on the children of a layer, and the
width in bits of `size_t`. -/
structure Helpers where
  StaffSort : Staff → Staff → Bool
  ClosestBB : Int → Int → Staff → Staff → Bool
  ReorderByXPos : List LayerChild → List LayerChild
  sizeBits : Nat

/-- Lookup `FindChildByUuid` followed by the test for a staff. -/
def StaffDoc.findStaff (d : StaffDoc) (uuid : String) : Option Staff :=
  d.staves.find? (fun s => s.uuid == uuid)

/-- Value of `INT_MAX` for a 32-bit `int`. -/
def INT_MAX : Int := 2147483647

/-- The compound assignment `a /= n` for an `int a` and a `size_t n`: `a` is
converted to the unsigned type (modulo `2 ^ sizeBits`), the division is
unsigned, and the quotient is converted back to a 32-bit `int`. -/
def divAssignSize (sizeBits : Nat) (a : Int) (n : Nat) : Int :=
  let ua : Nat := (a % ((2 : Int) ^ sizeBits)).toNat
  let q : Nat := (ua / n) % 2 ^ 32
  if q < 2 ^ 31 then (q : Int) else (q : Int) - 2 ^ 32

/-- One round of the first loop of `Merge` on the locals `ulx`, `uly`, `lrx`,
`lry` (held in a `Zone`), for the zone of the staff found:
```
ulx = ulx < zone->GetUlx() ? ulx : zone->GetUlx();
lrx = lrx > zone->GetLrx() ? lrx : zone->GetLrx();
uly += zone->GetUly();
lry += zone->GetLry();
``` -/
def Merge.step (box zone : Zone) : Zone :=
  { ulx := if box.ulx < zone.ulx then box.ulx else zone.ulx,
    lrx := if box.lrx > zone.lrx then box.lrx else zone.lrx,
    uly := box.uly + zone.uly,
    lry := box.lry + zone.lry }

/-- The first loop of `Merge`; the accumulator holds `staves` and the locals
`ulx`, `uly`, `lrx`, `lry`.  No result stands for `return false`.
```
Object *obj = m_doc->GetDrawingPage()->FindChildByUuid(*it);
if (obj != NULL && obj->Is(STAFF)) {
    staves.push_back(obj);
    Zone *zone = obj->GetFacsimileInterface()->GetZone();
    ...
}
else { LogWarning(...); return false; }
``` -/
def Merge.collect (d : StaffDoc) : List String → List Staff × Zone → Option (List Staff × Zone)
  | [], acc => some acc
  | id :: rest, (staves, box) =>
    match d.findStaff id with
    | some obj => Merge.collect d rest (staves ++ [obj], Merge.step box obj.zone)
    | none => none

/-- The staff whose uuid a returned call reports in `m_editInfo`. -/
def Outcome.reportedStaff? : Outcome (Toolkit StaffDoc) → Option Staff
  | Outcome.returned _ tk => tk.doc.findStaff tk.m_editInfo
  | Outcome.assertFailed => none

/-- The second half of `Merge`, for the vector `staves` and the locals `ulx`,
`uly`, `lrx`, `lry` (in `box`) the first loop has built:
```
uly /= staves.size();
lry /= staves.size();
std::sort(staves.begin(), staves.end(), staffSort);
```
then the children of every other staff are moved to the layer of the first
staff (`fillLayer->MoveChildrenFrom(sourceLayer)`) and the other staves are
deleted, the first staff's zone is set to `(ulx, uly, lrx, lry)`, its layer is
reordered and its uuid is reported. -/
def Merge.finish (h : Helpers) (tk : Toolkit StaffDoc) (staves : List Staff) (box : Zone) :
    Outcome (Toolkit StaffDoc) :=
  let uly := divAssignSize h.sizeBits box.uly staves.length
  let lry := divAssignSize h.sizeBits box.lry staves.length
  match staves.insertionSort (fun a b => h.StaffSort a b = true) with
  | [] => Outcome.assertFailed
  | fillStaff :: sources =>
    let fillLayer := fillStaff.layer ++ sources.flatMap (fun s => s.layer)
    let remaining :=
      tk.doc.staves.filter (fun s => !(sources.map (fun t => t.uuid)).contains s.uuid)
    let merged : Staff :=
      { fillStaff with
          zone := { ulx := box.ulx, uly := uly, lrx := box.lrx, lry := lry },
          layer := h.ReorderByXPos fillLayer }
    Outcome.returned true
      { doc := { tk.doc with
          staves := remaining.map (fun s => if s.uuid = fillStaff.uuid then merged else s) },
        m_editInfo := fillStaff.uuid }

/-- Method `EditorToolkitNeume::Merge`.
```
m_editInfo = "";
if (!m_doc->GetDrawingPage()) return false;
ArrayOfObjects staves;
int ulx = INT_MAX, uly = 0, lrx = 0, lry = 0;
for (...) { ... }
if (staves.size() < 2) { LogWarning(...); return false; }
...
``` -/
def Merge (h : Helpers) (elementIds : List String) (tk0 : Toolkit StaffDoc) :
    Outcome (Toolkit StaffDoc) :=
  let tk : Toolkit StaffDoc := { tk0 with m_editInfo := "" }
  if !tk.doc.hasDrawingPage then Outcome.returned false tk
  else
    match Merge.collect tk.doc elementIds
        ([], { ulx := INT_MAX, uly := 0, lrx := 0, lry := 0 }) with
    | none => Outcome.returned false tk
    | some (staves, box) =>
      if staves.length < 2 then Outcome.returned false tk
      else Merge.finish h tk staves box

/-- The locals `ulx`, `uly`, `lrx`, `lry` after the first loop of `Merge` ran
over the staves found. -/
def Merge.box (sel : List Staff) (box : Zone) : Zone :=
  sel.foldl (fun b s => Merge.step b s.zone) box

/-- The staves a list of ids resolves to, in the order of the ids. -/
def StaffDoc.resolve (d : StaffDoc) (ids : List String) : List Staff :=
  ids.filterMap d.findStaff

/-- The place `Insert` gives a new staff among the children of its parent: the
staves and the new staff are sorted with `std::stable_sort` and `StaffSort`,
and the new staff is inserted at the index it has in the sorted vector.
```
staves.push_back(newStaff);
std::stable_sort(staves.begin(), staves.end(), staffSort);
for (int i = 0; i < staves.size(); i++) {
    if (staves.at(i) == newStaff) { ... parent->InsertChild(newStaff, i); ...
        m_editInfo = newStaff->GetUuid(); return true; } }
LogMessage("Failed to insert newStaff into staff");
parent->AddChild(newStaff);
``` -/
def Insert_staff.place (h : Helpers) (staves : List Staff) (newStaff : Staff) : List Staff :=
  let sorted := (staves ++ [newStaff]).insertionSort (fun a b => h.StaffSort a b = true)
  let i := sorted.findIdx (fun s => s.uuid == newStaff.uuid)
  if i < sorted.length then staves.insertIdx i newStaff else staves ++ [newStaff]

/-- The line count of a new staff: that of the closest staff
(`newStaff->m_drawingLines = staff->m_drawingLines;`), or 4 without one. -/
def Insert_staff.drawingLines (staff : Option Staff) : Int :=
  match staff with
  | some s => s.m_drawingLines
  | none => 4

/-- Method `EditorToolkitNeume::Insert` for `elementType == "staff"` (the checks at
the top of `Insert` and the `"staff"` block).  `newUuid` is the uuid the
constructor gives the new staff.  For `"auto"` the staves are sorted with
`ClosestBB` and the first one is taken.  The new staff gets the zone
`(ulx, uly, lrx, lry)` and an empty layer.  The division
`newStaff->m_drawingStaffSize = (uly - lry) / (newStaff->m_drawingLines - 1);`
has no value for a staff of one line. -/
def Insert_staff (h : Helpers) (newUuid staffId : String) (ulx uly lrx lry : Int)
    (tk : Toolkit StaffDoc) : Outcome (Toolkit StaffDoc) :=
  if !tk.doc.hasDrawingPage then Outcome.returned false tk
  else if !tk.doc.isFacs then Outcome.returned false tk
  else
    let staff : Option Staff :=
      if staffId = "auto" then
        (tk.doc.staves.insertionSort (fun a b => h.ClosestBB ulx uly a b = true)).head?
      else tk.doc.findStaff staffId
    let drawingLines := Insert_staff.drawingLines staff
    if drawingLines - 1 = 0 then Outcome.assertFailed
    else
      let newStaff : Staff :=
        { uuid := newUuid,
          zone := { ulx := ulx, uly := uly, lrx := lrx, lry := lry },
          layer := [],
          m_drawingLines := drawingLines,
          m_drawingStaffSize := Int.tdiv (uly - lry) (drawingLines - 1) }
      Outcome.returned true
        { doc := { tk.doc with staves := Insert_staff.place h tk.doc.staves newStaff },
          m_editInfo := newStaff.uuid }

/-- The facsimile of a layer child that decides its side in `Split`: its own
zone, or else the zone with the smallest left edge among its descendants (the
first such one).
```
FacsimileInterface *fi = dynamic_cast<FacsimileInterface *>(child);
if (fi == NULL || !fi->HasFacs()) {
    fi = NULL;
    ...
    for (...) { if (temp->HasFacs() && (fi == NULL ||
            temp->GetZone()->GetUlx() < fi->GetZone()->GetUlx())) fi = temp; }
}
``` -/
def Split.anchor (child : LayerChild) : Option Zone :=
  match child.ownZone with
  | some z => some z
  | none =>
    child.descendantZones.foldl
      (fun fi temp =>
        match fi with
        | none => some temp
        | some z => if temp.ulx < z.ulx then some temp else some z)
      none

/-- The test of `Split` that moves a child to the new staff:
`fi != NULL` and `fi->GetZone()->GetUlx() > x`. -/
def Split.movesToSplit (x : Int) (child : LayerChild) : Bool :=
  match Split.anchor child with
  | none => false
  | some z => decide (z.ulx > x)

/-- Method `EditorToolkitNeume::Split`.  `newUuid` is the uuid the constructor gives
the new staff.
```
if (staff == NULL) { ...; return false; }
if (staff->GetZone()->GetUlx() > x || staff->GetZone()->GetLrx() < x) { ...; return false; }
...
if (!this->Insert("staff", "auto", newUlx, staff->GetZone()->GetUly(), newLrx,
        staff->GetZone()->GetLry(), v)) { ...; return false; }
Staff *splitStaff = dynamic_cast<Staff *>(m_doc->GetDrawingPage()->FindChildByUuid(m_editInfo));
assert(splitStaff);
staff->GetZone()->SetLrx(x);
... child->MoveItselfTo(splitLayer) ...
m_editInfo = splitStaff->GetUuid();
return true;
``` -/
def Split (h : Helpers) (newUuid elementId : String) (x : Int) (tk : Toolkit StaffDoc) :
    Outcome (Toolkit StaffDoc) :=
  if !tk.doc.hasDrawingPage then Outcome.returned false tk
  else
    match tk.doc.findStaff elementId with
    | none => Outcome.returned false tk
    | some staff =>
      if staff.zone.ulx > x || staff.zone.lrx < x then Outcome.returned false tk
      else
        let newUlx := x
        let newLrx := staff.zone.lrx
        match Insert_staff h newUuid "auto" newUlx staff.zone.uly newLrx staff.zone.lry tk with
        | Outcome.assertFailed => Outcome.assertFailed
        | Outcome.returned false tk1 => Outcome.returned false tk1
        | Outcome.returned true tk1 =>
          match tk1.doc.findStaff tk1.m_editInfo with
          | none => Outcome.assertFailed
          | some splitStaff =>
            let moved := staff.layer.filter (fun c => Split.movesToSplit x c)
            let kept := staff.layer.filter (fun c => !Split.movesToSplit x c)
            let staves :=
              tk1.doc.staves.map (fun s =>
                if s.uuid = splitStaff.uuid then { s with layer := s.layer ++ moved }
                else if s.uuid = staff.uuid then
                  { s with zone := { s.zone with lrx := x }, layer := kept }
                else s)
            Outcome.returned true
              { doc := { tk1.doc with staves := staves }, m_editInfo := splitStaff.uuid }

/-- Helpers for the examples: staves are ordered by the left edge of their
zone, by the distance of their top left corner to a point for `ClosestBB`, the
reordering of a layer keeps the order it finds, and `size_t` has 32 bits. -/
def sampleHelpers : Helpers :=
  { StaffSort := fun a b => decide (a.zone.ulx < b.zone.ulx),
    ClosestBB := fun x y a b =>
      decide ((a.zone.ulx - x).natAbs + (a.zone.uly - y).natAbs
        < (b.zone.ulx - x).natAbs + (b.zone.uly - y).natAbs),
    ReorderByXPos := fun children => children,
    sizeBits := 32 }

/-- A facsimile document with two staves of four lines: `"a"` with the zone
(0, 0, 100, 50) and three children in its layer, `"b"` with the zone
(0, 60, 100, 110) and an empty layer. -/
def sampleStaffDoc : StaffDoc :=
  { hasDrawingPage := true, isFacs := true,
    staves :=
      [{ uuid := "a", zone := { ulx := 0, uly := 0, lrx := 100, lry := 50 },
         layer :=
           [{ uuid := "c1", ownZone := some { ulx := 10, uly := 0, lrx := 20, lry := 5 },
              descendantZones := [] },
            { uuid := "c2", ownZone := none,
              descendantZones := [{ ulx := 70, uly := 0, lrx := 80, lry := 5 },
                                  { ulx := 60, uly := 0, lrx := 65, lry := 5 }] },
            { uuid := "c3", ownZone := none, descendantZones := [] }],
         m_drawingLines := 4, m_drawingStaffSize := 16 },
       { uuid := "b", zone := { ulx := 0, uly := 60, lrx := 100, lry := 110 },
         layer := [], m_drawingLines := 4, m_drawingStaffSize := 16 }] }

/-- The sample document with the second staff one unit lower: zones
(0, 0, 100, 50) and (0, 61, 100, 111). -/
def sampleStaffDocOdd : StaffDoc :=
  { hasDrawingPage := true, isFacs := true,
    staves :=
      [{ uuid := "a", zone := { ulx := 0, uly := 0, lrx := 100, lry := 50 },
         layer := [], m_drawingLines := 4, m_drawingStaffSize := 16 },
       { uuid := "b", zone := { ulx := 0, uly := 61, lrx := 100, lry := 111 },
         layer := [], m_drawingLines := 4, m_drawingStaffSize := 16 }] }

/-! ## Clef reassociation: the page as a sequence of objects -/

/-- What an object of the page is to the clef code: a clef, an element with
the pitch interface (note component, custos), or anything else. -/
inductive PageKind where
  | clef (c : Clef)
  | pitched (p : Pitch)
  | other
  deriving DecidableEq

/-- An object of the page.  `addr` is its address: `Object *` values are
compared for identity with `==` and, inside `std::set_difference`, for order
with `<`. -/
structure PageObject where
  addr : Nat
  /-- Result of `HasFacs()`. -/
  hasFacs : Bool
  /-- Left edge of its zone, the key of `ReorderByXPos`. -/
  ulx : Int
  /-- Top edge of its zone. -/
  uly : Int
  kind : PageKind
  deriving DecidableEq

/-- The drawing page in document order: the objects before the layer of the
clef at hand, the children of that layer, and the objects after it.  The
layer's current clef (`layer->GetCurrentClef()`) is no object of the page.
`doubleUnit` is `m_doc->GetDrawingDoubleUnit(staff->m_drawingStaffSize)`. -/
structure NeumePage where
  before : List PageObject
  layer : List PageObject
  after : List PageObject
  currentClefAddr : Nat
  currentClef : Clef
  m_drawingStaffSize : Int
  doubleUnit : Int
  deriving DecidableEq

/-- All objects of the page in document order. -/
def NeumePage.objects (pg : NeumePage) : List PageObject :=
  pg.before ++ pg.layer ++ pg.after

/-- Comparison `ClassIdComparison ac(CLEF)`. -/
def PageObject.isClef (o : PageObject) : Bool :=
  match o.kind with
  | PageKind.clef _ => true
  | _ => false

/-- Comparison `InterfaceComparison ic(INTERFACE_PITCH)`. -/
def PageObject.isPitched (o : PageObject) : Bool :=
  match o.kind with
  | PageKind.pitched _ => true
  | _ => false

/-- Modelled from the spec: `Object::FindPreviousChildOfType` (object.cpp is
not among the sources), the spec's "find previous sibling of class X": the
last clef that precedes the object `start` in document order. -/
def FindPreviousChildOfType (objs : List PageObject) (start : Nat) : Option PageObject :=
  ((objs.takeWhile (fun o => o.addr != start)).filter PageObject.isClef).getLast?

/-- Modelled from the spec: `Object::FindNextChildOfType` (object.cpp is not
among the sources), the spec's "find next sibling of class X": the first clef
that follows the object `start` in document order. -/
def FindNextChildOfType (objs : List PageObject) (start : Nat) : Option PageObject :=
  (((objs.dropWhile (fun o => o.addr != start)).drop 1).find? PageObject.isClef)

/-- The objects of a sequence up to and including the one at address `last`;
all of them when there is no such object. -/
def takeThrough (last : Option Nat) : List PageObject → List PageObject
  | [] => []
  | o :: rest => if some o.addr = last then [o] else o :: takeThrough last rest

/-- Modelled from the spec: `Object::FindAllChildBetween` (object.cpp is not
among the sources), the spec's "find all descendants matching a capability
between two sibling boundaries": the pitched objects from `start` to `last` in
document order, as a vector of pointers.  Nothing is found when `start` is no
object of the page; `last = none` stands for `GetDrawingPage()->GetLast()`,
which is not met after `start`, so that the search runs to the end of the
page. -/
def FindAllChildBetween (objs : List PageObject) (start : Nat) (last : Option Nat) :
    List Nat :=
  ((takeThrough last (objs.dropWhile (fun o => o.addr != start))).filter
    PageObject.isPitched).map (fun o => o.addr)

/-- The walk of `std::set_difference` while the first range starts with `a`
(followed by `as`): it runs down the second range; `tail` continues with `as`
once `a` is settled. -/
def set_difference.walk (a : Nat) (as : List Nat) (tail : List Nat → List Nat) :
    List Nat → List Nat
  | [] => a :: as
  | b :: rest =>
    if a < b then a :: tail (b :: rest)
    else if b < a then set_difference.walk a as tail rest
    else tail rest

/-- Function `std::set_difference` of the C++ standard library on two ranges of
pointers with the default comparison `<`: the two-cursor walk
```
while (first1 != last1) {
    if (first2 == last2) return std::copy(first1, last1, d_first);
    if (*first1 < *first2) *d_first++ = *first1++;
    else { if (!(*first2 < *first1)) ++first1; ++first2; }
}
```
It yields the set difference when both ranges are sorted by `<`. -/
def set_difference : List Nat → List Nat → List Nat
  | [] => fun _ => []
  | a :: as => set_difference.walk a as (set_difference as)

/-- Modelled from the spec: `Layer::ReorderByXPos` (not among the sources), the
spec's "children are kept sorted by horizontal position": a stable sort of the
layer's children by the left edge of their zones. -/
def ReorderByXPos (children : List PageObject) : List PageObject :=
  children.insertionSort (fun a b => a.ulx ≤ b.ulx)

/-- Applies a change to every object of the page. -/
def NeumePage.mapObjects (pg : NeumePage) (f : PageObject → PageObject) : NeumePage :=
  { pg with before := pg.before.map f, layer := pg.layer.map f, after := pg.after.map f }

/-- The clef data behind a `Clef *`: the layer's current clef, or the clef
object of the page at that address. -/
def NeumePage.clefAt (pg : NeumePage) (addr : Nat) : Clef :=
  if addr = pg.currentClefAddr then pg.currentClef
  else
    match pg.objects.find? (fun o => o.addr == addr) with
    | some o =>
      match o.kind with
      | PageKind.clef c => c
      | _ => pg.currentClef
    | none => pg.currentClef

/-- The pitch stored in the pitched object at an address. -/
def NeumePage.pitchAt (pg : NeumePage) (addr : Nat) : Option Pitch :=
  match pg.objects.find? (fun o => o.addr == addr) with
  | some o =>
    match o.kind with
    | PageKind.pitched p => some p
    | _ => none
  | none => none

/-- An object with its pitch changed, when it has one. -/
def PageObject.setPitch (o : PageObject) (f : Pitch → Pitch) : PageObject :=
  match o.kind with
  | PageKind.pitched p => { o with kind := PageKind.pitched (f p) }
  | _ => o

/-- An object with the given pitch in place of its own. -/
def PageObject.withPitch (o : PageObject) (p : Pitch) : PageObject :=
  { o with kind := PageKind.pitched p }

/-- Changes the pitch of the pitched object at an address. -/
def NeumePage.updatePitch (pg : NeumePage) (addr : Nat) (f : Pitch → Pitch) : NeumePage :=
  pg.mapObjects (fun o => if o.addr = addr then o.setPitch f else o)

/-- The loop
`for (iter ...) (*iter)->GetPitchInterface()->AdjustPitchForNewClef(oldClef, newClef);`
over a vector of pointers; the two clefs are read when the loop runs. -/
def NeumePage.AdjustPitchForNewClef (pg : NeumePage) (elements : List Nat)
    (oldClef newClef : Nat) : NeumePage :=
  elements.foldl
    (fun q a => q.updatePitch a
      (fun p => Vrv.AdjustPitchForNewClef p (q.clefAt oldClef) (q.clefAt newClef)))
    pg

/-- The loop
`for (iter ...) (*iter)->GetPitchInterface()->AdjustPitchByOffset(pitchOffset);`
over a vector of pointers. -/
def NeumePage.AdjustPitchByOffset (pg : NeumePage) (elements : List Nat)
    (pitchOffset : Int) : NeumePage :=
  elements.foldl
    (fun q a => q.updatePitch a (fun p => Vrv.AdjustPitchByOffset p pitchOffset)) pg

/-- A clef object with its line changed. -/
def PageObject.setLine (o : PageObject) (line : Int) : PageObject :=
  match o.kind with
  | PageKind.clef c => { o with kind := PageKind.clef { c with line := line } }
  | _ => o

/-- The call `clef->SetLine(line)` on the clef at an address. -/
def NeumePage.SetLine (pg : NeumePage) (addr : Nat) (line : Int) : NeumePage :=
  pg.mapObjects (fun o => if o.addr = addr then o.setLine line else o)

/-- The shift of the zone of a dragged clef, when it has one:
`zone->ShiftByXY(x, (clefLine - initialClefLine) * 2 * staff->m_drawingStaffSize)`. -/
def PageObject.shiftClefZone (o : PageObject) (clef : Nat) (x dy : Int) : PageObject :=
  if o.addr = clef ∧ o.hasFacs = true then { o with ulx := o.ulx + x, uly := o.uly + dy }
  else o

/-- The address of the clef found by `FindPreviousChildOfType`, or of the
layer's current clef:
`if (precedingClef == NULL) precedingClef = layer->GetCurrentClef();`. -/
def NeumePage.precedingClef (pg : NeumePage) (clef : Nat) : Nat :=
  match FindPreviousChildOfType pg.objects clef with
  | some o => o.addr
  | none => pg.currentClefAddr

/-- The address of the clef found by `FindNextChildOfType` (`none` for `NULL`). -/
def NeumePage.nextClef (pg : NeumePage) (clef : Nat) : Option Nat :=
  (FindNextChildOfType pg.objects clef).map (fun o => o.addr)

/-- The clef line `Drag` computes:
`round((double) y / (double) m_doc->GetDrawingDoubleUnit(...) + initialClefLine)`.
For operands of the size that occurs (the products stay far below `2 ^ 50`)
the `double` value rounds like the exact quotient
`(y + initialClefLine * doubleUnit) / doubleUnit`. -/
def Drag_clef.clefLine (pg : NeumePage) (clef : Nat) (y : Int) : Int :=
  roundDiv (y + (pg.clefAt clef).line * pg.doubleUnit) pg.doubleUnit

/-- The snapshots `Drag` takes of a clef before it moves it, and the page
after the clef's zone was shifted and the layer reordered. -/
structure ClefDragSnapshot where
  initialClefLine : Int
  clefLine : Int
  precedingClefBefore : Nat
  nextClefBefore : Option Nat
  withThisClefBefore : List Nat
  withPrecedingClefBefore : List Nat
  /-- The page after `zone->ShiftByXY(...)` and `layer->ReorderByXPos()`. -/
  moved : NeumePage
  precedingClefAfter : Nat
  nextClefAfter : Option Nat
  deriving DecidableEq

/-- The first half of the clef branch of `Drag`, up to the second pair of
clef searches.
```
int initialClefLine = clef->GetLine();
int clefLine = round((double) y / (double) m_doc->GetDrawingDoubleUnit(...) + initialClefLine);
...
m_doc->GetDrawingPage()->FindAllChildBetween(&withThisClefBefore, &ic, clef,
    (nextClefBefore != NULL) ? nextClefBefore : m_doc->GetDrawingPage()->GetLast());
m_doc->GetDrawingPage()->FindAllChildBetween(&withPrecedingClefBefore, &ic, precedingClefBefore, clef);
if (clef->HasFacs()) { ... zone->ShiftByXY(x, (clefLine - initialClefLine) * 2 * staff->m_drawingStaffSize); }
layer->ReorderByXPos();
``` -/
def Drag_clef.snapshot (pg : NeumePage) (clef : Nat) (x y : Int) : ClefDragSnapshot :=
  let initialClefLine := (pg.clefAt clef).line
  let clefLine := Drag_clef.clefLine pg clef y
  let precedingClefBefore := pg.precedingClef clef
  let nextClefBefore := pg.nextClef clef
  let withThisClefBefore := FindAllChildBetween pg.objects clef nextClefBefore
  let withPrecedingClefBefore :=
    FindAllChildBetween pg.objects precedingClefBefore (some clef)
  let shifted := pg.mapObjects (fun o =>
    o.shiftClefZone clef x ((clefLine - initialClefLine) * 2 * pg.m_drawingStaffSize))
  let moved : NeumePage := { shifted with layer := ReorderByXPos shifted.layer }
  { initialClefLine := initialClefLine, clefLine := clefLine,
    precedingClefBefore := precedingClefBefore, nextClefBefore := nextClefBefore,
    withThisClefBefore := withThisClefBefore,
    withPrecedingClefBefore := withPrecedingClefBefore,
    moved := moved,
    precedingClefAfter := moved.precedingClef clef,
    nextClefAfter := moved.nextClef clef }

/-- Case 1 of the clef branch of `Drag`: the clef stays between the same two
clefs.  The three sub-cases compare the sizes of `withPrecedingClefBefore` and
`withPrecedingClefAfter`; `clef->SetLine(clefLine)` comes first in the first
and third, last in the second. -/
def Drag_clef.case1 (s : ClefDragSnapshot) (clef : Nat) : NeumePage :=
  let lineDiff := s.clefLine - s.initialClefLine
  let withThisClefAfter := FindAllChildBetween s.moved.objects clef s.nextClefAfter
  let withPrecedingClefAfter :=
    FindAllChildBetween s.moved.objects s.precedingClefBefore (some clef)
  if s.withPrecedingClefBefore.length > withPrecedingClefAfter.length then
    let pg1 := s.moved.SetLine clef s.clefLine
    let newlyWithThisClef := set_difference s.withPrecedingClefBefore withPrecedingClefAfter
    let pg2 := pg1.AdjustPitchForNewClef newlyWithThisClef s.precedingClefBefore clef
    if lineDiff ≠ 0 then pg2.AdjustPitchByOffset s.withThisClefBefore (lineDiff * -2)
    else pg2
  else if s.withPrecedingClefBefore.length < withPrecedingClefAfter.length then
    let noLongerWithThisClef := set_difference withPrecedingClefAfter s.withPrecedingClefBefore
    let pg1 := s.moved.AdjustPitchForNewClef noLongerWithThisClef clef s.precedingClefBefore
    let pg2 :=
      if lineDiff ≠ 0 then pg1.AdjustPitchByOffset withThisClefAfter (lineDiff * -2)
      else pg1
    pg2.SetLine clef s.clefLine
  else
    let pg1 := s.moved.SetLine clef s.clefLine
    if lineDiff ≠ 0 then pg1.AdjustPitchByOffset s.withThisClefBefore (lineDiff * -2)
    else pg1

/-- Case 2 of the clef branch of `Drag`: the clef moved across other clefs. -/
def Drag_clef.case2 (s : ClefDragSnapshot) (clef : Nat) : NeumePage :=
  let withOldPrecedingClefAfter :=
    FindAllChildBetween s.moved.objects s.precedingClefBefore s.nextClefBefore
  let withNewPrecedingClefBefore :=
    FindAllChildBetween s.moved.objects s.precedingClefAfter s.nextClefAfter
  let withNewPrecedingClefAfter :=
    FindAllChildBetween s.moved.objects s.precedingClefAfter (some clef)
  let noLongerWithThisClef :=
    set_difference withOldPrecedingClefAfter s.withPrecedingClefBefore
  let newlyWithThisClef :=
    set_difference withNewPrecedingClefBefore withNewPrecedingClefAfter
  let pg1 := s.moved.AdjustPitchForNewClef noLongerWithThisClef clef s.precedingClefBefore
  let pg2 := pg1.SetLine clef s.clefLine
  pg2.AdjustPitchForNewClef newlyWithThisClef s.precedingClefAfter clef

/-- Method `EditorToolkitNeume::Drag`, the branch `element->Is(CLEF)` and the common
end, for the clef at address `clef` in the layer of the page.
```
if (precedingClefAfter == precedingClefBefore && nextClefAfter == nextClefBefore) { /* case 1 */ }
else { /* case 2 */ }
...
if (!isChain) { ... layer->ReorderByXPos(); }
return true;
``` -/
def Drag_clef (pg : NeumePage) (clef : Nat) (x y : Int) (isChain : Bool) : NeumePage :=
  let s := Drag_clef.snapshot pg clef x y
  let pg1 :=
    if s.precedingClefAfter = s.precedingClefBefore ∧ s.nextClefAfter = s.nextClefBefore then
      Drag_clef.case1 s clef
    else Drag_clef.case2 s clef
  if !isChain then { pg1 with layer := ReorderByXPos pg1.layer } else pg1

/-- Method `EditorToolkitNeume::Remove` for a clef in the layer of the page: the block
`if (isClef) { ... }` followed by `result = parent->DeleteChild(obj);`.
```
Clef *previousClef = ...FindPreviousChildOfType(&ac, clef);
Clef *nextClef = ...FindNextChildOfType(&ac, clef);
if (previousClef == NULL) previousClef = layer->GetCurrentClef();
m_doc->GetDrawingPage()->FindAllChildBetween(&elements, &ic, clef,
    (nextClef != NULL) ? nextClef : m_doc->GetDrawingPage()->GetLast());
for (...) pi->AdjustPitchForNewClef(clef, previousClef);
``` -/
def Remove_clef (pg : NeumePage) (clef : Nat) : Bool × NeumePage :=
  let previousClef := pg.precedingClef clef
  let nextClef := pg.nextClef clef
  let elements := FindAllChildBetween pg.objects clef nextClef
  let pg1 := pg.AdjustPitchForNewClef elements clef previousClef
  let result := pg1.layer.any (fun o => o.addr == clef)
  (result, { pg1 with layer := pg1.layer.filter (fun o => o.addr != clef) })

/-- A page with one layer for the examples, staff size 33 and double unit 59:
a C clef on line 2 (address 10), a note (11), a C clef on line 3 (address 12),
two notes on c and d of octave 3 (13, 14), an F clef on line 2 (15) and a note
(16), from left to right; the layer's current clef is a C clef on line 3. -/
def samplePage : NeumePage :=
  { before := [],
    layer :=
      [{ addr := 10, hasFacs := true, ulx := 0, uly := 0,
         kind := PageKind.clef { shape := ClefShape.CLEFSHAPE_C, line := 2 } },
       { addr := 11, hasFacs := true, ulx := 10, uly := 0,
         kind := PageKind.pitched { pname := 1, oct := 3 } },
       { addr := 12, hasFacs := true, ulx := 20, uly := 0,
         kind := PageKind.clef { shape := ClefShape.CLEFSHAPE_C, line := 3 } },
       { addr := 13, hasFacs := true, ulx := 30, uly := 0,
         kind := PageKind.pitched { pname := 1, oct := 3 } },
       { addr := 14, hasFacs := true, ulx := 40, uly := 0,
         kind := PageKind.pitched { pname := 2, oct := 3 } },
       { addr := 15, hasFacs := true, ulx := 50, uly := 0,
         kind := PageKind.clef { shape := ClefShape.CLEFSHAPE_F, line := 2 } },
       { addr := 16, hasFacs := true, ulx := 60, uly := 0,
         kind := PageKind.pitched { pname := 4, oct := 3 } }],
    after := [],
    currentClefAddr := 1,
    currentClef := { shape := ClefShape.CLEFSHAPE_C, line := 3 },
    m_drawingStaffSize := 33,
    doubleUnit := 59 }

/-! ## Staves: the two sides of `Split` -/

/-- The anchor left edge of a layer child in the words of the specification:
the left edge of its own zone, or the smallest left edge among the zones of
its descendants when it has no zone of its own (none without any zone). -/
def Split.anchorLeft_spec (child : LayerChild) : Option Int :=
  match child.ownZone with
  | some z => some z.ulx
  | none => (child.descendantZones.map (fun z => z.ulx)).min?


/-- What the end of `Split` makes of each staff of the document: the new staff
(`splitUuid`) receives the children that move, the staff that is split keeps
the others and ends at x, every other staff stays as it is. -/
def Split.relocate (x : Int) (staff : Staff) (splitUuid : String) (s : Staff) : Staff :=
  if s.uuid = splitUuid then
    { s with layer := s.layer ++ staff.layer.filter (fun c => Split.movesToSplit x c) }
  else if s.uuid = staff.uuid then
    { s with zone := { s.zone with lrx := x },
             layer := staff.layer.filter (fun c => !Split.movesToSplit x c) }
  else s

/-! ## Elements and their zones: `Resize`, `Drag` of a staff, `ToggleLigature` -/

/-- The classes of objects the editor tells apart (`ClassId`). -/
inductive ClassId where
  | STAFF
  | LAYER
  | SYLLABLE
  | SYL
  | NEUME
  | NC
  | CLEF
  | CUSTOS
  | OTHER
  deriving DecidableEq

/-- An object of the drawing page as the zone operations read it. -/
structure FacsElement where
  uuid : String
  cls : ClassId
  /-- Uuid of `GetParent()`, when there is one. -/
  parent : Option String
  /-- Uuid of `GetFirstParent(STAFF)`, when there is one. -/
  staff : Option String
  /-- Whether the object carries the facsimile interface
  (`GetFacsimileInterface()` is not null). -/
  facsimileInterface : Bool
  /-- Result of `HasFacs()`. -/
  hasFacs : Bool
  /-- Result of `GetZone()`: the address of the `Zone`, when there is one. -/
  zone : Option Nat
  /-- Pitch (`GetPname()`, `GetOct()`) of an object with the pitch interface. -/
  pitch : Option Pitch
  /-- Attribute `ligated` of a note component (`HasLigated()`, `GetLigated()`). -/
  ligated : Option Bool
  /-- Field `m_drawingStaffSize` of a staff. -/
  m_drawingStaffSize : Int
  deriving DecidableEq

/-- The document as the zone operations see it: the objects of the drawing
page in document order, the `Zone` objects by address, and the children of the
surface (addresses of zones). -/
structure FacsDoc where
  /-- Whether `m_doc->GetDrawingPage()` is not null. -/
  hasDrawingPage : Bool
  /-- Whether `m_doc->GetType() == Facs`. -/
  isFacs : Bool
  elements : List FacsElement
  zones : List (Nat × Zone)
  surface : List Nat
  deriving DecidableEq

/-- Lookup `FindChildByUuid` on the drawing page. -/
def FacsDoc.FindChildByUuid (d : FacsDoc) (uuid : String) : Option FacsElement :=
  d.elements.find? (fun e => e.uuid == uuid)

/-- The rectangle of the `Zone` at an address. -/
def FacsDoc.zoneAt (d : FacsDoc) (addr : Nat) : Option Zone :=
  (d.zones.find? (fun e => e.1 == addr)).map (fun e => e.2)

/-- Changes the rectangle of the `Zone` at an address in place. -/
def FacsDoc.modifyZone (d : FacsDoc) (addr : Nat) (f : Zone → Zone) : FacsDoc :=
  { d with zones := d.zones.map (fun e => if e.1 = addr then (e.1, f e.2) else e) }

/-- Method `EditorToolkitNeume::Resize`.  `zone->Modify()` only marks the zone as
changed and is left out.
```
if (!m_doc->GetDrawingPage()) return false;
if (m_doc->GetType() != Facs) return false;
Object *obj = m_doc->GetDrawingPage()->FindChildByUuid(elementId);
if (obj == NULL) return false;
if (obj->Is(STAFF)) {
    if (!staff->HasFacs()) return false;
    Zone *zone = staff->GetZone();
    assert(zone);
    zone->SetUlx(ulx); zone->SetUly(uly); zone->SetLrx(lrx); zone->SetLry(lry);
}
else if (obj->Is(SYL)) { ... the same for the syl ... }
else { LogMessage("Element of type '%s' is unsupported.", ...); return false; }
return true;
``` -/
def Resize (elementId : String) (ulx uly lrx lry : Int) (tk : Toolkit FacsDoc) :
    Outcome (Toolkit FacsDoc) :=
  if !tk.doc.hasDrawingPage then Outcome.returned false tk
  else if !tk.doc.isFacs then Outcome.returned false tk
  else
    match tk.doc.FindChildByUuid elementId with
    | none => Outcome.returned false tk
    | some obj =>
      if obj.cls = ClassId.STAFF then
        if !obj.hasFacs then Outcome.returned false tk
        else
          match obj.zone with
          | none => Outcome.assertFailed
          | some zone =>
            let rect : Zone := { ulx := ulx, uly := uly, lrx := lrx, lry := lry }
            Outcome.returned true { tk with doc := tk.doc.modifyZone zone (fun _ => rect) }
      else if obj.cls = ClassId.SYL then
        if !obj.hasFacs then Outcome.returned false tk
        else
          match obj.zone with
          | none => Outcome.assertFailed
          | some zone =>
            let rect : Zone := { ulx := ulx, uly := uly, lrx := lrx, lry := lry }
            Outcome.returned true { tk with doc := tk.doc.modifyZone zone (fun _ => rect) }
      else Outcome.returned false tk


/-- Insertion into a `std::set` of pointers: the elements are kept in
increasing order of address, without duplicates. -/
def setInsert (a : Nat) : List Nat → List Nat
  | [] => [a]
  | b :: rest =>
    if a < b then a :: b :: rest
    else if a = b then b :: rest
    else b :: setInsert a rest

/-- The set `zones` the staff branch of `Drag` builds: the zone of the staff
and the zones of the objects `FindAllChildByComparison` finds under the staff
(the staff itself and its descendants that carry the facsimile interface).
```
staff->FindAllChildByComparison(&children, &ic);
std::set<Zone *> zones;
zones.insert(staff->GetZone());
for (auto it = children.begin(); it != children.end(); ++it) {
    FacsimileInterface *fi = (*it)->GetFacsimileInterface();
    assert(fi);
    if (fi->GetZone() != NULL) zones.insert(fi->GetZone());
}
``` -/
def Drag_staff.zones (d : FacsDoc) (staff : FacsElement) (staffZone : Nat) : List Nat :=
  let children := d.elements.filter
    (fun e => e.facsimileInterface && (e.uuid == staff.uuid || e.staff == some staff.uuid))
  children.foldl
    (fun zones e =>
      match e.zone with
      | some z => setInsert z zones
      | none => zones)
    (setInsert staffZone [])

/-- Method `EditorToolkitNeume::Drag`, the branch for a staff
(`else if (element->Is(STAFF))`), for the staff found.  A staff with `HasFacs()`
and no zone puts a null pointer into the set, which the loop dereferences.
```
if (!staff->HasFacs()) { LogError(...); return false; }
...
for (auto it = zones.begin(); it != zones.end(); ++it) {
    // Transform y to device context
    (*it)->ShiftByXY(x, -y);
}
return true; // Can't reorder by layer since staves contain layers
``` -/
def Drag_staff (staff : FacsElement) (x y : Int) (tk : Toolkit FacsDoc) :
    Outcome (Toolkit FacsDoc) :=
  if !staff.hasFacs then Outcome.returned false tk
  else
    match staff.zone with
    | none => Outcome.assertFailed
    | some staffZone =>
      let zones := Drag_staff.zones tk.doc staff staffZone
      Outcome.returned true
        { tk with doc := zones.foldl (fun d z => d.modifyZone z (fun r => r.ShiftByXY x (-y)))
                           tk.doc }

/-- Changes the object with a given uuid in place. -/
def FacsDoc.modifyElement (d : FacsDoc) (uuid : String) (f : FacsElement → FacsElement) :
    FacsDoc :=
  { d with elements := d.elements.map (fun e => if e.uuid = uuid then f e else e) }

/-- The address `new Zone()` returns: one that no `Zone` of the document has. -/
def FacsDoc.newZone (d : FacsDoc) : Nat :=
  (d.zones.map (fun e => e.1)).foldl max 0 + 1

/-- Adds a `Zone` object with the given rectangle at an address. -/
def FacsDoc.allocZone (d : FacsDoc) (addr : Nat) (rect : Zone) : FacsDoc :=
  { d with zones := d.zones ++ [(addr, rect)] }

/-- The lookup `dynamic_cast<Nc *>(m_doc->GetDrawingPage()->FindChildByUuid(id))`. -/
def FacsDoc.findNc (d : FacsDoc) (uuid : String) : Option FacsElement :=
  match d.FindChildByUuid uuid with
  | some e => if e.cls = ClassId.NC then some e else none
  | none => none

/-- The staff `GetFirstParent(STAFF)` of an object. -/
def FacsDoc.staffOf (d : FacsDoc) (e : FacsElement) : Option FacsElement :=
  match e.staff with
  | some s => d.FindChildByUuid s
  | none => none

/-- Value of `(int)(m_doc->GetDrawingDoubleUnit(staff->m_drawingStaffSize) / 2)`: the
division of two `int`s truncates. -/
def noteHeight (doubleUnit : Int) : Int := Int.tdiv doubleUnit 2

/-- Value of `(int)(m_doc->GetDrawingDoubleUnit(staff->m_drawingStaffSize) / 1.4)`:
the quotient is computed in `double` and truncated toward zero.  For a 32-bit
`int` the `double` quotient lies on the same side of every integer as the exact
quotient `5 * doubleUnit / 7`, so this is the truncated exact quotient. -/
def noteWidth (doubleUnit : Int) : Int := Int.tdiv (5 * doubleUnit) 7

/-- Modelled from the spec: `Att::SetNeumes(nc, "ligated", value)` (the attribute
module is not among the sources), the spec's "both components' ligated flags
set": on a note component it sets the flag and reports success. -/
def SetNeumes_ligated (e : FacsElement) (value : Bool) : FacsElement :=
  { e with ligated := some value }

/-- The three calls that give the second note component the new zone:
`secondNc->SetZone(zone); secondNc->ResetFacsimile(); secondNc->SetFacs(zone->GetUuid());`. -/
def FacsElement.SetZone (e : FacsElement) (zone : Nat) : FacsElement :=
  { e with zone := some zone, hasFacs := true }

/-- The end of `ToggleLigature` once both flags were set (`success1 && success2`):
```
if (success1 && success2 && m_doc->GetType() != Facs) {
    m_doc->PrepareDrawing();
    m_doc->GetDrawingPage()->LayOut(true);
}
...
surface->AddChild(zone);
return success1 && success2;
```
`LayOut` stands for the two layout calls. -/
def ToggleLigature.finish (LayOut : FacsDoc → FacsDoc) (zone : Nat) (tk : Toolkit FacsDoc)
    (d : FacsDoc) : Outcome (Toolkit FacsDoc) :=
  let d1 := if !d.isFacs then LayOut d else d
  Outcome.returned true { tk with doc := { d1 with surface := d1.surface ++ [zone] } }

/-- Method `EditorToolkitNeume::ToggleLigature` for `elementIds = {firstNcId, secondNcId}`.
`GetDrawingDoubleUnit` is `m_doc->GetDrawingDoubleUnit`.
```
Nc *firstNc = dynamic_cast<Nc *>(m_doc->GetDrawingPage()->FindChildByUuid(firstNcId));
assert(firstNc);
Nc *secondNc = ...; assert(secondNc);
Zone *zone = new Zone();
if (isLigature == "true") {
    if (Att::SetNeumes(firstNc, "ligated", "false")) success1 = true;
    int ligUlx = firstNc->GetZone()->GetUlx(); ...
    Staff *staff = dynamic_cast<Staff *>(firstNc->GetFirstParent(STAFF));
    assert(staff);
    const int noteHeight = ...; const int noteWidth = ...;
    zone->SetUlx(ligUlx + noteWidth); zone->SetUly(ligUly + noteHeight);
    zone->SetLrx(ligLrx + noteWidth); zone->SetLry(ligLry + noteHeight);
    secondNc->SetZone(zone); secondNc->ResetFacsimile(); secondNc->SetFacs(zone->GetUuid());
    if (Att::SetNeumes(secondNc, "ligated", "false")) success2 = true;
}
else if (isLigature == "false") {
    if (Att::SetNeumes(firstNc, "ligated", "true")) success1 = true;
    zone->SetUlx(firstNc->GetZone()->GetUlx()); ...
    secondNc->SetZone(zone); ...
    if (Att::SetNeumes(secondNc, "ligated", "true")) success2 = true;
}
else { LogWarning("isLigature is invalid!"); return false; }
``` -/
def ToggleLigature (GetDrawingDoubleUnit : Int → Int) (LayOut : FacsDoc → FacsDoc)
    (firstNcId secondNcId isLigature : String) (tk0 : Toolkit FacsDoc) :
    Outcome (Toolkit FacsDoc) :=
  let tk : Toolkit FacsDoc := { tk0 with m_editInfo := "" }
  if !tk.doc.hasDrawingPage then Outcome.returned false tk
  else
    match tk.doc.findNc firstNcId, tk.doc.findNc secondNcId with
    | some firstNc, some _ =>
      let zone := tk.doc.newZone
      if isLigature = "true" then
        let d1 := tk.doc.modifyElement firstNcId (fun e => SetNeumes_ligated e false)
        match firstNc.zone.bind d1.zoneAt, d1.staffOf firstNc with
        | some lig, some staff =>
          let h := noteHeight (GetDrawingDoubleUnit staff.m_drawingStaffSize)
          let w := noteWidth (GetDrawingDoubleUnit staff.m_drawingStaffSize)
          let d2 := d1.allocZone zone
            { ulx := lig.ulx + w, uly := lig.uly + h, lrx := lig.lrx + w, lry := lig.lry + h }
          let d3 := d2.modifyElement secondNcId (fun e => e.SetZone zone)
          let d4 := d3.modifyElement secondNcId (fun e => SetNeumes_ligated e false)
          ToggleLigature.finish LayOut zone tk d4
        | _, _ => Outcome.assertFailed
      else if isLigature = "false" then
        let d1 := tk.doc.modifyElement firstNcId (fun e => SetNeumes_ligated e true)
        match firstNc.zone.bind d1.zoneAt with
        | some lig =>
          let d2 := d1.allocZone zone
            { ulx := lig.ulx, uly := lig.uly, lrx := lig.lrx, lry := lig.lry }
          let d3 := d2.modifyElement secondNcId (fun e => e.SetZone zone)
          let d4 := d3.modifyElement secondNcId (fun e => SetNeumes_ligated e true)
          ToggleLigature.finish LayOut zone tk d4
        | none => Outcome.assertFailed
      else Outcome.returned false tk
    | _, _ => Outcome.assertFailed

/-- The state `ToggleLigature` leaves: the first note component with its flag
set, the second with the new zone and its flag set, the new zone added to the
zones and to the surface. -/
def ToggleLigature.result (d : FacsDoc) (firstNcId secondNcId : String) (value : Bool)
    (rect : Zone) : FacsDoc :=
  let d1 := d.modifyElement firstNcId (fun e => SetNeumes_ligated e value)
  let d2 := d1.allocZone d.newZone rect
  let d3 := d2.modifyElement secondNcId (fun e => e.SetZone d.newZone)
  let d4 := d3.modifyElement secondNcId (fun e => SetNeumes_ligated e value)
  { d4 with surface := d4.surface ++ [d.newZone] }


/-- A staff `"s1"` of size 100 with the zone at address 1. -/
def sampleStaffElement : FacsElement :=
  { uuid := "s1", cls := ClassId.STAFF, parent := none, staff := none,
    facsimileInterface := true,
    hasFacs := true, zone := some 1, pitch := none, ligated := none,
    m_drawingStaffSize := 100 }

/-- A note component `"n1"` on the staff `"s1"` with the zone at address 4. -/
def sampleNcElement : FacsElement :=
  { uuid := "n1", cls := ClassId.NC, parent := some "m1", staff := some "s1",
    facsimileInterface := true,
    hasFacs := true, zone := some 4, pitch := some { pname := 1, oct := 3 },
    ligated := none, m_drawingStaffSize := 0 }

/-- A note component `"n2"` on the staff `"s1"` with the zone at address 5. -/
def sampleNcElement2 : FacsElement :=
  { uuid := "n2", cls := ClassId.NC, parent := some "m1", staff := some "s1",
    facsimileInterface := true,
    hasFacs := true, zone := some 5, pitch := some { pname := 2, oct := 3 },
    ligated := none, m_drawingStaffSize := 0 }

/-- A syl `"t1"` on the staff `"s1"` with the zone at address 2. -/
def sampleSylElement : FacsElement :=
  { uuid := "t1", cls := ClassId.SYL, parent := some "y1", staff := some "s1",
    facsimileInterface := true,
    hasFacs := true, zone := some 2, pitch := none, ligated := none,
    m_drawingStaffSize := 0 }

/-- A neume `"m1"` on the staff `"s1"`, without a zone of its own. -/
def sampleNeumeElement : FacsElement :=
  { uuid := "m1", cls := ClassId.NEUME, parent := some "y1", staff := some "s1",
    facsimileInterface := true, hasFacs := false, zone := none, pitch := none,
    ligated := none, m_drawingStaffSize := 0 }

/-- A facsimile document with the staff `"s1"` (zone 1), a syl `"t1"` (zone 2),
a clef `"c1"` (zone 3) and, in one neume `"m1"`, the note components `"n1"`
(zone 4) and `"n2"` (zone 5), all on the staff `"s1"`.  The layer `"l1"` and
the syllable `"y1"` the objects name as parents have no zone and are left
out. -/
def sampleFacsDoc : FacsDoc :=
  { hasDrawingPage := true, isFacs := true,
    elements :=
      [sampleStaffElement,
       sampleSylElement,
       { uuid := "c1", cls := ClassId.CLEF, parent := some "l1", staff := some "s1",
         facsimileInterface := true,
         hasFacs := true, zone := some 3, pitch := none, ligated := none,
         m_drawingStaffSize := 0 },
       sampleNeumeElement,
       sampleNcElement,
       sampleNcElement2],
    zones :=
      [(1, { ulx := 0, uly := 0, lrx := 1000, lry := 300 }),
       (2, { ulx := 100, uly := 320, lrx := 300, lry := 400 }),
       (3, { ulx := 10, uly := 100, lrx := 60, lry := 200 }),
       (4, { ulx := 100, uly := 100, lrx := 150, lry := 150 }),
       (5, { ulx := 160, uly := 150, lrx := 210, lry := 200 })],
    surface := [1, 2, 3, 4, 5] }

/-! ## The tree of objects: `Remove` -/

/-- An object of the drawing page as `Remove` reads it. -/
structure TreeObject where
  uuid : String
  cls : ClassId
  /-- Uuid of `GetParent()`; none for an object without a parent. -/
  parent : Option String
  /-- Whether the object carries the facsimile interface. -/
  facsimileInterface : Bool
  /-- Result of `HasFacs()`. -/
  hasFacs : Bool
  /-- Result of `GetZone()`: the address of the `Zone`, when there is one. -/
  zone : Option Nat
  deriving DecidableEq

/-- The drawing page as a list of objects in document order, each naming its
parent. -/
structure TreeDoc where
  /-- Whether `m_doc->GetDrawingPage()` is not null. -/
  hasDrawingPage : Bool
  objects : List TreeObject
  deriving DecidableEq

/-- Lookup `FindChildByUuid` on the drawing page. -/
def TreeDoc.FindChildByUuid (d : TreeDoc) (uuid : String) : Option TreeObject :=
  d.objects.find? (fun e => e.uuid == uuid)

/-- Modelled from the spec: `Object::GetParent` (object.cpp is not among the
sources), the spec's "parent/child navigation": the object an object names as
its parent. -/
def TreeDoc.GetParent (d : TreeDoc) (obj : TreeObject) : Option TreeObject :=
  match obj.parent with
  | some p => d.FindChildByUuid p
  | none => none

/-- Whether `anc` is met on the way from the object `uuid` up through its
parents, within `fuel` steps. -/
def TreeDoc.hasAncestor (d : TreeDoc) : Nat → String → String → Bool
  | 0, _, _ => false
  | fuel + 1, uuid, anc =>
    match (d.FindChildByUuid uuid).bind (fun e => e.parent) with
    | none => false
    | some p => p == anc || d.hasAncestor fuel p anc

/-- Whether an object lies below another one in the tree. -/
def TreeDoc.isBelow (d : TreeDoc) (obj anc : String) : Bool :=
  d.hasAncestor d.objects.length obj anc

/-- Modelled from the spec: `Object::GetFirstParent(classId)` (object.cpp is not
among the sources), the spec's "parent/child navigation": the nearest ancestor
of the given class, within `fuel` steps. -/
def TreeDoc.GetFirstParent (d : TreeDoc) : Nat → TreeObject → ClassId → Option TreeObject
  | 0, _, _ => none
  | fuel + 1, obj, cls =>
    match d.GetParent obj with
    | none => none
    | some p => if p.cls = cls then some p else d.GetFirstParent fuel p cls

/-- Modelled from the spec: `Object::FindChildByType(classId)` (object.cpp is not
among the sources), the spec's "NoteComponent descendants": the first object of
the given class below `obj`. -/
def TreeDoc.FindChildByType (d : TreeDoc) (obj : TreeObject) (cls : ClassId) :
    Option TreeObject :=
  d.objects.find? (fun e => decide (e.cls = cls) && d.isBelow e.uuid obj.uuid)

/-- Modelled from the spec: `Object::DeleteChild` (object.cpp is not among the
sources), the spec's "delete-subtree": the child and everything below it leave
the tree; the call reports whether the object was a child of `parent`. -/
def TreeDoc.DeleteChild (d : TreeDoc) (parent obj : TreeObject) : Bool × TreeDoc :=
  if obj.parent = some parent.uuid then
    (true, { d with objects :=
               d.objects.filter (fun e => !(e.uuid == obj.uuid || d.isBelow e.uuid obj.uuid)) })
  else (false, d)

/-- The call `fi->SetZone(NULL)` on an object and on everything below it that
carries the facsimile interface and has a facsimile:
```
obj->FindAllChildByComparison(&fiChildren, &ic);
FacsimileInterface *fi = dynamic_cast<FacsimileInterface *>(obj);
if (fi != NULL && fi->HasFacs()) fi->SetZone(NULL);
for (auto it = fiChildren.begin(); it != fiChildren.end(); ++it) {
    fi = dynamic_cast<FacsimileInterface *>(*it);
    if (fi != NULL && fi->HasFacs()) fi->SetZone(NULL);
}
``` -/
def TreeDoc.detachZones (d : TreeDoc) (obj : TreeObject) : TreeDoc :=
  { d with objects := d.objects.map (fun e =>
      if (e.uuid == obj.uuid || d.isBelow e.uuid obj.uuid) && e.facsimileInterface && e.hasFacs
      then { e with zone := none } else e) }

/-- The call `fi->SetZone(NULL)` on one object with a facsimile. -/
def TreeDoc.detachZone (d : TreeDoc) (obj : TreeObject) : TreeDoc :=
  { d with objects := d.objects.map (fun e =>
      if e.uuid == obj.uuid && e.facsimileInterface && e.hasFacs
      then { e with zone := none } else e) }

/-- The end of `Remove` for a note component or a neume, after the object was
deleted from `parent`:
```
if (!parent->Is(SYLLABLE)) {
    parent = parent->GetFirstParent(SYLLABLE);
    if (parent == NULL) { LogMessage("Failed to get syllable parent!"); return false; }
}
assert(parent->Is(SYLLABLE));
if (parent->FindChildByType(NC) == NULL) {
    obj = parent;
    parent = parent->GetParent();
    if (parent == NULL) { LogMessage("Null parent!"); return false; }
    fi = dynamic_cast<FacsimileInterface *>(obj);
    if (fi != NULL && fi->HasFacs()) fi->SetZone(NULL);
    result &= parent->DeleteChild(obj);
}
``` -/
def Remove.prune (tk : Toolkit TreeDoc) (parent : TreeObject) : Outcome (Toolkit TreeDoc) :=
  let syllable? :=
    if parent.cls = ClassId.SYLLABLE then some parent
    else tk.doc.GetFirstParent tk.doc.objects.length parent ClassId.SYLLABLE
  match syllable? with
  | none => Outcome.returned false tk
  | some syllable =>
    match tk.doc.FindChildByType syllable ClassId.NC with
    | some _ => Outcome.returned true tk
    | none =>
      match tk.doc.GetParent syllable with
      | none => Outcome.returned false tk
      | some grandParent =>
        let d1 := tk.doc.detachZone syllable
        let (deleted, d2) := d1.DeleteChild grandParent syllable
        Outcome.returned deleted { tk with doc := d2 }

/-- Method `EditorToolkitNeume::Remove`.  `clefBlock` stands for the block
`if (isClef) { ... }` that adjusts the pitches of the elements the clef
governs (`Remove_clef`); it deletes nothing.
```
Object *obj = m_doc->GetDrawingPage()->FindChildByUuid(elementId);
assert(obj);
bool result, isNeume, isClef;
isNeume = (obj->Is(NC) || obj->Is(NEUME));
isClef = obj->Is(CLEF);
Object *parent = obj->GetParent();
assert(parent);
m_editInfo = elementId;
...
result = parent->DeleteChild(obj);
if (isNeume && result) { ... }
return result;
``` -/
def Remove (clefBlock : TreeObject → TreeDoc → TreeDoc) (elementId : String)
    (tk : Toolkit TreeDoc) : Outcome (Toolkit TreeDoc) :=
  if !tk.doc.hasDrawingPage then Outcome.returned false tk
  else
    match tk.doc.FindChildByUuid elementId with
    | none => Outcome.assertFailed
    | some obj =>
      let isNeume := decide (obj.cls = ClassId.NC) || decide (obj.cls = ClassId.NEUME)
      let isClef := decide (obj.cls = ClassId.CLEF)
      match tk.doc.GetParent obj with
      | none => Outcome.assertFailed
      | some parent =>
        let d1 := tk.doc.detachZones obj
        let d2 := if isClef then clefBlock obj d1 else d1
        let (result, d3) := d2.DeleteChild parent obj
        let tk3 : Toolkit TreeDoc := { doc := d3, m_editInfo := elementId }
        if isNeume && result then Remove.prune tk3 parent
        else Outcome.returned result tk3

/-- The children of an object, in document order. -/
def TreeDoc.children (d : TreeDoc) (uuid : String) : List TreeObject :=
  d.objects.filter (fun e => e.parent == some uuid)

/-- A page with one staff and layer and two syllables: `"y1"` with the neumes
`"m1"` (note component `"a"`) and `"m2"` (note component `"b"`), and `"y2"`
with the neume `"m3"` (note component `"c"`). -/
def sampleTreeDoc : TreeDoc :=
  { hasDrawingPage := true,
    objects :=
      [{ uuid := "s1", cls := ClassId.STAFF, parent := none, facsimileInterface := true,
         hasFacs := true, zone := some 1 },
       { uuid := "l1", cls := ClassId.LAYER, parent := some "s1", facsimileInterface := false,
         hasFacs := false, zone := none },
       { uuid := "y1", cls := ClassId.SYLLABLE, parent := some "l1",
         facsimileInterface := true, hasFacs := false, zone := none },
       { uuid := "m1", cls := ClassId.NEUME, parent := some "y1", facsimileInterface := true,
         hasFacs := false, zone := none },
       { uuid := "a", cls := ClassId.NC, parent := some "m1", facsimileInterface := true,
         hasFacs := true, zone := some 2 },
       { uuid := "m2", cls := ClassId.NEUME, parent := some "y1", facsimileInterface := true,
         hasFacs := false, zone := none },
       { uuid := "b", cls := ClassId.NC, parent := some "m2", facsimileInterface := true,
         hasFacs := true, zone := some 3 },
       { uuid := "y2", cls := ClassId.SYLLABLE, parent := some "l1",
         facsimileInterface := true, hasFacs := false, zone := none },
       { uuid := "m3", cls := ClassId.NEUME, parent := some "y2", facsimileInterface := true,
         hasFacs := false, zone := none },
       { uuid := "c", cls := ClassId.NC, parent := some "m3", facsimileInterface := true,
         hasFacs := true, zone := some 4 }] }

/-! ## Rebuilding a neume: `ChangeGroup` -/

/-- The note components `FindAllChildByComparison` finds under a neume, in
document order. -/
def FacsDoc.ncChildren (d : FacsDoc) (neume : String) : List FacsElement :=
  d.elements.filter (fun e => decide (e.cls = ClassId.NC) && (e.parent == some neume))

/-- The first loop of `ChangeGroup`: every note component but the first leaves the
neume.
```
for (auto it = children.begin(); it != children.end(); ++it) {
    if (children.begin() == it) firstChild = dynamic_cast<Nc *>(*it);
    else el->DeleteChild(*it);
}
``` -/
def ChangeGroup.deleteOthers (d : FacsDoc) (others : List FacsElement) : FacsDoc :=
  { d with elements :=
      d.elements.filter (fun e => !(others.map (fun o => o.uuid)).contains e.uuid) }

/-- A new note component of a neume with the given pitch and zone, as
`ChangeGroup` builds it: `new Nc()`, `SetPname`, `SetOct`, `AdjustPitchByOffset`,
`SetZone(zone)`, `SetFacs(zone->GetUuid())`, `el->AddChild(newNc)`. -/
def ChangeGroup.newNc (uuid neume : String) (staff : Option String) (pitch : Option Pitch)
    (zone : Nat) : FacsElement :=
  { uuid := uuid, cls := ClassId.NC, parent := some neume, staff := staff,
    facsimileInterface := true, hasFacs := true, zone := some zone, pitch := pitch,
    ligated := none, m_drawingStaffSize := 0 }

/-- One round of the second loop of `ChangeGroup` once the character is accepted:
the new zone and the new note component are added to the surface and to the
neume. -/
def ChangeGroup.append (d : FacsDoc) (uuid neume : String) (staff : Option String)
    (pitch : Option Pitch) (rect : Zone) : FacsDoc :=
  let zone := d.newZone
  let d1 := d.allocZone zone rect
  { d1 with elements := d1.elements ++ [ChangeGroup.newNc uuid neume staff pitch zone],
            surface := d1.surface ++ [zone] }

/-- The second loop of `ChangeGroup` over the contour.  `i` counts the rounds,
`newUuid i` is the uuid the constructor gives the note component of round `i`,
`initial` holds `initialUlx`, `initialUly`, `initialLrx`, `initialLry` and `prev`
is the pitch of `prevNc`.  The result is false, with the document as it is at
that point, when a character is none of `u`, `d`, `s`.
```
for (auto it = contour.begin(); it != contour.end(); ++it) {
    Nc *newNc = new Nc();
    Zone *zone = new Zone();
    int newUlx = initialUlx + noteWidth;
    int newLrx = initialLrx + noteWidth;
    int newUly, newLry;
    newNc->SetPname(prevNc->GetPname());
    newNc->SetOct(prevNc->GetOct());
    if ((*it) == 'u') { newUly = initialUly - noteHeight; newLry = initialLry - noteHeight;
        newNc->AdjustPitchByOffset(1); }
    else if ((*it) == 'd') { newUly = initialUly + noteHeight; newLry = initialLry + noteHeight;
        newNc->AdjustPitchByOffset(-1); }
    else if ((*it) == 's') { newUly = initialUly; newLry = initialLry; }
    else { LogMessage("Unsupported character in contour."); return false; }
    zone->SetUlx(newUlx); zone->SetUly(newUly); zone->SetLrx(newLrx); zone->SetLry(newLry);
    newNc->SetZone(zone); newNc->SetFacs(zone->GetUuid());
    surface->AddChild(zone);
    el->AddChild(newNc);
    initialUlx = newUlx; initialUly = newUly; initialLrx = newLrx; initialLry = newLry;
    prevNc = newNc;
}
``` -/
def ChangeGroup.loop (noteWidth noteHeight : Int) (newUuid : Nat → String) (neume : String)
    (staff : Option String) :
    List Char → Nat → Zone → Option Pitch → FacsDoc → Bool × FacsDoc
  | [], _, _, _, d => (true, d)
  | c :: rest, i, initial, prev, d =>
    let newUlx := initial.ulx + noteWidth
    let newLrx := initial.lrx + noteWidth
    if c = 'u' then
      let rect : Zone := { ulx := newUlx, uly := initial.uly - noteHeight, lrx := newLrx,
                           lry := initial.lry - noteHeight }
      let pitch := prev.map (fun p => AdjustPitchByOffset p 1)
      ChangeGroup.loop noteWidth noteHeight newUuid neume staff rest (i + 1) rect pitch
        (ChangeGroup.append d (newUuid i) neume staff pitch rect)
    else if c = 'd' then
      let rect : Zone := { ulx := newUlx, uly := initial.uly + noteHeight, lrx := newLrx,
                           lry := initial.lry + noteHeight }
      let pitch := prev.map (fun p => AdjustPitchByOffset p (-1))
      ChangeGroup.loop noteWidth noteHeight newUuid neume staff rest (i + 1) rect pitch
        (ChangeGroup.append d (newUuid i) neume staff pitch rect)
    else if c = 's' then
      let rect : Zone := { ulx := newUlx, uly := initial.uly, lrx := newLrx,
                           lry := initial.lry }
      ChangeGroup.loop noteWidth noteHeight newUuid neume staff rest (i + 1) rect prev
        (ChangeGroup.append d (newUuid i) neume staff prev rect)
    else (false, d)

/-- The lookup `dynamic_cast<Neume *>(m_doc->GetDrawingPage()->FindChildByUuid(id))`. -/
def FacsDoc.findNeume (d : FacsDoc) (uuid : String) : Option FacsElement :=
  match d.FindChildByUuid uuid with
  | some e => if e.cls = ClassId.NEUME then some e else none
  | none => none

/-- Method `EditorToolkitNeume::ChangeGroup`.  `GetDrawingDoubleUnit` is
`m_doc->GetDrawingDoubleUnit` and `newUuid i` the uuid of the i-th note
component created.  A neume without a note component leaves `firstChild`
without a value, and a first note component without a zone is dereferenced
(`firstChild->GetZone()->GetUlx()`).
```
m_editInfo = "";
if (!m_doc->GetDrawingPage()) return false;
Neume *el = dynamic_cast<Neume *>(m_doc->GetDrawingPage()->FindChildByUuid(elementId));
if (el == NULL) { LogError(...); return false; }
...
Staff *staff = dynamic_cast<Staff *>(el->GetFirstParent(STAFF));
assert(staff);
const int noteHeight = (int)(m_doc->GetDrawingDoubleUnit(staff->m_drawingStaffSize) / 2);
const int noteWidth = (int)(m_doc->GetDrawingDoubleUnit(staff->m_drawingStaffSize) / 1.4);
prevNc = firstChild;
for (...) { ... }
m_editInfo = el->GetUuid();
return true;
``` -/
def ChangeGroup (GetDrawingDoubleUnit : Int → Int) (newUuid : Nat → String)
    (elementId : String) (contour : List Char) (tk0 : Toolkit FacsDoc) :
    Outcome (Toolkit FacsDoc) :=
  let tk : Toolkit FacsDoc := { tk0 with m_editInfo := "" }
  if !tk.doc.hasDrawingPage then Outcome.returned false tk
  else
    match tk.doc.findNeume elementId with
    | none => Outcome.returned false tk
    | some el =>
      match tk.doc.ncChildren el.uuid with
      | [] => Outcome.assertFailed
      | firstChild :: others =>
        let d0 := ChangeGroup.deleteOthers tk.doc others
        match firstChild.zone.bind d0.zoneAt, d0.staffOf el with
        | some initial, some staff =>
          let h := noteHeight (GetDrawingDoubleUnit staff.m_drawingStaffSize)
          let w := noteWidth (GetDrawingDoubleUnit staff.m_drawingStaffSize)
          match ChangeGroup.loop w h newUuid el.uuid el.staff contour 0 initial
              firstChild.pitch d0 with
          | (true, d1) => Outcome.returned true { doc := d1, m_editInfo := el.uuid }
          | (false, d1) => Outcome.returned false { doc := d1, m_editInfo := "" }
        | _, _ => Outcome.assertFailed

/-- The rise of a contour in the words of the claim: the number of `u` minus
the number of `d` among its characters. -/
def contourRise (contour : List Char) : Int :=
  (contour.count 'u' : Int) - (contour.count 'd' : Int)

/-- What the rounds of the second loop of `ChangeGroup` over a contour leave
behind, in the words of the claim: the document `d` grows into `d1` by one
note component of the neume per character (`news`); the i-th of them
(counted from 1) has the diatonic pitch of `prev` plus the rise of the first
i characters and a new zone, registered with the surface, whose rectangle is
`initial` moved by (i * noteWidth, -rise * noteHeight); what was there stays. -/
def ChangeGroup.Built (noteWidth noteHeight : Int) (neume : String) (contour : List Char)
    (initial : Zone) (prev : Pitch) (d d1 : FacsDoc) (news : List FacsElement) : Prop :=
  d1.elements = d.elements ++ news
    ∧ news.length = contour.length
    ∧ (∀ z r, d.zoneAt z = some r → d1.zoneAt z = some r)
    ∧ (∀ z, z ∈ d.surface → z ∈ d1.surface)
    ∧ ∀ (i : Nat) (e : FacsElement), news[i]? = some e →
        e.cls = ClassId.NC ∧ e.parent = some neume
        ∧ ∃ p z, e.pitch = some p ∧ p.valid
          ∧ GetDiatonicPitch p = GetDiatonicPitch prev + contourRise (contour.take (i + 1))
          ∧ e.zone = some z
          ∧ d.zoneAt z = none
          ∧ d1.zoneAt z = some (initial.ShiftByXY (((i : Int) + 1) * noteWidth)
              (-(contourRise (contour.take (i + 1))) * noteHeight))
          ∧ z ∈ d1.surface

/-- A page whose layer is not in horizontal order when the clef is dragged (as
inside a chain, where `Drag` leaves the reordering out): a C clef on line 2
(address 1, x = 0), the notes at the addresses 30 (x = 30) and 20 (x = 20), in
this order, a C clef on line 3 (address 40, x = 25) and a note (address 50,
x = 60). -/
def unsortedPage : NeumePage :=
  { before := [],
    layer :=
      [{ addr := 1, hasFacs := true, ulx := 0, uly := 0,
         kind := PageKind.clef { shape := ClefShape.CLEFSHAPE_C, line := 2 } },
       { addr := 30, hasFacs := true, ulx := 30, uly := 0,
         kind := PageKind.pitched { pname := 1, oct := 3 } },
       { addr := 20, hasFacs := true, ulx := 20, uly := 0,
         kind := PageKind.pitched { pname := 2, oct := 3 } },
       { addr := 40, hasFacs := true, ulx := 25, uly := 0,
         kind := PageKind.clef { shape := ClefShape.CLEFSHAPE_C, line := 3 } },
       { addr := 50, hasFacs := true, ulx := 60, uly := 0,
         kind := PageKind.pitched { pname := 3, oct := 3 } }],
    after := [],
    currentClefAddr := 0,
    currentClef := { shape := ClefShape.CLEFSHAPE_C, line := 3 },
    m_drawingStaffSize := 33,
    doubleUnit := 59 }

/-- A page whose layer starts with its only clef: a C clef on line 2 (address
10, x = 10) and the notes at the addresses 20 (x = 20) and 30 (x = 30); the
layer's current clef is a C clef on line 3. -/
def firstClefPage : NeumePage :=
  { before := [],
    layer :=
      [{ addr := 10, hasFacs := true, ulx := 10, uly := 0,
         kind := PageKind.clef { shape := ClefShape.CLEFSHAPE_C, line := 2 } },
       { addr := 20, hasFacs := true, ulx := 20, uly := 0,
         kind := PageKind.pitched { pname := 1, oct := 3 } },
       { addr := 30, hasFacs := true, ulx := 30, uly := 0,
         kind := PageKind.pitched { pname := 2, oct := 3 } }],
    after := [],
    currentClefAddr := 0,
    currentClef := { shape := ClefShape.CLEFSHAPE_C, line := 3 },
    m_drawingStaffSize := 33,
    doubleUnit := 59 }

/-! ## Grouping: `Group` and `Ungroup`

The page is seen from the level of the elements that are grouped: the elements
themselves (note components inside neumes, or neumes and syls inside
syllables), their parents (the containers) and the parents of those. -/

/-- An element that can be selected, or a sibling of one. -/
structure GroupChild where
  /-- Address of the object: `std::set<Object *>` iterates in this order. -/
  addr : Nat
  uuid : String
  cls : ClassId
  /-- Attribute `ligated` of a note component: `HasLigated()` is `isSome`. -/
  ligated : Option Bool
  /-- The pitches of the note components the element stands for: its own for a
  note component, those of its note components for a neume. -/
  pitches : List Pitch
  /-- The rectangle of `GetZone()` when `HasFacs()`. -/
  zone : Option Zone
  /-- The rectangles of the zones of the element and of the objects below it
  that have a facsimile, in document order (a syl has none before it is given
  its bounding box). -/
  facsZones : List Zone
  /-- For a syl: the text of its text child, when it has one. -/
  text : Option String
  deriving DecidableEq

/-- A parent of elements: a neume, a syllable, or another child of the
second-level parent. -/
structure GroupContainer where
  /-- Address of the object: `std::map<Object *, int>` iterates in this order. -/
  addr : Nat
  uuid : String
  cls : ClassId
  /-- The rectangle of `GetZone()` when `HasFacs()`. -/
  zone : Option Zone
  /-- The children whose parent this object is. -/
  children : List GroupChild
  /-- Entries of `m_children` that were moved away with `MoveItselfTo` and not
  yet dropped by `ClearRelinquishedChildren`. -/
  relinquished : List GroupChild
  deriving DecidableEq

/-- A second-level parent: a syllable (for note components) or a layer (for
neumes). -/
structure GroupParent where
  uuid : String
  cls : ClassId
  /-- Whether the object is a layer or has one above it (`GetFirstParent(LAYER)`
  of its children is not null). -/
  hasLayer : Bool
  containers : List GroupContainer
  deriving DecidableEq

/-- The document as `Group` and `Ungroup` see it. -/
structure GroupDoc where
  /-- Whether `m_doc->GetDrawingPage()` is not null. -/
  hasDrawingPage : Bool
  /-- Option `m_createDefaultSyl`. -/
  m_createDefaultSyl : Bool
  /-- Option `m_createDefaultSylBBox`. -/
  m_createDefaultSylBBox : Bool
  /-- The second-level parents of the page, in document order. -/
  parents : List GroupParent
  /-- The zones added to the surface, oldest first. -/
  surfaceAdded : List Zone
  /-- The zones deleted from the surface, oldest first. -/
  surfaceDeleted : List Zone
  /-- The uuids the constructors (and `Clone`) will hand out. -/
  freshUuids : List String
  /-- An address no object of the page has; the next new object gets it. -/
  nextAddr : Nat
  deriving DecidableEq

/-- Helpers of the editor that are declared outside the sources at hand and
are taken as given: `ReorderByXPos` on the children of a container, on the
containers of a second-level parent, and on the children of the layer above a
second-level parent (named by its uuid); the comparator `Object::sortByUlx`;
`Zone::GetLogicalUly` and `FacsimileInterface::GetHeight`; the rectangle of a
`new Zone()`; and whether the local `Syl *fullSyl;` of `Group`, which is read
before it is assigned, holds a null pointer. -/
structure GroupHelpers where
  ReorderChildren : List GroupChild → List GroupChild
  ReorderContainers : List GroupContainer → List GroupContainer
  ReorderLayerAbove : String → List GroupParent → List GroupParent
  sortByUlx : GroupContainer → GroupContainer → Bool
  GetLogicalUly : Zone → Int
  GetHeight : Zone → Int
  newZoneRect : Zone
  fullSylStartsNull : Bool

/-- What `FindChildByUuid` finds at the level of the elements, with
`GetParent()` and `GetParent()->GetParent()`. -/
structure GroupFound where
  el : GroupChild
  par : GroupContainer
  doubleParent : GroupParent
  deriving DecidableEq

/-- Lookup of an element in the containers of one second-level parent. -/
def GroupParent.find (p : GroupParent) (uuid : String) : Option GroupFound :=
  p.containers.findSome? (fun c =>
    (c.children.find? (fun e => e.uuid == uuid)).map
      (fun e => { el := e, par := c, doubleParent := p }))

/-- Lookup `m_doc->GetDrawingPage()->FindChildByUuid(id)` at the level of the elements. -/
def GroupDoc.find (d : GroupDoc) (uuid : String) : Option GroupFound :=
  d.parents.findSome? (fun p => p.find uuid)

/-- The container with a given uuid. -/
def GroupDoc.container (d : GroupDoc) (uuid : String) : Option GroupContainer :=
  d.parents.findSome? (fun p => p.containers.find? (fun c => c.uuid == uuid))

/-- Applies a change to every container of the page. -/
def GroupDoc.mapContainers (d : GroupDoc) (f : GroupContainer → GroupContainer) : GroupDoc :=
  { d with parents := d.parents.map (fun p => { p with containers := p.containers.map f }) }

/-- Applies a change to the containers of the second-level parent with a given
uuid. -/
def GroupDoc.modifyParent (d : GroupDoc) (uuid : String)
    (f : List GroupContainer → List GroupContainer) : GroupDoc :=
  { d with parents := d.parents.map (fun p =>
      if p.uuid = uuid then { p with containers := f p.containers } else p) }

/-- Modelled from the spec: the first half of `Object::MoveItselfTo` (object.cpp is
not among the sources), the spec's "move-subtree": the parent relinquishes the
element, which stays in `m_children` until `ClearRelinquishedChildren`. -/
def GroupContainer.Relinquish (c : GroupContainer) (uuid : String) : GroupContainer :=
  { c with children := c.children.filter (fun e => e.uuid != uuid),
           relinquished := c.relinquished ++ c.children.filter (fun e => e.uuid == uuid) }

/-- Method `Object::GetChildCount()` (modelled with `Relinquish`): the size of
`m_children`. -/
def GroupContainer.GetChildCount (c : GroupContainer) : Nat :=
  c.children.length + c.relinquished.length

/-- Method `Object::GetChildCount(classId)` (modelled with `Relinquish`): the entries of
`m_children` of the given class. -/
def GroupContainer.GetChildCountOf (c : GroupContainer) (cls : ClassId) : Nat :=
  (c.children.filter (fun e => e.cls = cls)).length
    + (c.relinquished.filter (fun e => e.cls = cls)).length

/-- Insertion into the `std::set<Object *> elements`: kept in increasing order
of address, without duplicates. -/
def Group.insertElement (e : GroupChild) : List GroupChild → List GroupChild
  | [] => [e]
  | b :: rest =>
    if e.addr < b.addr then e :: b :: rest
    else if e.addr = b.addr then b :: rest
    else b :: Group.insertElement e rest

/-- The update of the `std::map<Object *, int> parents` for the parent of one
element: a new entry with count 1, or the count of the entry raised by one.
The entries are kept in increasing order of address. -/
def Group.countParent (par : GroupContainer) :
    List (GroupContainer × Nat) → List (GroupContainer × Nat)
  | [] => [(par, 1)]
  | b :: rest =>
    if par.addr < b.1.addr then (par, 1) :: b :: rest
    else if par.addr = b.1.addr then (b.1, b.2 + 1) :: rest
    else b :: Group.countParent par rest

/-- The locals the first loop of `Group` builds. -/
structure Group.Locals where
  doubleParent : Option GroupParent
  parents : List (GroupContainer × Nat)
  elements : List GroupChild
  deriving DecidableEq

/-- The first loop of `Group`; no result stands for `return false`.
```
Object *el = m_doc->GetDrawingPage()->FindChildByUuid(*it);
if (el == NULL) return false;
if (el->GetClassId() != elementClass) return false;
Object *par = el->GetParent();
if (par == NULL) return false;
if (doubleParent == NULL) {
    doubleParent = par->GetParent();
    if (doubleParent == NULL) return false;
}
else { if (par->GetParent() != doubleParent) return false; }
auto possibleEntry = parents.find(el->GetParent());
if (possibleEntry == parents.end()) parents.emplace(el->GetParent(), 1);
else possibleEntry->second += 1;
elements.insert(el);
``` -/
def Group.collect (d : GroupDoc) (elementClass : ClassId) :
    List String → Group.Locals → Option Group.Locals
  | [], locals => some locals
  | id :: rest, locals =>
    match d.find id with
    | none => none
    | some found =>
      if found.el.cls ≠ elementClass then none
      else
        match locals.doubleParent with
        | none =>
          Group.collect d elementClass rest
            { doubleParent := some found.doubleParent,
              parents := Group.countParent found.par locals.parents,
              elements := Group.insertElement found.el locals.elements }
        | some doubleParent =>
          if found.doubleParent.uuid ≠ doubleParent.uuid then none
          else
            Group.collect d elementClass rest
              { locals with
                  parents := Group.countParent found.par locals.parents,
                  elements := Group.insertElement found.el locals.elements }

/-- The second loop of `Group`: the parents all of whose children are selected.
```
if (par->GetClassId() == SYLLABLE) expected = par->GetChildCount(NEUME);
else expected = par->GetChildCount();
if (parentPair.second == expected) fullParents.push_back(parentPair.first);
``` -/
def Group.fullParents (parents : List (GroupContainer × Nat)) : List GroupContainer :=
  (parents.filter (fun pair =>
    let expected :=
      if pair.1.cls = ClassId.SYLLABLE then pair.1.GetChildCountOf ClassId.NEUME
      else pair.1.GetChildCount
    pair.2 == expected)).map (fun pair => pair.1)

/-- Modelled from the spec: the identity of a new object (`new Neume()`,
`new Syllable()`, `new Syl()`, `Clone()`; object.cpp is not among the sources).
The uuid is the next one of the supply the document carries, the address the
next free one; the result is the uuid, the address, and the document with the
supply moved on. -/
def GroupDoc.fresh (d : GroupDoc) : String × Nat × GroupDoc :=
  match d.freshUuids with
  | [] => ("", d.nextAddr, { d with nextAddr := d.nextAddr + 1 })
  | u :: rest => (u, d.nextAddr, { d with freshUuids := rest, nextAddr := d.nextAddr + 1 })

/-- A new container without children: `new Neume()`, `new Syllable()`. -/
def GroupContainer.new (uuid : String) (addr : Nat) (cls : ClassId) : GroupContainer :=
  { addr := addr, uuid := uuid, cls := cls, zone := none, children := [], relinquished := [] }

/-- The uuid of the parent of an element (`GetParent()`). -/
def GroupDoc.parentOf (d : GroupDoc) (uuid : String) : Option String :=
  (d.find uuid).map (fun f => f.par.uuid)

/-- The loop that moves the selected elements into a new container that is
not yet part of the tree; the elements arrive in the order of the set.
```
for (auto it = elements.begin(); it != elements.end(); ++it) {
    if ((*it)->GetParent() != parent && !(*it)->Is(SYL)) (*it)->MoveItselfTo(parent);
}
``` -/
def Group.moveInto (d : GroupDoc) (target : GroupContainer) (elements : List GroupChild) :
    GroupDoc × GroupContainer :=
  elements.foldl
    (fun (acc : GroupDoc × GroupContainer) e =>
      if e.cls ≠ ClassId.SYL then
        (acc.1.mapContainers (fun c => c.Relinquish e.uuid),
         { acc.2 with children := acc.2.children ++ [e] })
      else acc)
    (d, target)

/-- The same loop for a target that is a container of the tree. -/
def Group.moveTo (d : GroupDoc) (target : String) (elements : List GroupChild) : GroupDoc :=
  elements.foldl
    (fun (acc : GroupDoc) e =>
      if acc.parentOf e.uuid ≠ some target ∧ e.cls ≠ ClassId.SYL then
        (acc.mapContainers (fun c => c.Relinquish e.uuid)).mapContainers
          (fun c => if c.uuid = target then { c with children := c.children ++ [e] } else c)
      else acc)
    d

/-- The rectangle of the default bounding box of a new syl in `Group` and
`Ungroup`.  In the branch without a zone of the syllable `syllableFi` is null in
every round, so each zone found replaces the rectangle; the assertion on
`tempZone` is compiled out.
```
Zone *zone = new Zone();
FacsimileInterface *syllableFi = NULL;
if (syl->GetFirstParent(SYLLABLE)->GetFacsimileInterface()->HasFacs()) {
    syllableFi = ...; Zone *tempZone = ...;
    zone->SetUlx(tempZone->GetUlx()); ... }
else {
    ... FindAllChildByComparison(&children, &comp);
    for (...) { ...
        if (temp->HasFacs()) {
            if (syllableFi == NULL) { zone->SetUlx(tempZone->GetUlx()); ... }
            else { if (tempZone->GetUlx() < zone->GetUlx()) zone->SetUlx(tempZone->GetUlx()); ... } } } }
zone->SetUly(zone->GetUly() + offSetUly);
zone->SetLrx(zone->GetLrx() + offSetLrx);
zone->SetLry(zone->GetLry() + offSetLry);
``` -/
def Group.defaultSylBBox (h : GroupHelpers) (syllable : GroupContainer) : Zone :=
  let zone1 : Zone :=
    match syllable.zone with
    | some tempZone => tempZone
    | none =>
      (syllable.children.flatMap (fun e => e.facsZones)).foldl (fun _ tempZone => tempZone)
        h.newZoneRect
  { ulx := zone1.ulx, uly := zone1.uly + 100, lrx := zone1.lrx + 100, lry := zone1.lry + 200 }

/-- The block of `Group` and `Ungroup` that gives a new syllable an empty syl when
`m_createDefaultSyl` is set, with a bounding box when `m_createDefaultSylBBox` is
set.
```
Syl *syl = new Syl();
Text *text = new Text();
syl->AddChild(text);
parent->AddChild(syl);
if (m_doc->GetOptions()->m_createDefaultSylBBox.GetValue()) { ...
    m_doc->GetFacsimile()->FindChildByType(SURFACE)->AddChild(zone);
    fi->SetZone(zone); syl->ResetFacsimile(); syl->SetFacs(zone->GetUuid()); }
``` -/
def Group.addDefaultSyl (h : GroupHelpers) (d : GroupDoc) (syllable : GroupContainer) :
    GroupDoc × GroupContainer :=
  if d.m_createDefaultSyl then
    let (uuid, addr, d1) := d.fresh
    let syl : GroupChild :=
      { addr := addr, uuid := uuid, cls := ClassId.SYL, ligated := none, pitches := [],
        zone := none, facsZones := [], text := some "" }
    let syllable1 := { syllable with children := syllable.children ++ [syl] }
    if d.m_createDefaultSylBBox then
      let zone := Group.defaultSylBBox h syllable1
      let syl1 := { syl with zone := some zone, facsZones := [zone] }
      ({ d1 with surfaceAdded := d1.surfaceAdded ++ [zone] },
       { syllable with children := syllable.children ++ [syl1] })
    else (d1, syllable1)
  else (d, syllable)

/-- The reordering `layer->ReorderByXPos()` for the layer found above a new
container: the second-level parent itself when it is a layer, the layer above
it otherwise. -/
def Group.reorderLayer (h : GroupHelpers) (d : GroupDoc) (doubleParent : GroupParent) :
    GroupDoc :=
  if doubleParent.cls = ClassId.LAYER then
    d.modifyParent doubleParent.uuid h.ReorderContainers
  else { d with parents := h.ReorderLayerAbove doubleParent.uuid d.parents }

/-- The last loop of `Group`: the original parents that are left without
children, or with syls only, are deleted.
```
obj->ClearRelinquishedChildren();
if (obj->GetChildCount() == 0) doubleParent->DeleteChild(obj);
else if (obj->GetChildCount() == obj->GetChildCount(SYL)) {
    while ((syl = obj->FindChildByType(SYL)) != NULL) obj->DeleteChild(syl);
    doubleParent->DeleteChild(obj);
}
``` -/
def Group.cleanup (d : GroupDoc) (doubleParent : GroupParent)
    (parents : List (GroupContainer × Nat)) : GroupDoc :=
  parents.foldl
    (fun (acc : GroupDoc) pair =>
      let acc1 := acc.mapContainers (fun c =>
        if c.uuid = pair.1.uuid then { c with relinquished := [] } else c)
      match acc1.container pair.1.uuid with
      | none => acc1
      | some obj =>
        if obj.GetChildCount = 0 ∨ obj.GetChildCount = obj.GetChildCountOf ClassId.SYL then
          acc1.modifyParent doubleParent.uuid
            (fun cs => cs.filter (fun c => c.uuid != obj.uuid))
        else acc1)
    d

/-- The bounding box of the concatenated text in `Group`: the locals `ulx`,
`uly`, `lrx`, `lry` after the loop over the zones of the syls of the full
parents.
```
int ulx = -1, uly = -1, lrx = -1, lry = -1;
for (...) { ...
    if (ulx == -1) {
        ulx = facsInter->GetDrawingX(); uly = facsInter->GetDrawingY();
        lrx = facsInter->GetWidth() + ulx; lry = facsInter->GetHeight() + uly; }
    else {
        lrx = facsInter->GetWidth() + facsInter->GetDrawingX();
        lry = facsInter->GetHeight() + facsInter->GetDrawingY(); } }
``` -/
def Group.textBox (h : GroupHelpers) (sylZones : List Zone) : Zone :=
  sylZones.foldl
    (fun (box : Zone) (zone : Zone) =>
      let GetDrawingX := zone.ulx
      let GetDrawingY := h.GetLogicalUly zone
      let GetWidth := zone.lrx - zone.ulx
      if box.ulx = -1 then
        { ulx := GetDrawingX, uly := GetDrawingY, lrx := GetWidth + GetDrawingX,
          lry := h.GetHeight zone + GetDrawingY }
      else
        { box with lrx := GetWidth + GetDrawingX, lry := h.GetHeight zone + GetDrawingY })
    { ulx := -1, uly := -1, lrx := -1, lry := -1 }

/-- The first syl of a container (`FindChildByType(SYL)`). -/
def GroupContainer.firstSyl (c : GroupContainer) : Option GroupChild :=
  c.children.find? (fun e => e.cls = ClassId.SYL)

/-- The branch of `Group` for neumes with more than one full parent, up to the
cleanup.  The full parents are sorted with `Object::sortByUlx`; the texts of
their syls are concatenated into the text of `fullSyl`, the first syl met;
`fullSyl` and the selected neumes are moved into a new syllable, which is
added to the second-level parent; the zone of `fullSyl` receives the bounding
box when none of its four values is negative.  The call does not survive a
full parent without a syl, a syl without a zone, a `fullSyl` without a text
child, or a local `fullSyl` that does not start as a null pointer. -/
def Group.concatSyllables (h : GroupHelpers) (d : GroupDoc) (doubleParent : GroupParent)
    (fullParents : List GroupContainer) (elements : List GroupChild) :
    Option (GroupDoc × GroupContainer) :=
  let sorted := fullParents.insertionSort (fun a b => h.sortByUlx a b = true)
  let (uuid, addr, d1) := d.fresh
  let fullSyllable := GroupContainer.new uuid addr ClassId.SYLLABLE
  if !h.fullSylStartsNull then none
  else
    match sorted.mapM (fun (c : GroupContainer) => c.firstSyl) with
    | none => none
    | some [] => none
    | some (fullSyl :: moreSyls) =>
      let fullString :=
        (fullSyl :: moreSyls).foldl (fun acc syl => acc ++ syl.text.getD "") ""
      match (fullSyl :: moreSyls).mapM (fun (syl : GroupChild) => syl.zone), fullSyl.text with
      | some sylZones, some _ =>
        let box := Group.textBox h sylZones
        let fullSyl1 := { fullSyl with text := some fullString }
        let d2 := d1.mapContainers (fun c => c.Relinquish fullSyl.uuid)
        let fullSyllable1 := { fullSyllable with children := [fullSyl1] }
        let (d3, fullSyllable2) := Group.moveInto d2 fullSyllable1 elements
        if !doubleParent.hasLayer then none
        else
          let fullSyllable3 :=
            if box.ulx ≥ 0 ∧ box.uly ≥ 0 ∧ box.lrx ≥ 0 ∧ box.lry ≥ 0 then
              { fullSyllable2 with children := fullSyllable2.children.map (fun e =>
                  if e.uuid = fullSyl.uuid then { e with zone := some box, facsZones := [box] }
                  else e) }
            else fullSyllable2
          let d4 := d3.modifyParent doubleParent.uuid (fun cs => cs ++ [fullSyllable3])
          some (Group.reorderLayer h d4 doubleParent, fullSyllable3)
      | _, _ => none

/-- Method `EditorToolkitNeume::Group`.
```
m_editInfo = "";
if (!m_doc->GetDrawingPage()) return false;
if (elementIds.size() == 0) return true;
if (groupType == "nc") elementClass = NC;
else if (groupType == "neume") elementClass = NEUME;
else return false;
... first loop, second loop ...
if (fullParents.empty()) {
    if (elementClass == NC) { parent = new Neume(); }
    else if (elementClass == NEUME) {
        parent = new Syllable();
        for (...) { if ((*it)->GetParent() != parent && !(*it)->Is(SYL)) (*it)->MoveItselfTo(parent); }
        if (m_doc->GetOptions()->m_createDefaultSyl.GetValue()) { ... }
    }
    parent->ReorderByXPos();
    doubleParent->AddChild(parent);
    Layer *layer = dynamic_cast<Layer *>(parent->GetFirstParent(LAYER));
    assert(layer);
    layer->ReorderByXPos();
}
else if (fullParents.size() == 1) {
    parent = *iter;
    for (...) { ... (*it)->MoveItselfTo(parent); }
    parent->ReorderByXPos();
}
else {
    if (elementClass == NC) {
        parent = new Neume();
        for (...) { ... (*it)->MoveItselfTo(parent); }
        doubleParent->AddChild(parent);
    }
    else { ... }
}
... last loop ...
m_editInfo = parent->GetUuid();
return true;
``` -/
def Group (h : GroupHelpers) (groupType : String) (elementIds : List String)
    (tk0 : Toolkit GroupDoc) : Outcome (Toolkit GroupDoc) :=
  let tk : Toolkit GroupDoc := { tk0 with m_editInfo := "" }
  if !tk.doc.hasDrawingPage then Outcome.returned false tk
  else if elementIds.length = 0 then Outcome.returned true tk
  else if groupType ≠ "nc" ∧ groupType ≠ "neume" then Outcome.returned false tk
  else
    let elementClass := if groupType = "nc" then ClassId.NC else ClassId.NEUME
    match Group.collect tk.doc elementClass elementIds
        { doubleParent := none, parents := [], elements := [] } with
    | none => Outcome.returned false tk
    | some locals =>
      match locals.doubleParent with
      | none => Outcome.assertFailed
      | some doubleParent =>
        let fullParents := Group.fullParents locals.parents
        let grouped : Option (GroupDoc × String) :=
          match fullParents with
          | [] =>
            let (uuid, addr, d1) := tk.doc.fresh
            let (d2, parent) :=
              if elementClass = ClassId.NC then
                (d1, GroupContainer.new uuid addr ClassId.NEUME)
              else
                let (d2, parent) := Group.moveInto d1
                  (GroupContainer.new uuid addr ClassId.SYLLABLE) locals.elements
                Group.addDefaultSyl h d2 parent
            let parent1 := { parent with children := h.ReorderChildren parent.children }
            let d3 := d2.modifyParent doubleParent.uuid (fun cs => cs ++ [parent1])
            if !doubleParent.hasLayer then none
            else some (Group.reorderLayer h d3 doubleParent, parent1.uuid)
          | [parent] =>
            let d1 := Group.moveTo tk.doc parent.uuid locals.elements
            some (d1.mapContainers (fun c =>
              if c.uuid = parent.uuid then { c with children := h.ReorderChildren c.children }
              else c), parent.uuid)
          | _ :: _ :: _ =>
            if elementClass = ClassId.NC then
              let (uuid, addr, d1) := tk.doc.fresh
              let (d2, parent) := Group.moveInto d1
                (GroupContainer.new uuid addr ClassId.NEUME) locals.elements
              some (d2.modifyParent doubleParent.uuid (fun cs => cs ++ [parent]), parent.uuid)
            else
              (Group.concatSyllables h tk.doc doubleParent fullParents locals.elements).map
                (fun r => (r.1, r.2.uuid))
        match grouped with
        | none => Outcome.assertFailed
        | some (d1, parentUuid) =>
          Outcome.returned true
            { doc := Group.cleanup d1 doubleParent locals.parents, m_editInfo := parentUuid }

/-- Helpers for the examples: the reorderings keep the order they find, full
parents are compared by the left edge of their zone, the logical top of a zone
is its top and its height the difference of bottom and top, a new zone is
(0, 0, 0, 0), and `fullSyl` starts as a null pointer. -/
def sampleGroupHelpers : GroupHelpers :=
  { ReorderChildren := fun l => l,
    ReorderContainers := fun l => l,
    ReorderLayerAbove := fun _ l => l,
    sortByUlx := fun a b =>
      match a.zone, b.zone with
      | some za, some zb => decide (za.ulx < zb.ulx)
      | _, _ => false,
    GetLogicalUly := fun z => z.uly,
    GetHeight := fun z => z.lry - z.uly,
    newZoneRect := { ulx := 0, uly := 0, lrx := 0, lry := 0 },
    fullSylStartsNull := true }

/-- A note component for the examples, with its address, uuid and step (octave
3), without a zone. -/
def sampleNc (addr : Nat) (uuid : String) (pname : Int) : GroupChild :=
  { addr := addr, uuid := uuid, cls := ClassId.NC, ligated := none,
    pitches := [{ pname := pname, oct := 3 }], zone := none, facsZones := [], text := none }

/-- A page seen at the level of the note components: one syllable `"y1"` with
the neumes `"m1"` (note components `"a"`, `"b"`), `"m2"` (note components
`"c"`, `"d"`) and `"m3"` (note component `"e"`). -/
def sampleGroupDoc : GroupDoc :=
  { hasDrawingPage := true, m_createDefaultSyl := false, m_createDefaultSylBBox := false,
    parents :=
      [{ uuid := "y1", cls := ClassId.SYLLABLE, hasLayer := true,
         containers :=
           [{ addr := 100, uuid := "m1", cls := ClassId.NEUME, zone := none,
              children := [sampleNc 1 "a" 1, sampleNc 2 "b" 2], relinquished := [] },
            { addr := 200, uuid := "m2", cls := ClassId.NEUME, zone := none,
              children := [sampleNc 3 "c" 3, sampleNc 4 "d" 4], relinquished := [] },
            { addr := 300, uuid := "m3", cls := ClassId.NEUME, zone := none,
              children := [sampleNc 5 "e" 5], relinquished := [] }] }],
    surfaceAdded := [],
    surfaceDeleted := [],
    freshUuids := ["new1", "new2", "new3"],
    nextAddr := 1000 }

/-- A neume for the examples, with its address, uuid and the step of its one
note component (octave 3), without a zone. -/
def sampleNeume (addr : Nat) (uuid : String) (pname : Int) : GroupChild :=
  { addr := addr, uuid := uuid, cls := ClassId.NEUME, ligated := none,
    pitches := [{ pname := pname, oct := 3 }], zone := none, facsZones := [], text := none }

/-- A page seen at the level of the neumes: one layer `"l1"` with the
syllables `"y1"` (neumes `"n1"`, `"n2"`) and `"y2"` (neumes `"n3"`,
`"n4"`). -/
def sampleNeumeGroupDoc : GroupDoc :=
  { hasDrawingPage := true, m_createDefaultSyl := false, m_createDefaultSylBBox := false,
    parents :=
      [{ uuid := "l1", cls := ClassId.LAYER, hasLayer := true,
         containers :=
           [{ addr := 100, uuid := "y1", cls := ClassId.SYLLABLE, zone := none,
              children := [sampleNeume 1 "n1" 1, sampleNeume 2 "n2" 2], relinquished := [] },
            { addr := 200, uuid := "y2", cls := ClassId.SYLLABLE, zone := none,
              children := [sampleNeume 3 "n3" 3, sampleNeume 4 "n4" 4],
              relinquished := [] }] }],
    surfaceAdded := [],
    surfaceDeleted := [],
    freshUuids := ["new1", "new2", "new3"],
    nextAddr := 1000 }

/-- Applies a change to the element with a given uuid. -/
def GroupDoc.modifyChild (d : GroupDoc) (uuid : String) (f : GroupChild → GroupChild) :
    GroupDoc :=
  d.mapContainers (fun c =>
    { c with children := c.children.map (fun e => if e.uuid = uuid then f e else e) })

/-- The locals of `Ungroup` that live across the rounds of its loop: `fparent`
(which is also `currentParent`), `sparent`, `ligCount`, `firstNc`, `firstIsSyl`.
The pointers have no value before the first element that is no syl. -/
structure Ungroup.Locals where
  fparent : Option String
  sparent : Option String
  ligCount : Nat
  firstNc : Option String
  firstIsSyl : Bool
  deriving DecidableEq

/-- How a round of the loop of `Ungroup` ends: it goes on to the next id, the
function returns false, or a null pointer is dereferenced. -/
inductive Ungroup.Round where
  | next (locals : Ungroup.Locals) (tk : Toolkit GroupDoc)
  | returnedFalse (tk : Toolkit GroupDoc)
  | assertFailed

/-- The block at the top of the loop of `Ungroup` for a selection of exactly two
note components: a ligated one has its flag cleared, and at the second such
one the zone of the second is replaced by a new one, offset from the zone of
the first; the new zone is not added to the surface.  `doubleUnit` is
`m_doc->GetDrawingDoubleUnit(staff->m_drawingStaffSize)` for the staff of the first
note component, none when it has no staff.
```
Nc *nc = dynamic_cast<Nc *>(el);
if (nc->HasLigated() && nc->GetLigated() == BOOLEAN_true) {
    nc->SetLigated(BOOLEAN_false);
    ligCount++;
    if (ligCount == 1) { firstNc = nc; }
    else if (ligCount == 2) {
        secondNc = nc;
        Zone *zone = new Zone();
        ...
        zone->SetUlx(ligUlx + noteWidth); ...
        Zone *origZoneUuid = secondNc->GetZone();
        surface->DeleteChild(origZoneUuid);
        secondNc->SetZone(zone); ...
        if (success1 && success2) { ligCount = 0; firstNc = NULL; secondNc = NULL; }
        else { ...; return false; }
    }
}
``` -/
def Ungroup.ligature (doubleUnit : Option Int) (el : GroupChild) (locals : Ungroup.Locals)
    (tk : Toolkit GroupDoc) : Ungroup.Round :=
  if el.cls ≠ ClassId.NC then Ungroup.Round.assertFailed
  else if el.ligated = some true then
    let d1 := tk.doc.modifyChild el.uuid (fun e => { e with ligated := some false })
    let ligCount := locals.ligCount + 1
    if ligCount = 1 then
      Ungroup.Round.next { locals with ligCount := ligCount, firstNc := some el.uuid }
        { tk with doc := d1 }
    else if ligCount = 2 then
      match locals.firstNc.bind d1.find, doubleUnit with
      | some first, some du =>
        match first.el.zone with
        | none => Ungroup.Round.assertFailed
        | some lig =>
          let zone : Zone :=
            { ulx := lig.ulx + noteWidth du, uly := lig.uly + noteHeight du,
              lrx := lig.lrx + noteWidth du, lry := lig.lry + noteHeight du }
          let d2 := d1.modifyChild first.el.uuid (fun e => { e with ligated := some false })
          let d3 : GroupDoc :=
            { d2 with surfaceDeleted := d2.surfaceDeleted ++ el.zone.toList }
          let d4 := d3.modifyChild el.uuid (fun e =>
            { e with zone := some zone, facsZones := [zone], ligated := some false })
          Ungroup.Round.next { locals with ligCount := 0, firstNc := none }
            { tk with doc := d4 }
      | _, _ => Ungroup.Round.assertFailed
    else Ungroup.Round.next { locals with ligCount := ligCount } { tk with doc := d1 }
  else Ungroup.Round.next locals tk

/-- The branch of the loop of `Ungroup` for the first element that is no syl: it
names the container that stays and its parent.
```
if (el->Is(SYL)) { firstIsSyl = true; continue; }
else if (groupType == "nc") {
    fparent = el->GetFirstParent(NEUME); assert(fparent);
    m_editInfo = m_editInfo + fparent->GetUuid();
    sparent = fparent->GetFirstParent(SYLLABLE); assert(sparent);
    currentParent = dynamic_cast<Neume *>(fparent); assert(currentParent);
    firstIsSyl = false;
}
else if (groupType == "neume") { ... SYLLABLE ... LAYER ... }
else { LogError("Invalid groupType for ungrouping"); m_editInfo = ""; return false; }
``` -/
def Ungroup.first (groupType : String) (found : GroupFound) (locals : Ungroup.Locals)
    (tk : Toolkit GroupDoc) : Ungroup.Round :=
  if found.el.cls = ClassId.SYL then
    Ungroup.Round.next { locals with firstIsSyl := true } tk
  else if groupType = "nc" then
    if found.par.cls = ClassId.NEUME ∧ found.doubleParent.cls = ClassId.SYLLABLE then
      Ungroup.Round.next
        { locals with fparent := some found.par.uuid,
                      sparent := some found.doubleParent.uuid, firstIsSyl := false }
        { tk with m_editInfo := tk.m_editInfo ++ found.par.uuid }
    else Ungroup.Round.assertFailed
  else if groupType = "neume" then
    if found.par.cls = ClassId.SYLLABLE ∧ found.doubleParent.cls = ClassId.LAYER then
      Ungroup.Round.next
        { locals with fparent := some found.par.uuid,
                      sparent := some found.doubleParent.uuid, firstIsSyl := false }
        { tk with m_editInfo := tk.m_editInfo ++ found.par.uuid }
    else Ungroup.Round.assertFailed
  else Ungroup.Round.returnedFalse { tk with m_editInfo := "" }

/-- The branch of the loop of `Ungroup` for a later element: it is moved into a
clone of the container that stays, and the clone is added to the parent of
that container.
```
if (groupType == "nc") { Nc *nc = dynamic_cast<Nc *>(el); assert(nc);
    if (nc->HasLigated()) continue; }
if (el->Is(SYL)) continue;
Object *newParent = currentParent->Clone();
newParent->ClearChildren();
el->MoveItselfTo(newParent);
fparent->ClearRelinquishedChildren();
if (newParent->Is(SYLLABLE) && m_doc->GetOptions()->m_createDefaultSyl.GetValue()) { ... }
m_editInfo = m_editInfo + " " + newParent->GetUuid();
sparent->AddChild(newParent);
sparent->ReorderByXPos();
``` -/
def Ungroup.later (h : GroupHelpers) (groupType : String) (el : GroupChild)
    (locals : Ungroup.Locals) (tk : Toolkit GroupDoc) : Ungroup.Round :=
  if groupType = "nc" ∧ el.cls ≠ ClassId.NC then Ungroup.Round.assertFailed
  else if groupType = "nc" ∧ el.ligated.isSome then Ungroup.Round.next locals tk
  else if el.cls = ClassId.SYL then Ungroup.Round.next locals tk
  else
    match locals.fparent, locals.sparent with
    | some fparent, some sparent =>
      match tk.doc.container fparent with
      | none => Ungroup.Round.assertFailed
      | some currentParent =>
        let (uuid, addr, d1) := tk.doc.fresh
        let newParent : GroupContainer :=
          { currentParent with uuid := uuid, addr := addr, children := [el],
                               relinquished := [] }
        let d2 := d1.mapContainers (fun c => c.Relinquish el.uuid)
        let d3 := d2.mapContainers (fun c =>
          if c.uuid = fparent then { c with relinquished := [] } else c)
        let (d4, newParent1) :=
          if newParent.cls = ClassId.SYLLABLE then Group.addDefaultSyl h d3 newParent
          else (d3, newParent)
        let d5 := d4.modifyParent sparent (fun cs => h.ReorderContainers (cs ++ [newParent1]))
        Ungroup.Round.next locals
          { doc := d5, m_editInfo := tk.m_editInfo ++ " " ++ newParent1.uuid }
    | _, _ => Ungroup.Round.assertFailed

/-- The loop of `Ungroup` over the ids; `isFirst` is `elementIds.begin() == it` and
`size` is `elementIds.size()`. -/
def Ungroup.loop (h : GroupHelpers) (doubleUnit : Option Int) (groupType : String)
    (size : Nat) : List String → Bool → Ungroup.Locals → Toolkit GroupDoc →
    Outcome (Toolkit GroupDoc)
  | [], _, _, tk => Outcome.returned true tk
  | id :: rest, isFirst, locals, tk =>
    match tk.doc.find id with
    | none => Outcome.assertFailed
    | some found0 =>
      let afterLigature :=
        if groupType = "nc" ∧ size = 2 then Ungroup.ligature doubleUnit found0.el locals tk
        else Ungroup.Round.next locals tk
      match afterLigature with
      | Ungroup.Round.assertFailed => Outcome.assertFailed
      | Ungroup.Round.returnedFalse tk1 => Outcome.returned false tk1
      | Ungroup.Round.next locals1 tk1 =>
        match tk1.doc.find id with
        | none => Outcome.assertFailed
        | some found =>
          let round :=
            if isFirst ∨ locals1.firstIsSyl then Ungroup.first groupType found locals1 tk1
            else Ungroup.later h groupType found.el locals1 tk1
          match round with
          | Ungroup.Round.assertFailed => Outcome.assertFailed
          | Ungroup.Round.returnedFalse tk2 => Outcome.returned false tk2
          | Ungroup.Round.next locals2 tk2 =>
            Ungroup.loop h doubleUnit groupType size rest false locals2 tk2

/-- Method `EditorToolkitNeume::Ungroup`.
```
m_editInfo = "";
...
int ligCount = 0;
bool firstIsSyl = false;
if (!m_doc->GetDrawingPage()) return false;
for (auto it = elementIds.begin(); it != elementIds.end(); ++it) { ... }
return true;
``` -/
def Ungroup (h : GroupHelpers) (doubleUnit : Option Int) (groupType : String)
    (elementIds : List String) (tk0 : Toolkit GroupDoc) : Outcome (Toolkit GroupDoc) :=
  let tk : Toolkit GroupDoc := { tk0 with m_editInfo := "" }
  if !tk.doc.hasDrawingPage then Outcome.returned false tk
  else
    Ungroup.loop h doubleUnit groupType elementIds.length elementIds true
      { fparent := none, sparent := none, ligCount := 0, firstNc := none,
        firstIsSyl := false } tk

/-- The elements below one second-level parent in document order, each with
the uuid of that parent and with its container. -/
def GroupParent.entries (p : GroupParent) : List (String × GroupContainer × GroupChild) :=
  p.containers.flatMap (fun c => c.children.map (fun e => (p.uuid, c, e)))

/-- The elements of the page in document order, each with the uuid of its
second-level parent and with its container. -/
def GroupDoc.entries (d : GroupDoc) : List (String × GroupContainer × GroupChild) :=
  d.parents.flatMap GroupParent.entries

/-- The entries of the elements with a given uuid. -/
def GroupDoc.entriesOf (d : GroupDoc) (uuid : String) :
    List (String × GroupContainer × GroupChild) :=
  d.entries.filter (fun x => x.2.2.uuid == uuid)

/-- All containers of the page. -/
def GroupDoc.containers (d : GroupDoc) : List GroupContainer :=
  d.parents.flatMap (fun p => p.containers)

/-- The state of the page between two rounds of `Ungroup` on ids that shared the
container `P` below the second-level parent `S`: the uuids of the second-level
parents are distinct; the first id and the ids still to come are each the
uuid of one element, which is in a container with uuid `P`; each id already
handled is the uuid of one element, which is the only child that is no syl of a
container made after the call began (`n0` is the first address free then);
no id is among the names still to be given out. -/
structure Ungroup.Separated (el : String → GroupChild) (P S id1 : String) (n0 : Nat)
    (moved waiting : List String) (d : GroupDoc) : Prop where
  parents_nodup : (d.parents.map (fun p => p.uuid)).Nodup
  first_stays : ∃ c, d.entriesOf id1 = [(S, c, el id1)] ∧ c.uuid = P
  waiting_in : ∀ u ∈ waiting, ∃ c, d.entriesOf u = [(S, c, el u)] ∧ c.uuid = P
  moved_out : ∀ u ∈ moved, ∃ c, d.entriesOf u = [(S, c, el u)]
    ∧ c.children.filter (fun e => e.cls ≠ ClassId.SYL) = [el u] ∧ n0 ≤ c.addr
  not_fresh : ∀ u ∈ id1 :: (moved ++ waiting), u ∉ d.freshUuids
  addr_le : n0 ≤ d.nextAddr

/-- The smallest rectangle that encloses the given rectangles, in the words of
the specification: minimum left, minimum top, maximum right, maximum bottom
(none for no rectangle). -/
def enclosingRect_spec : List Zone → Option Zone
  | [] => none
  | z :: rest =>
    some (rest.foldl
      (fun box r =>
        { ulx := min box.ulx r.ulx, uly := min box.uly r.uly,
          lrx := max box.lrx r.lrx, lry := max box.lry r.lry })
      z)

/-- The default bounding box of a new syl in the words of the specification:
the rectangle that encloses the zones of the facsimile-bearing descendants of
the syllable, with the top moved by 100, the right edge by 100 and the bottom
by 200. -/
def defaultSylBBox_spec (zones : List Zone) : Option Zone :=
  (enclosingRect_spec zones).map (fun box =>
    { ulx := box.ulx, uly := box.uly + 100, lrx := box.lrx + 100, lry := box.lry + 200 })

/-- A neume for the examples with the zones of its note components. -/
def sampleNeumeWithZones (addr : Nat) (uuid : String) (zones : List Zone) : GroupChild :=
  { addr := addr, uuid := uuid, cls := ClassId.NEUME, ligated := none,
    pitches := [{ pname := 1, oct := 3 }], zone := none, facsZones := zones, text := none }

/-- A syl for the examples with its text and its zone. -/
def sampleSyl (addr : Nat) (uuid text : String) (zone : Zone) : GroupChild :=
  { addr := addr, uuid := uuid, cls := ClassId.SYL, ligated := none, pitches := [],
    zone := some zone, facsZones := [zone], text := some text }

/-- A page seen at the level of the neumes, for the text box of `Group`: the layer
`"l1"` with the syllable `"y1"` (neume `"n1"`, syl `"t1"` with the text "Al"
and the zone (0, 110, 100, 150)) and the syllable `"y2"` (neume `"n2"`, syl
`"t2"` with the text "le" and the zone (50, 100, 80, 140)); the syllables have
the zones (0, 0, 100, 100) and (50, 0, 80, 100). -/
def sampleTextGroupDoc : GroupDoc :=
  { hasDrawingPage := true, m_createDefaultSyl := false, m_createDefaultSylBBox := false,
    parents :=
      [{ uuid := "l1", cls := ClassId.LAYER, hasLayer := true,
         containers :=
           [{ addr := 100, uuid := "y1", cls := ClassId.SYLLABLE,
              zone := some { ulx := 0, uly := 0, lrx := 100, lry := 100 },
              children := [sampleNeume 1 "n1" 1,
                sampleSyl 2 "t1" "Al" { ulx := 0, uly := 110, lrx := 100, lry := 150 }],
              relinquished := [] },
            { addr := 200, uuid := "y2", cls := ClassId.SYLLABLE,
              zone := some { ulx := 50, uly := 0, lrx := 80, lry := 100 },
              children := [sampleNeume 3 "n2" 2,
                sampleSyl 4 "t2" "le" { ulx := 50, uly := 100, lrx := 80, lry := 140 }],
              relinquished := [] }] }],
    surfaceAdded := [],
    surfaceDeleted := [],
    freshUuids := ["new1", "new2", "new3"],
    nextAddr := 1000 }

/-- A page seen at the level of the neumes, for the default bounding box of a
new syl: the options `m_createDefaultSyl` and `m_createDefaultSylBBox` are set; the
layer `"l1"` holds the syllable `"y1"` with the neumes `"n1"` (one zone) and
`"n2"` (note components with the zones (60, 10, 90, 70) and (95, 0, 120, 30)) and
the syllable `"y2"` with the neumes `"n3"` (zone (100, 0, 130, 40)) and `"n4"`
(no zone); the syllables have no zone. -/
def sampleBBoxGroupDoc : GroupDoc :=
  { hasDrawingPage := true, m_createDefaultSyl := true, m_createDefaultSylBBox := true,
    parents :=
      [{ uuid := "l1", cls := ClassId.LAYER, hasLayer := true,
         containers :=
           [{ addr := 100, uuid := "y1", cls := ClassId.SYLLABLE, zone := none,
              children :=
                [sampleNeumeWithZones 1 "n1" [{ ulx := 0, uly := 0, lrx := 50, lry := 50 }],
                 sampleNeumeWithZones 2 "n2"
                   [{ ulx := 60, uly := 10, lrx := 90, lry := 70 },
                    { ulx := 95, uly := 0, lrx := 120, lry := 30 }]],
              relinquished := [] },
            { addr := 200, uuid := "y2", cls := ClassId.SYLLABLE, zone := none,
              children :=
                [sampleNeumeWithZones 3 "n3" [{ ulx := 100, uly := 0, lrx := 130, lry := 40 }],
                 sampleNeumeWithZones 4 "n4" []],
              relinquished := [] }] }],
    surfaceAdded := [],
    surfaceDeleted := [],
    freshUuids := ["new1", "new2", "new3", "new4"],
    nextAddr := 1000 }

/-- The containers of the page between two rounds of `Ungroup` on ids that shared
the container `P`, counted: every container with the uuid `P` is of the class
`CK`, every container made after the call began (`n0` is the first address
free then) is of the class `CK`, and the page has `k` containers more than the
`L0` it had. -/
structure Ungroup.Counted (CK : ClassId) (P : String) (n0 L0 k : Nat) (d : GroupDoc) :
    Prop where
  kind_stays : ∀ c ∈ d.containers, c.uuid = P → c.cls = CK
  kind_made : ∀ c ∈ d.containers, n0 ≤ c.addr → c.cls = CK
  count : d.containers.length = L0 + k

/-- A note component for the examples with the attribute `ligated` set to
false. -/
def sampleNcUnligated (addr : Nat) (uuid : String) (pname : Int) : GroupChild :=
  { sampleNc addr uuid pname with ligated := some false }

/-- A page seen at the level of the note components: one syllable `"y1"` with
the neume `"m1"`, whose note components are `"a"`, `"b"` and `"c"`; `"b"`
carries the attribute `ligated` with the value false. -/
def sampleLigatedGroupDoc : GroupDoc :=
  { hasDrawingPage := true, m_createDefaultSyl := false, m_createDefaultSylBBox := false,
    parents :=
      [{ uuid := "y1", cls := ClassId.SYLLABLE, hasLayer := true,
         containers :=
           [{ addr := 100, uuid := "m1", cls := ClassId.NEUME, zone := none,
              children := [sampleNc 1 "a" 1, sampleNcUnligated 2 "b" 2, sampleNc 3 "c" 3],
              relinquished := [] }] }],
    surfaceAdded := [],
    surfaceDeleted := [],
    freshUuids := ["new1", "new2", "new3"],
    nextAddr := 1000 }

/-- The note components of `sampleGroupDoc` by uuid (`"e"` for any other uuid). -/
def sampleNcOf (uuid : String) : GroupChild :=
  if uuid = "a" then sampleNc 1 "a" 1
  else if uuid = "b" then sampleNc 2 "b" 2
  else if uuid = "c" then sampleNc 3 "c" 3
  else if uuid = "d" then sampleNc 4 "d" 4
  else sampleNc 5 "e" 5

/-! ## Inserting a note component or a grouping -/

/-- An object of the page as the note-component branch of `Insert` builds it. -/
structure InsertObject where
  uuid : String
  cls : ClassId
  /-- Uuid of the parent the object was added to with `AddChild`. -/
  parent : Option String
  /-- The back-reference `GetZone()`: the address of the `Zone` given to `SetZone`. -/
  zone : Option Nat
  /-- The attribute `facs`: the address of the `Zone` whose uuid was given to
  `SetFacs`. -/
  facs : Option Nat
  /-- Pitch (`GetPname()`, `GetOct()`) of a note component; a pitch name that was
  never set is 0 (`PITCHNAME_NONE`). -/
  pitch : Option Pitch
  deriving DecidableEq

/-- The document as the note-component branch of `Insert` sees it: the objects
of the page, the `Zone` objects by address, and the children of the surface
(addresses of zones).  The order of the children of the layer is not part of
this model. -/
structure InsertDoc where
  /-- Whether `m_doc->GetDrawingPage()` is not null. -/
  hasDrawingPage : Bool
  /-- Whether `m_doc->GetType() == Facs`. -/
  isFacs : Bool
  /-- Option `m_createDefaultSylBBox`. -/
  m_createDefaultSylBBox : Bool
  objects : List InsertObject
  zones : List (Nat × Zone)
  surface : List Nat
  deriving DecidableEq

/-- What `Insert` reads from the staff it found. -/
structure InsertStaff where
  /-- Uuid of `staff->FindChildByType(LAYER)`. -/
  layer : String
  /-- Value of `staff->GetZone()->GetUly()`. -/
  zoneUly : Int
  m_drawingLines : Int
  m_drawingStaffSize : Int
  deriving DecidableEq

/-- What lies outside the sources at hand and is taken as given by the
note-component branch of `Insert`: `m_doc->GetDrawingUnit`,
`m_doc->GetDrawingDoubleUnit`, the rectangle of a `new Zone()`, the uuids the
constructors give the syllable, the syl, the neume and the note component,
and the uuid of the i-th note component of the contour. -/
structure InsertEnv where
  GetDrawingUnit : Int → Int
  GetDrawingDoubleUnit : Int → Int
  newZoneRect : Zone
  syllable : String
  syl : String
  neume : String
  nc : String
  newUuid : Nat → String

/-- The address `new Zone()` returns: one that no `Zone` of the document has. -/
def InsertDoc.newZone (d : InsertDoc) : Nat :=
  (d.zones.map (fun e => e.1)).foldl max 0 + 1

/-- The rectangle of the `Zone` at an address. -/
def InsertDoc.zoneAt (d : InsertDoc) (addr : Nat) : Option Zone :=
  (d.zones.find? (fun e => e.1 == addr)).map (fun e => e.2)

/-- The object with a given uuid. -/
def InsertDoc.FindChildByUuid (d : InsertDoc) (uuid : String) : Option InsertObject :=
  d.objects.find? (fun e => e.uuid == uuid)

/-- A new `Zone` with a rectangle, added to the surface: `new Zone()`, the four
setters, `surface->AddChild(zone)`. -/
def InsertDoc.addZone (d : InsertDoc) (rect : Zone) : Nat × InsertDoc :=
  (d.newZone, { d with zones := d.zones ++ [(d.newZone, rect)],
                       surface := d.surface ++ [d.newZone] })

/-- Sets the rectangle of the `Zone` at an address. -/
def InsertDoc.setZone (d : InsertDoc) (addr : Nat) (rect : Zone) : InsertDoc :=
  { d with zones := d.zones.map (fun e => if e.1 = addr then (e.1, rect) else e) }

/-- Changes the object with a given uuid in place. -/
def InsertDoc.modifyObject (d : InsertDoc) (uuid : String) (f : InsertObject → InsertObject) :
    InsertDoc :=
  { d with objects := d.objects.map (fun e => if e.uuid = uuid then f e else e) }

/-- The loop of `Insert` over the contour of a grouping.  `i` counts the rounds,
`ulx` and `uly` are the locals of that name and `prev` is the pitch of `prevNc`.
The result is false, with the document as it is at that point, when a
character is none of `u`, `d`, `s`.
```
for (auto it = contour.begin(); it != contour.end(); ++it) {
    Nc *newNc = new Nc();
    Zone *newZone = new Zone();
    int newUlx = ulx + noteWidth;
    int newUly;
    newNc->SetPname(prevNc->GetPname());
    newNc->SetOct(prevNc->GetOct());
    if ((*it) == 'u') { newUly = uly - noteHeight; newNc->AdjustPitchByOffset(1); }
    else if ((*it) == 'd') { newUly = uly + noteHeight; newNc->AdjustPitchByOffset(-1); }
    else if ((*it) == 's') { newUly = uly; }
    else { LogMessage("Unsupported character in contour."); return false; }
    newZone->SetUlx(newUlx); newZone->SetUly(newUly);
    newZone->SetLrx(newUlx + noteWidth); newZone->SetLry(newUly + noteHeight);
    newNc->SetZone(newZone); newNc->SetFacs(newZone->GetUuid());
    surface->AddChild(newZone);
    neume->AddChild(newNc);
    ulx = newUlx; uly = newUly; prevNc = newNc;
}
``` -/
def Insert_nc.loop (noteWidth noteHeight : Int) (newUuid : Nat → String) (neume : String) :
    List Char → Nat → Int → Int → Pitch → InsertDoc → Bool × InsertDoc
  | [], _, _, _, _, d => (true, d)
  | c :: rest, i, ulx, uly, prev, d =>
    let newUlx := ulx + noteWidth
    let step : Option (Int × Pitch) :=
      if c = 'u' then some (uly - noteHeight, AdjustPitchByOffset prev 1)
      else if c = 'd' then some (uly + noteHeight, AdjustPitchByOffset prev (-1))
      else if c = 's' then some (uly, prev)
      else none
    match step with
    | none => (false, d)
    | some (newUly, pitch) =>
      let (newZone, d1) := d.addZone
        { ulx := newUlx, uly := newUly, lrx := newUlx + noteWidth, lry := newUly + noteHeight }
      let newNc : InsertObject :=
        { uuid := newUuid i, cls := ClassId.NC, parent := some neume, zone := some newZone,
          facs := some newZone, pitch := some pitch }
      Insert_nc.loop noteWidth noteHeight newUuid neume rest (i + 1) newUlx newUly pitch
        { d1 with objects := d1.objects ++ [newNc] }

/-- Method `EditorToolkitNeume::Insert`, the branch
`elementType == "nc" || elementType == "grouping"` with what leads to it.  `staff` is
the staff the call resolved (none for `NULL`) and `GetClef` the result of
`layer->GetClef(nc)` (none for `NULL`).  The tilt of the note component is left
out.  Without a clef the source deletes the syllable, the neume and the note
component and returns false; the zone stays a child of the surface.
```
if (!m_doc->GetDrawingPage()) return false;
if (m_doc->GetType() != Facs) return false;
...
Zone *zone = new Zone();
...
if (staff == NULL) { delete zone; return false; }
...
Syllable *syllable = new Syllable(); Syl *syl = new Syl();
Neume *neume = new Neume(); Nc *nc = new Nc();
nc->SetZone(zone);
nc->SetFacs(zone->GetUuid());
surface->AddChild(zone);
zone->SetUlx(ulx);
neume->AddChild(nc); syllable->AddChild(neume); syllable->AddChild(syl);
layer->AddChild(syllable);
if (m_doc->GetOptions()->m_createDefaultSylBBox.GetValue()) {
    FacsimileInterface *fi = ...(syl->GetFacsimileInterface());
    ...
    Zone *sylZone = new Zone();
    sylZone->SetUlx(ulx + offSetUlx); sylZone->SetUly(uly + offSetUly);
    sylZone->SetLrx(ulx + offSetLrx); sylZone->SetLry(uly + offSetLry);
    surface->AddChild(sylZone);
    fi->SetZone(sylZone);
    syl->SetFacs(zone->GetUuid());
}
clef = layer->GetClef(nc);
if (clef == NULL) { delete syllable; delete neume; delete nc; return false; }
nc->SetOct(3);
if (clef->GetShape() == CLEFSHAPE_C) nc->SetPname(PITCHNAME_c);
else if (clef->GetShape() == CLEFSHAPE_F) nc->SetPname(PITCHNAME_f);
...
const int staffSize = m_doc->GetDrawingUnit(staff->m_drawingStaffSize);
const int noteHeight = (int)(m_doc->GetDrawingDoubleUnit(staff->m_drawingStaffSize) / 2);
const int noteWidth = (int)(m_doc->GetDrawingDoubleUnit(staff->m_drawingStaffSize) / 1.4);
const int pitchDifference = round((double)(staff->GetZone()->GetUly()
    + (2 * staffSize * (staff->m_drawingLines - clef->GetLine())) - (uly)) / (double)(staffSize));
nc->AdjustPitchByOffset(pitchDifference);
ulx -= noteWidth / 2;
uly -= noteHeight / 2;
zone->SetUlx(ulx); zone->SetUly(uly);
zone->SetLrx(ulx + noteWidth); zone->SetLry(uly + noteHeight);
if (contour != "") { ... }
if (elementType == "nc") m_editInfo = nc->GetUuid();
else m_editInfo = neume->GetUuid();
...
layer->ReorderByXPos();
return true;
``` -/
def Insert_nc (env : InsertEnv) (staff : Option InsertStaff) (GetClef : Option Clef)
    (elementType : String) (ulx uly : Int) (attributes : List (String × String))
    (tk : Toolkit InsertDoc) : Outcome (Toolkit InsertDoc) :=
  if !tk.doc.hasDrawingPage then Outcome.returned false tk
  else if !tk.doc.isFacs then Outcome.returned false tk
  else
    match staff with
    | none => Outcome.returned false tk
    | some staff =>
      let (zone, d1) := tk.doc.addZone { env.newZoneRect with ulx := ulx }
      let created : List InsertObject :=
        [{ uuid := env.syllable, cls := ClassId.SYLLABLE, parent := some staff.layer,
           zone := none, facs := none, pitch := none },
         { uuid := env.neume, cls := ClassId.NEUME, parent := some env.syllable,
           zone := none, facs := none, pitch := none },
         { uuid := env.nc, cls := ClassId.NC, parent := some env.neume,
           zone := some zone, facs := some zone, pitch := some { pname := 0, oct := 0 } },
         { uuid := env.syl, cls := ClassId.SYL, parent := some env.syllable,
           zone := none, facs := none, pitch := none }]
      let d2 : InsertDoc := { d1 with objects := d1.objects ++ created }
      let d3 :=
        if d2.m_createDefaultSylBBox then
          let (sylZone, d) := d2.addZone
            { ulx := ulx + 150, uly := uly + 50, lrx := ulx + 350, lry := uly + 250 }
          d.modifyObject env.syl (fun syl => { syl with zone := some sylZone, facs := some zone })
        else d2
      match GetClef with
      | none =>
        Outcome.returned false
          { tk with doc := { d3 with objects := d3.objects.filter (fun e =>
              e.uuid != env.syllable && e.uuid != env.neume && e.uuid != env.nc
                && e.uuid != env.syl) } }
      | some clef =>
        let pname : Int :=
          if clef.shape = ClefShape.CLEFSHAPE_C then 1
          else if clef.shape = ClefShape.CLEFSHAPE_F then 4
          else 0
        let contour := Insert.contour attributes
        let staffSize := env.GetDrawingUnit staff.m_drawingStaffSize
        let h := noteHeight (env.GetDrawingDoubleUnit staff.m_drawingStaffSize)
        let w := noteWidth (env.GetDrawingDoubleUnit staff.m_drawingStaffSize)
        let pitchDifference :=
          roundDiv (staff.zoneUly + (2 * staffSize * (staff.m_drawingLines - clef.line)) - uly)
            staffSize
        let pitch := AdjustPitchByOffset { pname := pname, oct := 3 } pitchDifference
        let ulx1 := ulx - Int.tdiv w 2
        let uly1 := uly - Int.tdiv h 2
        let d4 := (d3.modifyObject env.nc (fun nc => { nc with pitch := some pitch })).setZone
          zone { ulx := ulx1, uly := uly1, lrx := ulx1 + w, lry := uly1 + h }
        match Insert_nc.loop w h env.newUuid env.neume contour.toList 0 ulx1 uly1 pitch d4 with
        | (false, d5) => Outcome.returned false { tk with doc := d5 }
        | (true, d5) =>
          Outcome.returned true
            { doc := d5, m_editInfo := if elementType = "nc" then env.nc else env.neume }

/-- The environment for the examples: unit 45 and double unit 90 for every
staff size, a new zone at (0, 0, 0, 0), and the uuids `"y9"`, `"t9"`, `"m9"`,
`"n9"` and `"k0"`, `"k1"`, ... for the objects created. -/
def sampleInsertEnv : InsertEnv :=
  { GetDrawingUnit := fun _ => 45,
    GetDrawingDoubleUnit := fun _ => 90,
    newZoneRect := { ulx := 0, uly := 0, lrx := 0, lry := 0 },
    syllable := "y9", syl := "t9", neume := "m9", nc := "n9",
    newUuid := fun i => "k" ++ toString i }

/-- A staff for the examples: four lines, zone top at 0, layer `"l1"`. -/
def sampleInsertStaff : InsertStaff :=
  { layer := "l1", zoneUly := 0, m_drawingLines := 4, m_drawingStaffSize := 100 }

/-- A facsimile document for the examples with the option `m_createDefaultSylBBox`
set, one clef `"c1"` in the layer `"l1"` and its zone at address 1. -/
def sampleInsertDoc : InsertDoc :=
  { hasDrawingPage := true, isFacs := true, m_createDefaultSylBBox := true,
    objects := [{ uuid := "c1", cls := ClassId.CLEF, parent := some "l1", zone := some 1,
                  facs := some 1, pitch := none }],
    zones := [(1, { ulx := 10, uly := 100, lrx := 60, lry := 200 })],
    surface := [1] }

/-! ## The calls of the clef drag, in the order they are made -/

/-- A call the clef branch of `Drag` makes once the layer is reordered:
`clef->SetLine(line)` on the dragged clef, or a call of `AdjustPitchForNewClef` or
of `AdjustPitchByOffset` on the pitch interface of one element. -/
inductive ClefDragCall where
  | SetLine (line : Int)
  | AdjustPitchForNewClef (element oldClef newClef : Nat)
  | AdjustPitchByOffset (element : Nat) (pitchOffset : Int)
  deriving DecidableEq

/-- The calls of case 1 of the clef branch of `Drag`, in the order of the source.
```
if (withPrecedingClefBefore.size() > withPrecedingClefAfter.size()) {
    clef->SetLine(clefLine);
    std::set_difference(...);
    for (...) (*iter)->GetPitchInterface()->AdjustPitchForNewClef(precedingClefBefore, clef);
    if (lineDiff != 0) for (... withThisClefBefore ...) ...->AdjustPitchByOffset(lineDiff * -2);
}
else if (withPrecedingClefBefore.size() < withPrecedingClefAfter.size()) {
    std::set_difference(...);
    for (...) (*iter)->GetPitchInterface()->AdjustPitchForNewClef(clef, precedingClefBefore);
    if (lineDiff != 0) for (... withThisClefAfter ...) ...->AdjustPitchByOffset(lineDiff * -2);
    clef->SetLine(clefLine);
}
else {
    clef->SetLine(clefLine);
    if (lineDiff != 0) for (... withThisClefBefore ...) ...->AdjustPitchByOffset(lineDiff * -2);
}
``` -/
def Drag_clef.case1_calls (s : ClefDragSnapshot) (clef : Nat) : List ClefDragCall :=
  let lineDiff := s.clefLine - s.initialClefLine
  let withThisClefAfter := FindAllChildBetween s.moved.objects clef s.nextClefAfter
  let withPrecedingClefAfter :=
    FindAllChildBetween s.moved.objects s.precedingClefBefore (some clef)
  let offsets (elements : List Nat) : List ClefDragCall :=
    if lineDiff ≠ 0 then
      elements.map (fun e => ClefDragCall.AdjustPitchByOffset e (lineDiff * -2))
    else []
  if s.withPrecedingClefBefore.length > withPrecedingClefAfter.length then
    ClefDragCall.SetLine s.clefLine
      :: ((set_difference s.withPrecedingClefBefore withPrecedingClefAfter).map
            (fun e => ClefDragCall.AdjustPitchForNewClef e s.precedingClefBefore clef)
          ++ offsets s.withThisClefBefore)
  else if s.withPrecedingClefBefore.length < withPrecedingClefAfter.length then
    ((set_difference withPrecedingClefAfter s.withPrecedingClefBefore).map
        (fun e => ClefDragCall.AdjustPitchForNewClef e clef s.precedingClefBefore)
      ++ offsets withThisClefAfter)
      ++ [ClefDragCall.SetLine s.clefLine]
  else ClefDragCall.SetLine s.clefLine :: offsets s.withThisClefBefore

/-- The calls of case 2 of the clef branch of `Drag`, in the order of the source.
```
for (... noLongerWithThisClef ...) ...->AdjustPitchForNewClef(clef, precedingClefBefore);
clef->SetLine(clefLine);
for (... newlyWithThisClef ...) ...->AdjustPitchForNewClef(precedingClefAfter, clef);
``` -/
def Drag_clef.case2_calls (s : ClefDragSnapshot) (clef : Nat) : List ClefDragCall :=
  let withOldPrecedingClefAfter :=
    FindAllChildBetween s.moved.objects s.precedingClefBefore s.nextClefBefore
  let withNewPrecedingClefBefore :=
    FindAllChildBetween s.moved.objects s.precedingClefAfter s.nextClefAfter
  let withNewPrecedingClefAfter :=
    FindAllChildBetween s.moved.objects s.precedingClefAfter (some clef)
  (set_difference withOldPrecedingClefAfter s.withPrecedingClefBefore).map
      (fun e => ClefDragCall.AdjustPitchForNewClef e clef s.precedingClefBefore)
    ++ ClefDragCall.SetLine s.clefLine
      :: (set_difference withNewPrecedingClefBefore withNewPrecedingClefAfter).map
          (fun e => ClefDragCall.AdjustPitchForNewClef e s.precedingClefAfter clef)

/-- The calls the clef branch of `Drag` makes on the reordered page, in order. -/
def Drag_clef.calls (pg : NeumePage) (clef : Nat) (x y : Int) : List ClefDragCall :=
  let s := Drag_clef.snapshot pg clef x y
  if s.precedingClefAfter = s.precedingClefBefore ∧ s.nextClefAfter = s.nextClefBefore then
    Drag_clef.case1_calls s clef
  else Drag_clef.case2_calls s clef

/-- What one call does to the page; `clef` is the dragged clef.  The two clefs of
`AdjustPitchForNewClef` are read when the call is made. -/
def ClefDragCall.run (clef : Nat) (pg : NeumePage) : ClefDragCall → NeumePage
  | ClefDragCall.SetLine line => pg.SetLine clef line
  | ClefDragCall.AdjustPitchForNewClef element oldClef newClef =>
    pg.updatePitch element
      (fun p => Vrv.AdjustPitchForNewClef p (pg.clefAt oldClef) (pg.clefAt newClef))
  | ClefDragCall.AdjustPitchByOffset element pitchOffset =>
    pg.updatePitch element (fun p => Vrv.AdjustPitchByOffset p pitchOffset)

/-- The calls in order, each with the line the dragged clef has at the moment
the call is made. -/
def ClefDragCall.timeline (clef : Nat) : NeumePage → List ClefDragCall →
    List (ClefDragCall × Int)
  | _, [] => []
  | pg, call :: rest =>
    (call, (pg.clefAt clef).line) :: ClefDragCall.timeline clef (call.run clef pg) rest

/-- The dragged clef is an object of the page with the given clef data, on a
page without shared addresses to which the layer's current clef does not
belong. -/
def NeumePage.HasClef (pg : NeumePage) (clef : Nat) (c : Clef) : Prop :=
  (pg.objects.map (fun o => o.addr)).Nodup
    ∧ pg.currentClefAddr ∉ pg.objects.map (fun o => o.addr)
    ∧ ∃ o ∈ pg.objects, o.addr = clef ∧ o.kind = PageKind.clef c

/-! ## Insertion of a clef -/

/-- The loop of `Insert` over the attributes of a clef; the shape stays
`CLEFSHAPE_NONE` when no attribute `shape` with the value `C` or `F` is given.
```
for (auto it = attributes.begin(); it != attributes.end(); ++it) {
    if (it->first == "shape") {
        if (it->second == "C") { clefShape = CLEFSHAPE_C; break; }
        else if (it->second == "F") { clefShape = CLEFSHAPE_F; break; }
    }
}
``` -/
def Insert_clef.shape : List (String × String) → ClefShape
  | [] => ClefShape.CLEFSHAPE_NONE
  | (first, second) :: rest =>
    if first = "shape" then
      if second = "C" then ClefShape.CLEFSHAPE_C
      else if second = "F" then ClefShape.CLEFSHAPE_F
      else Insert_clef.shape rest
    else Insert_clef.shape rest

/-- Method `EditorToolkitNeume::Insert`, the branch `elementType == "clef"` and the
common end, on the page seen from the layer of the resolved staff.  `newClef`
is the address of the new clef object, `staffUly` is
`staff->GetZone()->GetUly()`, and the `double` quotient rounds like the exact
one (see `Drag_clef.clefLine`).
```
if (clefShape == CLEFSHAPE_NONE) { LogError(...); delete clef; return false; }
clef->SetShape(clefShape);
const int staffSize = m_doc->GetDrawingDoubleUnit(staff->m_drawingStaffSize);
int yDiff = -staff->GetZone()->GetUly() + uly;
int clefLine = staff->m_drawingLines - round((double) yDiff / (double) staffSize);
clef->SetLine(clefLine);
Zone *zone = new Zone(); zone->SetUlx(ulx); zone->SetUly(uly); ...
layer->AddChild(clef);
m_editInfo = clef->GetUuid();
layer->ReorderByXPos();
Clef *previousClef = ...FindPreviousChildOfType(&ac, clef);
Clef *nextClef = ...FindNextChildOfType(&ac, clef);
if (previousClef == NULL) previousClef = layer->GetCurrentClef();
m_doc->GetDrawingPage()->FindAllChildBetween(&elements, &ic, clef,
    (nextClef != NULL) ? nextClef : m_doc->GetDrawingPage()->GetLast());
for (...) pi->AdjustPitchForNewClef(previousClef, clef);
...
layer->ReorderByXPos();
return true;
``` -/
def Insert_clef (pg : NeumePage) (newClef : Nat) (staffUly m_drawingLines ulx uly : Int)
    (attributes : List (String × String)) : Bool × NeumePage :=
  let clefShape := Insert_clef.shape attributes
  if clefShape = ClefShape.CLEFSHAPE_NONE then (false, pg)
  else
    let staffSize := pg.doubleUnit
    let yDiff := -staffUly + uly
    let clefLine := m_drawingLines - roundDiv yDiff staffSize
    let clef : PageObject :=
      { addr := newClef, hasFacs := true, ulx := ulx, uly := uly,
        kind := PageKind.clef { shape := clefShape, line := clefLine } }
    let pg1 : NeumePage := { pg with layer := ReorderByXPos (pg.layer ++ [clef]) }
    let previousClef := pg1.precedingClef newClef
    let nextClef := pg1.nextClef newClef
    let elements := FindAllChildBetween pg1.objects newClef nextClef
    let pg2 := pg1.AdjustPitchForNewClef elements previousClef newClef
    (true, { pg2 with layer := ReorderByXPos pg2.layer })

/-- The page of `Insert` for a clef after `layer->AddChild(clef)` and the first
`layer->ReorderByXPos()`. -/
def Insert_clef.placed (pg : NeumePage) (clef : PageObject) : NeumePage :=
  { pg with layer := ReorderByXPos (pg.layer ++ [clef]) }

/-! ## Change of the shape of a clef: `SetClef` -/

/-- Modelled from the spec: `Layer::GetClef` (layer.cpp is not among the
sources), the spec's governance relation: "a PitchBearing element's governing
clef is the nearest preceding Clef in the same horizontally-ordered sequence
(its layer), or a layer-default clef if none precedes it".  The layer is the
one of the page at hand; no clef of it precedes an element that is not in
it. -/
def NeumePage.GetClef (pg : NeumePage) (element : Nat) : Nat :=
  if element ∈ pg.layer.map (fun o => o.addr) then
    match ((pg.layer.takeWhile (fun o => o.addr != element)).filter
        PageObject.isClef).getLast? with
    | some o => o.addr
    | none => pg.currentClefAddr
  else pg.currentClefAddr

/-- Modelled from the spec: `Att::SetShared(clef, "shape", shape)` (the attribute
classes are not among the sources), the spec's "a Clef's shape/line is set via
attribute edit" for a clef "with shape ∈ {C, F}": the shape named by the
string, none when the attribute cannot be set. -/
def SetShared_shape (shape : String) : Option ClefShape :=
  if shape = "C" then some ClefShape.CLEFSHAPE_C
  else if shape = "F" then some ClefShape.CLEFSHAPE_F
  else none

/-- A clef object with its shape changed. -/
def PageObject.setShape (o : PageObject) (shape : ClefShape) : PageObject :=
  match o.kind with
  | PageKind.clef c => { o with kind := PageKind.clef { c with shape := shape } }
  | _ => o

/-- The call `clef->SetShape(shape)` on the clef at an address. -/
def NeumePage.SetShape (pg : NeumePage) (addr : Nat) (shape : ClefShape) : NeumePage :=
  pg.mapObjects (fun o => if o.addr = addr then o.setShape shape else o)

/-- The clef behind `dynamic_cast<Clef *>(m_doc->GetDrawingPage()->FindChildByUuid(elementId))`
for the address the id resolves to: none when there is no such object on the
page or when it is no clef. -/
def NeumePage.findClef (pg : NeumePage) (addr : Nat) : Option Clef :=
  match pg.objects.find? (fun o => o.addr == addr) with
  | some o =>
    match o.kind with
    | PageKind.clef c => some c
    | _ => none
  | none => none

/-- The loop of `SetClef` over the pitched elements found after the clef.
```
for (auto it = objects.begin(); it != objects.end(); ++it) {
    Object *child = dynamic_cast<Object *>(*it);
    if (child == NULL || layer->GetClef(dynamic_cast<LayerElement *>(child)) != clef) continue;
    PitchInterface *pi = child->GetPitchInterface();
    assert(pi);
    pi->AdjustPitchByOffset(shift);
}
``` -/
def SetClef.loop (clef : Nat) (shift : Int) (objects : List Nat) (pg : NeumePage) :
    NeumePage :=
  objects.foldl
    (fun q child =>
      if q.GetClef child ≠ clef then q
      else q.updatePitch child (fun p => Vrv.AdjustPitchByOffset p shift))
    pg

/-- Method `EditorToolkitNeume::SetClef` on the page seen from the layer of the clef.
`NDEBUG` tells whether assertions are compiled out, `hasDrawingPage` is
`m_doc->GetDrawingPage() != NULL`, `clef` is the address `FindChildByUuid`
resolves the id to, and `GetNext` is the result of
`m_doc->GetDrawingPage()->GetNext(clef, CLEF)`, a function outside the sources
(none for `NULL`).  The layout that follows for a document that is not a
facsimile touches no pitch and is left out.
```
data_CLEFSHAPE clefShape = CLEFSHAPE_NONE;
int shift = 0;
Clef *clef = dynamic_cast<Clef *>(m_doc->GetDrawingPage()->FindChildByUuid(elementId));
assert(clef);
if (shape == "C") { clefShape = CLEFSHAPE_C; shift = -3; }
else if (shape== "F") { clefShape = CLEFSHAPE_F; shift = 3; }
if(clef->GetShape() != clefShape){
    success = Att::SetShared(clef, "shape", shape);
    if(!success){ LogWarning("Unable to set clef shape"); return false; }
    Layer *layer = dynamic_cast<Layer *>(clef->GetFirstParent(LAYER));
    assert(layer);
    Object *nextClef = m_doc->GetDrawingPage()->GetNext(clef, CLEF);
    assert(nextClef);
    InterfaceComparison ic(INTERFACE_PITCH);
    m_doc->GetDrawingPage()->FindAllChildBetween(&objects, &ic, clef,
        (nextClef != NULL) ? nextClef : m_doc->GetDrawingPage()->GetLast());
    for (...) { ... }
}
...
return true;
``` -/
def SetClef (NDEBUG : Bool) (pg : NeumePage) (hasDrawingPage : Bool) (clef : Nat)
    (shape : String) (GetNext : Option Nat) : Outcome NeumePage :=
  if !hasDrawingPage then Outcome.returned false pg
  else
    match pg.findClef clef with
    | none => Outcome.assertFailed
    | some c =>
      let clefShape :=
        if shape = "C" then ClefShape.CLEFSHAPE_C
        else if shape = "F" then ClefShape.CLEFSHAPE_F
        else ClefShape.CLEFSHAPE_NONE
      let shift : Int := if shape = "C" then -3 else if shape = "F" then 3 else 0
      if c.shape ≠ clefShape then
        match SetShared_shape shape with
        | none => Outcome.returned false pg
        | some newShape =>
          let pg1 := pg.SetShape clef newShape
          if !NDEBUG ∧ GetNext = none then Outcome.assertFailed
          else
            let objects := FindAllChildBetween pg1.objects clef GetNext
            Outcome.returned true (SetClef.loop clef shift objects pg1)
      else Outcome.returned true pg

/-- A page for the examples of `SetClef`:
a C clef on line 3 (address 10), the notes at the addresses 11 and 12, an F
clef on line 2 (address 13) and the notes at the addresses 14 and 15, from
left to right; a note of another layer (address 16) follows. -/
def lastClefPage : NeumePage :=
  { before := [],
    layer :=
      [{ addr := 10, hasFacs := true, ulx := 0, uly := 0,
         kind := PageKind.clef { shape := ClefShape.CLEFSHAPE_C, line := 3 } },
       { addr := 11, hasFacs := true, ulx := 10, uly := 0,
         kind := PageKind.pitched { pname := 1, oct := 3 } },
       { addr := 12, hasFacs := true, ulx := 20, uly := 0,
         kind := PageKind.pitched { pname := 6, oct := 2 } },
       { addr := 13, hasFacs := true, ulx := 30, uly := 0,
         kind := PageKind.clef { shape := ClefShape.CLEFSHAPE_F, line := 2 } },
       { addr := 14, hasFacs := true, ulx := 40, uly := 0,
         kind := PageKind.pitched { pname := 4, oct := 3 } },
       { addr := 15, hasFacs := true, ulx := 50, uly := 0,
         kind := PageKind.pitched { pname := 2, oct := 3 } }],
    after :=
      [{ addr := 16, hasFacs := true, ulx := 5, uly := 300,
         kind := PageKind.pitched { pname := 1, oct := 3 } }],
    currentClefAddr := 1,
    currentClef := { shape := ClefShape.CLEFSHAPE_C, line := 3 },
    m_drawingStaffSize := 33,
    doubleUnit := 59 }

/-- A note component for the examples that is one half of a ligature: the
attribute `ligated` is true and the zone is the one the two halves share. -/
def sampleNcLigated (addr : Nat) (uuid : String) (pname : Int) : GroupChild :=
  { sampleNc addr uuid pname with
      ligated := some true,
      zone := some { ulx := 100, uly := 100, lrx := 150, lry := 150 },
      facsZones := [{ ulx := 100, uly := 100, lrx := 150, lry := 150 }] }

/-- A page seen at the level of the note components: one syllable `"y1"` with
the neume `"m1"`, whose note components `"a"` and `"b"` form a ligature. -/
def sampleLigatureGroupDoc : GroupDoc :=
  { hasDrawingPage := true, m_createDefaultSyl := false, m_createDefaultSylBBox := false,
    parents :=
      [{ uuid := "y1", cls := ClassId.SYLLABLE, hasLayer := true,
         containers :=
           [{ addr := 100, uuid := "m1", cls := ClassId.NEUME, zone := none,
              children := [sampleNcLigated 1 "a" 1, sampleNcLigated 2 "b" 2],
              relinquished := [] }] }],
    surfaceAdded := [],
    surfaceDeleted := [],
    freshUuids := ["new1", "new2", "new3"],
    nextAddr := 1000 }

/-! ## Dragging a pitched element on the page: the two clef lookups -/

/-- Modelled from the spec: `Layer::Clone` followed by `clone->ReorderByXPos()`
(object.cpp and layer.cpp are not among the sources): the clone holds copies of
the children of the layer, new objects with the data of the originals, the
copy of the object at address `a` at the address `Clone a`, in horizontal
order. -/
def NeumePage.reorderedClone (pg : NeumePage) (Clone : Nat → Nat) : List PageObject :=
  ReorderByXPos (pg.layer.map (fun o => { o with addr := Clone o.addr }))

/-- Method `EditorToolkitNeume::Drag`, the branch for an element with the pitch
interface and the common end, on the page seen from the layer of the element
at address `element`.  `unit` is `m_doc->GetDrawingUnit(staff->m_drawingStaffSize)`,
`ignoreFacs` the outcome of the test for the first half of a ligature, and
`Clone` gives the addresses of the copies `layer->Clone()` makes.  The first clef
is searched on the page, the second in the clone, both from the pointer
`element`, which is no object of the clone.  An element whose `hasFacs` is false
is taken to be without the facsimile interface.
```
Clef *clef = dynamic_cast<Clef *>(m_doc->GetDrawingPage()->FindPreviousChildOfType(&ac, element));
if (clef == NULL) clef = layer->GetCurrentClef();
int pitchDifference = round((double) y / (double) m_doc->GetDrawingUnit(staff->m_drawingStaffSize));
element->GetPitchInterface()->AdjustPitchByOffset(pitchDifference);
if (element->HasInterface(INTERFACE_FACSIMILE)) { ... if (!ignoreFacs) { ...
    zone->ShiftByXY(x, pitchDifference * staff->m_drawingStaffSize); } }
Layer *clone = layer->Clone();
clone->ReorderByXPos();
Clef *newClef = dynamic_cast<Clef *>(clone->FindPreviousChildOfType(&ac, element));
if (newClef == NULL) newClef = layer->GetCurrentClef();
element->GetPitchInterface()->AdjustPitchForNewClef(clef, newClef);
...
if (!isChain) { ... layer->ReorderByXPos(); }
return true;
``` -/
def Drag_pitched_page (Clone : Nat → Nat) (unit : Int) (ignoreFacs : Bool) (pg : NeumePage)
    (element : Nat) (x y : Int) (isChain : Bool) : NeumePage :=
  let clef := pg.clefAt (pg.precedingClef element)
  let pitchDifference := roundDiv y unit
  let pg1 := pg.updatePitch element (fun p => Vrv.AdjustPitchByOffset p pitchDifference)
  let pg2 := pg1.mapObjects (fun o =>
    if o.addr = element ∧ o.hasFacs = true ∧ ignoreFacs = false then
      { o with ulx := o.ulx + x, uly := o.uly + pitchDifference * pg.m_drawingStaffSize }
    else o)
  let newClef : Clef :=
    match FindPreviousChildOfType (pg2.reorderedClone Clone) element with
    | some o =>
      match o.kind with
      | PageKind.clef c => c
      | _ => pg2.currentClef
    | none => pg2.currentClef
  let pg3 := pg2.updatePitch element (fun p => Vrv.AdjustPitchForNewClef p clef newClef)
  if !isChain then { pg3 with layer := ReorderByXPos pg3.layer } else pg3

/-- The places of the page where an element can be a child: each container of
the page, with the uuid of its second-level parent, in document order. -/
def GroupDoc.slots (d : GroupDoc) : List (String × GroupContainer) :=
  d.parents.flatMap (fun p => p.containers.map (fun c => (p.uuid, c)))

/-! ## Theorems: pitch and rendering -/

/-- Adjusting by an offset moves the diatonic pitch integer by that offset,
for any stored pitch. -/
theorem GetDiatonicPitch_AdjustPitchByOffset (p : Pitch) (d : Int) :
    GetDiatonicPitch (AdjustPitchByOffset p d) = GetDiatonicPitch p + d := by
  simp only [GetDiatonicPitch, AdjustPitchByOffset]
  omega

/-- The step produced by an adjustment is always a pitch name (1..7). -/
theorem AdjustPitchByOffset_valid (p : Pitch) (d : Int) :
    (AdjustPitchByOffset p d).valid := by
  simp only [Pitch.valid, AdjustPitchByOffset]
  omega

/-- A pitch with a step in 1..7 is determined by its diatonic pitch integer. -/
theorem Pitch.eq_of_diatonic (p q : Pitch) (hp : p.valid) (hq : q.valid)
    (h : GetDiatonicPitch p = GetDiatonicPitch q) : p = q := by
  obtain ⟨pn, po⟩ := p
  obtain ⟨qn, qo⟩ := q
  simp only [Pitch.valid, GetDiatonicPitch] at hp hq h
  have h1 : pn = qn := by omega
  have h2 : po = qo := by omega
  subst h1 h2
  rfl

/-- Adjusting a pitch with a step in 1..7 by zero changes nothing. -/
theorem AdjustPitchByOffset_zero (p : Pitch) (hp : p.valid) :
    AdjustPitchByOffset p 0 = p := by
  apply Pitch.eq_of_diatonic _ _ (AdjustPitchByOffset_valid p 0) hp
  rw [GetDiatonicPitch_AdjustPitchByOffset]
  omega

/-- The rendering of `DrawNc` for a C or F clef, written with the half staff
size `h = staffSize / 2` (truncating): an affine function of the diatonic
pitch integer with slope `h`. -/
theorem DrawNc_affine (staffSize staffLineNumber noteY : Int) (clef : Clef) (nc : Pitch)
    (hs : clef.shape = ClefShape.CLEFSHAPE_C ∨ clef.shape = ClefShape.CLEFSHAPE_F) :
    DrawNc staffSize staffLineNumber noteY clef nc
      = noteY - staffSize * (staffLineNumber - clef.line)
        + (GetDiatonicPitch nc - clefBaseline clef.shape - 21) * Int.tdiv staffSize 2 := by
  rcases hs with h | h
  · simp only [DrawNc, GetDiatonicPitch, h, clefBaseline, if_true]
    ring
  · simp only [DrawNc, GetDiatonicPitch, h, clefBaseline]
    simp
    ring

/-- The rendering of a pitch adjusted for a new clef, under the new clef,
against the rendering of the old pitch under the old clef: they differ by the
odd part of the staff size times the difference of the clef lines. -/
theorem DrawNc_AdjustPitchForNewClef (staffSize staffLineNumber noteY : Int)
    (oldClef newClef : Clef) (p : Pitch)
    (ho : oldClef.shape = ClefShape.CLEFSHAPE_C ∨ oldClef.shape = ClefShape.CLEFSHAPE_F)
    (hn : newClef.shape = ClefShape.CLEFSHAPE_C ∨ newClef.shape = ClefShape.CLEFSHAPE_F) :
    DrawNc staffSize staffLineNumber noteY newClef (AdjustPitchForNewClef p oldClef newClef)
      = DrawNc staffSize staffLineNumber noteY oldClef p
        + (staffSize - 2 * Int.tdiv staffSize 2) * (newClef.line - oldClef.line) := by
  rw [DrawNc_affine _ _ _ _ _ hn, DrawNc_affine _ _ _ _ _ ho, AdjustPitchForNewClef,
    GetDiatonicPitch_AdjustPitchByOffset]
  ring

/-- C4: for a pitch with step in 1..7 and any integer offset d (negative
offsets and negative octaves included), adjusting by d and then by -d gives
the original (step, octave) back; one adjustment adds d to the diatonic pitch
integer step + 7 * octave and leaves a step in 1..7. -/
theorem C4_AdjustPitchByOffset_roundtrip (p : Pitch) (d : Int) (hp : p.valid) :
    AdjustPitchByOffset (AdjustPitchByOffset p d) (-d) = p
      ∧ GetDiatonicPitch (AdjustPitchByOffset p d) = GetDiatonicPitch p + d
      ∧ (AdjustPitchByOffset p d).valid := by
  refine ⟨?_, GetDiatonicPitch_AdjustPitchByOffset p d, AdjustPitchByOffset_valid p d⟩
  apply Pitch.eq_of_diatonic _ _ (AdjustPitchByOffset_valid _ _) hp
  rw [GetDiatonicPitch_AdjustPitchByOffset, GetDiatonicPitch_AdjustPitchByOffset]
  omega

/-- C4 at a concrete pitch: step 7 of octave -1, moved down by nine steps and
back. -/
theorem C4_AdjustPitchByOffset_roundtrip_witness :
    AdjustPitchByOffset (AdjustPitchByOffset { pname := 7, oct := -1 } (-9)) (- -9)
        = { pname := 7, oct := -1 }
      ∧ GetDiatonicPitch (AdjustPitchByOffset { pname := 7, oct := -1 } (-9))
        = GetDiatonicPitch { pname := 7, oct := -1 } + -9
      ∧ (AdjustPitchByOffset { pname := 7, oct := -1 } (-9)).valid :=
  C4_AdjustPitchByOffset_roundtrip { pname := 7, oct := -1 } (-9) (by decide)

/-- C3, as stated, fails for an odd staff size: with staff size 59, four staff
lines, a C clef on line 1 as old clef and a C clef on line 2 as new clef, the
pitch c of octave 3 is drawn at -177 under the old clef and its adjusted pitch
at -176 under the new clef. -/
theorem C3_counterexample :
    DrawNc 59 4 0 { shape := ClefShape.CLEFSHAPE_C, line := 2 }
        (AdjustPitchForNewClef { pname := 1, oct := 3 }
          { shape := ClefShape.CLEFSHAPE_C, line := 1 }
          { shape := ClefShape.CLEFSHAPE_C, line := 2 })
      ≠ DrawNc 59 4 0 { shape := ClefShape.CLEFSHAPE_C, line := 1 } { pname := 1, oct := 3 } := by
  decide

/-- The rendering rule of the specification is an affine function of the
diatonic pitch integer with slope half the staff unit. -/
theorem offsetForPitch_spec_affine (staffUnit lineCount noteY : Int) (clef : Clef) (p : Pitch) :
    offsetForPitch_spec staffUnit lineCount noteY clef p
      = (noteY : ℚ) - (staffUnit : ℚ) * ((lineCount : ℚ) - (clef.line : ℚ))
        + ((GetDiatonicPitch p : ℚ) - (clefBaseline clef.shape : ℚ) - 21) * ((staffUnit : ℚ) / 2) := by
  simp only [offsetForPitch_spec, GetDiatonicPitch]
  push_cast
  ring

/-- C3 (amended): for every pitch, every pair of C or F clefs and every even
staff size (the value `DrawNc` divides by two), the pitch adjusted for the new
clef is drawn by `DrawNc` under the new clef where the old pitch was drawn
under the old clef; for any staff size the two positions differ by
`(staffSize - 2 * (staffSize / 2)) * (newLine - oldLine)`; and under the
rendering rule of the specification, which does not round the half unit, the
two positions are equal for every staff unit. -/
theorem C3_AdjustPitchForNewClef_rendering (staffSize staffLineNumber noteY : Int)
    (oldClef newClef : Clef) (p : Pitch)
    (ho : oldClef.shape = ClefShape.CLEFSHAPE_C ∨ oldClef.shape = ClefShape.CLEFSHAPE_F)
    (hn : newClef.shape = ClefShape.CLEFSHAPE_C ∨ newClef.shape = ClefShape.CLEFSHAPE_F) :
    (staffSize = 2 * Int.tdiv staffSize 2 →
        DrawNc staffSize staffLineNumber noteY newClef (AdjustPitchForNewClef p oldClef newClef)
          = DrawNc staffSize staffLineNumber noteY oldClef p)
      ∧ DrawNc staffSize staffLineNumber noteY newClef (AdjustPitchForNewClef p oldClef newClef)
          = DrawNc staffSize staffLineNumber noteY oldClef p
            + (staffSize - 2 * Int.tdiv staffSize 2) * (newClef.line - oldClef.line)
      ∧ offsetForPitch_spec staffSize staffLineNumber noteY newClef
            (AdjustPitchForNewClef p oldClef newClef)
          = offsetForPitch_spec staffSize staffLineNumber noteY oldClef p := by
  have h := DrawNc_AdjustPitchForNewClef staffSize staffLineNumber noteY oldClef newClef p ho hn
  refine ⟨fun he => ?_, h, ?_⟩
  · rw [h]
    have : staffSize - 2 * Int.tdiv staffSize 2 = 0 := by omega
    rw [this]
    ring
  · rw [offsetForPitch_spec_affine, offsetForPitch_spec_affine, AdjustPitchForNewClef,
      GetDiatonicPitch_AdjustPitchByOffset]
    push_cast
    ring

/-- C3 (amended) at staff size 60, from an F clef on line 3 to a C clef on
line 2, for the pitch g of octave 2. -/
theorem C3_AdjustPitchForNewClef_rendering_witness :
    DrawNc 60 4 0 { shape := ClefShape.CLEFSHAPE_C, line := 2 }
        (AdjustPitchForNewClef { pname := 5, oct := 2 }
          { shape := ClefShape.CLEFSHAPE_F, line := 3 }
          { shape := ClefShape.CLEFSHAPE_C, line := 2 })
      = DrawNc 60 4 0 { shape := ClefShape.CLEFSHAPE_F, line := 3 } { pname := 5, oct := 2 } :=
  (C3_AdjustPitchForNewClef_rendering 60 4 0 { shape := ClefShape.CLEFSHAPE_F, line := 3 }
    { shape := ClefShape.CLEFSHAPE_C, line := 2 } { pname := 5, oct := 2 }
    (Or.inr rfl) (Or.inl rfl)).1 (by decide)

/-- C5, as stated, fails for an odd staff size: with staff size 59, four staff
lines and a C clef on line 1, `DrawNc` puts the pitch d of octave 3 at
-177 + 1 * 29 = -148, the formula with `staffUnit / 2` at -177 + 59 / 2. -/
theorem C5_counterexample :
    ((DrawNc 59 4 0 { shape := ClefShape.CLEFSHAPE_C, line := 1 } { pname := 2, oct := 3 } : Int) : ℚ)
      ≠ offsetForPitch_spec 59 4 0 { shape := ClefShape.CLEFSHAPE_C, line := 1 }
          { pname := 2, oct := 3 } := by
  have h : DrawNc 59 4 0 { shape := ClefShape.CLEFSHAPE_C, line := 1 } { pname := 2, oct := 3 }
      = -148 := by decide
  rw [h]
  simp only [offsetForPitch_spec, clefBaseline]
  norm_num

/-- C5 (amended): for every integer staff size, line count, clef line, step and
octave and a C or F clef, with `h = staffSize / 2` in truncating integer
division, the position `DrawNc` computes is
`clefYPosition + (step - baseline) * h + (octave - 3) * (7 * h)` with baseline 1
for C and 4 for F and `clefYPosition = noteY - staffSize * (lineCount - clefLine)`;
it is an affine function of `step + 7 * octave` with slope `h`, so that going
from step 7 of an octave to step 1 of the next moves by exactly `h`; and for an
even staff size it is the value of the formula with `staffUnit / 2` and
`staffUnit * 3.5`. -/
theorem C5_DrawNc_formula (staffSize staffLineNumber noteY : Int) (clef : Clef) (nc : Pitch)
    (hs : clef.shape = ClefShape.CLEFSHAPE_C ∨ clef.shape = ClefShape.CLEFSHAPE_F) :
    DrawNc staffSize staffLineNumber noteY clef nc
        = (noteY - staffSize * (staffLineNumber - clef.line))
          + (nc.pname - clefBaseline clef.shape) * Int.tdiv staffSize 2
          + (nc.oct - 3) * (7 * Int.tdiv staffSize 2)
      ∧ DrawNc staffSize staffLineNumber noteY clef nc
        = (noteY - staffSize * (staffLineNumber - clef.line)
            - (clefBaseline clef.shape + 21) * Int.tdiv staffSize 2)
          + Int.tdiv staffSize 2 * GetDiatonicPitch nc
      ∧ DrawNc staffSize staffLineNumber noteY clef { pname := 1, oct := nc.oct + 1 }
          - DrawNc staffSize staffLineNumber noteY clef { pname := 7, oct := nc.oct }
        = Int.tdiv staffSize 2
      ∧ (staffSize = 2 * Int.tdiv staffSize 2 →
          ((DrawNc staffSize staffLineNumber noteY clef nc : Int) : ℚ)
            = offsetForPitch_spec staffSize staffLineNumber noteY clef nc) := by
  have h := DrawNc_affine staffSize staffLineNumber noteY clef nc hs
  refine ⟨?_, ?_, ?_, ?_⟩
  · rw [h, GetDiatonicPitch]
    ring
  · rw [h]
    ring
  · rw [DrawNc_affine _ _ _ _ _ hs, DrawNc_affine _ _ _ _ _ hs]
    simp only [GetDiatonicPitch]
    ring
  · intro he
    rw [h]
    simp only [offsetForPitch_spec, GetDiatonicPitch]
    have hq : (staffSize : ℚ) = 2 * ((Int.tdiv staffSize 2 : Int) : ℚ) := by
      exact_mod_cast he
    push_cast
    rw [hq]
    ring

/-- C5 (amended) at staff size 60 with four lines, an F clef on line 3 and the
pitch g of octave 2. -/
theorem C5_DrawNc_formula_witness :
    DrawNc 60 4 0 { shape := ClefShape.CLEFSHAPE_F, line := 3 } { pname := 5, oct := 2 }
        = ((0 : Int) - 60 * (4 - ({ shape := ClefShape.CLEFSHAPE_F, line := 3 } : Clef).line))
          + ((({ pname := 5, oct := 2 } : Pitch).pname)
              - clefBaseline ({ shape := ClefShape.CLEFSHAPE_F, line := 3 } : Clef).shape)
            * Int.tdiv 60 2
          + ((({ pname := 5, oct := 2 } : Pitch).oct) - 3) * (7 * Int.tdiv 60 2) :=
  (C5_DrawNc_formula 60 4 0 { shape := ClefShape.CLEFSHAPE_F, line := 3 }
    { pname := 5, oct := 2 } (Or.inr rfl)).1

/-- The rounded quotient of zero is zero. -/
theorem roundDiv_zero (u : Int) : roundDiv 0 u = 0 := by
  simp [roundDiv]

/-- The rounded quotient of a non-zero number by itself is one. -/
theorem roundDiv_self (u : Int) (hu : u ≠ 0) : roundDiv u u = 1 := by
  have hn : 0 < u.natAbs := Int.natAbs_pos.mpr hu
  have h1 : (2 * u.natAbs + u.natAbs) / (2 * u.natAbs) = 1 := by
    apply Nat.div_eq_of_lt_le <;> omega
  simp only [roundDiv, h1]
  rcases Int.lt_or_gt_of_ne hu with h | h
  · rw [Int.sign_eq_neg_one_of_neg h]
    norm_num
  · rw [Int.sign_eq_one_of_pos h]
    norm_num

/-- Arithmetic behind `roundDiv_nearest`, on signs and absolute values. -/
theorem roundDiv_nearest_aux (sy su A B Q : Int) (hsu : su = 1 ∨ su = -1)
    (hsy : sy = 1 ∨ sy = -1 ∨ sy = 0) (hlo : Q * (2 * B) ≤ 2 * A + B)
    (hhi : 2 * A + B < (Q + 1) * (2 * B)) (hB : 0 < B) :
    2 * |sy * su * Q * (su * B) - sy * A| ≤ B := by
  have h2 : (2 : Int) * |sy * su * Q * (su * B) - sy * A|
      = |2 * (sy * su * Q * (su * B) - sy * A)| := by
    rw [abs_mul, abs_two]
  rw [h2, abs_le]
  rcases hsu with su1 | su1 <;> rcases hsy with sy1 | sy1 | sy1 <;> subst su1 <;> subst sy1 <;>
    constructor <;> nlinarith

/-- The rounded quotient is a nearest integer: it misses the exact quotient by
at most one half. -/
theorem roundDiv_nearest (y u : Int) (hu : u ≠ 0) :
    2 * |roundDiv y u * u - y| ≤ |u| := by
  have hn : 0 < u.natAbs := Int.natAbs_pos.mpr hu
  have hlo : (2 * y.natAbs + u.natAbs) / (2 * u.natAbs) * (2 * u.natAbs)
      ≤ 2 * y.natAbs + u.natAbs := Nat.div_mul_le_self _ _
  have hhi : 2 * y.natAbs + u.natAbs
      < ((2 * y.natAbs + u.natAbs) / (2 * u.natAbs) + 1) * (2 * u.natAbs) := by
    have := Nat.lt_div_mul_add (a := 2 * y.natAbs + u.natAbs) (b := 2 * u.natAbs) (by omega)
    linarith
  unfold roundDiv
  generalize (2 * y.natAbs + u.natAbs) / (2 * u.natAbs) = q at hlo hhi
  have hlo1 : (q : Int) * (2 * (u.natAbs : Int)) ≤ 2 * (y.natAbs : Int) + u.natAbs := by
    exact_mod_cast hlo
  have hhi1 : 2 * (y.natAbs : Int) + u.natAbs < ((q : Int) + 1) * (2 * (u.natAbs : Int)) := by
    exact_mod_cast hhi
  have hy : Int.sign y * (y.natAbs : Int) = y := Int.sign_mul_natAbs y
  have hu2 : Int.sign u * (u.natAbs : Int) = u := Int.sign_mul_natAbs u
  have hB : |u| = (u.natAbs : Int) := (Int.natCast_natAbs u).symm
  have hsu : Int.sign u = 1 ∨ Int.sign u = -1 := by
    rcases Int.lt_or_gt_of_ne hu with h | h
    · right; exact Int.sign_eq_neg_one_of_neg h
    · left; exact Int.sign_eq_one_of_pos h
  have hsy : Int.sign y = 1 ∨ Int.sign y = -1 ∨ Int.sign y = 0 := by
    rcases lt_trichotomy y 0 with h | h | h
    · right; left; exact Int.sign_eq_neg_one_of_neg h
    · right; right; rw [h]; rfl
    · left; exact Int.sign_eq_one_of_pos h
  have key := roundDiv_nearest_aux (Int.sign y) (Int.sign u) y.natAbs u.natAbs q hsu hsy
    hlo1 hhi1 (by exact_mod_cast hn)
  rw [hy, hu2] at key
  rw [hB]
  exact key

/-- Adjusting for a "new" clef that is the old one leaves a pitch with a step
in 1..7 as it is. -/
theorem AdjustPitchForNewClef_same (p : Pitch) (clef : Clef) (hp : p.valid) :
    AdjustPitchForNewClef p clef clef = p := by
  have h0 : -2 * (clef.line - clef.line)
      + (clefBaseline clef.shape - clefBaseline clef.shape) = 0 := by ring
  rw [AdjustPitchForNewClef, h0]
  exact AdjustPitchByOffset_zero p hp

/-- The pitch a drag leaves in an element when its two clef lookups give the
same clef: the old pitch adjusted by the rounded quotient of the vertical delta and the
unit. -/
theorem Drag_pitched_pitch (unit drawingStaffSize : Int) (clef : Clef) (x y : Int)
    (element : PitchedElement) :
    (Drag_pitched unit drawingStaffSize clef clef x y element).pitch
      = AdjustPitchByOffset element.pitch (roundDiv y unit) := by
  simp only [Drag_pitched]
  exact AdjustPitchForNewClef_same _ _ (AdjustPitchByOffset_valid _ _)

/-- When the two clef lookups of `Drag` give the same clef: for a pitched element
(step in 1..7) and a non-zero staff unit, `Drag` with vertical delta 0 leaves
(step, octave) unchanged, `Drag` with vertical delta equal to the unit raises
the diatonic pitch integer by exactly 1, and in general the diatonic pitch
integer changes by round(deltaY / unit), the integer nearest to the quotient. -/
theorem Drag_pitched_equal_lookups (unit drawingStaffSize : Int) (clef : Clef) (x y : Int)
    (element : PitchedElement) (hu : unit ≠ 0) (hp : element.pitch.valid) :
    (Drag_pitched unit drawingStaffSize clef clef x 0 element).pitch = element.pitch
      ∧ GetDiatonicPitch (Drag_pitched unit drawingStaffSize clef clef x unit element).pitch
          = GetDiatonicPitch element.pitch + 1
      ∧ GetDiatonicPitch (Drag_pitched unit drawingStaffSize clef clef x y element).pitch
          = GetDiatonicPitch element.pitch + roundDiv y unit
      ∧ 2 * |roundDiv y unit * unit - y| ≤ |unit| := by
  refine ⟨?_, ?_, ?_, roundDiv_nearest y unit hu⟩
  · rw [Drag_pitched_pitch, roundDiv_zero]
    exact AdjustPitchByOffset_zero _ hp
  · rw [Drag_pitched_pitch, roundDiv_self unit hu, GetDiatonicPitch_AdjustPitchByOffset]
  · rw [Drag_pitched_pitch, GetDiatonicPitch_AdjustPitchByOffset]

/-- A note component on b of octave 2 for which both lookups give a C clef on
line 3, with unit 9, dragged by 9 upwards: it becomes c of octave 3. -/
theorem Drag_pitched_equal_lookups_instance :
    (Drag_pitched 9 100 { shape := ClefShape.CLEFSHAPE_C, line := 3 }
        { shape := ClefShape.CLEFSHAPE_C, line := 3 } 4 0
        { pitch := { pname := 7, oct := 2 }, hasFacsimileInterface := true,
          zone := { ulx := 0, uly := 0, lrx := 10, lry := 10 }, isNc := true,
          ligated := false, nextNcSharesZone := false }).pitch = { pname := 7, oct := 2 }
      ∧ GetDiatonicPitch (Drag_pitched 9 100 { shape := ClefShape.CLEFSHAPE_C, line := 3 }
        { shape := ClefShape.CLEFSHAPE_C, line := 3 } 4 9
        { pitch := { pname := 7, oct := 2 }, hasFacsimileInterface := true,
          zone := { ulx := 0, uly := 0, lrx := 10, lry := 10 }, isNc := true,
          ligated := false, nextNcSharesZone := false }).pitch
          = GetDiatonicPitch { pname := 7, oct := 2 } + 1 :=
  have h := Drag_pitched_equal_lookups 9 100 { shape := ClefShape.CLEFSHAPE_C, line := 3 } 4 9
    { pitch := { pname := 7, oct := 2 }, hasFacsimileInterface := true,
      zone := { ulx := 0, uly := 0, lrx := 10, lry := 10 }, isNc := true,
      ligated := false, nextNcSharesZone := false } (by decide) (by decide)
  ⟨h.1, h.2.1⟩

/-- With `status` true on entry, the loop of `Chain` ends with `status` true,
whatever the sub-edits return. -/
theorem Chain.loop_status {α δ : Type} (parse : α → Bool → Toolkit δ → Outcome (Toolkit δ))
    (actions : List (ChainEntry α)) (i : Nat) (locals locals1 : ChainLocals)
    (tk tk1 : Toolkit δ) (hs : locals.status = true)
    (h : Chain.loop parse actions i locals tk = ChainLoop.finished locals1 tk1) :
    locals1.status = true := by
  induction actions generalizing i locals tk with
  | nil =>
    simp only [Chain.loop, ChainLoop.finished.injEq] at h
    rw [← h.1]
    exact hs
  | cons entry rest ih =>
    simp only [Chain.loop] at h
    split at h
    · simp at h
    · split at h
      · simp at h
      · exact ih _ _ _ (by split <;> simp [hs]) h

/-- On an array whose entries are all objects, `Chain` returns true whenever it
returns: the results of the sub-edits do not reach the returned status. -/
theorem Chain_status {α δ : Type} (parse : α → Bool → Toolkit δ → Outcome (Toolkit δ))
    (reorderLayerOf : String → δ → Option δ) (actions : List (ChainEntry α))
    (tk tk1 : Toolkit δ) (b : Bool) (hobj : ∀ e ∈ actions, e.isObject = true)
    (h : Chain parse reorderLayerOf actions tk = Outcome.returned b tk1) : b = true := by
  unfold Chain at h
  split at h
  · simp at h
  · rename_i tk2 hl
    exfalso
    clear h
    generalize (0 : Nat) = i at hl
    generalize ({ status := true, info := "[", runReorder := false, id := "" } : ChainLocals)
      = locals at hl
    induction actions generalizing i locals tk with
    | nil => simp [Chain.loop] at hl
    | cons entry rest ih =>
      simp only [Chain.loop] at hl
      have ho := hobj entry (List.mem_cons_self _ _)
      simp only [ho, Bool.not_true, Bool.false_eq_true, if_false] at hl
      split at hl
      · simp at hl
      · exact ih _ (fun e he => hobj e (List.mem_cons_of_mem _ he)) _ _ hl
  · rename_i locals1 tk2 hl
    have hst := Chain.loop_status parse actions 0 _ locals1 tk tk2 rfl hl
    simp only [hst, Bool.true_and] at h
    split at h
    · split at h
      · simp at h
      · simp only [Outcome.returned.injEq] at h
        exact h.1.symm
    · simp only [Outcome.returned.injEq] at h
      exact h.1.symm

/-- C1: the code at the failing input.  On a chain of one action object that
`ParseEditorAction` rejects (it returns false), `Chain` returns true: `status`
starts as `true` and is only ever or-ed with the sub-edit results. -/
theorem C1_Chain_failed_subedit_returns_true :
    (ParseEditorAction (EditorAction.rejected "foo") true
        { doc := sampleTraceDoc, m_editInfo := "" }).status? = some false
      ∧ (ChainActions [EditorAction.rejected "foo"]
        { doc := sampleTraceDoc, m_editInfo := "" }).status? = some true := by
  decide

/-- Adding an element appends it and leaves the reorder record alone. -/
theorem TraceDoc.AddChild_elements (d : TraceDoc) (el : TraceElement) :
    (d.AddChild el).2.elements = d.elements ++ [((d.AddChild el).1, el)]
      ∧ (d.AddChild el).2.reorders = d.reorders := by
  unfold TraceDoc.AddChild
  cases d.freshUuids <;> simp

/-- A successful `Insert` appends one recorded element and makes the reorder
calls of its element type, all of them inside `Insert`. -/
theorem Insert_returned_true (elementType staffId : String)
    (attributes : List (String × String)) (tk1 tk2 : Toolkit TraceDoc)
    (h : Insert elementType staffId attributes tk1 = Outcome.returned true tk2) :
    (∃ uuid el, tk2.doc.elements = tk1.doc.elements ++ [(uuid, el)])
      ∧ tk2.doc.reorders = tk1.doc.reorders ++ Insert.ownReorders elementType := by
  unfold Insert at h
  unfold Insert.ownReorders
  split at h
  · simp at h
  split at h
  · simp at h
  split at h
  · rename_i hst
    simp only [Outcome.returned.injEq, true_and] at h
    subst h
    have := TraceDoc.AddChild_elements tk1.doc { cls := DragClass.STAFF, hasLayer := true, hasFacs := true }
    simp [hst, this]
  rename_i hst
  split at h
  · simp at h
  split at h
  · rename_i hnc
    have hclef : elementType ≠ "clef" := by
      rcases hnc with h1 | h1 <;> rw [h1] <;> decide
    split at h
    · simp at h
    generalize (if elementType = "nc" then DragClass.pitched else DragClass.NEUME) = cls at h
    split at h
    · simp only [Outcome.returned.injEq, true_and] at h
      subst h
      have := TraceDoc.AddChild_elements tk1.doc { cls := cls, hasLayer := true, hasFacs := true }
      simp [hst, hclef, this, TraceDoc.ReorderByXPos]
    · simp at h
  split at h
  · rename_i hc
    split at h
    · simp at h
    · simp only [Outcome.returned.injEq, true_and] at h
      subst h
      have := TraceDoc.AddChild_elements tk1.doc
        { cls := DragClass.CLEF, hasLayer := true, hasFacs := true }
      simp [hst, hc, this, TraceDoc.ReorderByXPos]
  rename_i hc
  split at h
  · split at h
    · simp at h
    · simp only [Outcome.returned.injEq, true_and] at h
      subst h
      have := TraceDoc.AddChild_elements tk1.doc
        { cls := DragClass.pitched, hasLayer := true, hasFacs := true }
      simp [hst, hc, this, TraceDoc.ReorderByXPos]
  · simp at h


/-- Inside a chain a successful `Drag` keeps the recorded elements and makes the
reorder calls of its target class: one for a clef, none otherwise. -/
theorem Drag_chain_returned_true (elementId : String) (tk tk1 : Toolkit TraceDoc)
    (el : TraceElement) (hel : tk.doc.FindChildByUuid elementId = some el)
    (h : Drag elementId true tk = Outcome.returned true tk1) :
    tk1.doc.elements = tk.doc.elements
      ∧ tk1.doc.reorders = tk.doc.reorders ++ Drag.ownReorders el.cls := by
  unfold Drag at h
  simp only [hel] at h
  split at h
  · simp at h
  · cases hc : el.cls <;> simp only [hc, Drag.finish] at h <;>
      first
      | (split at h <;> simp at h <;> subst h <;>
          simp [Drag.ownReorders, TraceDoc.ReorderByXPos])
      | (simp at h)

/-- An element that is found stays found after elements are appended. -/
theorem FindChildByUuid_append (d1 d2 : TraceDoc) (uuid : String) (el : TraceElement)
    (extra : List (String × TraceElement))
    (he : d2.elements = d1.elements ++ extra)
    (h : d1.FindChildByUuid uuid = some el) : d2.FindChildByUuid uuid = some el := by
  unfold TraceDoc.FindChildByUuid at h ⊢
  rw [he, List.find?_append]
  cases hf : d1.elements.find? (fun e => e.1 == uuid) with
  | none => simp [hf] at h
  | some e => simpa [hf] using h

/-- C2 (amended): in a chain of one successful drag followed by one successful
insert, `Chain` itself calls `ReorderByXPos` on the document's layer exactly
once, after both sub-edits have run; the drag, run in chain mode, makes no such
call, except that the branch for a clef reorders the layer once between its two
snapshots; and the insert, which has no chain mode, makes its own calls before
it returns (none for a staff, one for a note component, grouping or custos,
two for a clef). -/
theorem C2_chain_drag_insert_reorders (tk : Toolkit TraceDoc) {tk1 tk2 : Toolkit TraceDoc}
    (elementId : String)
    (x y : Int) (elementType staffId : String) (ulx uly lrx lry : Int)
    (attributes : List (String × String)) (el : TraceElement)
    (hel : tk.doc.FindChildByUuid elementId = some el)
    (hlayer : el.hasLayer = true)
    (hdrag : Drag elementId true tk = Outcome.returned true tk1)
    (hins : Insert elementType staffId attributes tk1 = Outcome.returned true tk2) :
    tk1.doc.reorders = tk.doc.reorders ++ Drag.ownReorders el.cls
      ∧ tk2.doc.reorders
          = tk.doc.reorders ++ Drag.ownReorders el.cls ++ Insert.ownReorders elementType
      ∧ (ChainActions [EditorAction.drag elementId x y,
            EditorAction.insert elementType staffId ulx uly lrx lry attributes] tk).reorders?
          = some (tk.doc.reorders ++ Drag.ownReorders el.cls ++ Insert.ownReorders elementType
              ++ [ReorderSite.inChain])
      ∧ (ChainActions [EditorAction.drag elementId x y,
            EditorAction.insert elementType staffId ulx uly lrx lry attributes] tk).status?
          = some true := by
  obtain ⟨hde, hdr⟩ := Drag_chain_returned_true elementId tk tk1 el hel hdrag
  obtain ⟨⟨uuid, el2, hel2⟩, hre⟩ := Insert_returned_true elementType staffId attributes tk1 tk2 hins
  rw [hde] at hel2
  rw [hdr] at hre
  have hfind : tk2.doc.FindChildByUuid elementId = some el :=
    FindChildByUuid_append tk.doc tk2.doc elementId el _ hel2 hel
  refine ⟨hdr, hre, ?_, ?_⟩ <;>
    simp [ChainActions, Chain, Chain.loop, EditorAction.entry, ParseEditorAction, hdrag, hins,
      Chain.reorderLayerOf, hfind, hlayer, Outcome.reorders?, Outcome.status?,
      TraceDoc.ReorderByXPos, hre]

/-- C2, as stated, fails: in the chain of a successful drag of the note
component `"n1"` followed by a successful insert of a note component,
`ReorderByXPos` is called twice on the document's layer, the first time inside
`Insert`. -/
theorem C2_counterexample :
    (Drag "n1" true { doc := sampleTraceDoc, m_editInfo := "" }).status? = some true
      ∧ (Insert "nc" "auto" [] { doc := sampleTraceDoc, m_editInfo := "" }).status? = some true
      ∧ (ChainActions [EditorAction.drag "n1" 5 0, EditorAction.insert "nc" "auto" 0 0 10 10 []]
          { doc := sampleTraceDoc, m_editInfo := "" }).reorders?
        = some [ReorderSite.inInsert, ReorderSite.inChain] := by
  decide

/-- C2 (amended) on the sample document: the clef `"c1"` is dragged and a
custos is inserted on staff `"s1"`; the layer is reordered inside the drag,
inside the insert, and once by the chain at the end. -/
theorem C2_chain_drag_insert_reorders_witness :
    (ChainActions [EditorAction.drag "c1" 3 4, EditorAction.insert "custos" "s1" 0 0 10 10 []]
        { doc := sampleTraceDoc, m_editInfo := "" }).reorders?
      = some (sampleTraceDoc.reorders ++ Drag.ownReorders DragClass.CLEF
          ++ Insert.ownReorders "custos" ++ [ReorderSite.inChain]) :=
  (C2_chain_drag_insert_reorders { doc := sampleTraceDoc, m_editInfo := "" } "c1" 3 4
    "custos" "s1" 0 0 10 10 [] { cls := DragClass.CLEF, hasLayer := true, hasFacs := true }
    (by decide) rfl rfl rfl).2.2.1

/-- The new staff is among the children after it was given its place. -/
theorem Insert_staff.mem_place (h : Helpers) (staves : List Staff) (newStaff : Staff) :
    newStaff ∈ Insert_staff.place h staves newStaff := by
  unfold Insert_staff.place
  simp only
  split
  · rename_i hi
    rw [List.mem_insertIdx]
    · left; rfl
    · rw [List.length_insertionSort] at hi
      simp at hi
      omega
  · simp

/-- In a facsimile document whose staves have more than one line, inserting a
staff next to the closest one succeeds, reports the new uuid, and the new uuid
resolves to a staff. -/
theorem Insert_staff_auto (h : Helpers) (newUuid : String) (ulx uly lrx lry : Int)
    (tk : Toolkit StaffDoc) (hpage : tk.doc.hasDrawingPage = true)
    (hfacs : tk.doc.isFacs = true) (hlines : ∀ s ∈ tk.doc.staves, s.m_drawingLines ≠ 1) :
    ∃ tk1, Insert_staff h newUuid "auto" ulx uly lrx lry tk = Outcome.returned true tk1
      ∧ tk1.m_editInfo = newUuid ∧ (tk1.doc.findStaff newUuid).isSome = true := by
  unfold Insert_staff
  simp only [hpage, hfacs, Bool.not_true, Bool.false_eq_true, if_false, if_true]
  have hl : Insert_staff.drawingLines ((tk.doc.staves.insertionSort
      (fun a b => h.ClosestBB ulx uly a b = true)).head?) - 1 ≠ 0 := by
    cases hh : (tk.doc.staves.insertionSort (fun a b => h.ClosestBB ulx uly a b = true)).head? with
    | none => simp [Insert_staff.drawingLines]
    | some s =>
      have hm : s ∈ tk.doc.staves := by
        have := List.mem_of_mem_head? hh
        exact (List.perm_insertionSort _ _).mem_iff.mp this
      have := hlines s hm
      simp only [Insert_staff.drawingLines]
      omega
  rw [if_neg hl]
  refine ⟨_, rfl, rfl, ?_⟩
  simp only [StaffDoc.findStaff]
  rw [List.find?_isSome]
  exact ⟨_, Insert_staff.mem_place h _ _, by simp⟩

/-- C10: for an existing staff with zone [left, right], `Split` returns false
and leaves the document (and `m_editInfo`) as they were whenever x < left or
x > right; for every x with left <= x <= right the bounds check lets the call
through: in a facsimile document (whose staves have more than one line) the
split is then carried out and returns true. -/
theorem C10_Split_bounds (h : Helpers) (newUuid elementId : String) (x : Int)
    (tk : Toolkit StaffDoc) (staff : Staff) (hpage : tk.doc.hasDrawingPage = true)
    (hstaff : tk.doc.findStaff elementId = some staff) :
    ((x < staff.zone.ulx ∨ staff.zone.lrx < x) →
        Split h newUuid elementId x tk = Outcome.returned false tk)
      ∧ (staff.zone.ulx ≤ x → x ≤ staff.zone.lrx → tk.doc.isFacs = true →
          (∀ s ∈ tk.doc.staves, s.m_drawingLines ≠ 1) →
          ∃ tk1, Split h newUuid elementId x tk = Outcome.returned true tk1) := by
  constructor
  · intro hx
    unfold Split
    simp only [hpage, hstaff, Bool.not_true, Bool.false_eq_true, if_false]
    have : (decide (staff.zone.ulx > x) || decide (staff.zone.lrx < x)) = true := by
      rcases hx with h1 | h1 <;> simp [h1]
    rw [if_pos this]
  · intro h1 h2 hfacs hlines
    obtain ⟨tk1, hins, hinfo, hsome⟩ :=
      Insert_staff_auto h newUuid x staff.zone.uly staff.zone.lrx staff.zone.lry tk hpage hfacs hlines
    unfold Split
    simp only [hpage, hstaff, Bool.not_true, Bool.false_eq_true, if_false]
    have : ¬ ((decide (staff.zone.ulx > x) || decide (staff.zone.lrx < x)) = true) := by
      simp
      omega
    rw [if_neg this]
    simp only [hins, hinfo]
    cases hf : tk1.doc.findStaff newUuid with
    | none => simp [hf] at hsome
    | some splitStaff => exact ⟨_, rfl⟩

/-- C10 on the sample document, for the staff `"a"` with zone [0, 100]: x = 101
is rejected and nothing changes, x = 100 is let through and the split is
carried out. -/
theorem C10_Split_bounds_witness :
    Split sampleHelpers "n" "a" 101 { doc := sampleStaffDoc, m_editInfo := "before" }
        = Outcome.returned false { doc := sampleStaffDoc, m_editInfo := "before" }
      ∧ ∃ tk1, Split sampleHelpers "n" "a" 100 { doc := sampleStaffDoc, m_editInfo := "before" }
        = Outcome.returned true tk1 :=
  ⟨(C10_Split_bounds sampleHelpers "n" "a" 101 { doc := sampleStaffDoc, m_editInfo := "before" }
      { uuid := "a", zone := { ulx := 0, uly := 0, lrx := 100, lry := 50 },
        layer :=
          [{ uuid := "c1", ownZone := some { ulx := 10, uly := 0, lrx := 20, lry := 5 },
             descendantZones := [] },
           { uuid := "c2", ownZone := none,
             descendantZones := [{ ulx := 70, uly := 0, lrx := 80, lry := 5 },
                                 { ulx := 60, uly := 0, lrx := 65, lry := 5 }] },
           { uuid := "c3", ownZone := none, descendantZones := [] }],
        m_drawingLines := 4, m_drawingStaffSize := 16 } rfl rfl).1 (Or.inr (by decide)),
   (C10_Split_bounds sampleHelpers "n" "a" 100 { doc := sampleStaffDoc, m_editInfo := "before" }
      { uuid := "a", zone := { ulx := 0, uly := 0, lrx := 100, lry := 50 },
        layer :=
          [{ uuid := "c1", ownZone := some { ulx := 10, uly := 0, lrx := 20, lry := 5 },
             descendantZones := [] },
           { uuid := "c2", ownZone := none,
             descendantZones := [{ ulx := 70, uly := 0, lrx := 80, lry := 5 },
                                 { ulx := 60, uly := 0, lrx := 65, lry := 5 }] },
           { uuid := "c3", ownZone := none, descendantZones := [] }],
        m_drawingLines := 4, m_drawingStaffSize := 16 } rfl rfl).2
     (by decide) (by decide) rfl (by decide)⟩

/-- When every id resolves, the first loop of `Merge` ends with the staves the
ids resolve to and the accumulated locals. -/
theorem Merge.collect_eq (d : StaffDoc) (ids : List String)
    (hres : ∀ id ∈ ids, (d.findStaff id).isSome = true) (acc : List Staff) (box : Zone) :
    Merge.collect d ids (acc, box)
      = some (acc ++ d.resolve ids, Merge.box (d.resolve ids) box) := by
  induction ids generalizing acc box with
  | nil => simp [Merge.collect, Merge.box, StaffDoc.resolve]
  | cons id rest ih =>
    have h1 := hres id (List.mem_cons_self _ _)
    cases hf : d.findStaff id with
    | none => simp [hf] at h1
    | some obj =>
      simp only [Merge.collect, hf, List.filterMap_cons, StaffDoc.resolve]
      rw [ih (fun i hi => hres i (List.mem_cons_of_mem _ hi))]
      simp [Merge.box, StaffDoc.resolve]

/-- The locals `uly` and `lry` accumulate the sums of the tops and bottoms. -/
theorem Merge.box_sums (sel : List Staff) (box : Zone) :
    (Merge.box sel box).uly = box.uly + (sel.map (fun s => s.zone.uly)).sum
      ∧ (Merge.box sel box).lry = box.lry + (sel.map (fun s => s.zone.lry)).sum := by
  induction sel generalizing box with
  | nil => simp [Merge.box]
  | cons s rest ih =>
    have := ih (Merge.step box s.zone)
    simp only [Merge.box, List.foldl_cons, List.map_cons, List.sum_cons] at this ⊢
    constructor
    · rw [this.1]; simp only [Merge.step]; ring
    · rw [this.2]; simp only [Merge.step]; ring

/-- One round keeps the smaller left edge and the larger right edge. -/
theorem Merge.step_bounds (box zone : Zone) :
    ((Merge.step box zone).ulx ≤ box.ulx ∧ (Merge.step box zone).ulx ≤ zone.ulx
        ∧ ((Merge.step box zone).ulx = box.ulx ∨ (Merge.step box zone).ulx = zone.ulx))
      ∧ (box.lrx ≤ (Merge.step box zone).lrx ∧ zone.lrx ≤ (Merge.step box zone).lrx
        ∧ ((Merge.step box zone).lrx = box.lrx ∨ (Merge.step box zone).lrx = zone.lrx)) := by
  simp only [Merge.step]
  constructor <;> split <;> omega

/-- The local `ulx` ends as a lower bound of the left edges and of its start
value, and is one of them. -/
theorem Merge.box_left (sel : List Staff) (box : Zone) :
    (Merge.box sel box).ulx ≤ box.ulx
      ∧ (∀ s ∈ sel, (Merge.box sel box).ulx ≤ s.zone.ulx)
      ∧ ((Merge.box sel box).ulx = box.ulx ∨ ∃ s ∈ sel, (Merge.box sel box).ulx = s.zone.ulx) := by
  induction sel generalizing box with
  | nil => simp [Merge.box]
  | cons s rest ih =>
    have e : Merge.box (s :: rest) box = Merge.box rest (Merge.step box s.zone) := rfl
    rw [e]
    have hb := (Merge.step_bounds box s.zone).1
    obtain ⟨h1, h2, h3⟩ := ih (Merge.step box s.zone)
    refine ⟨by omega, ?_, ?_⟩
    · intro t ht
      rcases List.mem_cons.mp ht with rfl | ht
      · omega
      · exact h2 t ht
    · rcases h3 with h3 | ⟨t, ht, h3⟩
      · rcases hb.2.2 with h4 | h4
        · left; omega
        · right; exact ⟨s, List.mem_cons_self _ _, by omega⟩
      · right; exact ⟨t, List.mem_cons_of_mem _ ht, h3⟩

/-- The local `lrx` ends as an upper bound of the right edges and of its start
value, and is one of them. -/
theorem Merge.box_right (sel : List Staff) (box : Zone) :
    box.lrx ≤ (Merge.box sel box).lrx
      ∧ (∀ s ∈ sel, s.zone.lrx ≤ (Merge.box sel box).lrx)
      ∧ ((Merge.box sel box).lrx = box.lrx ∨ ∃ s ∈ sel, (Merge.box sel box).lrx = s.zone.lrx) := by
  induction sel generalizing box with
  | nil => simp [Merge.box]
  | cons s rest ih =>
    have e : Merge.box (s :: rest) box = Merge.box rest (Merge.step box s.zone) := rfl
    rw [e]
    have hb := (Merge.step_bounds box s.zone).2
    obtain ⟨h1, h2, h3⟩ := ih (Merge.step box s.zone)
    refine ⟨by omega, ?_, ?_⟩
    · intro t ht
      rcases List.mem_cons.mp ht with rfl | ht
      · omega
      · exact h2 t ht
    · rcases h3 with h3 | ⟨t, ht, h3⟩
      · rcases hb.2.2 with h4 | h4
        · left; omega
        · right; exact ⟨s, List.mem_cons_self _ _, by omega⟩
      · right; exact ⟨t, List.mem_cons_of_mem _ ht, h3⟩

/-- For a non-negative `int` below `2 ^ 31` the division through `size_t` is
the integer quotient. -/
theorem divAssignSize_eq (sizeBits : Nat) (a : Int) (n : Nat) (hw : 32 ≤ sizeBits)
    (h0 : 0 ≤ a) (h1 : a < 2 ^ 31) : divAssignSize sizeBits a n = a / n := by
  obtain ⟨m, rfl⟩ := Int.eq_ofNat_of_zero_le h0
  have hm : m < 2 ^ 31 := by exact_mod_cast h1
  have hpow : (2 : Nat) ^ 31 < 2 ^ sizeBits :=
    Nat.pow_lt_pow_right (by norm_num) (by omega)
  have hmod : ((m : Int) % ((2 : Int) ^ sizeBits)).toNat = m := by
    have : ((m : Int) % ((2 : Int) ^ sizeBits)) = ((m % 2 ^ sizeBits : Nat) : Int) := by
      push_cast; rfl
    rw [this, Int.toNat_natCast, Nat.mod_eq_of_lt (by omega)]
  have hq : m / n < 2 ^ 31 := lt_of_le_of_lt (Nat.div_le_self m n) hm
  unfold divAssignSize
  simp only [hmod]
  rw [Nat.mod_eq_of_lt (by omega : m / n < 2 ^ 32), if_pos hq]
  push_cast
  rfl


/-- A staff found under an id has that uuid and belongs to the document. -/
theorem StaffDoc.findStaff_some (d : StaffDoc) (id : String) (s : Staff)
    (h : d.findStaff id = some s) : s.uuid = id ∧ s ∈ d.staves := by
  unfold StaffDoc.findStaff at h
  have h1 := List.find?_some h
  have h2 := List.mem_of_find?_eq_some h
  exact ⟨by simpa using h1, h2⟩

/-- The staves a list of resolving ids resolves to carry exactly those ids. -/
theorem StaffDoc.resolve_uuids (d : StaffDoc) (ids : List String)
    (hres : ∀ id ∈ ids, (d.findStaff id).isSome = true) :
    (d.resolve ids).map (fun s => s.uuid) = ids := by
  induction ids with
  | nil => simp [StaffDoc.resolve]
  | cons id rest ih =>
    have h1 := hres id (List.mem_cons_self _ _)
    cases hf : d.findStaff id with
    | none => simp [hf] at h1
    | some obj =>
      have := ih (fun i hi => hres i (List.mem_cons_of_mem _ hi))
      simp only [StaffDoc.resolve, List.filterMap_cons, hf, List.map_cons] at this ⊢
      rw [this, (StaffDoc.findStaff_some d id obj hf).1]

/-- Every resolved staff belongs to the document. -/
theorem StaffDoc.resolve_mem (d : StaffDoc) (ids : List String) (s : Staff)
    (h : s ∈ d.resolve ids) : s ∈ d.staves := by
  simp only [StaffDoc.resolve, List.mem_filterMap] at h
  obtain ⟨id, _, hf⟩ := h
  exact (StaffDoc.findStaff_some d id s hf).2

/-- After the staves with a given uuid were replaced by one staff with that
uuid, the uuid resolves to that staff. -/
theorem find?_map_replace (l : List Staff) (u : String) (merged : Staff)
    (hm : merged.uuid = u) (hex : ∃ s ∈ l, s.uuid = u) :
    (l.map (fun s => if s.uuid = u then merged else s)).find? (fun s => s.uuid == u)
      = some merged := by
  induction l with
  | nil => simp at hex
  | cons a rest ih =>
    by_cases ha : a.uuid = u
    · simp [ha, hm]
    · have hex2 : ∃ s ∈ rest, s.uuid = u := by
        obtain ⟨s, hs, hu⟩ := hex
        rcases List.mem_cons.mp hs with rfl | hs
        · exact absurd hu ha
        · exact ⟨s, hs, hu⟩
      simp [ha, ih hex2]

/-- The second half of `Merge` succeeds on a non-empty vector of distinct staves
of the document and reports a staff whose zone is made of the locals, the
sums divided by the number of staves. -/
theorem Merge.finish_reported (h : Helpers) (tk : Toolkit StaffDoc) (staves : List Staff)
    (box : Zone) (hne : staves ≠ []) (hmem : ∀ s ∈ staves, s ∈ tk.doc.staves)
    (hnd : (staves.map (fun s => s.uuid)).Nodup) :
    ∃ survivor, (Merge.finish h tk staves box).reportedStaff? = some survivor
      ∧ (Merge.finish h tk staves box).status? = some true
      ∧ survivor.zone = { ulx := box.ulx,
                          uly := divAssignSize h.sizeBits box.uly staves.length,
                          lrx := box.lrx,
                          lry := divAssignSize h.sizeBits box.lry staves.length } := by
  unfold Merge.finish
  have hperm := List.perm_insertionSort (fun a b => h.StaffSort a b = true) staves
  cases hs : staves.insertionSort (fun a b => h.StaffSort a b = true) with
  | nil =>
    rw [hs] at hperm
    exact absurd (List.Perm.nil_eq hperm).symm hne
  | cons fill sources =>
    rw [hs] at hperm
    have hnd2 : ((fill :: sources).map (fun s => s.uuid)).Nodup :=
      (List.Perm.nodup_iff (hperm.map _)).mpr hnd
    have hfill : fill ∈ tk.doc.staves :=
      hmem fill (hperm.mem_iff.mp (List.mem_cons_self _ _))
    have hnot : fill.uuid ∉ sources.map (fun t => t.uuid) := by
      simp only [List.map_cons, List.nodup_cons] at hnd2
      exact hnd2.1
    simp only [Outcome.reportedStaff?, Outcome.status?, StaffDoc.findStaff]
    refine ⟨_, find?_map_replace _ fill.uuid _ rfl ⟨fill, ?_, rfl⟩, trivial, rfl⟩
    simp only [List.mem_filter, hfill, true_and]
    simpa using hnot

/-- C9, as stated, fails when a sum is not a multiple of the number of staves:
merging the staves with rectangles (0, 0, 100, 50) and (0, 61, 100, 111) leaves
the zone (0, 30, 100, 80), whose top and bottom are not the means 61/2 and
161/2 of the tops and bottoms. -/
theorem C9_counterexample :
    ((Merge sampleHelpers ["a", "b"]
        { doc := sampleStaffDocOdd, m_editInfo := "" }).reportedStaff?).map (fun s => s.zone)
        = some { ulx := 0, uly := 30, lrx := 100, lry := 80 }
      ∧ (30 : ℚ) ≠ (0 + 61) / 2 ∧ (80 : ℚ) ≠ (50 + 111) / 2 := by
  refine ⟨by decide, by norm_num, by norm_num⟩

/-- C9 (amended): for every list of two or more distinct ids that all resolve
to staves whose zones have non-negative tops, bottoms and right edges, left
edges in the `int` range and sums of tops and of bottoms below `2 ^ 31`,
`Merge` succeeds and the zone of the surviving staff (the one it reports) has
left = minimum of the lefts, right = maximum of the rights, top = the sum of
the tops divided by the number of staves in integer division (the mean rounded
down), bottom likewise; for the staves with rectangles (0, 0, 100, 50) and
(0, 60, 100, 110) the result is (0, 30, 100, 80). -/
theorem C9_Merge_zone (h : Helpers) (ids : List String) (tk : Toolkit StaffDoc)
    (hpage : tk.doc.hasDrawingPage = true) (hlen : 2 ≤ ids.length) (hnodup : ids.Nodup)
    (hres : ∀ id ∈ ids, (tk.doc.findStaff id).isSome = true)
    (hbits : 32 ≤ h.sizeBits)
    (hleft : ∀ s ∈ tk.doc.resolve ids, s.zone.ulx ≤ INT_MAX)
    (hright : ∀ s ∈ tk.doc.resolve ids, 0 ≤ s.zone.lrx)
    (htop : ∀ s ∈ tk.doc.resolve ids, 0 ≤ s.zone.uly)
    (hbottom : ∀ s ∈ tk.doc.resolve ids, 0 ≤ s.zone.lry)
    (htops : ((tk.doc.resolve ids).map (fun s => s.zone.uly)).sum < 2 ^ 31)
    (hbottoms : ((tk.doc.resolve ids).map (fun s => s.zone.lry)).sum < 2 ^ 31) :
    (∃ survivor, (Merge h ids tk).reportedStaff? = some survivor
        ∧ (Merge h ids tk).status? = some true
        ∧ (∀ s ∈ tk.doc.resolve ids, survivor.zone.ulx ≤ s.zone.ulx)
        ∧ (∃ s ∈ tk.doc.resolve ids, survivor.zone.ulx = s.zone.ulx)
        ∧ (∀ s ∈ tk.doc.resolve ids, s.zone.lrx ≤ survivor.zone.lrx)
        ∧ (∃ s ∈ tk.doc.resolve ids, survivor.zone.lrx = s.zone.lrx)
        ∧ survivor.zone.uly
            = ((tk.doc.resolve ids).map (fun s => s.zone.uly)).sum / (ids.length : Int)
        ∧ survivor.zone.lry
            = ((tk.doc.resolve ids).map (fun s => s.zone.lry)).sum / (ids.length : Int))
      ∧ ((Merge sampleHelpers ["a", "b"]
            { doc := sampleStaffDoc, m_editInfo := "" }).reportedStaff?).map (fun s => s.zone)
          = some { ulx := 0, uly := 30, lrx := 100, lry := 80 } := by
  refine ⟨?_, by decide⟩
  have huu := StaffDoc.resolve_uuids tk.doc ids hres
  have hlen2 : (tk.doc.resolve ids).length = ids.length := by
    have := congrArg List.length huu
    simpa using this
  have hne : tk.doc.resolve ids ≠ [] := by
    intro h0
    rw [h0] at hlen2
    simp at hlen2
    omega
  obtain ⟨s0, hs0⟩ := List.exists_mem_of_ne_nil _ hne
  have hsum0 : ∀ (f : Staff → Int), (∀ s ∈ tk.doc.resolve ids, 0 ≤ f s) →
      0 ≤ ((tk.doc.resolve ids).map f).sum := by
    intro f hf
    apply List.sum_nonneg
    intro x hx
    obtain ⟨s, hs, rfl⟩ := List.mem_map.mp hx
    exact hf s hs
  have hfin := Merge.finish_reported h { tk with m_editInfo := "" } (tk.doc.resolve ids)
    (Merge.box (tk.doc.resolve ids) { ulx := INT_MAX, uly := 0, lrx := 0, lry := 0 }) hne
    (fun s hs => StaffDoc.resolve_mem tk.doc ids s hs) (by rw [huu]; exact hnodup)
  have hM : Merge h ids tk
      = Merge.finish h { tk with m_editInfo := "" } (tk.doc.resolve ids)
          (Merge.box (tk.doc.resolve ids) { ulx := INT_MAX, uly := 0, lrx := 0, lry := 0 }) := by
    unfold Merge
    simp only [hpage, Bool.not_true, Bool.false_eq_true, if_false]
    rw [Merge.collect_eq tk.doc ids hres]
    simp only [List.nil_append]
    rw [if_neg (by omega)]
  rw [hM]
  obtain ⟨survivor, hrep, hst, hzone⟩ := hfin
  obtain ⟨hsu, hsl⟩ := Merge.box_sums (tk.doc.resolve ids)
    { ulx := INT_MAX, uly := 0, lrx := 0, lry := 0 }
  obtain ⟨hl1, hl2, hl3⟩ := Merge.box_left (tk.doc.resolve ids)
    { ulx := INT_MAX, uly := 0, lrx := 0, lry := 0 }
  obtain ⟨hr1, hr2, hr3⟩ := Merge.box_right (tk.doc.resolve ids)
    { ulx := INT_MAX, uly := 0, lrx := 0, lry := 0 }
  simp only [zero_add] at hsu hsl hl1 hl3 hr1 hr3
  refine ⟨survivor, hrep, hst, ?_, ?_, ?_, ?_, ?_, ?_⟩
  · rw [hzone]; exact hl2
  · rw [hzone]
    rcases hl3 with h3 | h3
    · refine ⟨s0, hs0, ?_⟩
      have := hl2 s0 hs0
      have := hleft s0 hs0
      simp only at *
      omega
    · exact h3
  · rw [hzone]; exact hr2
  · rw [hzone]
    rcases hr3 with h3 | h3
    · refine ⟨s0, hs0, ?_⟩
      have := hr2 s0 hs0
      have := hright s0 hs0
      simp only at *
      omega
    · exact h3
  · rw [hzone]
    simp only
    rw [divAssignSize_eq _ _ _ hbits (by rw [hsu]; exact hsum0 _ htop) (by rw [hsu]; exact htops),
      hsu, hlen2]
  · rw [hzone]
    simp only
    rw [divAssignSize_eq _ _ _ hbits (by rw [hsl]; exact hsum0 _ hbottom)
      (by rw [hsl]; exact hbottoms), hsl, hlen2]

/-- C9 (amended) on the sample document with the staves (0, 0, 100, 50) and
(0, 60, 100, 110). -/
theorem C9_Merge_zone_witness :
    ∃ survivor, (Merge sampleHelpers ["a", "b"]
        { doc := sampleStaffDoc, m_editInfo := "" }).reportedStaff? = some survivor
      ∧ survivor.zone.uly
          = ((sampleStaffDoc.resolve ["a", "b"]).map (fun s => s.zone.uly)).sum
              / ((["a", "b"] : List String).length : Int)
      ∧ survivor.zone.lry
          = ((sampleStaffDoc.resolve ["a", "b"]).map (fun s => s.zone.lry)).sum
              / ((["a", "b"] : List String).length : Int) :=
  match (C9_Merge_zone sampleHelpers ["a", "b"] { doc := sampleStaffDoc, m_editInfo := "" }
      rfl (by decide) (by decide) (by decide) (by decide) (by decide) (by decide) (by decide)
      (by decide) (by decide) (by decide)).1 with
  | ⟨survivor, h1, _, _, _, _, _, h7, h8⟩ => ⟨survivor, h1, h7, h8⟩

/-- The result of the two-cursor walk only holds elements of the first range. -/
theorem set_difference_subset (l1 l2 : List Nat) : ∀ a ∈ set_difference l1 l2, a ∈ l1 := by
  induction l1 generalizing l2 with
  | nil => simp [set_difference]
  | cons a as ih =>
    induction l2 with
    | nil => simp [set_difference, set_difference.walk]
    | cons b rest ih2 =>
      intro c hc
      simp only [set_difference, set_difference.walk] at hc ih2
      split at hc
      · rcases List.mem_cons.mp hc with rfl | hc
        · simp
        · exact List.mem_cons_of_mem _ (ih _ c hc)
      · split at hc
        · exact ih2 c hc
        · exact List.mem_cons_of_mem _ (ih _ c hc)

/-- The objects of a page after a change was applied to every object. -/
theorem NeumePage.objects_mapObjects (pg : NeumePage) (f : PageObject → PageObject) :
    (pg.mapObjects f).objects = pg.objects.map f := by
  simp [NeumePage.mapObjects, NeumePage.objects]

/-- Changing a pitch keeps the address. -/
theorem PageObject.setPitch_addr (o : PageObject) (f : Pitch → Pitch) :
    (o.setPitch f).addr = o.addr := by
  unfold PageObject.setPitch
  split <;> rfl

/-- Changing a pitch leaves an object without pitch as it is. -/
theorem PageObject.setPitch_of_not_pitched (o : PageObject) (f : Pitch → Pitch)
    (h : o.isPitched = false) : o.setPitch f = o := by
  unfold PageObject.setPitch
  unfold PageObject.isPitched at h
  split
  · rename_i p hp
    simp [hp] at h
  · rfl

/-- Changing the pitch of a pitched object. -/
theorem PageObject.setPitch_pitched (o : PageObject) (f : Pitch → Pitch) (p : Pitch)
    (h : o.kind = PageKind.pitched p) :
    o.setPitch f = o.withPitch (f p) := by
  unfold PageObject.setPitch PageObject.withPitch
  rw [h]

/-- Setting a clef line leaves a pitched object as it is. -/
theorem PageObject.setLine_pitched (o : PageObject) (line : Int) (p : Pitch)
    (h : o.kind = PageKind.pitched p) : o.setLine line = o := by
  unfold PageObject.setLine
  rw [h]

/-- An object at another address stays in the page when a pitch is changed. -/
theorem NeumePage.mem_updatePitch_of_ne (pg : NeumePage) (a : Nat) (f : Pitch → Pitch)
    (o : PageObject) (ho : o ∈ pg.objects) (hne : o.addr ≠ a) :
    o ∈ (pg.updatePitch a f).objects := by
  rw [NeumePage.updatePitch, NeumePage.objects_mapObjects]
  exact List.mem_map.mpr ⟨o, ho, by simp [hne]⟩

/-- The object at the address is in the page with its pitch changed. -/
theorem NeumePage.mem_updatePitch_of_eq (pg : NeumePage) (a : Nat) (f : Pitch → Pitch)
    (o : PageObject) (ho : o ∈ pg.objects) (he : o.addr = a) :
    o.setPitch f ∈ (pg.updatePitch a f).objects := by
  rw [NeumePage.updatePitch, NeumePage.objects_mapObjects]
  exact List.mem_map.mpr ⟨o, ho, by simp [he]⟩

/-- Searching by address in a list whose objects were changed without touching
their addresses. -/
theorem find?_addr_map (l : List PageObject) (g : PageObject → PageObject)
    (hg : ∀ o, (g o).addr = o.addr) (a : Nat) :
    (l.map g).find? (fun o => o.addr == a) = (l.find? (fun o => o.addr == a)).map g := by
  rw [List.find?_map]
  have : ((fun o : PageObject => o.addr == a) ∘ g) = (fun o => o.addr == a) := by
    funext o
    simp [hg]
  rw [this]

/-- Changing a pitch does not change what a `Clef *` points to. -/
theorem NeumePage.clefAt_updatePitch (pg : NeumePage) (a : Nat) (f : Pitch → Pitch) (b : Nat) :
    (pg.updatePitch a f).clefAt b = pg.clefAt b := by
  unfold NeumePage.clefAt
  rw [NeumePage.updatePitch, NeumePage.objects_mapObjects]
  rw [find?_addr_map _ _ (by intro o; split <;> simp [PageObject.setPitch_addr])]
  simp only [NeumePage.mapObjects]
  cases hf : pg.objects.find? (fun o => o.addr == b) with
  | none => simp
  | some o =>
    simp only [Option.map_some']
    by_cases hp : o.isPitched = true
    · have h1 : ∀ q : PageObject, q.isPitched = true →
          (match q.kind with
            | PageKind.clef c => c
            | _ => pg.currentClef) = pg.currentClef := by
        intro q hq
        unfold PageObject.isPitched at hq
        split <;> simp_all
      have h2 : (if o.addr = a then o.setPitch f else o).isPitched = true := by
        split
        · unfold PageObject.isPitched at hp
          split at hp
          · rename_i p hk
            rw [PageObject.setPitch_pitched o f p hk]
            rfl
          · simp at hp
        · exact hp
      rw [h1 _ h2, h1 _ hp]
    · have h3 : (if o.addr = a then o.setPitch f else o) = o := by
        split
        · exact PageObject.setPitch_of_not_pitched o f (by simpa using hp)
        · rfl
      rw [h3]

/-- A loop that changes the pitches at the addresses of a vector, with a change
that does not depend on the pitches: an object whose address is not in the
vector stays as it is, and an object whose address is in the vector once is
changed once. -/
theorem NeumePage.foldl_updatePitch (F : NeumePage → Pitch → Pitch)
    (hF : ∀ q a g, F (q.updatePitch a g) = F q) (elements : List Nat) (pg : NeumePage)
    (o : PageObject) (ho : o ∈ pg.objects) :
    (o.addr ∉ elements →
        o ∈ (elements.foldl (fun q a => q.updatePitch a (F q)) pg).objects)
      ∧ (elements.Nodup → o.addr ∈ elements →
        o.setPitch (F pg) ∈ (elements.foldl (fun q a => q.updatePitch a (F q)) pg).objects)
      ∧ (o.isPitched = false →
        o ∈ (elements.foldl (fun q a => q.updatePitch a (F q)) pg).objects) := by
  induction elements generalizing pg o with
  | nil => simp [ho, PageObject.setPitch_of_not_pitched]
  | cons a rest ih =>
    simp only [List.foldl_cons]
    refine ⟨?_, ?_, ?_⟩
    · intro hn
      have hne : o.addr ≠ a := fun h => hn (by simp [h])
      have hnr : o.addr ∉ rest := fun h => hn (List.mem_cons_of_mem _ h)
      exact (ih (pg.updatePitch a (F pg)) o
        (NeumePage.mem_updatePitch_of_ne pg a _ o ho hne)).1 hnr
    · intro hnd hm
      have hnd2 := List.nodup_cons.mp hnd
      by_cases he : o.addr = a
      · have h1 := NeumePage.mem_updatePitch_of_eq pg a (F pg) o ho he
        have h2 : (o.setPitch (F pg)).addr ∉ rest := by
          rw [PageObject.setPitch_addr, he]
          exact hnd2.1
        exact (ih (pg.updatePitch a (F pg)) _ h1).1 h2
      · have hm2 : o.addr ∈ rest := by
          rcases List.mem_cons.mp hm with h | h
          · exact absurd h he
          · exact h
        have := (ih (pg.updatePitch a (F pg)) o
          (NeumePage.mem_updatePitch_of_ne pg a _ o ho he)).2.1 hnd2.2 hm2
        rw [hF] at this
        exact this
    · intro hp
      by_cases he : o.addr = a
      · have h1 := NeumePage.mem_updatePitch_of_eq pg a (F pg) o ho he
        rw [PageObject.setPitch_of_not_pitched o _ hp] at h1
        exact (ih (pg.updatePitch a (F pg)) o h1).2.2 hp
      · exact (ih (pg.updatePitch a (F pg)) o
          (NeumePage.mem_updatePitch_of_ne pg a _ o ho he)).2.2 hp

/-- The objects taken up to an address form a sublist. -/
theorem takeThrough_sublist (last : Option Nat) (l : List PageObject) :
    (takeThrough last l).Sublist l := by
  induction l with
  | nil => simp [takeThrough]
  | cons o rest ih =>
    simp only [takeThrough]
    split
    · exact List.Sublist.cons₂ _ (List.nil_sublist _)
    · exact List.Sublist.cons₂ _ ih

/-- The vector `FindAllChildBetween` fills lists addresses of the page in
document order. -/
theorem FindAllChildBetween_sublist (objs : List PageObject) (start : Nat) (last : Option Nat) :
    (FindAllChildBetween objs start last).Sublist (objs.map (fun o => o.addr)) := by
  unfold FindAllChildBetween
  apply List.Sublist.map
  exact (List.filter_sublist _).trans
    ((takeThrough_sublist _ _).trans (List.dropWhile_sublist _))

/-- On a page without shared addresses `FindAllChildBetween` finds no object
twice. -/
theorem FindAllChildBetween_nodup (objs : List PageObject) (start : Nat) (last : Option Nat)
    (hnd : (objs.map (fun o => o.addr)).Nodup) :
    (FindAllChildBetween objs start last).Nodup :=
  List.Nodup.sublist (FindAllChildBetween_sublist objs start last) hnd

/-- Skipping the objects before a given one, none of which has its address. -/
theorem dropWhile_addr_append (pre rest : List PageObject) (a : Nat)
    (hpre : ∀ o ∈ pre, o.addr ≠ a) :
    (pre ++ rest).dropWhile (fun o => o.addr != a) = rest.dropWhile (fun o => o.addr != a) := by
  induction pre with
  | nil => rfl
  | cons o pre ih =>
    have h1 : o.addr ≠ a := hpre o (List.mem_cons_self _ _)
    simp only [List.cons_append, List.dropWhile_cons]
    rw [if_pos (by simpa using h1)]
    exact ih (fun q hq => hpre q (List.mem_cons_of_mem _ hq))

/-- Skipping up to an address that occurs in the first part of a list. -/
theorem dropWhile_addr_append_of_mem (pre rest : List PageObject) (a : Nat)
    (hmem : a ∈ pre.map (fun o => o.addr)) :
    (pre ++ rest).dropWhile (fun o => o.addr != a)
      = pre.dropWhile (fun o => o.addr != a) ++ rest := by
  induction pre with
  | nil => simp at hmem
  | cons o pre ih =>
    simp only [List.cons_append, List.dropWhile_cons]
    by_cases h1 : o.addr = a
    · simp [h1]
    · have hm2 : a ∈ pre.map (fun o => o.addr) := by
        simp only [List.map_cons, List.mem_cons] at hmem
        rcases hmem with h | h
        · exact absurd h.symm h1
        · exact h
      rw [if_pos (by simpa using h1), if_pos (by simpa using h1)]
      exact ih hm2

/-- The objects before the first one with a given address. -/
theorem takeWhile_addr_append (pre post : List PageObject) (co : PageObject)
    (hpre : ∀ o ∈ pre, o.addr ≠ co.addr) :
    (pre ++ co :: post).takeWhile (fun o => o.addr != co.addr) = pre := by
  induction pre with
  | nil => simp
  | cons o pre ih =>
    have h1 : o.addr ≠ co.addr := hpre o (List.mem_cons_self _ _)
    simp only [List.cons_append, List.takeWhile_cons]
    rw [if_pos (by simpa using h1)]
    rw [ih (fun q hq => hpre q (List.mem_cons_of_mem _ hq))]

/-- Taking through an address that first occurs right after a first part. -/
theorem takeThrough_append (pre post : List PageObject) (co : PageObject)
    (hpre : ∀ o ∈ pre, o.addr ≠ co.addr) :
    takeThrough (some co.addr) (pre ++ co :: post) = pre ++ [co] := by
  induction pre with
  | nil => simp [takeThrough]
  | cons o pre ih =>
    have h1 : o.addr ≠ co.addr := hpre o (List.mem_cons_self _ _)
    have ih2 := ih (fun q hq => hpre q (List.mem_cons_of_mem _ hq))
    show takeThrough (some co.addr) (o :: (pre ++ co :: post)) = o :: (pre ++ [co])
    simp only [takeThrough]
    rw [if_neg (by simpa using h1), ih2]

/-- What `FindAllChildBetween` finds from a clef onwards lies after the clef. -/
theorem FindAllChildBetween_from (pre post : List PageObject) (co : PageObject)
    (last : Option Nat) (hpre : ∀ o ∈ pre, o.addr ≠ co.addr) (hk : co.isPitched = false) :
    ∀ a ∈ FindAllChildBetween (pre ++ co :: post) co.addr last,
      a ∈ post.map (fun o => o.addr) := by
  intro a ha
  unfold FindAllChildBetween at ha
  rw [dropWhile_addr_append pre (co :: post) co.addr hpre] at ha
  simp only [List.dropWhile_cons, bne_self_eq_false, Bool.false_eq_true, if_false] at ha
  obtain ⟨o, ho, rfl⟩ := List.mem_map.mp ha
  obtain ⟨ho1, ho2⟩ := List.mem_filter.mp ho
  have ho3 := (takeThrough_sublist last (co :: post)).subset ho1
  rcases List.mem_cons.mp ho3 with rfl | h
  · rw [hk] at ho2
    exact absurd ho2 (by simp)
  · exact List.mem_map.mpr ⟨o, h, rfl⟩

/-- What `FindAllChildBetween` finds from an earlier object up to a clef lies
before the clef; nothing is found from an address that is not on the page. -/
theorem FindAllChildBetween_upto (pre post : List PageObject) (co : PageObject) (P : Nat)
    (hpre : ∀ o ∈ pre, o.addr ≠ co.addr) (hk : co.isPitched = false)
    (hP : P ∈ pre.map (fun o => o.addr) ∨ P ∉ (pre ++ co :: post).map (fun o => o.addr)) :
    ∀ a ∈ FindAllChildBetween (pre ++ co :: post) P (some co.addr),
      a ∈ pre.map (fun o => o.addr) := by
  intro a ha
  unfold FindAllChildBetween at ha
  rcases hP with hP | hP
  · rw [dropWhile_addr_append_of_mem pre (co :: post) P hP] at ha
    have hsub : (pre.dropWhile (fun o => o.addr != P)).Sublist pre := List.dropWhile_sublist _
    rw [takeThrough_append _ post co (fun o ho => hpre o (hsub.subset ho))] at ha
    obtain ⟨o, ho, rfl⟩ := List.mem_map.mp ha
    obtain ⟨ho1, ho2⟩ := List.mem_filter.mp ho
    rcases List.mem_append.mp ho1 with h | h
    · exact List.mem_map.mpr ⟨o, hsub.subset h, rfl⟩
    · simp only [List.mem_singleton] at h
      rw [h, hk] at ho2
      exact absurd ho2 (by simp)
  · have hnil : (pre ++ co :: post).dropWhile (fun o => o.addr != P) = [] := by
      rw [List.dropWhile_eq_nil_iff]
      intro o ho
      have : o.addr ≠ P := fun h => hP (List.mem_map.mpr ⟨o, ho, h⟩)
      simpa using this
    rw [hnil] at ha
    simp [takeThrough] at ha

/-- A page without shared addresses splits at any of its objects into the
objects before and after it, none of which shares an address with it or with
an object on the other side. -/
theorem split_at_object (objs : List PageObject) (co : PageObject)
    (hnd : (objs.map (fun o => o.addr)).Nodup) (hco : co ∈ objs) :
    ∃ pre post, objs = pre ++ co :: post
      ∧ (∀ o ∈ pre, o.addr ≠ co.addr)
      ∧ (∀ o ∈ post, o.addr ≠ co.addr)
      ∧ (∀ a, a ∈ pre.map (fun o => o.addr) → a ∉ post.map (fun o => o.addr)) := by
  obtain ⟨pre, post, rfl⟩ := List.append_of_mem hco
  refine ⟨pre, post, rfl, ?_, ?_, ?_⟩
  all_goals
    simp only [List.map_append, List.map_cons] at hnd
    rw [List.nodup_append] at hnd
    obtain ⟨h1, h2, h3⟩ := hnd
    rw [List.nodup_cons] at h2
  · intro o ho he
    exact h3 (List.mem_map.mpr ⟨o, ho, rfl⟩) (by rw [he]; exact List.mem_cons_self _ _)
  · intro o ho he
    exact h2.1 (by rw [← he]; exact List.mem_map.mpr ⟨o, ho, rfl⟩)
  · intro a ha hb
    exact h3 ha (List.mem_cons_of_mem _ hb)

/-- The preceding clef `Drag` and `Remove` work with is the layer's current
clef or an object before the clef. -/
theorem NeumePage.precedingClef_cases (pg : NeumePage) (pre post : List PageObject)
    (co : PageObject) (hobjs : pg.objects = pre ++ co :: post)
    (hpre : ∀ o ∈ pre, o.addr ≠ co.addr) :
    pg.precedingClef co.addr = pg.currentClefAddr
      ∨ pg.precedingClef co.addr ∈ pre.map (fun o => o.addr) := by
  unfold NeumePage.precedingClef FindPreviousChildOfType
  rw [hobjs, takeWhile_addr_append pre post co hpre]
  cases hl : (pre.filter PageObject.isClef).getLast? with
  | none => left; rfl
  | some po =>
    right
    have h1 : po ∈ pre.filter PageObject.isClef := List.mem_of_mem_getLast? hl
    exact List.mem_map.mpr ⟨po, (List.mem_filter.mp h1).1, rfl⟩

/-- On a page without shared addresses, to which the layer's current clef does
not belong, no object is found both between the preceding clef and a clef and
from that clef onwards. -/
theorem FindAllChildBetween_disjoint (pg : NeumePage) (co : PageObject) (last : Option Nat)
    (hnd : (pg.objects.map (fun o => o.addr)).Nodup)
    (hcur : pg.currentClefAddr ∉ pg.objects.map (fun o => o.addr))
    (hco : co ∈ pg.objects) (hk : co.isPitched = false) (a : Nat)
    (h1 : a ∈ FindAllChildBetween pg.objects (pg.precedingClef co.addr) (some co.addr))
    (h2 : a ∈ FindAllChildBetween pg.objects co.addr last) : False := by
  obtain ⟨pre, post, hobjs, hpre, _, hdis⟩ := split_at_object pg.objects co hnd hco
  have hP : pg.precedingClef co.addr ∈ pre.map (fun o => o.addr)
      ∨ pg.precedingClef co.addr ∉ (pre ++ co :: post).map (fun o => o.addr) := by
    rcases NeumePage.precedingClef_cases pg pre post co hobjs hpre with h | h
    · right
      rw [h, ← hobjs]
      exact hcur
    · left; exact h
  rw [hobjs] at h1 h2
  exact hdis a (FindAllChildBetween_upto pre post co _ hpre hk hP a h1)
    (FindAllChildBetween_from pre post co last hpre hk a h2)

/-- On a list without shared addresses the search for the address of a member
finds that member. -/
theorem find?_addr_of_mem (l : List PageObject) (co : PageObject)
    (hnd : (l.map (fun o => o.addr)).Nodup) (hco : co ∈ l) :
    l.find? (fun o => o.addr == co.addr) = some co := by
  induction l with
  | nil => simp at hco
  | cons o rest ih =>
    simp only [List.map_cons, List.nodup_cons] at hnd
    rcases List.mem_cons.mp hco with rfl | h
    · simp
    · have hne : o.addr ≠ co.addr := by
        intro he
        exact hnd.1 (by rw [he]; exact List.mem_map.mpr ⟨co, h, rfl⟩)
      rw [List.find?_cons_of_neg _ (by simpa using hne)]
      exact ih hnd.2 h

/-- A `Clef *` to a clef object of the page points to that clef's data. -/
theorem NeumePage.clefAt_of_mem (pg : NeumePage) (co : PageObject) (c : Clef)
    (hnd : (pg.objects.map (fun o => o.addr)).Nodup)
    (hcur : pg.currentClefAddr ∉ pg.objects.map (fun o => o.addr))
    (hco : co ∈ pg.objects) (hk : co.kind = PageKind.clef c) : pg.clefAt co.addr = c := by
  unfold NeumePage.clefAt
  have hne : co.addr ≠ pg.currentClefAddr := by
    intro he
    exact hcur (by rw [← he]; exact List.mem_map.mpr ⟨co, hco, rfl⟩)
  rw [if_neg hne, find?_addr_of_mem _ co hnd hco]
  simp only [hk]

/-- A loop that changes pitches keeps the addresses in the three parts of the
page. -/
theorem NeumePage.foldl_updatePitch_addrs (F : NeumePage → Pitch → Pitch)
    (elements : List Nat) (pg : NeumePage) :
    (elements.foldl (fun q a => q.updatePitch a (F q)) pg).before.map (fun o => o.addr)
        = pg.before.map (fun o => o.addr)
      ∧ (elements.foldl (fun q a => q.updatePitch a (F q)) pg).layer.map (fun o => o.addr)
        = pg.layer.map (fun o => o.addr)
      ∧ (elements.foldl (fun q a => q.updatePitch a (F q)) pg).after.map (fun o => o.addr)
        = pg.after.map (fun o => o.addr) := by
  induction elements generalizing pg with
  | nil => simp
  | cons a rest ih =>
    simp only [List.foldl_cons]
    obtain ⟨h1, h2, h3⟩ := ih (pg.updatePitch a (F pg))
    have hg : ∀ l : List PageObject,
        (l.map (fun o => if o.addr = a then o.setPitch (F pg) else o)).map (fun o => o.addr)
          = l.map (fun o => o.addr) := by
      intro l
      rw [List.map_map]
      apply List.map_congr_left
      intro o _
      simp only [Function.comp]
      split
      · exact PageObject.setPitch_addr _ _
      · rfl
    rw [h1, h2, h3]
    simp only [NeumePage.updatePitch, NeumePage.mapObjects, hg]
    exact ⟨trivial, trivial, trivial⟩

/-- A pitched object and a clef of a page without shared addresses have
different addresses. -/
theorem addr_ne_of_kinds (objs : List PageObject) (o co : PageObject) (p : Pitch) (c : Clef)
    (hnd : (objs.map (fun o => o.addr)).Nodup) (ho : o ∈ objs) (hco : co ∈ objs)
    (hp : o.kind = PageKind.pitched p) (hk : co.kind = PageKind.clef c) :
    o.addr ≠ co.addr := by
  intro he
  have := List.inj_on_of_nodup_map hnd ho hco he
  rw [this, hk] at hp
  simp at hp

/-- A clef object has no pitch interface. -/
theorem PageObject.isPitched_of_clef (co : PageObject) (c : Clef)
    (hk : co.kind = PageKind.clef c) : co.isPitched = false := by
  unfold PageObject.isPitched
  rw [hk]

/-- The change `Remove` applies to the pitches governed by the removed clef does
not depend on the pitches already changed. -/
theorem NeumePage.AdjustPitchForNewClef_eq (pg : NeumePage) (elements : List Nat)
    (oldClef newClef : Nat) :
    pg.AdjustPitchForNewClef elements oldClef newClef
      = elements.foldl (fun q a => q.updatePitch a
          ((fun (r : NeumePage) (p : Pitch) =>
            Vrv.AdjustPitchForNewClef p (r.clefAt oldClef) (r.clefAt newClef)) q)) pg := rfl

/-- The loop over `AdjustPitchForNewClef`: an object outside the vector stays,
an object at an address that is in the vector once is adjusted once, from the
old clef's data to the new clef's data as they are when the loop starts. -/
theorem NeumePage.AdjustPitchForNewClef_mem (pg : NeumePage) (elements : List Nat)
    (oldClef newClef : Nat) (o : PageObject) (ho : o ∈ pg.objects) :
    (o.addr ∉ elements → o ∈ (pg.AdjustPitchForNewClef elements oldClef newClef).objects)
      ∧ (elements.Nodup → o.addr ∈ elements →
          o.setPitch (fun p => Vrv.AdjustPitchForNewClef p (pg.clefAt oldClef)
              (pg.clefAt newClef))
            ∈ (pg.AdjustPitchForNewClef elements oldClef newClef).objects)
      ∧ (o.isPitched = false →
          o ∈ (pg.AdjustPitchForNewClef elements oldClef newClef).objects) := by
  rw [NeumePage.AdjustPitchForNewClef_eq]
  exact NeumePage.foldl_updatePitch
    (fun (r : NeumePage) (p : Pitch) =>
      Vrv.AdjustPitchForNewClef p (r.clefAt oldClef) (r.clefAt newClef))
    (by intro q a g; simp only [NeumePage.clefAt_updatePitch]) elements pg o ho

/-- The loop over `AdjustPitchByOffset`: an object outside the vector stays, an
object at an address that is in the vector once is adjusted once. -/
theorem NeumePage.AdjustPitchByOffset_mem (pg : NeumePage) (elements : List Nat)
    (pitchOffset : Int) (o : PageObject) (ho : o ∈ pg.objects) :
    (o.addr ∉ elements → o ∈ (pg.AdjustPitchByOffset elements pitchOffset).objects)
      ∧ (elements.Nodup → o.addr ∈ elements →
          o.setPitch (fun p => Vrv.AdjustPitchByOffset p pitchOffset)
            ∈ (pg.AdjustPitchByOffset elements pitchOffset).objects)
      ∧ (o.isPitched = false →
          o ∈ (pg.AdjustPitchByOffset elements pitchOffset).objects) :=
  NeumePage.foldl_updatePitch (fun _ p => Vrv.AdjustPitchByOffset p pitchOffset)
    (by intro q a g; rfl) elements pg o ho

/-- The addresses of the page after the loop over `AdjustPitchForNewClef`. -/
theorem NeumePage.AdjustPitchForNewClef_addrs (pg : NeumePage) (elements : List Nat)
    (oldClef newClef : Nat) :
    (pg.AdjustPitchForNewClef elements oldClef newClef).before.map (fun o => o.addr)
        = pg.before.map (fun o => o.addr)
      ∧ (pg.AdjustPitchForNewClef elements oldClef newClef).layer.map (fun o => o.addr)
        = pg.layer.map (fun o => o.addr)
      ∧ (pg.AdjustPitchForNewClef elements oldClef newClef).after.map (fun o => o.addr)
        = pg.after.map (fun o => o.addr) := by
  rw [NeumePage.AdjustPitchForNewClef_eq]
  exact NeumePage.foldl_updatePitch_addrs _ elements pg

/-- A loop that changes pitches keeps the addresses of the page, in order. -/
theorem NeumePage.foldl_updatePitch_objects_addrs (F : NeumePage → Pitch → Pitch)
    (elements : List Nat) (pg : NeumePage) :
    (elements.foldl (fun q a => q.updatePitch a (F q)) pg).objects.map (fun o => o.addr)
      = pg.objects.map (fun o => o.addr) := by
  obtain ⟨h1, h2, h3⟩ := NeumePage.foldl_updatePitch_addrs F elements pg
  simp only [NeumePage.objects, List.map_append, h1, h2, h3]

/-- Setting a clef line keeps the addresses of the page, in order. -/
theorem NeumePage.SetLine_objects_addrs (pg : NeumePage) (a : Nat) (line : Int) :
    (pg.SetLine a line).objects.map (fun o => o.addr) = pg.objects.map (fun o => o.addr) := by
  rw [NeumePage.SetLine, NeumePage.objects_mapObjects, List.map_map]
  apply List.map_congr_left
  intro o _
  simp only [Function.comp]
  split
  · unfold PageObject.setLine
    split <;> rfl
  · rfl

/-- The loop over `AdjustPitchByOffset` keeps the addresses of the page. -/
theorem NeumePage.AdjustPitchByOffset_objects_addrs (pg : NeumePage) (elements : List Nat)
    (pitchOffset : Int) :
    (pg.AdjustPitchByOffset elements pitchOffset).objects.map (fun o => o.addr)
      = pg.objects.map (fun o => o.addr) :=
  NeumePage.foldl_updatePitch_objects_addrs
    (fun _ p => Vrv.AdjustPitchByOffset p pitchOffset) elements pg

/-- The loop over `AdjustPitchForNewClef` keeps the addresses of the page. -/
theorem NeumePage.AdjustPitchForNewClef_objects_addrs (pg : NeumePage) (elements : List Nat)
    (oldClef newClef : Nat) :
    (pg.AdjustPitchForNewClef elements oldClef newClef).objects.map (fun o => o.addr)
      = pg.objects.map (fun o => o.addr) := by
  rw [NeumePage.AdjustPitchForNewClef_eq]
  exact NeumePage.foldl_updatePitch_objects_addrs _ elements pg

/-- Case 1 of the clef drag keeps the addresses of the moved page, in order. -/
theorem Drag_clef.case1_objects_addrs (s : ClefDragSnapshot) (clef : Nat) :
    (Drag_clef.case1 s clef).objects.map (fun o => o.addr)
      = s.moved.objects.map (fun o => o.addr) := by
  unfold Drag_clef.case1
  simp only
  split
  · split <;>
      simp only [NeumePage.AdjustPitchByOffset_objects_addrs,
        NeumePage.AdjustPitchForNewClef_objects_addrs, NeumePage.SetLine_objects_addrs]
  · split
    · split <;>
        simp only [NeumePage.AdjustPitchByOffset_objects_addrs,
          NeumePage.AdjustPitchForNewClef_objects_addrs, NeumePage.SetLine_objects_addrs]
    · split <;>
        simp only [NeumePage.AdjustPitchByOffset_objects_addrs,
          NeumePage.AdjustPitchForNewClef_objects_addrs, NeumePage.SetLine_objects_addrs]

/-- Two objects of a page without shared addresses that have the same address
are the same object. -/
theorem eq_of_addr_eq (objs : List PageObject) (q o : PageObject)
    (hnd : (objs.map (fun o => o.addr)).Nodup) (hq : q ∈ objs) (ho : o ∈ objs)
    (he : q.addr = o.addr) : q = o :=
  List.inj_on_of_nodup_map hnd hq ho he

/-- C7 (amended): `Remove` of a clef applies
`AdjustPitchForNewClef(removedClef, previousGovernor)` exactly once to each
pitched element between that clef and the next clef (or the end of the page),
where previousGovernor is the nearest preceding clef or the layer's current
clef when none precedes, with the removed clef's data as they are before the
deletion; every other pitched element keeps its pitch; the clef is then
deleted; each adjusted element is drawn under previousGovernor at its position
under the removed clef plus `(staffSize - 2 * (staffSize / 2))` times the
difference of the two clef lines, hence at the same position for an even staff
size. -/
theorem C7_Remove_clef (pg : NeumePage) (co : PageObject) (c : Clef)
    (hnd : (pg.objects.map (fun o => o.addr)).Nodup)
    (hcur : pg.currentClefAddr ∉ pg.objects.map (fun o => o.addr))
    (hco : co ∈ pg.layer) (hk : co.kind = PageKind.clef c)
    (o : PageObject) (p : Pitch) (ho : o ∈ pg.objects) (hp : o.kind = PageKind.pitched p) :
    (Remove_clef pg co.addr).1 = true
      ∧ (∀ q ∈ (Remove_clef pg co.addr).2.objects, q.addr ≠ co.addr)
      ∧ (o.addr ∈ FindAllChildBetween pg.objects co.addr (pg.nextClef co.addr) →
          o.withPitch (AdjustPitchForNewClef p c (pg.clefAt (pg.precedingClef co.addr)))
            ∈ (Remove_clef pg co.addr).2.objects)
      ∧ (o.addr ∉ FindAllChildBetween pg.objects co.addr (pg.nextClef co.addr) →
          o ∈ (Remove_clef pg co.addr).2.objects)
      ∧ (∀ q ∈ (Remove_clef pg co.addr).2.objects, q.addr = o.addr →
          q = (if o.addr ∈ FindAllChildBetween pg.objects co.addr (pg.nextClef co.addr) then
                o.withPitch
                  (AdjustPitchForNewClef p c (pg.clefAt (pg.precedingClef co.addr)))
              else o))
      ∧ (∀ staffSize staffLineNumber noteY : Int,
          (c.shape = ClefShape.CLEFSHAPE_C ∨ c.shape = ClefShape.CLEFSHAPE_F) →
          ((pg.clefAt (pg.precedingClef co.addr)).shape = ClefShape.CLEFSHAPE_C
            ∨ (pg.clefAt (pg.precedingClef co.addr)).shape = ClefShape.CLEFSHAPE_F) →
          DrawNc staffSize staffLineNumber noteY (pg.clefAt (pg.precedingClef co.addr))
              (AdjustPitchForNewClef p c (pg.clefAt (pg.precedingClef co.addr)))
            = DrawNc staffSize staffLineNumber noteY c p
              + (staffSize - 2 * Int.tdiv staffSize 2)
                * ((pg.clefAt (pg.precedingClef co.addr)).line - c.line)
          ∧ (staffSize = 2 * Int.tdiv staffSize 2 →
            DrawNc staffSize staffLineNumber noteY (pg.clefAt (pg.precedingClef co.addr))
                (AdjustPitchForNewClef p c (pg.clefAt (pg.precedingClef co.addr)))
              = DrawNc staffSize staffLineNumber noteY c p)) := by
  have hcoO : co ∈ pg.objects := by
    simp only [NeumePage.objects, List.mem_append]
    exact Or.inl (Or.inr hco)
  have hne : o.addr ≠ co.addr := addr_ne_of_kinds pg.objects o co p c hnd ho hcoO hp hk
  have hclef : pg.clefAt co.addr = c := NeumePage.clefAt_of_mem pg co c hnd hcur hcoO hk
  have hEnd := FindAllChildBetween_nodup pg.objects co.addr (pg.nextClef co.addr) hnd
  have hR : Remove_clef pg co.addr
      = (((pg.AdjustPitchForNewClef
            (FindAllChildBetween pg.objects co.addr (pg.nextClef co.addr)) co.addr
            (pg.precedingClef co.addr)).layer.any (fun o => o.addr == co.addr)),
         { (pg.AdjustPitchForNewClef
            (FindAllChildBetween pg.objects co.addr (pg.nextClef co.addr)) co.addr
            (pg.precedingClef co.addr)) with
            layer := (pg.AdjustPitchForNewClef
              (FindAllChildBetween pg.objects co.addr (pg.nextClef co.addr)) co.addr
              (pg.precedingClef co.addr)).layer.filter (fun o => o.addr != co.addr) }) := rfl
  rw [hR]
  generalize FindAllChildBetween pg.objects co.addr (pg.nextClef co.addr) = E at hEnd ⊢
  obtain ⟨ha1, ha2, ha3⟩ := NeumePage.AdjustPitchForNewClef_addrs pg E co.addr
    (pg.precedingClef co.addr)
  obtain ⟨hm1, hm2, _⟩ := NeumePage.AdjustPitchForNewClef_mem pg E co.addr
    (pg.precedingClef co.addr) o ho
  rw [PageObject.setPitch_pitched o _ p hp, hclef] at hm2
  generalize pg.clefAt (pg.precedingClef co.addr) = prev at hm2 ⊢
  generalize pg.AdjustPitchForNewClef E co.addr (pg.precedingClef co.addr) = pg1
    at ha1 ha2 ha3 hm1 hm2 ⊢
  have hnd1 : (pg1.before.map (fun o => o.addr) ++ pg1.layer.map (fun o => o.addr)
      ++ pg1.after.map (fun o => o.addr)).Nodup := by
    rw [ha1, ha2, ha3]
    simpa only [NeumePage.objects, List.map_append] using hnd
  have hin : co.addr ∈ pg1.layer.map (fun o => o.addr) := by
    rw [ha2]
    exact List.mem_map.mpr ⟨co, hco, rfl⟩
  have keep : ∀ q, q ∈ pg1.objects → q.addr ≠ co.addr →
      q ∈ ({ pg1 with layer := pg1.layer.filter (fun o => o.addr != co.addr) } :
        NeumePage).objects := by
    intro q hq hqne
    simp only [NeumePage.objects, List.mem_append, List.mem_filter] at hq ⊢
    rcases hq with (h | h) | h
    · exact Or.inl (Or.inl h)
    · exact Or.inl (Or.inr ⟨h, by simpa using hqne⟩)
    · exact Or.inr h
  have back : ∀ q, q ∈ ({ pg1 with layer := pg1.layer.filter (fun o => o.addr != co.addr) } :
      NeumePage).objects → q ∈ pg1.objects := by
    intro q hq
    simp only [NeumePage.objects, List.mem_append, List.mem_filter] at hq ⊢
    rcases hq with (h | h) | h
    · exact Or.inl (Or.inl h)
    · exact Or.inl (Or.inr h.1)
    · exact Or.inr h
  have hnd2 : (pg1.objects.map (fun o => o.addr)).Nodup := by
    simpa only [NeumePage.objects, List.map_append] using hnd1
  refine ⟨?_, ?_, ?_, ?_, ?_, ?_⟩
  · simp only [List.any_eq_true]
    obtain ⟨q, hq, hqa⟩ := List.mem_map.mp hin
    exact ⟨q, hq, by simpa using hqa⟩
  · intro q hq
    simp only [NeumePage.objects, List.mem_append, List.mem_filter] at hq
    rw [List.nodup_append, List.nodup_append] at hnd1
    obtain ⟨⟨_, _, hd1⟩, _, hd2⟩ := hnd1
    rcases hq with (h | h) | h
    · intro he
      exact hd1 (List.mem_map.mpr ⟨q, h, rfl⟩) (by rw [he]; exact hin)
    · simpa using h.2
    · intro he
      exact hd2 (List.mem_append.mpr (Or.inr hin))
        (by rw [← he]; exact List.mem_map.mpr ⟨q, h, rfl⟩)
  · intro hmem
    exact keep _ (hm2 hEnd hmem) hne
  · intro hmem
    exact keep _ (hm1 hmem) hne
  · intro q hq hqa
    split
    · rename_i hmem
      exact eq_of_addr_eq pg1.objects q _ hnd2 (back q hq) (hm2 hEnd hmem) hqa
    · rename_i hmem
      exact eq_of_addr_eq pg1.objects q _ hnd2 (back q hq) (hm1 hmem) hqa
  · intro staffSize staffLineNumber noteY hs1 hs2
    have hd := DrawNc_AdjustPitchForNewClef staffSize staffLineNumber noteY c prev p hs1 hs2
    refine ⟨hd, fun he => ?_⟩
    rw [hd]
    have h0 : staffSize - 2 * Int.tdiv staffSize 2 = 0 := by omega
    rw [h0]
    ring

/-- C7, as stated, fails for an odd staff size: on the sample page (double unit
59) the note at address 13 is governed by the clef at address 12 (C clef, line
3); removing that clef adjusts its pitch from c of octave 3 to e of octave 3
for the preceding C clef on line 2, and `DrawNc` then puts it at -60 instead
of -59. -/
theorem C7_counterexample :
    13 ∈ FindAllChildBetween samplePage.objects 12 (samplePage.nextClef 12)
      ∧ samplePage.pitchAt 13 = some { pname := 1, oct := 3 }
      ∧ samplePage.clefAt 12 = { shape := ClefShape.CLEFSHAPE_C, line := 3 }
      ∧ samplePage.clefAt (samplePage.precedingClef 12)
          = { shape := ClefShape.CLEFSHAPE_C, line := 2 }
      ∧ (Remove_clef samplePage 12).2.pitchAt 13 = some { pname := 3, oct := 3 }
      ∧ DrawNc samplePage.doubleUnit 4 0 { shape := ClefShape.CLEFSHAPE_C, line := 2 }
          { pname := 3, oct := 3 }
        ≠ DrawNc samplePage.doubleUnit 4 0 { shape := ClefShape.CLEFSHAPE_C, line := 3 }
          { pname := 1, oct := 3 } := by
  decide

/-- C7 (amended) on the sample page: removing the clef at address 12 leaves the
note at address 13 with the pitch adjusted for the preceding clef. -/
theorem C7_Remove_clef_witness :
    ({ addr := 13, hasFacs := true, ulx := 30, uly := 0,
       kind := PageKind.pitched { pname := 1, oct := 3 } } : PageObject).withPitch
        (AdjustPitchForNewClef { pname := 1, oct := 3 }
          { shape := ClefShape.CLEFSHAPE_C, line := 3 }
          (samplePage.clefAt (samplePage.precedingClef 12)))
      ∈ (Remove_clef samplePage 12).2.objects :=
  (C7_Remove_clef samplePage
    { addr := 12, hasFacs := true, ulx := 20, uly := 0,
      kind := PageKind.clef { shape := ClefShape.CLEFSHAPE_C, line := 3 } }
    { shape := ClefShape.CLEFSHAPE_C, line := 3 } (by decide) (by decide) (by decide) rfl
    { addr := 13, hasFacs := true, ulx := 30, uly := 0,
      kind := PageKind.pitched { pname := 1, oct := 3 } }
    { pname := 1, oct := 3 } (by decide) rfl).2.2.1 (by decide)

/-- Reordering the layer keeps the objects of the page. -/
theorem NeumePage.mem_reorder (pg : NeumePage) (q : PageObject) :
    q ∈ ({ pg with layer := ReorderByXPos pg.layer } : NeumePage).objects ↔ q ∈ pg.objects := by
  simp only [NeumePage.objects, List.mem_append, ReorderByXPos]
  rw [(List.perm_insertionSort _ pg.layer).mem_iff]

/-- Reordering the layer keeps the addresses of the page free of repetitions. -/
theorem NeumePage.nodup_reorder (pg : NeumePage)
    (hnd : (pg.objects.map (fun o => o.addr)).Nodup) :
    ((({ pg with layer := ReorderByXPos pg.layer } : NeumePage).objects).map
      (fun o => o.addr)).Nodup := by
  have hp : (({ pg with layer := ReorderByXPos pg.layer } : NeumePage).objects).Perm
      pg.objects := by
    simp only [NeumePage.objects, ReorderByXPos]
    exact ((List.perm_insertionSort _ pg.layer).append_left pg.before).append_right pg.after
  exact (List.Perm.nodup_iff (hp.map _)).mpr hnd

/-- Setting a clef line keeps a pitched object in the page. -/
theorem NeumePage.mem_SetLine_pitched (pg : NeumePage) (a : Nat) (line : Int) (o : PageObject)
    (p : Pitch) (ho : o ∈ pg.objects) (hp : o.kind = PageKind.pitched p) :
    o ∈ (pg.SetLine a line).objects := by
  rw [NeumePage.SetLine, NeumePage.objects_mapObjects]
  refine List.mem_map.mpr ⟨o, ho, ?_⟩
  split
  · exact PageObject.setLine_pitched o line p hp
  · rfl

/-- Setting a clef line puts the object at the address into the page with the
new line. -/
theorem NeumePage.mem_SetLine_eq (pg : NeumePage) (a : Nat) (line : Int) (q : PageObject)
    (hq : q ∈ pg.objects) (ha : q.addr = a) : q.setLine line ∈ (pg.SetLine a line).objects := by
  rw [NeumePage.SetLine, NeumePage.objects_mapObjects]
  exact List.mem_map.mpr ⟨q, hq, by simp [ha]⟩

/-- Giving a pitched object its own pitch changes nothing. -/
theorem PageObject.withPitch_self (o : PageObject) (p : Pitch)
    (hp : o.kind = PageKind.pitched p) : o.withPitch p = o := by
  unfold PageObject.withPitch
  rw [← hp]

/-- The shift of the clef zone keeps addresses and kinds. -/
theorem PageObject.shiftClefZone_addr_kind (o : PageObject) (clef : Nat) (x dy : Int) :
    (o.shiftClefZone clef x dy).addr = o.addr ∧ (o.shiftClefZone clef x dy).kind = o.kind := by
  unfold PageObject.shiftClefZone
  split <;> exact ⟨rfl, rfl⟩

/-- The shift of the clef zone leaves objects at other addresses alone. -/
theorem PageObject.shiftClefZone_of_ne (o : PageObject) (clef : Nat) (x dy : Int)
    (h : o.addr ≠ clef) : o.shiftClefZone clef x dy = o := by
  unfold PageObject.shiftClefZone
  rw [if_neg (fun hh => h hh.1)]

/-- The rendering after a line change of the clef and the compensating pitch
change of two steps per line: it differs from the old one by the odd part of
the staff size times the line change. -/
theorem DrawNc_line_change (staffSize staffLineNumber noteY : Int) (c : Clef) (p : Pitch)
    (line : Int)
    (hs : c.shape = ClefShape.CLEFSHAPE_C ∨ c.shape = ClefShape.CLEFSHAPE_F) :
    DrawNc staffSize staffLineNumber noteY { c with line := line }
        (AdjustPitchByOffset p (-2 * (line - c.line)))
      = DrawNc staffSize staffLineNumber noteY c p
        + (staffSize - 2 * Int.tdiv staffSize 2) * (line - c.line) := by
  rw [DrawNc_affine _ _ _ _ _ (show ({ c with line := line } : Clef).shape
      = ClefShape.CLEFSHAPE_C ∨ ({ c with line := line } : Clef).shape
      = ClefShape.CLEFSHAPE_F from hs),
    DrawNc_affine _ _ _ _ _ hs, GetDiatonicPitch_AdjustPitchByOffset]
  ring

/-- The page `Drag` works on after it shifted the clef's zone and reordered the
layer: its objects are those of the page with the shift applied, up to
order. -/
theorem Drag_clef.moved_perm (pg : NeumePage) (clef : Nat) (x y : Int) :
    (Drag_clef.snapshot pg clef x y).moved.objects.Perm
      (pg.objects.map (fun o => o.shiftClefZone clef x
        (((Drag_clef.snapshot pg clef x y).clefLine
          - (Drag_clef.snapshot pg clef x y).initialClefLine) * 2 * pg.m_drawingStaffSize))) := by
  simp only [Drag_clef.snapshot, NeumePage.objects, NeumePage.mapObjects, ReorderByXPos,
    List.map_append]
  exact ((List.perm_insertionSort _ _).append_left _).append_right _

/-- Case 1 of the clef drag on the moved page: an element found with the
dragged clef both before and after the move, and not with the preceding clef
before the move, ends with its pitch lowered by two steps per line of the line
change, applied once, and the clef ends on its new line. -/
theorem Drag_clef.case1_mem (s : ClefDragSnapshot) (co o : PageObject) (c : Clef) (p : Pitch)
    (hndM : (s.moved.objects.map (fun o => o.addr)).Nodup)
    (hcurM : s.moved.currentClefAddr ∉ s.moved.objects.map (fun o => o.addr))
    (hco : co ∈ s.moved.objects) (hk : co.kind = PageKind.clef c)
    (ho : o ∈ s.moved.objects) (hp : o.kind = PageKind.pitched p) (hv : p.valid)
    (hBnd : s.withThisClefBefore.Nodup) (hbefore : o.addr ∈ s.withThisClefBefore)
    (hdisj : o.addr ∉ s.withPrecedingClefBefore)
    (hafter : o.addr ∈ FindAllChildBetween s.moved.objects co.addr s.nextClefAfter)
    (hPA : s.precedingClefBefore = s.moved.precedingClef co.addr)
    (hline : s.initialClefLine = c.line) :
    o.withPitch (AdjustPitchByOffset p (-2 * (s.clefLine - c.line)))
        ∈ (Drag_clef.case1 s co.addr).objects
      ∧ ∃ q ∈ (Drag_clef.case1 s co.addr).objects,
          q.addr = co.addr ∧ q.kind = PageKind.clef { c with line := s.clefLine } := by
  have hcoP : co.isPitched = false := PageObject.isPitched_of_clef co c hk
  have hAnd := FindAllChildBetween_nodup s.moved.objects co.addr s.nextClefAfter hndM
  have hdisjA : o.addr ∉ FindAllChildBetween s.moved.objects s.precedingClefBefore
      (some co.addr) := by
    intro h
    rw [hPA] at h
    exact FindAllChildBetween_disjoint s.moved co s.nextClefAfter hndM hcurM hco hcoP _ h hafter
  have hoff : (s.clefLine - s.initialClefLine) * -2 = -2 * (s.clefLine - c.line) := by
    rw [hline]; ring
  have hzero : s.clefLine - s.initialClefLine = 0 →
      o.withPitch (AdjustPitchByOffset p ((s.clefLine - s.initialClefLine) * -2)) = o := by
    intro h0
    rw [h0, zero_mul, AdjustPitchByOffset_zero p hv]
    exact PageObject.withPitch_self o p hp
  have hsl : (co.setLine s.clefLine).addr = co.addr
      ∧ (co.setLine s.clefLine).kind = PageKind.clef { c with line := s.clefLine }
      ∧ (co.setLine s.clefLine).isPitched = false := by
    unfold PageObject.setLine PageObject.isPitched
    rw [hk]
    exact ⟨rfl, rfl, rfl⟩
  rw [← hoff]
  unfold Drag_clef.case1
  simp only
  split
  · -- the set governed by the preceding clef shrank
    have h1 : o ∈ (s.moved.SetLine co.addr s.clefLine).objects :=
      NeumePage.mem_SetLine_pitched _ _ _ o p ho hp
    have hc1 : co.setLine s.clefLine ∈ (s.moved.SetLine co.addr s.clefLine).objects :=
      NeumePage.mem_SetLine_eq _ _ _ co hco rfl
    have hnew : o.addr ∉ set_difference s.withPrecedingClefBefore
        (FindAllChildBetween s.moved.objects s.precedingClefBefore (some co.addr)) :=
      fun h => hdisj (set_difference_subset _ _ _ h)
    have h2 := (NeumePage.AdjustPitchForNewClef_mem (s.moved.SetLine co.addr s.clefLine)
      (set_difference s.withPrecedingClefBefore
        (FindAllChildBetween s.moved.objects s.precedingClefBefore (some co.addr)))
      s.precedingClefBefore co.addr o h1).1 hnew
    have hc2 := (NeumePage.AdjustPitchForNewClef_mem (s.moved.SetLine co.addr s.clefLine)
      (set_difference s.withPrecedingClefBefore
        (FindAllChildBetween s.moved.objects s.precedingClefBefore (some co.addr)))
      s.precedingClefBefore co.addr _ hc1).2.2 hsl.2.2
    split
    · rename_i hd
      constructor
      · have h3 := (NeumePage.AdjustPitchByOffset_mem _ s.withThisClefBefore
          ((s.clefLine - s.initialClefLine) * -2) o h2).2.1 hBnd hbefore
        rw [PageObject.setPitch_pitched o _ p hp] at h3
        exact h3
      · exact ⟨_, (NeumePage.AdjustPitchByOffset_mem _ s.withThisClefBefore
          ((s.clefLine - s.initialClefLine) * -2) _ hc2).2.2 hsl.2.2, hsl.1, hsl.2.1⟩
    · rename_i hd
      rw [hzero (by simpa using hd)]
      exact ⟨h2, _, hc2, hsl.1, hsl.2.1⟩
  · split
    · -- the set governed by the preceding clef grew
      have hnl : o.addr ∉ set_difference
          (FindAllChildBetween s.moved.objects s.precedingClefBefore (some co.addr))
          s.withPrecedingClefBefore :=
        fun h => hdisjA (set_difference_subset _ _ _ h)
      have h1 := (NeumePage.AdjustPitchForNewClef_mem s.moved
        (set_difference (FindAllChildBetween s.moved.objects s.precedingClefBefore (some co.addr))
          s.withPrecedingClefBefore) co.addr s.precedingClefBefore o ho).1 hnl
      have hc1 := (NeumePage.AdjustPitchForNewClef_mem s.moved
        (set_difference (FindAllChildBetween s.moved.objects s.precedingClefBefore (some co.addr))
          s.withPrecedingClefBefore) co.addr s.precedingClefBefore co hco).2.2 hcoP
      split
      · rename_i hd
        have h3 := (NeumePage.AdjustPitchByOffset_mem _
          (FindAllChildBetween s.moved.objects co.addr s.nextClefAfter)
          ((s.clefLine - s.initialClefLine) * -2) o h1).2.1 hAnd hafter
        rw [PageObject.setPitch_pitched o _ p hp] at h3
        have hc3 := (NeumePage.AdjustPitchByOffset_mem _
          (FindAllChildBetween s.moved.objects co.addr s.nextClefAfter)
          ((s.clefLine - s.initialClefLine) * -2) co hc1).2.2 hcoP
        exact ⟨NeumePage.mem_SetLine_pitched _ _ _ _ _ h3 rfl,
          _, NeumePage.mem_SetLine_eq _ _ _ co hc3 rfl, hsl.1, hsl.2.1⟩
      · rename_i hd
        rw [hzero (by simpa using hd)]
        exact ⟨NeumePage.mem_SetLine_pitched _ _ _ o p h1 hp,
          _, NeumePage.mem_SetLine_eq _ _ _ co hc1 rfl, hsl.1, hsl.2.1⟩
    · -- the set governed by the preceding clef kept its size
      have h1 : o ∈ (s.moved.SetLine co.addr s.clefLine).objects :=
        NeumePage.mem_SetLine_pitched _ _ _ o p ho hp
      have hc1 : co.setLine s.clefLine ∈ (s.moved.SetLine co.addr s.clefLine).objects :=
        NeumePage.mem_SetLine_eq _ _ _ co hco rfl
      split
      · rename_i hd
        constructor
        · have h3 := (NeumePage.AdjustPitchByOffset_mem _ s.withThisClefBefore
            ((s.clefLine - s.initialClefLine) * -2) o h1).2.1 hBnd hbefore
          rw [PageObject.setPitch_pitched o _ p hp] at h3
          exact h3
        · exact ⟨_, (NeumePage.AdjustPitchByOffset_mem _ s.withThisClefBefore
            ((s.clefLine - s.initialClefLine) * -2) _ hc1).2.2 hsl.2.2, hsl.1, hsl.2.1⟩
      · rename_i hd
        rw [hzero (by simpa using hd)]
        exact ⟨h1, _, hc1, hsl.1, hsl.2.1⟩

/-- C6 (amended): when `Drag` moves a clef so that its line changes by D while
its preceding and next clefs are the same before and after the drag, every
pitched element (step in 1..7) that `FindAllChildBetween` finds with that clef
both before and after the move is left with its pitch adjusted by -2 * D,
applied once and with no other change, and the clef is left on its new line;
the element is then drawn under the new line at its position before the drag
plus `(staffSize - 2 * (staffSize / 2)) * D`, hence at the same position for an
even staff size. -/
theorem C6_Drag_clef_line_change (pg : NeumePage) (co : PageObject) (c : Clef) (x y : Int)
    (isChain : Bool)
    (hnd : (pg.objects.map (fun o => o.addr)).Nodup)
    (hcur : pg.currentClefAddr ∉ pg.objects.map (fun o => o.addr))
    (hco : co ∈ pg.layer) (hk : co.kind = PageKind.clef c)
    (hcase1 : (Drag_clef.snapshot pg co.addr x y).precedingClefAfter
        = (Drag_clef.snapshot pg co.addr x y).precedingClefBefore
      ∧ (Drag_clef.snapshot pg co.addr x y).nextClefAfter
        = (Drag_clef.snapshot pg co.addr x y).nextClefBefore)
    (o : PageObject) (p : Pitch) (ho : o ∈ pg.objects) (hp : o.kind = PageKind.pitched p)
    (hv : p.valid)
    (hbefore : o.addr ∈ (Drag_clef.snapshot pg co.addr x y).withThisClefBefore)
    (hafter : o.addr ∈ FindAllChildBetween (Drag_clef.snapshot pg co.addr x y).moved.objects
      co.addr (Drag_clef.snapshot pg co.addr x y).nextClefAfter) :
    o.withPitch (AdjustPitchByOffset p
          (-2 * ((Drag_clef.snapshot pg co.addr x y).clefLine - c.line)))
        ∈ (Drag_clef pg co.addr x y isChain).objects
      ∧ (∀ q ∈ (Drag_clef pg co.addr x y isChain).objects, q.addr = o.addr →
          q = o.withPitch (AdjustPitchByOffset p
            (-2 * ((Drag_clef.snapshot pg co.addr x y).clefLine - c.line))))
      ∧ (∃ q ∈ (Drag_clef pg co.addr x y isChain).objects, q.addr = co.addr
          ∧ q.kind = PageKind.clef
              { c with line := (Drag_clef.snapshot pg co.addr x y).clefLine })
      ∧ (∀ staffSize staffLineNumber noteY : Int,
          (c.shape = ClefShape.CLEFSHAPE_C ∨ c.shape = ClefShape.CLEFSHAPE_F) →
          DrawNc staffSize staffLineNumber noteY
              { c with line := (Drag_clef.snapshot pg co.addr x y).clefLine }
              (AdjustPitchByOffset p
                (-2 * ((Drag_clef.snapshot pg co.addr x y).clefLine - c.line)))
            = DrawNc staffSize staffLineNumber noteY c p
              + (staffSize - 2 * Int.tdiv staffSize 2)
                * ((Drag_clef.snapshot pg co.addr x y).clefLine - c.line)
          ∧ (staffSize = 2 * Int.tdiv staffSize 2 →
            DrawNc staffSize staffLineNumber noteY
                { c with line := (Drag_clef.snapshot pg co.addr x y).clefLine }
                (AdjustPitchByOffset p
                  (-2 * ((Drag_clef.snapshot pg co.addr x y).clefLine - c.line)))
              = DrawNc staffSize staffLineNumber noteY c p)) := by
  have hcoO : co ∈ pg.objects := by
    simp only [NeumePage.objects, List.mem_append]
    exact Or.inl (Or.inr hco)
  have hne : o.addr ≠ co.addr := addr_ne_of_kinds pg.objects o co p c hnd ho hcoO hp hk
  have hcoP : co.isPitched = false := PageObject.isPitched_of_clef co c hk
  have hline : (Drag_clef.snapshot pg co.addr x y).initialClefLine = c.line := by
    show (pg.clefAt co.addr).line = c.line
    rw [NeumePage.clefAt_of_mem pg co c hnd hcur hcoO hk]
  have hperm := Drag_clef.moved_perm pg co.addr x y
  generalize hdy : ((Drag_clef.snapshot pg co.addr x y).clefLine
    - (Drag_clef.snapshot pg co.addr x y).initialClefLine) * 2 * pg.m_drawingStaffSize = dy
    at hperm
  have haddr : ((pg.objects.map (fun o => o.shiftClefZone co.addr x dy)).map (fun o => o.addr))
      = pg.objects.map (fun o => o.addr) := by
    rw [List.map_map]
    apply List.map_congr_left
    intro q _
    exact (PageObject.shiftClefZone_addr_kind q co.addr x dy).1
  have hndM : ((Drag_clef.snapshot pg co.addr x y).moved.objects.map
      (fun o => o.addr)).Nodup := by
    rw [List.Perm.nodup_iff (hperm.map _), haddr]
    exact hnd
  have hcurM : (Drag_clef.snapshot pg co.addr x y).moved.currentClefAddr
      ∉ (Drag_clef.snapshot pg co.addr x y).moved.objects.map (fun o => o.addr) := by
    rw [(hperm.map (fun o => o.addr)).mem_iff, haddr]
    exact hcur
  have hoM : o ∈ (Drag_clef.snapshot pg co.addr x y).moved.objects := by
    rw [hperm.mem_iff]
    exact List.mem_map.mpr ⟨o, ho, PageObject.shiftClefZone_of_ne o co.addr x dy hne⟩
  have hcoM : co.shiftClefZone co.addr x dy
      ∈ (Drag_clef.snapshot pg co.addr x y).moved.objects := by
    rw [hperm.mem_iff]
    exact List.mem_map.mpr ⟨co, hcoO, rfl⟩
  obtain ⟨hca, hck⟩ := PageObject.shiftClefZone_addr_kind co co.addr x dy
  have hBnd : (Drag_clef.snapshot pg co.addr x y).withThisClefBefore.Nodup :=
    FindAllChildBetween_nodup pg.objects co.addr _ hnd
  have hdisj : o.addr ∉ (Drag_clef.snapshot pg co.addr x y).withPrecedingClefBefore := by
    intro h
    exact FindAllChildBetween_disjoint pg co _ hnd hcur hcoO hcoP _ h hbefore
  have hPA : (Drag_clef.snapshot pg co.addr x y).precedingClefBefore
      = (Drag_clef.snapshot pg co.addr x y).moved.precedingClef
          (co.shiftClefZone co.addr x dy).addr := by
    rw [hca]
    exact hcase1.1.symm
  have key := Drag_clef.case1_mem (Drag_clef.snapshot pg co.addr x y)
    (co.shiftClefZone co.addr x dy) o c p hndM hcurM hcoM (hck.trans hk) hoM hp hv hBnd hbefore
    hdisj (by rw [hca]; exact hafter) hPA hline
  rw [hca] at key
  have hD : Drag_clef pg co.addr x y isChain
      = (if !isChain then
          { Drag_clef.case1 (Drag_clef.snapshot pg co.addr x y) co.addr with
            layer := ReorderByXPos
              (Drag_clef.case1 (Drag_clef.snapshot pg co.addr x y) co.addr).layer }
        else Drag_clef.case1 (Drag_clef.snapshot pg co.addr x y) co.addr) := by
    unfold Drag_clef
    simp only [hcase1, and_self, if_true]
  have hndC : ((Drag_clef.case1 (Drag_clef.snapshot pg co.addr x y) co.addr).objects.map
      (fun o => o.addr)).Nodup := by
    rw [Drag_clef.case1_objects_addrs]
    exact hndM
  rw [hD]
  refine ⟨?_, ?_, ?_, ?_⟩
  · split
    · exact (NeumePage.mem_reorder _ _).mpr key.1
    · exact key.1
  · intro q hq hqa
    have hq2 : q ∈ (Drag_clef.case1 (Drag_clef.snapshot pg co.addr x y) co.addr).objects := by
      split at hq
      · exact (NeumePage.mem_reorder _ _).mp hq
      · exact hq
    exact eq_of_addr_eq _ q _ hndC hq2 key.1 hqa
  · obtain ⟨q, hq, hqa, hqk⟩ := key.2
    split
    · exact ⟨q, (NeumePage.mem_reorder _ _).mpr hq, hqa, hqk⟩
    · exact ⟨q, hq, hqa, hqk⟩
  · intro staffSize staffLineNumber noteY hs
    have hd := DrawNc_line_change staffSize staffLineNumber noteY c p
      (Drag_clef.snapshot pg co.addr x y).clefLine hs
    refine ⟨hd, fun he => ?_⟩
    rw [hd]
    have h0 : staffSize - 2 * Int.tdiv staffSize 2 = 0 := by omega
    rw [h0]
    ring

/-- C6, as stated, fails for an odd staff size: on the sample page (double unit
59) the clef at address 12 is dragged up by one line (y = 59); it stays
between the same clefs, the note at address 13 is with it before and after and
goes from c of octave 3 to a of octave 2, and `DrawNc` then puts it at -58
under the new line 4 instead of -59 as under line 3. -/
theorem C6_counterexample :
    ((Drag_clef.snapshot samplePage 12 0 59).precedingClefAfter
        = (Drag_clef.snapshot samplePage 12 0 59).precedingClefBefore
      ∧ (Drag_clef.snapshot samplePage 12 0 59).nextClefAfter
        = (Drag_clef.snapshot samplePage 12 0 59).nextClefBefore)
      ∧ 13 ∈ (Drag_clef.snapshot samplePage 12 0 59).withThisClefBefore
      ∧ 13 ∈ FindAllChildBetween (Drag_clef.snapshot samplePage 12 0 59).moved.objects 12
          (Drag_clef.snapshot samplePage 12 0 59).nextClefAfter
      ∧ (Drag_clef.snapshot samplePage 12 0 59).initialClefLine = 3
      ∧ (Drag_clef.snapshot samplePage 12 0 59).clefLine = 4
      ∧ samplePage.pitchAt 13 = some { pname := 1, oct := 3 }
      ∧ (Drag_clef samplePage 12 0 59 false).pitchAt 13 = some { pname := 6, oct := 2 }
      ∧ (Drag_clef samplePage 12 0 59 false).clefAt 12
          = { shape := ClefShape.CLEFSHAPE_C, line := 4 }
      ∧ DrawNc samplePage.doubleUnit 4 0 { shape := ClefShape.CLEFSHAPE_C, line := 4 }
          { pname := 6, oct := 2 }
        ≠ DrawNc samplePage.doubleUnit 4 0 { shape := ClefShape.CLEFSHAPE_C, line := 3 }
          { pname := 1, oct := 3 } := by
  decide

/-- C6 (amended) on the sample page: the clef at address 12 is dragged to the
right by 15 and up by one line; the note at address 14 stays with it and is
left two steps lower. -/
theorem C6_Drag_clef_line_change_witness :
    ({ addr := 14, hasFacs := true, ulx := 40, uly := 0,
       kind := PageKind.pitched { pname := 2, oct := 3 } } : PageObject).withPitch
        (AdjustPitchByOffset { pname := 2, oct := 3 }
          (-2 * ((Drag_clef.snapshot samplePage 12 15 59).clefLine - 3)))
      ∈ (Drag_clef samplePage 12 15 59 false).objects :=
  (C6_Drag_clef_line_change samplePage
    { addr := 12, hasFacs := true, ulx := 20, uly := 0,
      kind := PageKind.clef { shape := ClefShape.CLEFSHAPE_C, line := 3 } }
    { shape := ClefShape.CLEFSHAPE_C, line := 3 } 15 59 false
    (by decide) (by decide) (by decide) rfl (by decide)
    { addr := 14, hasFacs := true, ulx := 40, uly := 0,
      kind := PageKind.pitched { pname := 2, oct := 3 } }
    { pname := 2, oct := 3 } (by decide) rfl (by decide) (by decide) (by decide)).1

/-! ## Theorems: the two sides of `Split` -/

/-- The loop of `Split` over the descendants keeps the smallest left edge seen
so far. -/
theorem Split.anchor_foldl (zs : List Zone) (z : Zone) :
    ((zs.foldl
      (fun fi temp =>
        match fi with
        | none => some temp
        | some z => if temp.ulx < z.ulx then some temp else some z)
      (some z)).map (fun z => z.ulx))
      = some ((zs.map (fun z => z.ulx)).foldl min z.ulx) := by
  induction zs generalizing z with
  | nil => rfl
  | cons a rest ih =>
    simp only [List.foldl_cons, List.map_cons]
    split
    · rename_i hlt
      rw [ih a, min_eq_right (le_of_lt hlt)]
    · rename_i hlt
      rw [ih z, min_eq_left (not_lt.mp hlt)]

/-- The zone `Split` picks for a layer child has the anchor left edge of the
specification. -/
theorem Split.anchor_left (child : LayerChild) :
    (Split.anchor child).map (fun z => z.ulx) = Split.anchorLeft_spec child := by
  unfold Split.anchor Split.anchorLeft_spec
  cases child.ownZone with
  | some z => rfl
  | none =>
    cases hz : child.descendantZones with
    | nil => rfl
    | cons a rest =>
      simp only [List.foldl_cons, List.map_cons, List.min?]
      exact Split.anchor_foldl rest a

/-- A child goes to the new staff exactly when its anchor left edge exists and
is greater than x. -/
theorem Split.movesToSplit_iff (x : Int) (child : LayerChild) :
    Split.movesToSplit x child = true ↔ ∃ e, Split.anchorLeft_spec child = some e ∧ x < e := by
  rw [← Split.anchor_left]
  unfold Split.movesToSplit
  cases Split.anchor child with
  | none => simp
  | some z => simp

/-- A lookup that does not accept the inserted element does not see it. -/
theorem find?_insertIdx_of_false {α : Type} (p : α → Bool) (a : α) (hp : p a = false)
    (l : List α) (i : Nat) : (l.insertIdx i a).find? p = l.find? p := by
  induction l generalizing i with
  | nil =>
    cases i with
    | zero => simp [List.insertIdx, hp]
    | succ n => simp [List.insertIdx]
  | cons b rest ih =>
    cases i with
    | zero => simp [List.insertIdx, hp]
    | succ n =>
      simp only [List.insertIdx_succ_cons, List.find?_cons]
      rw [ih n]

/-- A lookup that accepts the inserted element and no other finds it. -/
theorem find?_insertIdx_of_true {α : Type} (p : α → Bool) (a : α) (hp : p a = true)
    (l : List α) (hl : ∀ b ∈ l, p b = false) (i : Nat) (hi : i ≤ l.length) :
    (l.insertIdx i a).find? p = some a := by
  induction l generalizing i with
  | nil =>
    cases i with
    | zero => simp [List.insertIdx, hp]
    | succ n => simp at hi
  | cons b rest ih =>
    cases i with
    | zero => simp [List.insertIdx, hp]
    | succ n =>
      simp only [List.insertIdx_succ_cons, List.find?_cons]
      rw [hl b (List.mem_cons_self _ _)]
      exact ih (fun c hc => hl c (List.mem_cons_of_mem _ hc)) n (by simpa using hi)

/-- After a staff with a fresh uuid was given its place, every other uuid
resolves as before and the fresh uuid resolves to the new staff. -/
theorem Insert_staff.find_place (h : Helpers) (staves : List Staff) (newStaff : Staff)
    (hfresh : ∀ s ∈ staves, s.uuid ≠ newStaff.uuid) :
    (∀ id, id ≠ newStaff.uuid →
      (Insert_staff.place h staves newStaff).find? (fun s => s.uuid == id)
        = staves.find? (fun s => s.uuid == id))
    ∧ (Insert_staff.place h staves newStaff).find? (fun s => s.uuid == newStaff.uuid)
        = some newStaff := by
  unfold Insert_staff.place
  simp only
  constructor
  · intro id hid
    split
    · apply find?_insertIdx_of_false
      simpa using fun h => hid h.symm
    · rw [List.find?_append]
      have : (newStaff.uuid == id) = false := by simpa using fun h => hid h.symm
      simp [this]
  · split
    · rename_i hi
      apply find?_insertIdx_of_true
      · simp
      · intro b hb
        simpa using hfresh b hb
      · rw [List.length_insertionSort] at hi
        simp at hi
        omega
    · rw [List.find?_append]
      have : staves.find? (fun s => s.uuid == newStaff.uuid) = none := by
        rw [List.find?_eq_none]
        intro b hb
        simpa using hfresh b hb
      simp [this]

/-- In a facsimile document whose staves have more than one line, inserting a
staff next to the closest one adds a staff with the given zone and an empty
layer at its place among the staves and reports its uuid. -/
theorem Insert_staff_auto_eq (h : Helpers) (newUuid : String) (ulx uly lrx lry : Int)
    (tk : Toolkit StaffDoc) (hpage : tk.doc.hasDrawingPage = true)
    (hfacs : tk.doc.isFacs = true) (hlines : ∀ s ∈ tk.doc.staves, s.m_drawingLines ≠ 1) :
    ∃ newStaff : Staff, newStaff.uuid = newUuid
      ∧ newStaff.zone = { ulx := ulx, uly := uly, lrx := lrx, lry := lry }
      ∧ newStaff.layer = []
      ∧ Insert_staff h newUuid "auto" ulx uly lrx lry tk
        = Outcome.returned true
          { doc := { tk.doc with staves := Insert_staff.place h tk.doc.staves newStaff },
            m_editInfo := newUuid } := by
  unfold Insert_staff
  simp only [hpage, hfacs, Bool.not_true, Bool.false_eq_true, if_false, if_true]
  have hl : Insert_staff.drawingLines ((tk.doc.staves.insertionSort
      (fun a b => h.ClosestBB ulx uly a b = true)).head?) - 1 ≠ 0 := by
    cases hh : (tk.doc.staves.insertionSort (fun a b => h.ClosestBB ulx uly a b = true)).head? with
    | none => simp [Insert_staff.drawingLines]
    | some s =>
      have hm : s ∈ tk.doc.staves := by
        have := List.mem_of_mem_head? hh
        exact (List.perm_insertionSort _ _).mem_iff.mp this
      have := hlines s hm
      simp only [Insert_staff.drawingLines]
      omega
  rw [if_neg hl]
  exact ⟨_, rfl, rfl, rfl, rfl⟩

/-- The staves keep their uuids through the end of `Split`. -/
theorem Split.relocate_uuid (x : Int) (staff : Staff) (splitUuid : String) (s : Staff) :
    (Split.relocate x staff splitUuid s).uuid = s.uuid := by
  unfold Split.relocate
  split
  · rfl
  · split <;> rfl

/-- A lookup by uuid commutes with a change of the staves that keeps their
uuids. -/
theorem find?_uuid_map (l : List Staff) (g : Staff → Staff) (id : String)
    (hg : ∀ s, (g s).uuid = s.uuid) :
    (l.map g).find? (fun s => s.uuid == id) = (l.find? (fun s => s.uuid == id)).map g := by
  rw [List.find?_map]
  have : ((fun s : Staff => s.uuid == id) ∘ g) = (fun s : Staff => s.uuid == id) := by
    funext s
    simp [hg]
  rw [this]

/-- C11: in a facsimile document, for a staff with left < x < right (the new
uuid being fresh and every staff having more than one line) `Split` succeeds
and reports the new staff; afterwards the original staff spans [left, x] and
the new staff [x, right], both with the original top and bottom; the two
layers together hold the children of the original layer, each once; and a
child is in the new staff's layer exactly when its anchor left edge (its own
zone's left edge, or the smallest left edge among its descendants' zones) is
greater than x, and in the original staff's layer otherwise. -/
theorem C11_Split_partition (h : Helpers) (newUuid elementId : String) (x : Int)
    (tk : Toolkit StaffDoc) (staff : Staff)
    (hpage : tk.doc.hasDrawingPage = true) (hfacs : tk.doc.isFacs = true)
    (hlines : ∀ s ∈ tk.doc.staves, s.m_drawingLines ≠ 1)
    (hfresh : ∀ s ∈ tk.doc.staves, s.uuid ≠ newUuid)
    (hstaff : tk.doc.findStaff elementId = some staff)
    (hleft : staff.zone.ulx < x) (hright : x < staff.zone.lrx) :
    ∃ tk1 original added,
      Split h newUuid elementId x tk = Outcome.returned true tk1
      ∧ tk1.m_editInfo = newUuid
      ∧ tk1.doc.findStaff elementId = some original
      ∧ tk1.doc.findStaff newUuid = some added
      ∧ original.zone = { ulx := staff.zone.ulx, uly := staff.zone.uly, lrx := x,
                          lry := staff.zone.lry }
      ∧ added.zone = { ulx := x, uly := staff.zone.uly, lrx := staff.zone.lrx,
                       lry := staff.zone.lry }
      ∧ (added.layer ++ original.layer).Perm staff.layer
      ∧ ∀ c ∈ staff.layer,
          (c ∈ added.layer ↔ ∃ e, Split.anchorLeft_spec c = some e ∧ x < e)
          ∧ (c ∈ original.layer ↔ ¬ c ∈ added.layer) := by
  obtain ⟨newStaff, hnu, hnz, hnl, hins⟩ :=
    Insert_staff_auto_eq h newUuid x staff.zone.uly staff.zone.lrx staff.zone.lry tk hpage hfacs
      hlines
  obtain ⟨hsu, hsm⟩ := StaffDoc.findStaff_some tk.doc elementId staff hstaff
  have hne : elementId ≠ newUuid := by
    rw [← hsu]
    exact hfresh staff hsm
  obtain ⟨hother, hnew⟩ := Insert_staff.find_place h tk.doc.staves newStaff
    (fun s hs => by rw [hnu]; exact hfresh s hs)
  rw [hnu] at hnew
  have hold := hother elementId (by rw [hnu]; exact hne)
  have hS : Split h newUuid elementId x tk = Outcome.returned true
      { doc := { tk.doc with
                 staves := List.map (Split.relocate x staff newStaff.uuid)
                             (Insert_staff.place h tk.doc.staves newStaff) },
        m_editInfo := newStaff.uuid } := by
    unfold Split
    simp only [hpage, hstaff, Bool.not_true, Bool.false_eq_true, if_false]
    have : ¬ ((decide (staff.zone.ulx > x) || decide (staff.zone.lrx < x)) = true) := by
      simp
      omega
    rw [if_neg this]
    simp only [hins, StaffDoc.findStaff, hnew, hpage]
    rfl
  have h3 : (Split.relocate x staff newStaff.uuid staff)
      = { staff with zone := { staff.zone with lrx := x },
                     layer := staff.layer.filter (fun c => !Split.movesToSplit x c) } := by
    unfold Split.relocate
    rw [if_neg (by rw [hnu, hsu]; exact hne), if_pos rfl]
  have h4 : (Split.relocate x staff newStaff.uuid newStaff)
      = { newStaff with
            layer := newStaff.layer ++ staff.layer.filter (fun c => Split.movesToSplit x c) } := by
    unfold Split.relocate
    rw [if_pos rfl]
  refine ⟨_, Split.relocate x staff newStaff.uuid staff,
    Split.relocate x staff newStaff.uuid newStaff, hS, hnu, ?_, ?_, ?_, ?_, ?_, ?_⟩
  · simp only [StaffDoc.findStaff]
    rw [find?_uuid_map _ _ _ (Split.relocate_uuid x staff newStaff.uuid), hold]
    have h2 := hstaff
    simp only [StaffDoc.findStaff] at h2
    rw [h2]
    rfl
  · simp only [StaffDoc.findStaff]
    rw [find?_uuid_map _ _ _ (Split.relocate_uuid x staff newStaff.uuid), hnew]
    rfl
  · rw [h3]
  · rw [h4]
    exact hnz
  · rw [h3, h4]
    simp only [hnl, List.nil_append]
    exact List.filter_append_perm _ _
  · intro c hc
    rw [h3, h4]
    simp only [hnl, List.nil_append, List.mem_filter, hc, true_and]
    refine ⟨Split.movesToSplit_iff x c, ?_⟩
    simp

/-- C11 on the sample document: the staff `"a"` with zone [0, 100] is split at
x = 50. -/
theorem C11_Split_partition_witness :
    ∃ tk1 original added,
      Split sampleHelpers "n" "a" 50 { doc := sampleStaffDoc, m_editInfo := "" }
        = Outcome.returned true tk1
      ∧ tk1.m_editInfo = "n"
      ∧ tk1.doc.findStaff "a" = some original
      ∧ tk1.doc.findStaff "n" = some added
      ∧ original.zone = { ulx := 0, uly := 0, lrx := 50, lry := 50 }
      ∧ added.zone = { ulx := 50, uly := 0, lrx := 100, lry := 50 }
      ∧ (added.layer ++ original.layer).Perm
          [{ uuid := "c1", ownZone := some { ulx := 10, uly := 0, lrx := 20, lry := 5 },
             descendantZones := [] },
           { uuid := "c2", ownZone := none,
             descendantZones := [{ ulx := 70, uly := 0, lrx := 80, lry := 5 },
                                 { ulx := 60, uly := 0, lrx := 65, lry := 5 }] },
           { uuid := "c3", ownZone := none, descendantZones := [] }]
      ∧ ∀ c ∈ ([{ uuid := "c1", ownZone := some { ulx := 10, uly := 0, lrx := 20, lry := 5 },
                  descendantZones := [] },
                { uuid := "c2", ownZone := none,
                  descendantZones := [{ ulx := 70, uly := 0, lrx := 80, lry := 5 },
                                      { ulx := 60, uly := 0, lrx := 65, lry := 5 }] },
                { uuid := "c3", ownZone := none, descendantZones := [] }] : List LayerChild),
          (c ∈ added.layer ↔ ∃ e, Split.anchorLeft_spec c = some e ∧ 50 < e)
          ∧ (c ∈ original.layer ↔ ¬ c ∈ added.layer) :=
  C11_Split_partition sampleHelpers "n" "a" 50 { doc := sampleStaffDoc, m_editInfo := "" }
    { uuid := "a", zone := { ulx := 0, uly := 0, lrx := 100, lry := 50 },
      layer :=
        [{ uuid := "c1", ownZone := some { ulx := 10, uly := 0, lrx := 20, lry := 5 },
           descendantZones := [] },
         { uuid := "c2", ownZone := none,
           descendantZones := [{ ulx := 70, uly := 0, lrx := 80, lry := 5 },
                               { ulx := 60, uly := 0, lrx := 65, lry := 5 }] },
         { uuid := "c3", ownZone := none, descendantZones := [] }],
      m_drawingLines := 4, m_drawingStaffSize := 16 }
    rfl rfl (by decide) (by decide) rfl (by decide) (by decide)

/-! ## Theorems: `Resize` -/

/-- Changing the zone at one address leaves the lookup of every other address
as it was and applies the change at that address. -/
theorem FacsDoc.zoneAt_modifyZone (d : FacsDoc) (a b : Nat) (f : Zone → Zone) :
    (d.modifyZone a f).zoneAt b = if b = a then (d.zoneAt b).map f else d.zoneAt b := by
  unfold FacsDoc.zoneAt FacsDoc.modifyZone
  simp only
  rw [List.find?_map]
  have hp : ((fun e : Nat × Zone => e.1 == b)
      ∘ fun e : Nat × Zone => if e.1 = a then (e.1, f e.2) else e)
      = (fun e : Nat × Zone => e.1 == b) := by
    funext e
    simp only [Function.comp]
    split <;> rfl
  rw [hp]
  cases hfind : d.zones.find? (fun e => e.1 == b) with
  | none => simp
  | some e =>
    have he : e.1 = b := by simpa using List.find?_some hfind
    by_cases hb : b = a
    · simp [hb, he.trans hb]
    · have : ¬ e.1 = a := fun h => hb (he.symm.trans h)
      simp [hb, this]

/-- C12, as stated, fails: the note component `"n1"` of the sample document
supports facsimile association and has a zone, yet `Resize` on it returns
false and leaves the document as it was. -/
theorem C12_counterexample :
    Resize "n1" 0 0 10 10 { doc := sampleFacsDoc, m_editInfo := "" }
      = Outcome.returned false { doc := sampleFacsDoc, m_editInfo := "" } := rfl

/-- C12 (amended): in a facsimile document, for a staff or a syl that has a
facsimile and a zone, `Resize(id, rect)` succeeds, sets that zone to exactly
rect and changes nothing else (no other zone, no object and so no pitch or
tree structure, no child of the surface); for an object of any other class
(note component, neume, clef, custos, ...) it returns false and changes
nothing. -/
theorem C12_Resize_frame (elementId : String) (ulx uly lrx lry : Int) (tk : Toolkit FacsDoc)
    (obj : FacsElement) (hpage : tk.doc.hasDrawingPage = true) (hfacs : tk.doc.isFacs = true)
    (hobj : tk.doc.FindChildByUuid elementId = some obj) :
    ((obj.cls = ClassId.STAFF ∨ obj.cls = ClassId.SYL) →
      ∀ zone, obj.hasFacs = true → obj.zone = some zone → (tk.doc.zoneAt zone).isSome = true →
      ∃ tk1, Resize elementId ulx uly lrx lry tk = Outcome.returned true tk1
        ∧ tk1.doc.zoneAt zone = some { ulx := ulx, uly := uly, lrx := lrx, lry := lry }
        ∧ (∀ other, other ≠ zone → tk1.doc.zoneAt other = tk.doc.zoneAt other)
        ∧ tk1.doc.elements = tk.doc.elements
        ∧ tk1.doc.surface = tk.doc.surface
        ∧ tk1.doc.zones.map (fun e => e.1) = tk.doc.zones.map (fun e => e.1))
    ∧ (¬ (obj.cls = ClassId.STAFF ∨ obj.cls = ClassId.SYL) →
      Resize elementId ulx uly lrx lry tk = Outcome.returned false tk) := by
  constructor
  · intro hcls zone hhas hzone hlive
    have hR : Resize elementId ulx uly lrx lry tk = Outcome.returned true
        { tk with doc := tk.doc.modifyZone zone
                    (fun _ => { ulx := ulx, uly := uly, lrx := lrx, lry := lry }) } := by
      unfold Resize
      simp only [hpage, hfacs, hobj, Bool.not_true, Bool.false_eq_true, if_false, hhas, hzone]
      rcases hcls with hc | hc
      · simp [hc]
      · simp [hc]
    refine ⟨_, hR, ?_, ?_, rfl, rfl, ?_⟩
    · simp only [FacsDoc.zoneAt_modifyZone, if_true]
      cases hz : tk.doc.zoneAt zone with
      | none => simp [hz] at hlive
      | some z => rfl
    · intro other hne
      simp only [FacsDoc.zoneAt_modifyZone, if_neg hne]
    · simp only [FacsDoc.modifyZone, List.map_map]
      apply List.map_congr_left
      intro e _
      simp only [Function.comp]
      split <;> rfl
  · intro hcls
    unfold Resize
    simp only [hpage, hfacs, hobj, Bool.not_true, Bool.false_eq_true, if_false]
    rw [if_neg (fun h => hcls (Or.inl h)), if_neg (fun h => hcls (Or.inr h))]

/-- C12 (amended) on the sample document: the zone of the syl `"t1"` is set to
(5, 6, 7, 8). -/
theorem C12_Resize_frame_witness :
    ∃ tk1, Resize "t1" 5 6 7 8 { doc := sampleFacsDoc, m_editInfo := "" }
        = Outcome.returned true tk1
      ∧ tk1.doc.zoneAt 2 = some { ulx := 5, uly := 6, lrx := 7, lry := 8 }
      ∧ (∀ other, other ≠ 2 → tk1.doc.zoneAt other = sampleFacsDoc.zoneAt other)
      ∧ tk1.doc.elements = sampleFacsDoc.elements
      ∧ tk1.doc.surface = sampleFacsDoc.surface
      ∧ tk1.doc.zones.map (fun e => e.1) = sampleFacsDoc.zones.map (fun e => e.1) :=
  (C12_Resize_frame "t1" 5 6 7 8 { doc := sampleFacsDoc, m_editInfo := "" } sampleSylElement
    rfl rfl rfl).1 (Or.inr rfl) 2 rfl rfl rfl

/-! ## Theorems: `Drag` of a staff -/

/-- Membership in a set after an insertion. -/
theorem mem_setInsert (a b : Nat) (l : List Nat) : b ∈ setInsert a l ↔ b = a ∨ b ∈ l := by
  induction l with
  | nil => simp [setInsert]
  | cons c rest ih =>
    unfold setInsert
    split
    · simp
    · split
      · rename_i hac
        subst hac
        simp
      · simp only [List.mem_cons, ih]
        tauto

/-- Insertion keeps a set in strictly increasing order. -/
theorem sorted_setInsert (a : Nat) (l : List Nat) (hl : l.Pairwise (fun x y => x < y)) :
    (setInsert a l).Pairwise (fun x y => x < y) := by
  induction l with
  | nil => simp [setInsert]
  | cons c rest ih =>
    unfold setInsert
    rw [List.pairwise_cons] at hl
    split
    · rename_i hac
      rw [List.pairwise_cons]
      refine ⟨?_, List.pairwise_cons.mpr hl⟩
      intro b hb
      rcases List.mem_cons.mp hb with rfl | hb
      · exact hac
      · exact lt_trans hac (hl.1 b hb)
    · split
      · exact List.pairwise_cons.mpr hl
      · rename_i h1 h2
        rw [List.pairwise_cons]
        refine ⟨?_, ih hl.2⟩
        intro b hb
        rcases (mem_setInsert a b rest).mp hb with rfl | hb
        · omega
        · exact hl.1 b hb

/-- The set of zones of the staff branch is in strictly increasing order and
holds the zone of the staff and the zones of the objects found under it. -/
theorem Drag_staff.zones_spec (d : FacsDoc) (staff : FacsElement) (staffZone : Nat) :
    (Drag_staff.zones d staff staffZone).Pairwise (fun x y => x < y)
      ∧ ∀ a, a ∈ Drag_staff.zones d staff staffZone ↔
          a = staffZone ∨ ∃ e ∈ d.elements, e.facsimileInterface = true
            ∧ (e.uuid = staff.uuid ∨ e.staff = some staff.uuid) ∧ e.zone = some a := by
  unfold Drag_staff.zones
  simp only
  have key : ∀ (l : List FacsElement) (init : List Nat),
      init.Pairwise (fun x y => x < y) →
      (l.foldl (fun zones e => match e.zone with
          | some z => setInsert z zones
          | none => zones) init).Pairwise (fun x y => x < y)
      ∧ ∀ a, a ∈ l.foldl (fun zones e => match e.zone with
          | some z => setInsert z zones
          | none => zones) init ↔ a ∈ init ∨ ∃ e ∈ l, e.zone = some a := by
    intro l
    induction l with
    | nil => intro init hi; simp [hi]
    | cons e rest ih =>
      intro init hi
      simp only [List.foldl_cons]
      cases hz : e.zone with
      | none =>
        obtain ⟨h1, h2⟩ := ih init hi
        refine ⟨h1, fun a => ?_⟩
        rw [h2 a]
        constructor
        · rintro (h | ⟨e2, he2, hz2⟩)
          · exact Or.inl h
          · exact Or.inr ⟨e2, List.mem_cons_of_mem _ he2, hz2⟩
        · rintro (h | ⟨e2, he2, hz2⟩)
          · exact Or.inl h
          · rcases List.mem_cons.mp he2 with rfl | he2
            · rw [hz] at hz2
              exact absurd hz2 (by simp)
            · exact Or.inr ⟨e2, he2, hz2⟩
      | some z =>
        obtain ⟨h1, h2⟩ := ih (setInsert z init) (sorted_setInsert z init hi)
        refine ⟨h1, fun a => ?_⟩
        rw [h2 a, mem_setInsert]
        constructor
        · rintro ((h | h) | ⟨e2, he2, hz2⟩)
          · exact Or.inr ⟨e, List.mem_cons_self _ _, by rw [hz, h]⟩
          · exact Or.inl h
          · exact Or.inr ⟨e2, List.mem_cons_of_mem _ he2, hz2⟩
        · rintro (h | ⟨e2, he2, hz2⟩)
          · exact Or.inl (Or.inr h)
          · rcases List.mem_cons.mp he2 with rfl | he2
            · rw [hz] at hz2
              exact Or.inl (Or.inl (Option.some.inj hz2).symm)
            · exact Or.inr ⟨e2, he2, hz2⟩
  obtain ⟨h1, h2⟩ := key (d.elements.filter
    (fun e => e.facsimileInterface && (e.uuid == staff.uuid || e.staff == some staff.uuid)))
    (setInsert staffZone []) (by simp [setInsert])
  refine ⟨h1, fun a => (h2 a).trans ?_⟩
  simp only [setInsert, List.mem_singleton, List.mem_filter, Bool.and_eq_true, Bool.or_eq_true,
    beq_iff_eq]
  constructor
  · rintro (h | ⟨e, ⟨he, hf, hs⟩, hz⟩)
    · exact Or.inl h
    · exact Or.inr ⟨e, he, hf, hs, hz⟩
  · rintro (h | ⟨e, he, hf, hs, hz⟩)
    · exact Or.inl h
    · exact Or.inr ⟨e, ⟨he, hf, hs⟩, hz⟩

/-- Shifting every zone of a list without duplicates shifts each of them once
and leaves every other zone as it was; the objects are not touched. -/
theorem FacsDoc.foldl_modifyZone (f : Zone → Zone) (zs : List Nat) (hnd : zs.Nodup)
    (d : FacsDoc) :
    (∀ a, (zs.foldl (fun d z => d.modifyZone z f) d).zoneAt a
        = if a ∈ zs then (d.zoneAt a).map f else d.zoneAt a)
      ∧ (zs.foldl (fun d z => d.modifyZone z f) d).elements = d.elements
      ∧ (zs.foldl (fun d z => d.modifyZone z f) d).surface = d.surface := by
  induction zs generalizing d with
  | nil => simp
  | cons z rest ih =>
    rw [List.nodup_cons] at hnd
    simp only [List.foldl_cons]
    obtain ⟨h1, h2, h3⟩ := ih hnd.2 (d.modifyZone z f)
    refine ⟨fun a => ?_, ?_, ?_⟩
    · rw [h1 a, FacsDoc.zoneAt_modifyZone]
      by_cases haz : a = z
      · subst haz
        simp [hnd.1]
      · simp [haz]
    · rw [h2]; rfl
    · rw [h3]; rfl

/-- C19, as stated, fails: dragging the staff `"s1"` of the sample document by
(10, 20) does not move its zone (0, 0, 1000, 300) by (10, 20) but by (10, -20),
to (10, -20, 1010, 280). -/
theorem C19_counterexample :
    ∃ tk1, Drag_staff sampleStaffElement 10 20 { doc := sampleFacsDoc, m_editInfo := "" }
        = Outcome.returned true tk1
      ∧ tk1.doc.zoneAt 1
          ≠ (sampleFacsDoc.zoneAt 1).map (fun r => r.ShiftByXY 10 20)
      ∧ tk1.doc.zoneAt 1 = some { ulx := 10, uly := -20, lrx := 1010, lry := 280 } :=
  ⟨_, rfl, by decide, by decide⟩

/-- C19 (amended): `Drag` of a staff that has a zone by (dx, dy) succeeds and
translates the staff's zone and every zone referenced by an object found
under the staff by exactly (dx, -dy), each distinct zone once even when
several objects share it; every other zone, every object (so every pitch) and
the order of the objects stay as they were. -/
theorem C19_Drag_staff_zones (staff : FacsElement) (staffZone : Nat) (x y : Int)
    (tk : Toolkit FacsDoc) (hfacs : staff.hasFacs = true) (hzone : staff.zone = some staffZone) :
    ∃ tk1, Drag_staff staff x y tk = Outcome.returned true tk1
      ∧ (∀ a, (a = staffZone ∨ ∃ e ∈ tk.doc.elements, e.facsimileInterface = true
              ∧ (e.uuid = staff.uuid ∨ e.staff = some staff.uuid) ∧ e.zone = some a) →
          tk1.doc.zoneAt a = (tk.doc.zoneAt a).map (fun r => r.ShiftByXY x (-y)))
      ∧ (∀ a, ¬ (a = staffZone ∨ ∃ e ∈ tk.doc.elements, e.facsimileInterface = true
              ∧ (e.uuid = staff.uuid ∨ e.staff = some staff.uuid) ∧ e.zone = some a) →
          tk1.doc.zoneAt a = tk.doc.zoneAt a)
      ∧ tk1.doc.elements = tk.doc.elements
      ∧ tk1.doc.surface = tk.doc.surface
      ∧ tk1.m_editInfo = tk.m_editInfo := by
  obtain ⟨hsorted, hmem⟩ := Drag_staff.zones_spec tk.doc staff staffZone
  have hnd : (Drag_staff.zones tk.doc staff staffZone).Nodup :=
    hsorted.imp (fun h => Nat.ne_of_lt h)
  obtain ⟨h1, h2, h3⟩ := FacsDoc.foldl_modifyZone (fun r => r.ShiftByXY x (-y))
    (Drag_staff.zones tk.doc staff staffZone) hnd tk.doc
  have hD : Drag_staff staff x y tk = Outcome.returned true
      { tk with doc := (Drag_staff.zones tk.doc staff staffZone).foldl
                         (fun d z => d.modifyZone z (fun r => r.ShiftByXY x (-y))) tk.doc } := by
    unfold Drag_staff
    simp only [hfacs, hzone, Bool.not_true, Bool.false_eq_true, if_false]
  refine ⟨_, hD, ?_, ?_, h2, h3, rfl⟩
  · intro a ha
    show (List.foldl _ tk.doc (Drag_staff.zones tk.doc staff staffZone)).zoneAt a = _
    rw [h1 a, if_pos ((hmem a).mpr ha)]
  · intro a ha
    show (List.foldl _ tk.doc (Drag_staff.zones tk.doc staff staffZone)).zoneAt a = _
    rw [h1 a, if_neg (fun h => ha ((hmem a).mp h))]

/-- C19 (amended) on the sample document: the staff `"s1"` is dragged by
(10, 20); the zone 4 of the note component `"n1"` moves by (10, -20). -/
theorem C19_Drag_staff_zones_witness :
    ∃ tk1, Drag_staff sampleStaffElement 10 20 { doc := sampleFacsDoc, m_editInfo := "" }
        = Outcome.returned true tk1
      ∧ tk1.doc.zoneAt 4 = some { ulx := 110, uly := 80, lrx := 160, lry := 130 } := by
  obtain ⟨tk1, h1, h2, _⟩ := C19_Drag_staff_zones sampleStaffElement 1 10 20
    { doc := sampleFacsDoc, m_editInfo := "" } rfl rfl
  refine ⟨tk1, h1, ?_⟩
  rw [h2 4 (Or.inr ⟨sampleNcElement, by decide, rfl, Or.inr rfl, rfl⟩)]
  rfl

/-! ## Theorems: `ToggleLigature` -/

/-- A lookup by uuid after a change that keeps uuids. -/
theorem FacsDoc.find_modifyElement (d : FacsDoc) (u v : String) (f : FacsElement → FacsElement)
    (hf : ∀ e, (f e).uuid = e.uuid) :
    (d.modifyElement u f).FindChildByUuid v
      = (d.FindChildByUuid v).map (fun e => if e.uuid = u then f e else e) := by
  unfold FacsDoc.FindChildByUuid FacsDoc.modifyElement
  simp only
  rw [List.find?_map]
  have hp : ((fun e : FacsElement => e.uuid == v)
      ∘ fun e : FacsElement => if e.uuid = u then f e else e)
      = (fun e : FacsElement => e.uuid == v) := by
    funext e
    simp only [Function.comp]
    split
    · rw [hf]
    · rfl
  rw [hp]

/-- The object a lookup finds carries the uuid asked for. -/
theorem FacsDoc.find_uuid (d : FacsDoc) (v : String) (e : FacsElement)
    (h : d.FindChildByUuid v = some e) : e.uuid = v := by
  unfold FacsDoc.FindChildByUuid at h
  simpa using List.find?_some h

/-- The note component a lookup finds carries the uuid asked for and is found
by `FindChildByUuid`. -/
theorem FacsDoc.findNc_some (d : FacsDoc) (v : String) (e : FacsElement)
    (h : d.findNc v = some e) :
    d.FindChildByUuid v = some e ∧ e.cls = ClassId.NC ∧ e.uuid = v := by
  unfold FacsDoc.findNc at h
  cases hf : d.FindChildByUuid v with
  | none => simp [hf] at h
  | some e2 =>
    simp only [hf] at h
    split at h
    · rename_i hc
      have : e2 = e := Option.some.inj h
      subst this
      exact ⟨rfl, hc, FacsDoc.find_uuid d v e2 hf⟩
    · simp at h

/-- A lookup of a note component after a change that keeps uuids and classes. -/
theorem FacsDoc.findNc_modifyElement (d : FacsDoc) (u v : String)
    (f : FacsElement → FacsElement) (hf : ∀ e, (f e).uuid = e.uuid)
    (hc : ∀ e, (f e).cls = e.cls) :
    (d.modifyElement u f).findNc v
      = (d.findNc v).map (fun e => if e.uuid = u then f e else e) := by
  unfold FacsDoc.findNc
  rw [FacsDoc.find_modifyElement d u v f hf]
  cases d.FindChildByUuid v with
  | none => rfl
  | some e =>
    simp only [Option.map_some']
    by_cases hu : e.uuid = u
    · simp only [hu, if_true, hc]
      split <;> simp [hu]
    · simp only [hu, if_false]
      split <;> simp [hu]

/-- Every address of a zone of the document is below the address of a new zone. -/
theorem FacsDoc.lt_newZone (d : FacsDoc) (e : Nat × Zone) (he : e ∈ d.zones) :
    e.1 < d.newZone := by
  unfold FacsDoc.newZone
  have key : ∀ (l : List Nat) (init : Nat) (a : Nat), a ∈ l → a ≤ l.foldl max init := by
    intro l
    induction l with
    | nil => intro init a ha; simp at ha
    | cons b rest ih =>
      intro init a ha
      simp only [List.foldl_cons]
      have mono : ∀ (l : List Nat) (i : Nat), i ≤ l.foldl max i := by
        intro l
        induction l with
        | nil => intro i; simp
        | cons c r ih2 =>
          intro i
          simp only [List.foldl_cons]
          exact le_trans (le_max_left i c) (ih2 _)
      rcases List.mem_cons.mp ha with rfl | ha
      · exact le_trans (le_max_right init a) (mono rest _)
      · exact ih _ a ha
  have := key (d.zones.map (fun e => e.1)) 0 e.1 (List.mem_map.mpr ⟨e, he, rfl⟩)
  omega

/-- No zone of the document lives at the address of a new zone. -/
theorem FacsDoc.zoneAt_newZone (d : FacsDoc) : d.zoneAt d.newZone = none := by
  unfold FacsDoc.zoneAt
  rw [Option.map_eq_none', List.find?_eq_none]
  intro e he
  have := FacsDoc.lt_newZone d e he
  simp only [beq_iff_eq]
  omega

/-- The zones after a new one was added at an address not in use. -/
theorem FacsDoc.zoneAt_allocZone (d : FacsDoc) (k : Nat) (rect : Zone) (a : Nat)
    (hk : d.zoneAt k = none) :
    (d.allocZone k rect).zoneAt a = if a = k then some rect else d.zoneAt a := by
  unfold FacsDoc.zoneAt FacsDoc.allocZone at *
  simp only [List.find?_append]
  by_cases hak : a = k
  · subst hak
    rw [Option.map_eq_none'] at hk
    simp [hk]
  · cases hfind : d.zones.find? (fun e => e.1 == a) with
    | none =>
      have : ¬ k = a := fun h => hak h.symm
      simp [hak, this]
    | some e => simp [hak]

/-- What the lookups find in the state `ToggleLigature` leaves. -/
theorem ToggleLigature.result_spec (d : FacsDoc) (A B : String) (value : Bool) (rect : Zone)
    (hAB : A ≠ B) :
    (∀ a, d.findNc A = some a →
        (ToggleLigature.result d A B value rect).findNc A = some (SetNeumes_ligated a value))
      ∧ (∀ b, d.findNc B = some b →
        (ToggleLigature.result d A B value rect).findNc B
          = some (SetNeumes_ligated (b.SetZone d.newZone) value))
      ∧ (∀ z, (ToggleLigature.result d A B value rect).zoneAt z
          = if z = d.newZone then some rect else d.zoneAt z)
      ∧ (∀ v, ((ToggleLigature.result d A B value rect).FindChildByUuid v).map
            (fun e => e.m_drawingStaffSize)
          = (d.FindChildByUuid v).map (fun e => e.m_drawingStaffSize))
      ∧ (ToggleLigature.result d A B value rect).surface = d.surface ++ [d.newZone]
      ∧ (ToggleLigature.result d A B value rect).hasDrawingPage = d.hasDrawingPage
      ∧ (ToggleLigature.result d A B value rect).isFacs = d.isFacs := by
  have hfind : ∀ v, (ToggleLigature.result d A B value rect).FindChildByUuid v
      = (((d.FindChildByUuid v).map
          (fun e => if e.uuid = A then SetNeumes_ligated e value else e)).map
          (fun e => if e.uuid = B then e.SetZone d.newZone else e)).map
          (fun e => if e.uuid = B then SetNeumes_ligated e value else e) := by
    intro v
    have h1 := FacsDoc.find_modifyElement
      (((d.modifyElement A (fun e => SetNeumes_ligated e value)).allocZone d.newZone
        rect).modifyElement B (fun e => e.SetZone d.newZone)) B v
      (fun e => SetNeumes_ligated e value) (fun _ => rfl)
    have h2 := FacsDoc.find_modifyElement
      ((d.modifyElement A (fun e => SetNeumes_ligated e value)).allocZone d.newZone rect) B v
      (fun e => e.SetZone d.newZone) (fun _ => rfl)
    have h3 := FacsDoc.find_modifyElement d A v (fun e => SetNeumes_ligated e value)
      (fun _ => rfl)
    have h0 : (ToggleLigature.result d A B value rect).FindChildByUuid v
        = ((((d.modifyElement A (fun e => SetNeumes_ligated e value)).allocZone d.newZone
            rect).modifyElement B (fun e => e.SetZone d.newZone)).modifyElement B
            (fun e => SetNeumes_ligated e value)).FindChildByUuid v := rfl
    have h4 : ((d.modifyElement A (fun e => SetNeumes_ligated e value)).allocZone d.newZone
        rect).FindChildByUuid v
        = (d.modifyElement A (fun e => SetNeumes_ligated e value)).FindChildByUuid v := rfl
    rw [h0, h1, h2, h4, h3]
  have hnc : ∀ v, (ToggleLigature.result d A B value rect).findNc v
      = (((d.findNc v).map
          (fun e => if e.uuid = A then SetNeumes_ligated e value else e)).map
          (fun e => if e.uuid = B then e.SetZone d.newZone else e)).map
          (fun e => if e.uuid = B then SetNeumes_ligated e value else e) := by
    intro v
    have h1 := FacsDoc.findNc_modifyElement
      (((d.modifyElement A (fun e => SetNeumes_ligated e value)).allocZone d.newZone
        rect).modifyElement B (fun e => e.SetZone d.newZone)) B v
      (fun e => SetNeumes_ligated e value) (fun _ => rfl) (fun _ => rfl)
    have h2 := FacsDoc.findNc_modifyElement
      ((d.modifyElement A (fun e => SetNeumes_ligated e value)).allocZone d.newZone rect) B v
      (fun e => e.SetZone d.newZone) (fun _ => rfl) (fun _ => rfl)
    have h3 := FacsDoc.findNc_modifyElement d A v (fun e => SetNeumes_ligated e value)
      (fun _ => rfl) (fun _ => rfl)
    have h0 : (ToggleLigature.result d A B value rect).findNc v
        = ((((d.modifyElement A (fun e => SetNeumes_ligated e value)).allocZone d.newZone
            rect).modifyElement B (fun e => e.SetZone d.newZone)).modifyElement B
            (fun e => SetNeumes_ligated e value)).findNc v := rfl
    have h4 : ((d.modifyElement A (fun e => SetNeumes_ligated e value)).allocZone d.newZone
        rect).findNc v
        = (d.modifyElement A (fun e => SetNeumes_ligated e value)).findNc v := rfl
    rw [h0, h1, h2, h4, h3]
  have u1 : ∀ (e : FacsElement) (v : Bool), (SetNeumes_ligated e v).uuid = e.uuid :=
    fun _ _ => rfl
  have u2 : ∀ (e : FacsElement) (z : Nat), (e.SetZone z).uuid = e.uuid := fun _ _ => rfl
  have s1 : ∀ (e : FacsElement) (v : Bool),
      (SetNeumes_ligated e v).m_drawingStaffSize = e.m_drawingStaffSize := fun _ _ => rfl
  have s2 : ∀ (e : FacsElement) (z : Nat),
      (e.SetZone z).m_drawingStaffSize = e.m_drawingStaffSize := fun _ _ => rfl
  refine ⟨?_, ?_, ?_, ?_, rfl, rfl, rfl⟩
  · intro a ha
    rw [hnc A, ha]
    have hu := (FacsDoc.findNc_some d A a ha).2.2
    simp [hu, u1, hAB]
  · intro b hb
    rw [hnc B, hb]
    have hu := (FacsDoc.findNc_some d B b hb).2.2
    have hBA : ¬ B = A := fun h => hAB h.symm
    simp [hu, u2, hBA]
  · intro z
    have h0 : (ToggleLigature.result d A B value rect).zoneAt z
        = ((d.modifyElement A (fun e => SetNeumes_ligated e value)).allocZone d.newZone
            rect).zoneAt z := rfl
    rw [h0, FacsDoc.zoneAt_allocZone]
    · rfl
    · exact FacsDoc.zoneAt_newZone d
  · intro v
    rw [hfind v]
    cases d.FindChildByUuid v with
    | none => rfl
    | some e =>
      simp only [Option.map_some']
      congr 1
      split_ifs <;> rfl

/-- Turning the ligature on (`isLigature == "false"`) in a facsimile document,
for two note components of which the first has a zone. -/
theorem ToggleLigature_on (G : Int → Int) (L : FacsDoc → FacsDoc) (A B : String)
    (tk : Toolkit FacsDoc) (a b : FacsElement) (za : Nat) (r : Zone)
    (hpage : tk.doc.hasDrawingPage = true) (hfacs : tk.doc.isFacs = true)
    (hA : tk.doc.findNc A = some a) (hB : tk.doc.findNc B = some b)
    (hza : a.zone = some za) (hr : tk.doc.zoneAt za = some r) :
    ToggleLigature G L A B "false" tk = Outcome.returned true
      { doc := ToggleLigature.result tk.doc A B true r, m_editInfo := "" } := by
  have hz : a.zone.bind (tk.doc.modifyElement A (fun e => SetNeumes_ligated e true)).zoneAt
      = some r := by
    rw [hza]
    exact hr
  unfold ToggleLigature
  simp only [hpage, hA, hB, Bool.not_true, Bool.false_eq_true, if_false, hz]
  have e1 : ¬ ("false" = "true") := by decide
  rw [if_neg e1, if_pos trivial]
  simp only [ToggleLigature.finish, ToggleLigature.result]
  have hf : (((((tk.doc.modifyElement A (fun e => SetNeumes_ligated e true)).allocZone
      tk.doc.newZone { ulx := r.ulx, uly := r.uly, lrx := r.lrx, lry := r.lry }).modifyElement B
      (fun e => e.SetZone tk.doc.newZone)).modifyElement B
      (fun e => SetNeumes_ligated e true)).isFacs) = true := hfacs
  simp only [hf, Bool.not_true, Bool.false_eq_true, if_false]

/-- Turning the ligature off (`isLigature == "true"`) in a facsimile document,
for two note components of which the first has a zone and a staff. -/
theorem ToggleLigature_off (G : Int → Int) (L : FacsDoc → FacsDoc) (A B : String)
    (tk : Toolkit FacsDoc) (a b staff : FacsElement) (za : Nat) (r : Zone)
    (hpage : tk.doc.hasDrawingPage = true) (hfacs : tk.doc.isFacs = true)
    (hA : tk.doc.findNc A = some a) (hB : tk.doc.findNc B = some b)
    (hza : a.zone = some za) (hr : tk.doc.zoneAt za = some r)
    (hstaff : ((tk.doc.staffOf a).map (fun e => e.m_drawingStaffSize))
      = some staff.m_drawingStaffSize) :
    ToggleLigature G L A B "true" tk = Outcome.returned true
      { doc := ToggleLigature.result tk.doc A B false
          (r.ShiftByXY (noteWidth (G staff.m_drawingStaffSize))
            (noteHeight (G staff.m_drawingStaffSize))),
        m_editInfo := "" } := by
  have hz : a.zone.bind (tk.doc.modifyElement A (fun e => SetNeumes_ligated e false)).zoneAt
      = some r := by
    rw [hza]
    exact hr
  have hs : ((tk.doc.modifyElement A (fun e => SetNeumes_ligated e false)).staffOf a).map
      (fun e => e.m_drawingStaffSize) = some staff.m_drawingStaffSize := by
    rw [← hstaff]
    unfold FacsDoc.staffOf
    cases a.staff with
    | none => rfl
    | some s =>
      simp only
      rw [FacsDoc.find_modifyElement tk.doc A s (fun e => SetNeumes_ligated e false)
        (fun _ => rfl)]
      cases tk.doc.FindChildByUuid s with
      | none => rfl
      | some e =>
        simp only [Option.map_some']
        split <;> rfl
  cases hs1 : (tk.doc.modifyElement A (fun e => SetNeumes_ligated e false)).staffOf a with
  | none => simp [hs1] at hs
  | some staff1 =>
    have hsz : staff1.m_drawingStaffSize = staff.m_drawingStaffSize := by
      simpa [hs1] using hs
    unfold ToggleLigature
    simp only [hpage, hA, hB, Bool.not_true, Bool.false_eq_true, if_false, hz, hs1, if_true]
    simp only [ToggleLigature.finish, ToggleLigature.result, hsz, Zone.ShiftByXY]
    have hf : (((((tk.doc.modifyElement A (fun e => SetNeumes_ligated e false)).allocZone
        tk.doc.newZone
        { ulx := r.ulx + noteWidth (G staff.m_drawingStaffSize),
          uly := r.uly + noteHeight (G staff.m_drawingStaffSize),
          lrx := r.lrx + noteWidth (G staff.m_drawingStaffSize),
          lry := r.lry + noteHeight (G staff.m_drawingStaffSize) }).modifyElement B
        (fun e => e.SetZone tk.doc.newZone)).modifyElement B
        (fun e => SetNeumes_ligated e false)).isFacs) = true := hfacs
    simp only [hf, Bool.not_true, Bool.false_eq_true, if_false]

/-- C17: in a facsimile document, for two different note components A and B
of which A has a zone and a staff (of any size), toggling the ligature on
(`isLigature == "false"`) and then off (`isLigature == "true"`) succeeds twice and
leaves both ligated flags false; A keeps its zone and rectangle; B is left with
a zone other than A's, a new `Zone` (at an address no zone had before either
call) whose rectangle is A's rectangle moved by (noteWidth, noteHeight), and
that zone is a child of the surface. -/
theorem C17_ToggleLigature_on_off (G : Int → Int) (L : FacsDoc → FacsDoc) (A B : String)
    (tk : Toolkit FacsDoc) (a b staff : FacsElement) (za : Nat) (r : Zone)
    (hpage : tk.doc.hasDrawingPage = true) (hfacs : tk.doc.isFacs = true) (hAB : A ≠ B)
    (hA : tk.doc.findNc A = some a) (hB : tk.doc.findNc B = some b)
    (hza : a.zone = some za) (hr : tk.doc.zoneAt za = some r)
    (hstaff : tk.doc.staffOf a = some staff) :
    ∃ tk1 tk2 a2 b2 zb,
      ToggleLigature G L A B "false" tk = Outcome.returned true tk1
      ∧ ToggleLigature G L A B "true" tk1 = Outcome.returned true tk2
      ∧ tk2.doc.findNc A = some a2 ∧ tk2.doc.findNc B = some b2
      ∧ a2.ligated = some false ∧ b2.ligated = some false
      ∧ a2.zone = some za ∧ b2.zone = some zb ∧ zb ≠ za
      ∧ tk.doc.zoneAt zb = none ∧ tk1.doc.zoneAt zb = none
      ∧ tk2.doc.zoneAt zb = some (r.ShiftByXY (noteWidth (G staff.m_drawingStaffSize))
          (noteHeight (G staff.m_drawingStaffSize)))
      ∧ tk2.doc.zoneAt za = some r
      ∧ zb ∈ tk2.doc.surface := by
  have hon := ToggleLigature_on G L A B tk a b za r hpage hfacs hA hB hza hr
  obtain ⟨o1, o2, o3, o4, _, o6, o7⟩ := ToggleLigature.result_spec tk.doc A B true r hAB
  generalize hD1 : ToggleLigature.result tk.doc A B true r = D1 at hon o1 o2 o3 o4 o6 o7
  have hA1 := o1 a hA
  have hB1 := o2 b hB
  have hr1 : D1.zoneAt za = some r := by
    rw [o3 za]
    split
    · rfl
    · exact hr
  have hst1 : ((D1.staffOf (SetNeumes_ligated a true)).map (fun e => e.m_drawingStaffSize))
      = some staff.m_drawingStaffSize := by
    have h0 : D1.staffOf (SetNeumes_ligated a true)
        = match a.staff with
          | some s => D1.FindChildByUuid s
          | none => none := rfl
    have h1 : tk.doc.staffOf a
        = match a.staff with
          | some s => tk.doc.FindChildByUuid s
          | none => none := rfl
    rw [h1] at hstaff
    rw [h0]
    cases hs : a.staff with
    | none => simp [hs] at hstaff
    | some s =>
      simp only [hs] at hstaff ⊢
      rw [o4 s, hstaff]
      rfl
  have hoff := ToggleLigature_off G L A B { doc := D1, m_editInfo := "" }
    (SetNeumes_ligated a true) (SetNeumes_ligated (b.SetZone tk.doc.newZone) true) staff za r
    (by rw [o6]; exact hpage) (by rw [o7]; exact hfacs) hA1 hB1 hza hr1 hst1
  obtain ⟨p1, p2, p3, _, p5, _, _⟩ := ToggleLigature.result_spec D1 A B false
    (r.ShiftByXY (noteWidth (G staff.m_drawingStaffSize))
      (noteHeight (G staff.m_drawingStaffSize))) hAB
  have hnew1 : D1.zoneAt D1.newZone = none := FacsDoc.zoneAt_newZone D1
  have hne : D1.newZone ≠ za := by
    intro h
    rw [h, hr1] at hnew1
    exact absurd hnew1 (by simp)
  refine ⟨_, _, _, _, D1.newZone, hon, hoff, p1 _ hA1, p2 _ hB1, rfl, rfl, hza, rfl, hne, ?_,
    hnew1, ?_, ?_, ?_⟩
  · have h := o3 D1.newZone
    rw [hnew1] at h
    split at h
    · exact absurd h.symm (by simp)
    · exact h.symm
  · show (ToggleLigature.result D1 A B false _).zoneAt D1.newZone = _
    rw [p3 D1.newZone, if_pos rfl]
  · show (ToggleLigature.result D1 A B false _).zoneAt za = _
    rw [p3 za, if_neg (fun h => hne h.symm)]
    exact hr1
  · show D1.newZone ∈ (ToggleLigature.result D1 A B false _).surface
    rw [p5]
    simp

/-- C17 on the sample document, for the note components `"n1"` and `"n2"` on a
staff of size 100 (with the double unit equal to the staff size). -/
theorem C17_ToggleLigature_on_off_witness :
    ∃ tk1 tk2 a2 b2 zb,
      ToggleLigature (fun s => s) (fun d => d) "n1" "n2" "false"
          { doc := sampleFacsDoc, m_editInfo := "" } = Outcome.returned true tk1
      ∧ ToggleLigature (fun s => s) (fun d => d) "n1" "n2" "true" tk1
          = Outcome.returned true tk2
      ∧ tk2.doc.findNc "n1" = some a2 ∧ tk2.doc.findNc "n2" = some b2
      ∧ a2.ligated = some false ∧ b2.ligated = some false
      ∧ a2.zone = some 4 ∧ b2.zone = some zb ∧ zb ≠ 4
      ∧ sampleFacsDoc.zoneAt zb = none ∧ tk1.doc.zoneAt zb = none
      ∧ tk2.doc.zoneAt zb
          = some (Zone.ShiftByXY { ulx := 100, uly := 100, lrx := 150, lry := 150 }
              (noteWidth 100) (noteHeight 100))
      ∧ tk2.doc.zoneAt 4 = some { ulx := 100, uly := 100, lrx := 150, lry := 150 }
      ∧ zb ∈ tk2.doc.surface :=
  C17_ToggleLigature_on_off (fun s => s) (fun d => d) "n1" "n2"
    { doc := sampleFacsDoc, m_editInfo := "" } sampleNcElement sampleNcElement2
    sampleStaffElement 4 { ulx := 100, uly := 100, lrx := 150, lry := 150 }
    rfl rfl (by decide) rfl rfl rfl rfl rfl

/-! ## Theorems: `Remove` -/

/-- With a drawing page and an id that resolves to no object, `Remove` does not
return: it stops at `assert(obj)`. -/
theorem Remove_missing (clefBlock : TreeObject → TreeDoc → TreeDoc) (elementId : String)
    (tk : Toolkit TreeDoc) (hpage : tk.doc.hasDrawingPage = true)
    (hmissing : tk.doc.FindChildByUuid elementId = none) :
    Remove clefBlock elementId tk = Outcome.assertFailed := by
  unfold Remove
  simp only [hpage, hmissing, Bool.not_true, Bool.false_eq_true, if_false]

/-- With a drawing page and an id that resolves to no object, `Drag` does not
return: it stops at `assert(element)`. -/
theorem Drag_missing (elementId : String) (isChain : Bool) (tk : Toolkit TraceDoc)
    (hpage : tk.doc.hasDrawingPage = true)
    (hmissing : tk.doc.FindChildByUuid elementId = none) :
    Drag elementId isChain tk = Outcome.assertFailed := by
  unfold Drag
  simp only [hpage, hmissing, Bool.not_true, Bool.false_eq_true, if_false]

/-- C13: the code at the failing input.  For the id `"zz"`, which resolves to no
object of the sample documents, neither `Remove` nor `Drag` returns false:
both stop in the failed assertion on the null pointer. -/
theorem C13_Remove_Drag_missing_id_assert :
    Remove (fun _ d => d) "zz" { doc := sampleTreeDoc, m_editInfo := "" }
        = Outcome.assertFailed
      ∧ Outcome.status? (Remove (fun _ d => d) "zz" { doc := sampleTreeDoc, m_editInfo := "" })
        ≠ some false
      ∧ Drag "zz" false { doc := sampleTraceDoc, m_editInfo := "" } = Outcome.assertFailed
      ∧ Outcome.status? (Drag "zz" false { doc := sampleTraceDoc, m_editInfo := "" })
        ≠ some false :=
  ⟨rfl, by decide, rfl, by decide⟩

/-- C14: the code at the failing input.  In the sample page the syllable `"y1"`
holds the neumes `"m1"` (note component `"a"`) and `"m2"` (note component
`"b"`).  `Remove` of `"a"` succeeds, and afterwards the neume `"m1"` is still
in the document with no child at all; its syllable stays because `"b"` is
still below it. -/
theorem C14_Remove_leaves_empty_neume :
    ∃ tk1, Remove (fun _ d => d) "a" { doc := sampleTreeDoc, m_editInfo := "" }
        = Outcome.returned true tk1
      ∧ (tk1.doc.FindChildByUuid "m1").map (fun e => e.cls) = some ClassId.NEUME
      ∧ tk1.doc.children "m1" = []
      ∧ (tk1.doc.FindChildByUuid "y1").isSome = true :=
  ⟨_, rfl, by decide, by decide, by decide⟩

/-- The sibling path of C14: `Remove` of the only note component `"c"` of the
syllable `"y2"` deletes the syllable with its neume. -/
theorem Remove_prunes_syllable :
    ∃ tk1, Remove (fun _ d => d) "c" { doc := sampleTreeDoc, m_editInfo := "" }
        = Outcome.returned true tk1
      ∧ tk1.doc.FindChildByUuid "y2" = none
      ∧ tk1.doc.FindChildByUuid "m3" = none :=
  ⟨_, rfl, by decide, by decide⟩

/-! ## Theorems: `ChangeGroup` -/

/-- The rise of a contour that starts with `u`. -/
theorem contourRise_u (l : List Char) : contourRise ('u' :: l) = 1 + contourRise l := by
  have h1 : ('u' :: l).count 'u' = l.count 'u' + 1 := List.count_cons_self _ _
  have h2 : ('u' :: l).count 'd' = l.count 'd' :=
    List.count_cons_of_ne (by decide) _
  simp only [contourRise, h1, h2]
  push_cast
  ring

/-- The rise of a contour that starts with `d`. -/
theorem contourRise_d (l : List Char) : contourRise ('d' :: l) = -1 + contourRise l := by
  have h1 : ('d' :: l).count 'd' = l.count 'd' + 1 := List.count_cons_self _ _
  have h2 : ('d' :: l).count 'u' = l.count 'u' :=
    List.count_cons_of_ne (by decide) _
  simp only [contourRise, h1, h2]
  push_cast
  ring

/-- The rise of a contour that starts with `s`. -/
theorem contourRise_s (l : List Char) : contourRise ('s' :: l) = contourRise l := by
  have h1 : ('s' :: l).count 'd' = l.count 'd' :=
    List.count_cons_of_ne (by decide) _
  have h2 : ('s' :: l).count 'u' = l.count 'u' :=
    List.count_cons_of_ne (by decide) _
  simp only [contourRise, h1, h2]

/-- What one round of the second loop of `ChangeGroup` adds to the document. -/
theorem ChangeGroup.append_spec (d : FacsDoc) (uuid neume : String) (staff : Option String)
    (pitch : Option Pitch) (rect : Zone) :
    (ChangeGroup.append d uuid neume staff pitch rect).elements
        = d.elements ++ [ChangeGroup.newNc uuid neume staff pitch d.newZone]
      ∧ (∀ z, (ChangeGroup.append d uuid neume staff pitch rect).zoneAt z
          = if z = d.newZone then some rect else d.zoneAt z)
      ∧ (ChangeGroup.append d uuid neume staff pitch rect).surface
          = d.surface ++ [d.newZone] := by
  refine ⟨rfl, ?_, rfl⟩
  intro z
  have h0 : (ChangeGroup.append d uuid neume staff pitch rect).zoneAt z
      = (d.allocZone d.newZone rect).zoneAt z := rfl
  rw [h0, FacsDoc.zoneAt_allocZone _ _ _ _ (FacsDoc.zoneAt_newZone d)]

/-- The state after a round of the loop, for the rest of the loop: what was
there stays, and the new note component is the next one. -/
theorem ChangeGroup.loop_step (d d1 d2 : FacsDoc) (e : FacsElement) (rect : Zone)
    (news : List FacsElement)
    (h1 : d1.elements = d.elements ++ [e])
    (h2 : ∀ z, d1.zoneAt z = if z = d.newZone then some rect else d.zoneAt z)
    (h3 : d1.surface = d.surface ++ [d.newZone])
    (k1 : d2.elements = d1.elements ++ news)
    (k2 : ∀ z r, d1.zoneAt z = some r → d2.zoneAt z = some r)
    (k3 : ∀ z, z ∈ d1.surface → z ∈ d2.surface) :
    d2.elements = d.elements ++ (e :: news)
      ∧ (∀ z r, d.zoneAt z = some r → d2.zoneAt z = some r)
      ∧ (∀ z, z ∈ d.surface → z ∈ d2.surface)
      ∧ d2.zoneAt d.newZone = some rect
      ∧ d.newZone ∈ d2.surface
      ∧ (∀ z, d1.zoneAt z = none → d.zoneAt z = none) := by
  have hfresh := FacsDoc.zoneAt_newZone d
  refine ⟨?_, ?_, ?_, ?_, ?_, ?_⟩
  · rw [k1, h1]
    simp
  · intro z r hz
    apply k2
    rw [h2 z]
    split
    · rename_i hzk
      rw [hzk, hfresh] at hz
      exact absurd hz (by simp)
    · exact hz
  · intro z hz
    apply k3
    rw [h3]
    exact List.mem_append_left _ hz
  · apply k2
    rw [h2, if_pos rfl]
  · apply k3
    rw [h3]
    simp
  · intro z hz
    rw [h2 z] at hz
    split at hz
    · exact absurd hz (by simp)
    · exact hz

/-- One accepted character in front of a contour: the note component of the
first round followed by what the rest of the loop builds. -/
theorem ChangeGroup.Built_cons (w h : Int) (neume uuid : String) (staff : Option String)
    (c : Char) (rest : List Char) (δ : Int)
    (hδ : ∀ l, contourRise (c :: l) = δ + contourRise l)
    (initial : Zone) (prev p1 : Pitch) (d d2 : FacsDoc) (news : List FacsElement)
    (hv : p1.valid) (hp : GetDiatonicPitch p1 = GetDiatonicPitch prev + δ)
    (hrest : ChangeGroup.Built w h neume rest (initial.ShiftByXY w (-δ * h)) p1
      (ChangeGroup.append d uuid neume staff (some p1) (initial.ShiftByXY w (-δ * h))) d2 news) :
    ChangeGroup.Built w h neume (c :: rest) initial prev d d2
      (ChangeGroup.newNc uuid neume staff (some p1) d.newZone :: news) := by
  obtain ⟨a1, a2, a3⟩ := ChangeGroup.append_spec d uuid neume staff (some p1)
    (initial.ShiftByXY w (-δ * h))
  obtain ⟨k1, k2, k3, k4, k5⟩ := hrest
  obtain ⟨s1, s2, s3, s4, s5, s6⟩ := ChangeGroup.loop_step d _ d2 _ _ news a1 a2 a3 k1 k3 k4
  refine ⟨s1, by simp [k2], s2, s3, ?_⟩
  intro i e hie
  cases i with
  | zero =>
    simp only [List.getElem?_cons_zero, Option.some.injEq] at hie
    subst hie
    refine ⟨rfl, rfl, p1, d.newZone, rfl, hv, ?_, rfl, FacsDoc.zoneAt_newZone d, ?_, s5⟩
    · have : (c :: rest).take (0 + 1) = c :: ([] : List Char) := by simp
      rw [this, hδ, hp]
      simp [contourRise]
    · rw [s4]
      have : (c :: rest).take (0 + 1) = c :: ([] : List Char) := by simp
      rw [this, hδ]
      simp [contourRise]
  | succ j =>
    simp only [List.getElem?_cons_succ] at hie
    obtain ⟨c1, c2, p, z, c3, c4, c5, c6, c7, c8, c9⟩ := k5 j e hie
    refine ⟨c1, c2, p, z, c3, c4, ?_, c6, s6 z c7, ?_, c9⟩
    · have : (c :: rest).take (j + 1 + 1) = c :: rest.take (j + 1) := by simp
      rw [this, hδ, c5, hp]
      ring
    · rw [c8]
      have : (c :: rest).take (j + 1 + 1) = c :: rest.take (j + 1) := by simp
      rw [this, hδ]
      simp only [Zone.ShiftByXY, Option.some.injEq, Zone.mk.injEq]
      push_cast
      refine ⟨by ring, by ring, by ring, by ring⟩

/-- The second loop of `ChangeGroup` on a contour over `u`, `d`, `s` runs to its
end and builds one note component per character. -/
theorem ChangeGroup.loop_spec (w h : Int) (newUuid : Nat → String) (neume : String)
    (staff : Option String) (cs : List Char)
    (hcs : ∀ c ∈ cs, c = 'u' ∨ c = 'd' ∨ c = 's') :
    ∀ (i : Nat) (initial : Zone) (prev : Pitch) (d : FacsDoc), prev.valid →
      ∃ d1 news,
        ChangeGroup.loop w h newUuid neume staff cs i initial (some prev) d = (true, d1)
        ∧ ChangeGroup.Built w h neume cs initial prev d d1 news := by
  induction cs with
  | nil =>
    intro i initial prev d _
    exact ⟨d, [], rfl, by simp, rfl, fun _ _ h => h, fun _ h => h,
      fun i e h => by simp at h⟩
  | cons c rest ih =>
    intro i initial prev d hv
    have hrest : ∀ c ∈ rest, c = 'u' ∨ c = 'd' ∨ c = 's' :=
      fun x hx => hcs x (List.mem_cons_of_mem _ hx)
    rcases hcs c (List.mem_cons_self _ _) with hc | hc | hc
    · subst hc
      have hz : initial.ShiftByXY w (-1 * h)
          = { ulx := initial.ulx + w, uly := initial.uly - h, lrx := initial.lrx + w,
              lry := initial.lry - h } := by
        simp only [Zone.ShiftByXY, Zone.mk.injEq]
        refine ⟨trivial, by ring, trivial, by ring⟩
      obtain ⟨d1, news, hl, hb⟩ := ih hrest (i + 1) (initial.ShiftByXY w (-1 * h))
        (AdjustPitchByOffset prev 1)
        (ChangeGroup.append d (newUuid i) neume staff (some (AdjustPitchByOffset prev 1))
          (initial.ShiftByXY w (-1 * h))) (AdjustPitchByOffset_valid prev 1)
      refine ⟨d1, _, ?_, ChangeGroup.Built_cons w h neume (newUuid i) staff 'u' rest 1
        contourRise_u initial prev _ d d1 news (AdjustPitchByOffset_valid prev 1)
        (GetDiatonicPitch_AdjustPitchByOffset prev 1) hb⟩
      rw [← hl, hz]
      simp only [ChangeGroup.loop, if_true, Option.map_some']
    · subst hc
      have hz : initial.ShiftByXY w (-(-1) * h)
          = { ulx := initial.ulx + w, uly := initial.uly + h, lrx := initial.lrx + w,
              lry := initial.lry + h } := by
        simp only [Zone.ShiftByXY, Zone.mk.injEq]
        refine ⟨trivial, by ring, trivial, by ring⟩
      obtain ⟨d1, news, hl, hb⟩ := ih hrest (i + 1) (initial.ShiftByXY w (-(-1) * h))
        (AdjustPitchByOffset prev (-1))
        (ChangeGroup.append d (newUuid i) neume staff (some (AdjustPitchByOffset prev (-1)))
          (initial.ShiftByXY w (-(-1) * h))) (AdjustPitchByOffset_valid prev (-1))
      refine ⟨d1, _, ?_, ChangeGroup.Built_cons w h neume (newUuid i) staff 'd' rest (-1)
        contourRise_d initial prev _ d d1 news (AdjustPitchByOffset_valid prev (-1))
        (GetDiatonicPitch_AdjustPitchByOffset prev (-1)) hb⟩
      rw [← hl, hz]
      have e1 : ¬ ('d' = 'u') := by decide
      simp only [ChangeGroup.loop, if_true, Option.map_some', e1, if_false]
    · subst hc
      have hz : initial.ShiftByXY w (-0 * h)
          = { ulx := initial.ulx + w, uly := initial.uly, lrx := initial.lrx + w,
              lry := initial.lry } := by
        simp only [Zone.ShiftByXY, Zone.mk.injEq]
        refine ⟨trivial, by ring, trivial, by ring⟩
      obtain ⟨d1, news, hl, hb⟩ := ih hrest (i + 1) (initial.ShiftByXY w (-0 * h)) prev
        (ChangeGroup.append d (newUuid i) neume staff (some prev)
          (initial.ShiftByXY w (-0 * h))) hv
      refine ⟨d1, _, ?_, ChangeGroup.Built_cons w h neume (newUuid i) staff 's' rest 0
        (fun l => by rw [contourRise_s]; ring) initial prev _ d d1 news hv (by ring) hb⟩
      rw [← hl, hz]
      have e1 : ¬ ('s' = 'u') := by decide
      have e2 : ¬ ('s' = 'd') := by decide
      simp only [ChangeGroup.loop, if_true, e1, e2, if_false]

/-- A lookup in a filtered list finds the same object when that object passes
the filter. -/
theorem find?_filter_of_keep {α : Type} (p q : α → Bool) (l : List α) (a : α)
    (h : l.find? p = some a) (hq : q a = true) : (l.filter q).find? p = some a := by
  induction l with
  | nil => simp at h
  | cons b rest ih =>
    rw [List.find?_cons] at h
    cases hpb : p b with
    | true =>
      rw [hpb] at h
      have hb : b = a := Option.some.inj h
      subst hb
      rw [List.filter_cons, if_pos hq, List.find?_cons, hpb]
    | false =>
      rw [hpb] at h
      rw [List.filter_cons]
      split
      · rw [List.find?_cons, hpb]
        exact ih h
      · exact ih h

/-- Two objects of a document without shared uuids that carry the same uuid
are the same object. -/
theorem FacsDoc.eq_of_uuid (d : FacsDoc) (hnd : (d.elements.map (fun e => e.uuid)).Nodup)
    (a b : FacsElement) (ha : a ∈ d.elements) (hb : b ∈ d.elements) (h : a.uuid = b.uuid) :
    a = b :=
  List.inj_on_of_nodup_map hnd ha hb h

/-- The object a lookup finds belongs to the document. -/
theorem FacsDoc.find_mem (d : FacsDoc) (v : String) (e : FacsElement)
    (h : d.FindChildByUuid v = some e) : e ∈ d.elements :=
  List.mem_of_find?_eq_some h

/-- After the first loop of `ChangeGroup` the neume holds its first note
component only, and every object that is no note component is found as
before. -/
theorem ChangeGroup.deleteOthers_spec (d : FacsDoc)
    (hnd : (d.elements.map (fun e => e.uuid)).Nodup) (neume : String)
    (first : FacsElement) (others : List FacsElement)
    (hch : d.ncChildren neume = first :: others) :
    (ChangeGroup.deleteOthers d others).ncChildren neume = [first]
      ∧ ∀ v e, d.FindChildByUuid v = some e → e.cls ≠ ClassId.NC →
          (ChangeGroup.deleteOthers d others).FindChildByUuid v = some e := by
  have hsub : (first :: others).Sublist d.elements := by
    rw [← hch]
    exact List.filter_sublist _
  have hnd2 : ((first :: others).map (fun e => e.uuid)).Nodup :=
    List.Nodup.sublist (hsub.map _) hnd
  have hothers : ∀ o ∈ others, o ∈ d.elements ∧ o.cls = ClassId.NC := by
    intro o ho
    have : o ∈ d.ncChildren neume := by
      rw [hch]
      exact List.mem_cons_of_mem _ ho
    simp only [FacsDoc.ncChildren, List.mem_filter, Bool.and_eq_true, decide_eq_true_eq] at this
    exact ⟨this.1, this.2.1⟩
  constructor
  · unfold FacsDoc.ncChildren ChangeGroup.deleteOthers
    simp only
    rw [List.filter_filter]
    have hcomm : d.elements.filter (fun a =>
          (decide (a.cls = ClassId.NC) && (a.parent == some neume))
            && !(others.map (fun o => o.uuid)).contains a.uuid)
        = (d.elements.filter (fun e =>
            decide (e.cls = ClassId.NC) && (e.parent == some neume))).filter
            (fun a => !(others.map (fun o => o.uuid)).contains a.uuid) := by
      rw [List.filter_filter]
      apply List.filter_congr
      intro a _
      exact Bool.and_comm _ _
    rw [hcomm]
    have hch2 := hch
    unfold FacsDoc.ncChildren at hch2
    rw [hch2]
    rw [List.map_cons, List.nodup_cons] at hnd2
    rw [List.filter_cons, if_pos (by simpa using hnd2.1)]
    congr 1
    rw [List.filter_eq_nil_iff]
    intro o ho
    have hc : (others.map (fun o => o.uuid)).contains o.uuid = true := by
      rw [List.contains_iff_exists_mem_beq]
      exact ⟨o.uuid, List.mem_map.mpr ⟨o, ho, rfl⟩, by simp⟩
    simp only [hc, Bool.not_true, Bool.false_eq_true, not_false_eq_true]
  · intro v e hfind hcls
    unfold FacsDoc.FindChildByUuid ChangeGroup.deleteOthers
    simp only
    apply find?_filter_of_keep _ _ _ _ hfind
    simp only [Bool.not_eq_true', List.contains_eq_any_beq, List.any_eq_false, List.mem_map,
      beq_iff_eq]
    rintro u ⟨o, ho, rfl⟩ hu
    obtain ⟨hom, hoc⟩ := hothers o ho
    have := FacsDoc.eq_of_uuid d hnd o e hom (FacsDoc.find_mem d v e hfind) hu.symm
    rw [this] at hoc
    exact hcls hoc

/-- The neume a lookup finds carries the uuid asked for and is a neume. -/
theorem FacsDoc.findNeume_some (d : FacsDoc) (v : String) (e : FacsElement)
    (h : d.findNeume v = some e) :
    d.FindChildByUuid v = some e ∧ e.cls = ClassId.NEUME ∧ e.uuid = v := by
  unfold FacsDoc.findNeume at h
  cases hf : d.FindChildByUuid v with
  | none => simp [hf] at h
  | some e2 =>
    simp only [hf] at h
    split at h
    · rename_i hc
      have : e2 = e := Option.some.inj h
      subst this
      exact ⟨rfl, hc, FacsDoc.find_uuid d v e2 hf⟩
    · simp at h

/-- C18: for a neume whose first note component has a pitch (step in 1..7) and
a zone, on a page without shared uuids, and for every contour over `u`, `d`,
`s`, `ChangeGroup` succeeds and reports the neume; afterwards the neume has
exactly 1 + |c| note components: the original first one, unchanged, followed
by one new note component per character; the i-th of them (i in 1..|c|) has
the diatonic pitch of the first plus (number of `u` minus number of `d` among
the first i characters) and a new zone, a child of the surface, whose
rectangle is the first's rectangle translated by (i * noteWidth, (number of
`d` minus number of `u` among the first i characters) * noteHeight). -/
theorem C18_ChangeGroup_contour (G : Int → Int) (newUuid : Nat → String) (elementId : String)
    (contour : List Char) (tk : Toolkit FacsDoc) (el first staff : FacsElement)
    (others : List FacsElement) (z0 : Nat) (r0 : Zone) (p0 : Pitch)
    (hpage : tk.doc.hasDrawingPage = true)
    (hnd : (tk.doc.elements.map (fun e => e.uuid)).Nodup)
    (hel : tk.doc.findNeume elementId = some el)
    (hch : tk.doc.ncChildren el.uuid = first :: others)
    (hz : first.zone = some z0) (hr : tk.doc.zoneAt z0 = some r0)
    (hp : first.pitch = some p0) (hv : p0.valid)
    (hstaff : tk.doc.staffOf el = some staff) (hsc : staff.cls = ClassId.STAFF)
    (hcs : ∀ c ∈ contour, c = 'u' ∨ c = 'd' ∨ c = 's') :
    ∃ tk1 news,
      ChangeGroup G newUuid elementId contour tk = Outcome.returned true tk1
      ∧ tk1.m_editInfo = elementId
      ∧ tk1.doc.ncChildren elementId = first :: news
      ∧ (tk1.doc.ncChildren elementId).length = 1 + contour.length
      ∧ ∀ (i : Nat) (e : FacsElement), news[i]? = some e →
          ∃ p z, e.pitch = some p ∧ p.valid
            ∧ GetDiatonicPitch p = GetDiatonicPitch p0 + contourRise (contour.take (i + 1))
            ∧ e.zone = some z
            ∧ tk.doc.zoneAt z = none
            ∧ tk1.doc.zoneAt z
                = some (r0.ShiftByXY (((i : Int) + 1) * noteWidth (G staff.m_drawingStaffSize))
                    ((-(contourRise (contour.take (i + 1))))
                      * noteHeight (G staff.m_drawingStaffSize)))
            ∧ z ∈ tk1.doc.surface := by
  obtain ⟨_, _, hu⟩ := FacsDoc.findNeume_some tk.doc elementId el hel
  obtain ⟨hd1, hd2⟩ := ChangeGroup.deleteOthers_spec tk.doc hnd el.uuid first others hch
  have hst0 : (ChangeGroup.deleteOthers tk.doc others).staffOf el = some staff := by
    unfold FacsDoc.staffOf at hstaff ⊢
    cases hs : el.staff with
    | none => simp [hs] at hstaff
    | some s =>
      simp only [hs] at hstaff ⊢
      exact hd2 s staff hstaff (by rw [hsc]; decide)
  have hz0 : first.zone.bind (ChangeGroup.deleteOthers tk.doc others).zoneAt = some r0 := by
    rw [hz]
    exact hr
  obtain ⟨d1, news, hloop, b1, b2, _, _, b5⟩ :=
    ChangeGroup.loop_spec (noteWidth (G staff.m_drawingStaffSize))
      (noteHeight (G staff.m_drawingStaffSize)) newUuid el.uuid el.staff contour hcs 0 r0 p0
      (ChangeGroup.deleteOthers tk.doc others) hv
  have hCG : ChangeGroup G newUuid elementId contour tk
      = Outcome.returned true { doc := d1, m_editInfo := el.uuid } := by
    unfold ChangeGroup
    simp only [hpage, hel, hch, hz0, hst0, hp, hloop, Bool.not_true, Bool.false_eq_true,
      if_false]
  have hchildren : d1.ncChildren elementId = first :: news := by
    rw [← hu]
    unfold FacsDoc.ncChildren at hd1 ⊢
    rw [b1, List.filter_append, hd1]
    have : news.filter (fun e => decide (e.cls = ClassId.NC) && (e.parent == some el.uuid))
        = news := by
      rw [List.filter_eq_self]
      intro e he
      obtain ⟨i, hi, hie⟩ := List.getElem_of_mem he
      have h1 : news[i]? = some e := by
        rw [List.getElem?_eq_getElem hi, hie]
      obtain ⟨c1, c2, _⟩ := b5 i e h1
      simp [c1, c2]
    rw [this]
    rfl
  refine ⟨_, news, hCG, hu, hchildren, ?_, ?_⟩
  · show (d1.ncChildren elementId).length = _
    rw [hchildren, List.length_cons, b2]
    omega
  · intro i e hie
    obtain ⟨_, _, p, z, c3, c4, c5, c6, c7, c8, c9⟩ := b5 i e hie
    exact ⟨p, z, c3, c4, c5, c6, c7, c8, c9⟩

/-- C18 on the sample document: the neume `"m1"` is rebuilt with the contour
`udd` on a staff of size 100 (with the double unit equal to the staff size). -/
theorem C18_ChangeGroup_contour_witness :
    ∃ tk1 news,
      ChangeGroup (fun s => s) (fun i => if i = 0 then "x0" else if i = 1 then "x1" else "x2")
          "m1" ['u', 'd', 'd'] { doc := sampleFacsDoc, m_editInfo := "" }
        = Outcome.returned true tk1
      ∧ tk1.m_editInfo = "m1"
      ∧ tk1.doc.ncChildren "m1" = sampleNcElement :: news
      ∧ (tk1.doc.ncChildren "m1").length = 1 + 3
      ∧ ∀ (i : Nat) (e : FacsElement), news[i]? = some e →
          ∃ p z, e.pitch = some p ∧ p.valid
            ∧ GetDiatonicPitch p
                = GetDiatonicPitch { pname := 1, oct := 3 }
                  + contourRise (['u', 'd', 'd'].take (i + 1))
            ∧ e.zone = some z
            ∧ sampleFacsDoc.zoneAt z = none
            ∧ tk1.doc.zoneAt z
                = some (Zone.ShiftByXY { ulx := 100, uly := 100, lrx := 150, lry := 150 }
                    (((i : Int) + 1) * noteWidth 100)
                    ((-(contourRise (['u', 'd', 'd'].take (i + 1)))) * noteHeight 100))
            ∧ z ∈ tk1.doc.surface :=
  C18_ChangeGroup_contour (fun s => s)
    (fun i => if i = 0 then "x0" else if i = 1 then "x1" else "x2") "m1" ['u', 'd', 'd']
    { doc := sampleFacsDoc, m_editInfo := "" } sampleNeumeElement sampleNcElement
    sampleStaffElement [sampleNcElement2] 4 { ulx := 100, uly := 100, lrx := 150, lry := 150 }
    { pname := 1, oct := 3 } rfl (by decide) rfl rfl rfl rfl rfl (by decide) rfl rfl
    (by decide)

/-! ## Theorems: the set differences of the clef drag -/

/-- When the second range is the beginning of the first, in the same order,
the walk of `std::set_difference` yields the rest of the first range, whatever
the order of the addresses. -/
theorem set_difference_prefix (p s : List Nat) : set_difference (p ++ s) p = s := by
  induction p with
  | nil =>
    cases s with
    | nil => rfl
    | cons a as => rfl
  | cons a rest ih =>
    show set_difference.walk a (rest ++ s) (set_difference (rest ++ s)) (a :: rest) = s
    unfold set_difference.walk
    rw [if_neg (lt_irrefl a), if_neg (lt_irrefl a)]
    exact ih

/-- C20: the code at the failing input.  On a page whose layer is not in
horizontal order (notes at the addresses 30 and 20 between the clefs 1 and 40)
the clef 40 is dragged by one unit to the right; after the reordering the note
20 precedes the clef and the note 30 follows it.  The note 20 is with the
preceding clef both before and after the drag, yet the walk of
`std::set_difference` over the two snapshots, which are not sorted by address,
yields both notes, and `AdjustPitchForNewClef(precedingClef, clef)` changes the
pitch of the note 20 as well. -/
theorem C20_set_difference_unsorted_snapshots :
    (Drag_clef.snapshot unsortedPage 40 1 0).withPrecedingClefBefore = [30, 20]
      ∧ FindAllChildBetween (Drag_clef.snapshot unsortedPage 40 1 0).moved.objects
          (Drag_clef.snapshot unsortedPage 40 1 0).precedingClefBefore (some 40) = [20]
      ∧ set_difference [30, 20] [20] = [30, 20]
      ∧ unsortedPage.pitchAt 20 = some { pname := 2, oct := 3 }
      ∧ (Drag_clef unsortedPage 40 1 0 true).pitchAt 20 = some { pname := 7, oct := 2 }
      ∧ (Drag_clef unsortedPage 40 1 0 true).pitchAt 30 = some { pname := 6, oct := 2 } := by
  refine ⟨by decide, by decide, by decide, by decide, by decide, by decide⟩

/-- The snapshots themselves miss the elements of the layer's default clef,
which is no object of the page: when the first clef of `firstClefPage` is
dragged to the right past the note 20, that note passes from the dragged clef
to the default clef and keeps its pitch. -/
theorem Drag_clef_past_first_note :
    (Drag_clef.snapshot firstClefPage 10 15 0).withThisClefBefore = [20, 30]
      ∧ FindAllChildBetween (Drag_clef.snapshot firstClefPage 10 15 0).moved.objects 10
          (Drag_clef.snapshot firstClefPage 10 15 0).nextClefAfter = [30]
      ∧ (Drag_clef.snapshot firstClefPage 10 15 0).withPrecedingClefBefore = []
      ∧ (Drag_clef firstClefPage 10 15 0 true).pitchAt 20 = firstClefPage.pitchAt 20 := by
  refine ⟨by decide, by decide, by decide, by decide⟩

/-! ## Theorems: `Group` and `Ungroup` -/

/-- A `findSome?` over a `flatMap`. -/
theorem findSome?_flatMap {α β γ : Type} (f : α → List β) (g : β → Option γ) (l : List α) :
    (l.flatMap f).findSome? g = l.findSome? (fun a => (f a).findSome? g) := by
  induction l with
  | nil => rfl
  | cons a rest ih =>
    simp only [List.flatMap_cons, List.findSome?_append, List.findSome?_cons, ih]
    cases (f a).findSome? g <;> rfl

/-- The lookup of an element reads the first entry with its uuid. -/
theorem GroupDoc.find_entries (d : GroupDoc) (uuid : String) :
    (d.find uuid).map (fun f => (f.doubleParent.uuid, f.par, f.el))
      = d.entries.find? (fun x => x.2.2.uuid == uuid) := by
  unfold GroupDoc.find GroupDoc.entries
  induction d.parents with
  | nil => rfl
  | cons p rest ih =>
    simp only [List.findSome?_cons, List.flatMap_cons, List.find?_append]
    have hp : (p.find uuid).map (fun f => (f.doubleParent.uuid, f.par, f.el))
        = p.entries.find? (fun x => x.2.2.uuid == uuid) := by
      unfold GroupParent.find GroupParent.entries
      induction p.containers with
      | nil => rfl
      | cons c cs ihc =>
        simp only [List.findSome?_cons, List.flatMap_cons, List.find?_append]
        rw [List.find?_map]
        have hcomp : ((fun x : String × GroupContainer × GroupChild => x.2.2.uuid == uuid)
            ∘ fun e => (p.uuid, c, e)) = (fun e : GroupChild => e.uuid == uuid) := rfl
        rw [hcomp]
        cases hfc : c.children.find? (fun e => e.uuid == uuid) with
        | none =>
          simp only [Option.map_none', Option.none_or]
          exact ihc
        | some e => rfl
    cases hfp : p.find uuid with
    | none =>
      rw [hfp] at hp
      simp only [Option.map_none'] at hp
      rw [← hp]
      simp only [Option.none_or]
      exact ih
    | some f =>
      rw [hfp] at hp
      simp only [Option.map_some'] at hp
      rw [← hp]
      rfl

/-- An element whose uuid has exactly one entry is found there. -/
theorem GroupDoc.find_of_entriesOf (d : GroupDoc) (uuid : String)
    (x : String × GroupContainer × GroupChild) (h : d.entriesOf uuid = [x]) :
    ∃ f, d.find uuid = some f ∧ f.doubleParent.uuid = x.1 ∧ f.par = x.2.1 ∧ f.el = x.2.2 := by
  have h1 := GroupDoc.find_entries d uuid
  have h2 : d.entries.find? (fun x => x.2.2.uuid == uuid) = some x := by
    unfold GroupDoc.entriesOf at h
    have h3 : (d.entries.filter (fun x => x.2.2.uuid == uuid)).head? = some x := by
      rw [h]
      rfl
    rw [← h3]
    exact (List.filter_head? _ _).symm
  rw [h2] at h1
  cases hf : d.find uuid with
  | none => simp [hf] at h1
  | some f =>
    rw [hf] at h1
    simp only [Option.map_some', Option.some.injEq] at h1
    refine ⟨f, rfl, ?_, ?_, ?_⟩
    · exact congrArg (fun y => y.1) h1
    · exact congrArg (fun y => y.2.1) h1
    · exact congrArg (fun y => y.2.2) h1

/-- The entries after a change of every container that filters the children. -/
theorem GroupDoc.entries_mapContainers (g : GroupContainer → GroupContainer)
    (q : GroupChild → Bool) (hg : ∀ c, (g c).children = c.children.filter q) (d : GroupDoc) :
    (d.mapContainers g).entries
      = (d.entries.filter (fun x => q x.2.2)).map (fun x => (x.1, g x.2.1, x.2.2)) := by
  unfold GroupDoc.mapContainers GroupDoc.entries
  simp only
  induction d.parents with
  | nil => rfl
  | cons p rest ih =>
    simp only [List.map_cons, List.flatMap_cons, List.filter_append, List.map_append, ih]
    congr 1
    unfold GroupParent.entries
    simp only
    induction p.containers with
    | nil => rfl
    | cons c cs ihc =>
      simp only [List.map_cons, List.flatMap_cons, List.filter_append, List.map_append, ihc]
      congr 1
      rw [hg c, List.filter_map, List.map_map]
      rfl

/-- The entries after a new container is added to the one second-level parent
with a given uuid and the containers of that parent are put in another order. -/
theorem GroupDoc.entries_modifyParent (R : List GroupContainer → List GroupContainer)
    (hR : ∀ l, (R l).Perm l) (S : String) (n : GroupContainer) (d : GroupDoc)
    (hnodup : (d.parents.map (fun p => p.uuid)).Nodup)
    (hS : S ∈ d.parents.map (fun p => p.uuid)) :
    (d.modifyParent S (fun cs => R (cs ++ [n]))).entries.Perm
      (d.entries ++ n.children.map (fun e => (S, n, e))) := by
  unfold GroupDoc.modifyParent GroupDoc.entries
  simp only
  revert hnodup hS
  generalize d.parents = ps
  intro hnodup hS
  induction ps with
  | nil => simp at hS
  | cons p rest ih =>
    simp only [List.map_cons, List.nodup_cons] at hnodup
    simp only [List.map_cons, List.flatMap_cons]
    by_cases hp : p.uuid = S
    · rw [if_pos hp]
      have hrest : rest.map (fun p => if p.uuid = S then
          { p with containers := R (p.containers ++ [n]) } else p) = rest := by
        have hall : ∀ r ∈ rest, (if r.uuid = S then
            ({ r with containers := R (r.containers ++ [n]) } : GroupParent) else r) = r := by
          intro r hr
          have hne : r.uuid ≠ S := by
            intro he
            apply hnodup.1
            rw [hp, ← he]
            exact List.mem_map_of_mem (fun p => p.uuid) hr
          rw [if_neg hne]
        calc rest.map _ = rest.map id := List.map_congr_left hall
          _ = rest := List.map_id rest
      rw [hrest]
      have hE : (GroupParent.entries { p with containers := R (p.containers ++ [n]) }).Perm
          (p.entries ++ n.children.map (fun e => (S, n, e))) := by
        unfold GroupParent.entries
        simp only
        refine ((hR _).flatMap_right _).trans ?_
        rw [List.flatMap_append, hp]
        simp
      refine (List.Perm.append_right _ hE).trans ?_
      rw [List.append_assoc, List.append_assoc]
      exact List.Perm.append_left _ List.perm_append_comm
    · rw [if_neg hp]
      have hS1 : S ∈ rest.map (fun p => p.uuid) := by
        simp only [List.map_cons, List.mem_cons] at hS
        rcases hS with hS | hS
        · exact absurd hS.symm hp
        · exact hS
      rw [List.append_assoc]
      exact List.Perm.append_left _ (ih hnodup.2 hS1)

/-- The page flag after the loop that moves elements into a new container. -/
theorem Group.moveInto_page (d : GroupDoc) (target : GroupContainer)
    (elements : List GroupChild) :
    (Group.moveInto d target elements).1.hasDrawingPage = d.hasDrawingPage := by
  unfold Group.moveInto
  induction elements generalizing d target with
  | nil => rfl
  | cons e rest ih =>
    rw [List.foldl_cons]
    split_ifs
    · rw [ih]
      rfl
    · exact ih d target

/-- The page flag after the loop that moves elements into a container of the
tree. -/
theorem Group.moveTo_page (d : GroupDoc) (target : String) (elements : List GroupChild) :
    (Group.moveTo d target elements).hasDrawingPage = d.hasDrawingPage := by
  unfold Group.moveTo
  induction elements generalizing d with
  | nil => rfl
  | cons e rest ih =>
    rw [List.foldl_cons]
    split_ifs
    · rw [ih]
      rfl
    · exact ih d

/-- The page flag after the last loop of `Group`. -/
theorem Group.cleanup_page (d : GroupDoc) (doubleParent : GroupParent)
    (parents : List (GroupContainer × Nat)) :
    (Group.cleanup d doubleParent parents).hasDrawingPage = d.hasDrawingPage := by
  unfold Group.cleanup
  induction parents generalizing d with
  | nil => rfl
  | cons pair rest ih =>
    rw [List.foldl_cons, ih]
    simp only
    split
    · rfl
    · split_ifs <;> rfl

/-- The page flag after the reordering of the layer. -/
theorem Group.reorderLayer_page (h : GroupHelpers) (d : GroupDoc) (doubleParent : GroupParent) :
    (Group.reorderLayer h d doubleParent).hasDrawingPage = d.hasDrawingPage := by
  unfold Group.reorderLayer
  split_ifs <;> rfl

/-- The page flag when a name is drawn. -/
theorem GroupDoc.fresh_page (d : GroupDoc) :
    d.fresh.2.2.hasDrawingPage = d.hasDrawingPage := by
  unfold GroupDoc.fresh
  split <;> rfl

/-- The page flag after the block that gives a new syllable a syl. -/
theorem Group.addDefaultSyl_page (h : GroupHelpers) (d : GroupDoc) (c : GroupContainer) :
    (Group.addDefaultSyl h d c).1.hasDrawingPage = d.hasDrawingPage := by
  unfold Group.addDefaultSyl
  split_ifs
  · exact GroupDoc.fresh_page d
  · exact GroupDoc.fresh_page d
  · rfl

/-- The page flag after the branch of `Group` that concatenates syllables. -/
theorem Group.concatSyllables_page (h : GroupHelpers) (d : GroupDoc)
    (doubleParent : GroupParent) (fullParents : List GroupContainer)
    (elements : List GroupChild) (r : GroupDoc × GroupContainer)
    (hr : Group.concatSyllables h d doubleParent fullParents elements = some r) :
    r.1.hasDrawingPage = d.hasDrawingPage := by
  unfold Group.concatSyllables at hr
  simp only at hr
  split at hr
  · exact absurd hr (by simp)
  · split at hr
    · exact absurd hr (by simp)
    · exact absurd hr (by simp)
    · split at hr
      · split at hr
        · exact absurd hr (by simp)
        · simp only [Option.some.injEq] at hr
          rw [← hr, Group.reorderLayer_page]
          show (Group.moveInto _ _ _).1.hasDrawingPage = _
          rw [Group.moveInto_page]
          exact (GroupDoc.fresh_page d)
      · exact absurd hr (by simp)

/-- The page flag after `Group`: the call does not change it. -/
theorem Group_page (h : GroupHelpers) (groupType : String) (elementIds : List String)
    (tk tk1 : Toolkit GroupDoc) (b : Bool)
    (hG : Group h groupType elementIds tk = Outcome.returned b tk1) :
    tk1.doc.hasDrawingPage = tk.doc.hasDrawingPage := by
  unfold Group at hG
  simp only at hG
  split at hG
  · simp only [Outcome.returned.injEq] at hG
    rw [← hG.2]
  · split at hG
    · simp only [Outcome.returned.injEq] at hG
      rw [← hG.2]
    · split at hG
      · simp only [Outcome.returned.injEq] at hG
        rw [← hG.2]
      · split at hG
        · simp only [Outcome.returned.injEq] at hG
          rw [← hG.2]
        · split at hG
          · exact absurd hG (by simp)
          · split at hG
            · exact absurd hG (by simp)
            · rename_i d1 parentUuid hgrouped
              simp only [Outcome.returned.injEq] at hG
              rw [← hG.2]
              show (Group.cleanup _ _ _).hasDrawingPage = _
              rw [Group.cleanup_page]
              split at hgrouped
              · by_cases hc : (if groupType = "nc" then ClassId.NC else ClassId.NEUME)
                    = ClassId.NC
                · simp only [hc, if_true] at hgrouped
                  split_ifs at hgrouped
                  simp only [Option.some.injEq, Prod.mk.injEq] at hgrouped
                  rw [← hgrouped.1, Group.reorderLayer_page]
                  exact GroupDoc.fresh_page tk.doc
                · simp only [hc, if_false] at hgrouped
                  split_ifs at hgrouped
                  simp only [Option.some.injEq, Prod.mk.injEq] at hgrouped
                  rw [← hgrouped.1, Group.reorderLayer_page]
                  show (Group.addDefaultSyl h _ _).1.hasDrawingPage = _
                  rw [Group.addDefaultSyl_page, Group.moveInto_page]
                  exact GroupDoc.fresh_page tk.doc
              · simp only [Option.some.injEq, Prod.mk.injEq] at hgrouped
                rw [← hgrouped.1]
                show (Group.moveTo _ _ _).hasDrawingPage = _
                exact Group.moveTo_page _ _ _
              · by_cases hc : (if groupType = "nc" then ClassId.NC else ClassId.NEUME)
                    = ClassId.NC
                · simp only [hc, if_true] at hgrouped
                  simp only [Option.some.injEq, Prod.mk.injEq] at hgrouped
                  rw [← hgrouped.1]
                  show (Group.moveInto _ _ _).1.hasDrawingPage = _
                  rw [Group.moveInto_page]
                  exact GroupDoc.fresh_page tk.doc
                · simp only [hc, if_false] at hgrouped
                  rw [Option.map_eq_some'] at hgrouped
                  obtain ⟨r, hr, hrd⟩ := hgrouped
                  have h1 := Group.concatSyllables_page h _ _ _ _ r hr
                  simp only [Prod.mk.injEq] at hrd
                  rw [← hrd.1]
                  exact h1

/-- A call of `Group` that returns true was made on a document with a drawing
page. -/
theorem Group_true_page (h : GroupHelpers) (groupType : String) (elementIds : List String)
    (tk tk1 : Toolkit GroupDoc)
    (hG : Group h groupType elementIds tk = Outcome.returned true tk1) :
    tk.doc.hasDrawingPage = true := by
  unfold Group at hG
  simp only at hG
  split at hG
  · simp only [Outcome.returned.injEq] at hG
    exact absurd hG.1 (by decide)
  · rename_i hp
    simpa using hp

/-- Grouping two neumes of different syllables, neither of them full: the new
syllable receives both neumes. -/
theorem Group_neume_no_full_parent_moves :
    ∃ tk1, Group sampleGroupHelpers "neume" ["n2", "n3"]
        { doc := sampleNeumeGroupDoc, m_editInfo := "" } = Outcome.returned true tk1
      ∧ tk1.m_editInfo = "new1"
      ∧ (tk1.doc.container "new1").map (fun c => c.children.map (fun e => e.uuid))
          = some ["n2", "n3"]
      ∧ tk1.doc.parentOf "n2" = some "new1" ∧ tk1.doc.parentOf "n3" = some "new1" :=
  ⟨_, rfl, by decide, by decide, by decide, by decide⟩

/-- C15, the failing input: `Group("nc", ["b", "c"])` on a page whose syllable holds the
neumes m1 = [a, b], m2 = [c, d], m3 = [e].  No neume is full.  The call returns
true and reports the new neume "new1", which is attached to the syllable
without any child; b is still a child of m1 and c still a child of m2. -/
theorem C15_Group_nc_no_full_parent_moves_nothing :
    ∃ tk1, Group sampleGroupHelpers "nc" ["b", "c"]
        { doc := sampleGroupDoc, m_editInfo := "" } = Outcome.returned true tk1
      ∧ tk1.m_editInfo = "new1"
      ∧ (tk1.doc.container "new1").map (fun c => c.children) = some []
      ∧ tk1.doc.parentOf "b" = some "m1" ∧ tk1.doc.parentOf "c" = some "m2" :=
  ⟨_, rfl, by decide, by decide, by decide, by decide⟩

/-- The parents of the page are not touched when a name is drawn. -/
theorem GroupDoc.fresh_spec (d : GroupDoc) :
    d.fresh.2.2.parents = d.parents ∧ d.fresh.2.1 = d.nextAddr
      ∧ d.fresh.2.2.nextAddr = d.nextAddr + 1
      ∧ d.fresh.2.2.m_createDefaultSyl = d.m_createDefaultSyl
      ∧ d.fresh.2.2.hasDrawingPage = d.hasDrawingPage
      ∧ (d.fresh.1 = "" ∨ d.fresh.1 ∈ d.freshUuids)
      ∧ (∀ u ∈ d.fresh.2.2.freshUuids, u ∈ d.freshUuids) := by
  unfold GroupDoc.fresh
  cases d.freshUuids with
  | nil => simp
  | cons u rest =>
    simp only [List.mem_cons, true_and, and_true, or_true, true_or]
    exact fun v hv => Or.inr hv

/-- The new syllable after the block that gives it a syl. -/
theorem Group.addDefaultSyl_spec (h : GroupHelpers) (d : GroupDoc) (c : GroupContainer) :
    (Group.addDefaultSyl h d c).1.parents = d.parents
      ∧ (Group.addDefaultSyl h d c).1.hasDrawingPage = d.hasDrawingPage
      ∧ (Group.addDefaultSyl h d c).1.m_createDefaultSyl = d.m_createDefaultSyl
      ∧ d.nextAddr ≤ (Group.addDefaultSyl h d c).1.nextAddr
      ∧ (∀ u ∈ (Group.addDefaultSyl h d c).1.freshUuids, u ∈ d.freshUuids)
      ∧ (Group.addDefaultSyl h d c).2.uuid = c.uuid
      ∧ (Group.addDefaultSyl h d c).2.cls = c.cls
      ∧ (Group.addDefaultSyl h d c).2.addr = c.addr
      ∧ ((Group.addDefaultSyl h d c).2.children = c.children
          ∨ ∃ syl, (Group.addDefaultSyl h d c).2.children = c.children ++ [syl]
              ∧ syl.cls = ClassId.SYL ∧ (syl.uuid = "" ∨ syl.uuid ∈ d.freshUuids)) := by
  have hf := GroupDoc.fresh_spec d
  have hle : d.nextAddr ≤ d.fresh.2.2.nextAddr := by
    rw [hf.2.2.1]
    exact Nat.le_succ _
  unfold Group.addDefaultSyl
  split_ifs with h1 h2
  · exact ⟨hf.1, hf.2.2.2.2.1, hf.2.2.2.1, hle, hf.2.2.2.2.2.2, rfl, rfl, rfl,
      Or.inr ⟨_, rfl, rfl, hf.2.2.2.2.2.1⟩⟩
  · exact ⟨hf.1, hf.2.2.2.2.1, hf.2.2.2.1, hle, hf.2.2.2.2.2.2, rfl, rfl, rfl,
      Or.inr ⟨_, rfl, rfl, hf.2.2.2.2.2.1⟩⟩
  · exact ⟨rfl, rfl, rfl, le_refl _, fun u hu => hu, rfl, rfl, rfl, Or.inl rfl⟩

/-- A round of the loop of `Ungroup` for a later element that is moved: the
element leaves every container, and a copy of the container that stays, with
the element as its only child apart from a new syl, joins the second-level
parent. -/
theorem Ungroup.later_spec (h : GroupHelpers) (groupType : String) (el : GroupChild)
    (locals : Ungroup.Locals) (tk : Toolkit GroupDoc) (P S : String) (cp : GroupContainer)
    (hf : locals.fparent = some P) (hs : locals.sparent = some S)
    (hcp : tk.doc.container P = some cp)
    (hnc : groupType = "nc" → el.cls = ClassId.NC ∧ el.ligated = none)
    (hsyl : el.cls ≠ ClassId.SYL) :
    ∃ tk1 n, Ungroup.later h groupType el locals tk = Ungroup.Round.next locals tk1
      ∧ tk1.doc.parents
          = (((tk.doc.mapContainers (fun c => c.Relinquish el.uuid)).mapContainers
                (fun c => if c.uuid = P then { c with relinquished := [] } else c)).modifyParent
              S (fun cs => h.ReorderContainers (cs ++ [n]))).parents
      ∧ n.cls = cp.cls ∧ n.addr = tk.doc.nextAddr
      ∧ (n.children = [el] ∨ ∃ syl, n.children = [el, syl] ∧ syl.cls = ClassId.SYL
            ∧ (syl.uuid = "" ∨ syl.uuid ∈ tk.doc.freshUuids))
      ∧ tk1.doc.hasDrawingPage = tk.doc.hasDrawingPage
      ∧ tk.doc.nextAddr ≤ tk1.doc.nextAddr
      ∧ (∀ u ∈ tk1.doc.freshUuids, u ∈ tk.doc.freshUuids) := by
  have hfr := GroupDoc.fresh_spec tk.doc
  unfold Ungroup.later
  have c1 : ¬ (groupType = "nc" ∧ el.cls ≠ ClassId.NC) := fun hh => hh.2 (hnc hh.1).1
  have c2 : ¬ (groupType = "nc" ∧ el.ligated.isSome = true) := by
    intro hh
    rw [(hnc hh.1).2] at hh
    exact absurd hh.2 (by decide)
  rw [if_neg c1, if_neg c2, if_neg hsyl]
  simp only [hf, hs, hcp]
  by_cases hc : cp.cls = ClassId.SYLLABLE
  · rw [if_pos hc]
    have ha := Group.addDefaultSyl_spec h
      ((tk.doc.fresh.2.2.mapContainers (fun c => c.Relinquish el.uuid)).mapContainers
        (fun c => if c.uuid = P then { c with relinquished := [] } else c))
      { cp with uuid := tk.doc.fresh.1, addr := tk.doc.fresh.2.1, children := [el],
                relinquished := [] }
    refine ⟨_, (Group.addDefaultSyl h
      ((tk.doc.fresh.2.2.mapContainers (fun c => c.Relinquish el.uuid)).mapContainers
        (fun c => if c.uuid = P then { c with relinquished := [] } else c))
      { cp with uuid := tk.doc.fresh.1, addr := tk.doc.fresh.2.1, children := [el],
                relinquished := [] }).2, rfl, ?_, ?_, ?_, ?_, ?_, ?_, ?_⟩
    · show List.map _ _ = List.map _ _
      rw [ha.1]
      show List.map _ (List.map _ (List.map _ tk.doc.fresh.2.2.parents)) = _
      rw [hfr.1]
      rfl
    · rw [ha.2.2.2.2.2.2.1]
    · rw [ha.2.2.2.2.2.2.2.1]
      exact hfr.2.1
    · rcases ha.2.2.2.2.2.2.2.2 with h1 | ⟨syl, h1, h2, h3⟩
      · exact Or.inl h1
      · refine Or.inr ⟨syl, h1, h2, ?_⟩
        rcases h3 with h3 | h3
        · exact Or.inl h3
        · exact Or.inr (hfr.2.2.2.2.2.2 _ h3)
    · show (Group.addDefaultSyl h _ _).1.hasDrawingPage = _
      rw [ha.2.1]
      exact hfr.2.2.2.2.1
    · show _ ≤ (Group.addDefaultSyl h _ _).1.nextAddr
      refine le_trans ?_ ha.2.2.2.1
      show _ ≤ tk.doc.fresh.2.2.nextAddr
      rw [hfr.2.2.1]
      exact Nat.le_succ _
    · intro u hu
      exact hfr.2.2.2.2.2.2 _ (ha.2.2.2.2.1 u hu)
  · rw [if_neg hc]
    refine ⟨_, { cp with uuid := tk.doc.fresh.1, addr := tk.doc.fresh.2.1, children := [el],
                         relinquished := [] },
      rfl, ?_, rfl, hfr.2.1, Or.inl rfl, hfr.2.2.2.2.1, ?_, hfr.2.2.2.2.2.2⟩
    · show List.map _ (List.map _ (List.map _ tk.doc.fresh.2.2.parents)) = _
      rw [hfr.1]
      rfl
    · show _ ≤ tk.doc.fresh.2.2.nextAddr
      rw [hfr.2.2.1]
      exact Nat.le_succ _

/-- The entries of one uuid after a change of every container that filters
the children. -/
theorem GroupDoc.entriesOf_mapContainers (g : GroupContainer → GroupContainer)
    (q : GroupChild → Bool) (hg : ∀ c, (g c).children = c.children.filter q) (d : GroupDoc)
    (v : String) :
    (d.mapContainers g).entriesOf v
      = ((d.entriesOf v).filter (fun x => q x.2.2)).map (fun x => (x.1, g x.2.1, x.2.2)) := by
  unfold GroupDoc.entriesOf
  rw [GroupDoc.entries_mapContainers g q hg d, List.filter_map, List.filter_filter,
    List.filter_filter]
  congr 1
  apply List.filter_congr
  intro x _
  exact Bool.and_comm _ _

/-- The uuids of the second-level parents after a change of every container. -/
theorem GroupDoc.parents_uuid_mapContainers (g : GroupContainer → GroupContainer)
    (d : GroupDoc) :
    (d.mapContainers g).parents.map (fun p => p.uuid) = d.parents.map (fun p => p.uuid) := by
  unfold GroupDoc.mapContainers
  simp only [List.map_map]
  rfl

/-- The uuids of the second-level parents after a change of the containers of
one of them. -/
theorem GroupDoc.parents_uuid_modifyParent (S : String)
    (f : List GroupContainer → List GroupContainer) (d : GroupDoc) :
    (d.modifyParent S f).parents.map (fun p => p.uuid) = d.parents.map (fun p => p.uuid) := by
  unfold GroupDoc.modifyParent
  simp only [List.map_map]
  apply List.map_congr_left
  intro p _
  show (if p.uuid = S then _ else p).uuid = p.uuid
  split_ifs <;> rfl

/-- The change of a container in a round of `Ungroup` that moves the element
with uuid `u`: the container relinquishes the element, and the one that stays
drops what it relinquished. -/
theorem Ungroup.round_entriesOf (R : List GroupContainer → List GroupContainer)
    (hR : ∀ l, (R l).Perm l) (P S u : String) (n : GroupContainer) (el : GroupChild)
    (d d1 : GroupDoc) (hel : el.uuid = u)
    (hd1 : d1.parents
        = (((d.mapContainers (fun c => c.Relinquish u)).mapContainers
              (fun c => if c.uuid = P then { c with relinquished := [] } else c)).modifyParent
            S (fun cs => R (cs ++ [n]))).parents)
    (hnodup : (d.parents.map (fun p => p.uuid)).Nodup)
    (hS : S ∈ d.parents.map (fun p => p.uuid))
    (v : String)
    (hn : n.children = [el] ∨ ∃ syl, n.children = [el, syl] ∧ syl.uuid ≠ v) :
    (v = u → d1.entriesOf v = [(S, n, el)])
    ∧ (v ≠ u → ∀ x, d.entriesOf v = [x] → d1.entriesOf v =
        [(x.1, (if (x.2.1.Relinquish u).uuid = P then
            { x.2.1.Relinquish u with relinquished := [] } else x.2.1.Relinquish u), x.2.2)]) := by
  have hall : ∀ x ∈ d.entriesOf v, x.2.2.uuid = v := by
    intro x hx
    unfold GroupDoc.entriesOf at hx
    have := (List.mem_filter.mp hx).2
    simpa using this
  have h1 := GroupDoc.entriesOf_mapContainers (fun c => c.Relinquish u)
    (fun e => e.uuid != u) (fun c => rfl) d v
  have h2 := GroupDoc.entriesOf_mapContainers
    (fun c => if c.uuid = P then { c with relinquished := [] } else c)
    (fun _ => true)
    (fun c => by
      rw [List.filter_true]
      show (if c.uuid = P then _ else c).children = c.children
      split_ifs <;> rfl)
    (d.mapContainers (fun c => c.Relinquish u)) v
  rw [List.filter_true] at h2
  have h3 := GroupDoc.entries_modifyParent R hR S n
    ((d.mapContainers (fun c => c.Relinquish u)).mapContainers
      (fun c => if c.uuid = P then { c with relinquished := [] } else c))
    (by rw [GroupDoc.parents_uuid_mapContainers, GroupDoc.parents_uuid_mapContainers]
        exact hnodup)
    (by rw [GroupDoc.parents_uuid_mapContainers, GroupDoc.parents_uuid_mapContainers]
        exact hS)
  have h4 : (d1.entriesOf v).Perm
      ((((d.mapContainers (fun c => c.Relinquish u)).mapContainers
          (fun c => if c.uuid = P then { c with relinquished := [] } else c)).entriesOf v)
        ++ (n.children.map (fun e => (S, n, e))).filter (fun x => x.2.2.uuid == v)) := by
    have : d1.entriesOf v = (((d.mapContainers (fun c => c.Relinquish u)).mapContainers
        (fun c => if c.uuid = P then { c with relinquished := [] } else c)).modifyParent
          S (fun cs => R (cs ++ [n]))).entriesOf v := by
      unfold GroupDoc.entriesOf GroupDoc.entries
      rw [hd1]
    rw [this]
    unfold GroupDoc.entriesOf
    rw [← List.filter_append]
    exact h3.filter _
  rw [h2, h1] at h4
  constructor
  · intro hv
    have e1 : (d.entriesOf v).filter (fun x => x.2.2.uuid != u) = [] := by
      rw [List.filter_eq_nil_iff]
      intro x hx
      rw [hall x hx, hv]
      simp
    have e2 : (n.children.map (fun e => (S, n, e))).filter (fun x => x.2.2.uuid == v)
        = [(S, n, el)] := by
      rcases hn with hn | ⟨syl, hn, hsyl⟩
      · rw [hn]
        simp [hel, hv]
      · rw [hn]
        simp [hel, hv]
        intro hh
        exact absurd hh (hv ▸ hsyl)
    rw [e1, e2] at h4
    exact List.perm_singleton.mp h4
  · intro hv x hx
    have e1 : (d.entriesOf v).filter (fun x => x.2.2.uuid != u) = d.entriesOf v := by
      rw [List.filter_eq_self]
      intro x hx
      rw [hall x hx]
      simpa using hv
    have e2 : (n.children.map (fun e => (S, n, e))).filter (fun x => x.2.2.uuid == v)
        = [] := by
      rcases hn with hn | ⟨syl, hn, hsyl⟩
      · rw [hn]
        simp [hel]
        exact fun hh => hv hh.symm
      · rw [hn]
        simp [hel]
        exact ⟨fun hh => hv hh.symm, hsyl⟩
    rw [e1, e2, List.append_nil, List.map_map, hx] at h4
    exact List.perm_singleton.mp h4

/-- What an entry of the page is. -/
theorem GroupDoc.mem_entries (d : GroupDoc) (x : String × GroupContainer × GroupChild) :
    x ∈ d.entries ↔ ∃ p ∈ d.parents, ∃ c ∈ p.containers, ∃ e ∈ c.children,
      x = (p.uuid, c, e) := by
  unfold GroupDoc.entries GroupParent.entries
  simp only [List.mem_flatMap, List.mem_map]
  constructor
  · rintro ⟨p, hp, c, hc, e, he, hx⟩
    exact ⟨p, hp, c, hc, e, he, hx.symm⟩
  · rintro ⟨p, hp, c, hc, e, he, hx⟩
    exact ⟨p, hp, c, hc, e, he, hx.symm⟩

/-- An element that is found is in the tree. -/
theorem GroupDoc.find_some (d : GroupDoc) (u : String) (f : GroupFound)
    (hf : d.find u = some f) :
    f.doubleParent ∈ d.parents ∧ f.par ∈ f.doubleParent.containers
      ∧ f.el ∈ f.par.children ∧ f.el.uuid = u := by
  unfold GroupDoc.find at hf
  obtain ⟨p, hp, hfp⟩ := List.exists_of_findSome?_eq_some hf
  unfold GroupParent.find at hfp
  obtain ⟨c, hc, hfc⟩ := List.exists_of_findSome?_eq_some hfp
  cases hfe : c.children.find? (fun e => e.uuid == u) with
  | none =>
    rw [hfe] at hfc
    exact absurd hfc (by simp)
  | some e =>
    rw [hfe] at hfc
    simp only [Option.map_some', Option.some.injEq] at hfc
    subst hfc
    have h1 := List.find?_some hfe
    have h2 := List.mem_of_find?_eq_some hfe
    exact ⟨hp, hc, h2, by simpa using h1⟩

/-- A container with a given uuid is found when there is one. -/
theorem GroupDoc.container_some (d : GroupDoc) (P : String) (p : GroupParent)
    (c : GroupContainer) (hp : p ∈ d.parents) (hc : c ∈ p.containers) (hu : c.uuid = P) :
    ∃ cp, d.container P = some cp := by
  unfold GroupDoc.container
  cases hfind : d.parents.findSome? (fun p => p.containers.find? (fun c => c.uuid == P)) with
  | some cp => exact ⟨cp, rfl⟩
  | none =>
    rw [List.findSome?_eq_none_iff] at hfind
    have h1 := hfind p hp
    rw [List.find?_eq_none] at h1
    have h2 := h1 c hc
    rw [hu] at h2
    simp at h2

/-- The block of `Ungroup` for ligatures leaves a note component without a
ligated attribute alone. -/
theorem Ungroup.ligature_none (doubleUnit : Option Int) (el : GroupChild)
    (locals : Ungroup.Locals) (tk : Toolkit GroupDoc)
    (hcls : el.cls = ClassId.NC) (hlig : el.ligated = none) :
    Ungroup.ligature doubleUnit el locals tk = Ungroup.Round.next locals tk := by
  unfold Ungroup.ligature
  rw [if_neg (fun hh => hh hcls), if_neg (by rw [hlig]; decide)]

/-- The one entry of a uuid carries that uuid. -/
theorem GroupDoc.entriesOf_uuid (d : GroupDoc) (v : String)
    (x : String × GroupContainer × GroupChild) (hx : d.entriesOf v = [x]) :
    x.2.2.uuid = v ∧ x ∈ d.entries := by
  have hm : x ∈ d.entriesOf v := by
    rw [hx]
    exact List.mem_singleton.mpr rfl
  unfold GroupDoc.entriesOf at hm
  have h1 := List.mem_filter.mp hm
  exact ⟨by simpa using h1.2, h1.1⟩

/-- A round of `Ungroup` that moves the next id keeps the state of the page as
`Ungroup.Separated` describes it. -/
theorem Ungroup.Separated.round (R : List GroupContainer → List GroupContainer)
    (hR : ∀ l, (R l).Perm l) (el : String → GroupChild) (P S id1 : String) (n0 : Nat)
    (moved : List String) (u : String) (waiting : List String) (d d1 : GroupDoc)
    (n : GroupContainer)
    (hinv : Ungroup.Separated el P S id1 n0 moved (u :: waiting) d)
    (hnd : (id1 :: (moved ++ u :: waiting)).Nodup)
    (hempty : "" ∉ id1 :: (moved ++ u :: waiting))
    (hcls : (el u).cls ≠ ClassId.SYL)
    (hd1 : d1.parents
        = (((d.mapContainers (fun c => c.Relinquish u)).mapContainers
              (fun c => if c.uuid = P then { c with relinquished := [] } else c)).modifyParent
            S (fun cs => R (cs ++ [n]))).parents)
    (hn : n.children = [el u] ∨ ∃ syl, n.children = [el u, syl] ∧ syl.cls = ClassId.SYL
            ∧ (syl.uuid = "" ∨ syl.uuid ∈ d.freshUuids))
    (haddr : n.addr = d.nextAddr) (hnext : d.nextAddr ≤ d1.nextAddr)
    (hfresh : ∀ v ∈ d1.freshUuids, v ∈ d.freshUuids) :
    Ungroup.Separated el P S id1 n0 (moved ++ [u]) waiting d1 := by
  obtain ⟨cu, hcu, _⟩ := hinv.waiting_in u (List.mem_cons_self _ _)
  have helu : (el u).uuid = u := (GroupDoc.entriesOf_uuid d u _ hcu).1
  have hS : S ∈ d.parents.map (fun p => p.uuid) := by
    obtain ⟨p, hp, c, _, e, _, hx⟩ :=
      (GroupDoc.mem_entries d _).mp (GroupDoc.entriesOf_uuid d u _ hcu).2
    have : S = p.uuid := congrArg (fun y => y.1) hx
    rw [this]
    exact List.mem_map_of_mem (fun p => p.uuid) hp
  have hsyl : ∀ v ∈ id1 :: (moved ++ u :: waiting),
      n.children = [el u] ∨ ∃ syl, n.children = [el u, syl] ∧ syl.uuid ≠ v := by
    intro v hv
    rcases hn with hn | ⟨syl, hn, _, hs⟩
    · exact Or.inl hn
    · refine Or.inr ⟨syl, hn, ?_⟩
      intro he
      rcases hs with hs | hs
      · exact hempty (by rw [← hs, he]; exact hv)
      · exact hinv.not_fresh v hv (he ▸ hs)
  have hstep := fun v hv =>
    Ungroup.round_entriesOf R hR P S u n (el u) d d1 helu hd1 hinv.parents_nodup hS v
      (hsyl v hv)
  have hnd1 := List.nodup_cons.mp hnd
  have hnd2 := List.nodup_append.mp hnd1.2
  have hnd3 := List.nodup_cons.mp hnd2.2.1
  refine ⟨?_, ?_, ?_, ?_, ?_, le_trans hinv.addr_le hnext⟩
  · have : d1.parents.map (fun p => p.uuid) = d.parents.map (fun p => p.uuid) := by
      rw [hd1, GroupDoc.parents_uuid_modifyParent, GroupDoc.parents_uuid_mapContainers,
        GroupDoc.parents_uuid_mapContainers]
    rw [this]
    exact hinv.parents_nodup
  · obtain ⟨c, hc, hcP⟩ := hinv.first_stays
    have hne : id1 ≠ u := by
      intro he
      apply hnd1.1
      rw [he]
      exact List.mem_append_right _ (List.mem_cons_self _ _)
    refine ⟨_, (hstep id1 (List.mem_cons_self _ _)).2 hne _ hc, ?_⟩
    show (if (c.Relinquish u).uuid = P then _ else c.Relinquish u).uuid = P
    split_ifs <;> exact hcP
  · intro v hv
    obtain ⟨c, hc, hcP⟩ := hinv.waiting_in v (List.mem_cons_of_mem _ hv)
    have hne : v ≠ u := fun he => hnd3.1 (he ▸ hv)
    have hmem : v ∈ id1 :: (moved ++ u :: waiting) :=
      List.mem_cons_of_mem _ (List.mem_append_right _ (List.mem_cons_of_mem _ hv))
    refine ⟨_, (hstep v hmem).2 hne _ hc, ?_⟩
    show (if (c.Relinquish u).uuid = P then _ else c.Relinquish u).uuid = P
    split_ifs <;> exact hcP
  · intro v hv
    rcases List.mem_append.mp hv with hv | hv
    · obtain ⟨c, hc, hch, hca⟩ := hinv.moved_out v hv
      have hne : v ≠ u := fun he => hnd2.2.2 hv (he ▸ List.mem_cons_self _ _)
      have hmem : v ∈ id1 :: (moved ++ u :: waiting) :=
        List.mem_cons_of_mem _ (List.mem_append_left _ hv)
      have helv : (el v).uuid = v := (GroupDoc.entriesOf_uuid d v _ hc).1
      refine ⟨_, (hstep v hmem).2 hne _ hc, ?_, ?_⟩
      · have : (if (c.Relinquish u).uuid = P then
            ({ c.Relinquish u with relinquished := [] } : GroupContainer)
            else c.Relinquish u).children = c.children.filter (fun e => e.uuid != u) := by
          split_ifs <;> rfl
        show List.filter _ (if (c.Relinquish u).uuid = P then _ else c.Relinquish u).children = _
        rw [this, List.filter_filter]
        have hcomm : (c.children.filter (fun a =>
            decide (a.cls ≠ ClassId.SYL) && (a.uuid != u)))
            = (c.children.filter (fun e => e.cls ≠ ClassId.SYL)).filter
                (fun e => e.uuid != u) := by
          rw [List.filter_filter]
          apply List.filter_congr
          intro x _
          exact Bool.and_comm _ _
        rw [hcomm, hch]
        simp [helv, hne]
      · show n0 ≤ (if (c.Relinquish u).uuid = P then _ else c.Relinquish u).addr
        split_ifs <;> exact hca
    · have hvu : v = u := List.mem_singleton.mp hv
      subst hvu
      have hmem : v ∈ id1 :: (moved ++ v :: waiting) :=
        List.mem_cons_of_mem _ (List.mem_append_right _ (List.mem_cons_self _ _))
      refine ⟨n, (hstep v hmem).1 rfl, ?_, ?_⟩
      · rcases hn with hn | ⟨syl, hn, hs, _⟩
        · rw [hn]
          simp [hcls]
        · rw [hn]
          simp [hcls, hs]
      · rw [haddr]
        exact hinv.addr_le
  · intro v hv hf
    apply hinv.not_fresh v ?_ (hfresh v hf)
    rcases List.mem_cons.mp hv with hv | hv
    · rw [hv]
      exact List.mem_cons_self _ _
    · apply List.mem_cons_of_mem
      rcases List.mem_append.mp hv with hv | hv
      · rcases List.mem_append.mp hv with hv | hv
        · exact List.mem_append_left _ hv
        · rw [List.mem_singleton.mp hv]
          exact List.mem_append_right _ (List.mem_cons_self _ _)
      · exact List.mem_append_right _ (List.mem_cons_of_mem _ hv)

/-- The rounds of `Ungroup` after the first: every id still to come is moved into
a container of its own. -/
theorem Ungroup.loop_separates (h : GroupHelpers)
    (hR : ∀ l, (h.ReorderContainers l).Perm l) (doubleUnit : Option Int)
    (groupType : String) (size : Nat) (el : String → GroupChild) (P S id1 : String)
    (n0 : Nat) :
    ∀ (waiting moved : List String) (locals : Ungroup.Locals) (tk : Toolkit GroupDoc),
      locals.fparent = some P → locals.sparent = some S → locals.firstIsSyl = false →
      (id1 :: (moved ++ waiting)).Nodup → "" ∉ id1 :: (moved ++ waiting) →
      (∀ u ∈ waiting, (el u).cls ≠ ClassId.SYL
        ∧ (groupType = "nc" → (el u).cls = ClassId.NC ∧ (el u).ligated = none)) →
      Ungroup.Separated el P S id1 n0 moved waiting tk.doc →
      ∃ tk2, Ungroup.loop h doubleUnit groupType size waiting false locals tk
          = Outcome.returned true tk2
        ∧ Ungroup.Separated el P S id1 n0 (moved ++ waiting) [] tk2.doc := by
  intro waiting
  induction waiting with
  | nil =>
    intro moved locals tk _ _ _ _ _ _ hinv
    refine ⟨tk, rfl, ?_⟩
    rw [List.append_nil]
    exact hinv
  | cons u waiting ih =>
    intro moved locals tk hfp hsp hfs hnd hempty hcls hinv
    obtain ⟨cu, hcu, _⟩ := hinv.waiting_in u (List.mem_cons_self _ _)
    obtain ⟨f, hfind, _, _, hfel⟩ := GroupDoc.find_of_entriesOf tk.doc u _ hcu
    have hfel1 : f.el = el u := hfel
    obtain ⟨hsyl, hnc⟩ := hcls u (List.mem_cons_self _ _)
    obtain ⟨c1, hc1, hc1P⟩ := hinv.first_stays
    obtain ⟨p, hp, c, hc, e, _, hx⟩ :=
      (GroupDoc.mem_entries tk.doc _).mp (GroupDoc.entriesOf_uuid tk.doc id1 _ hc1).2
    have hcc : c1 = c := congrArg (fun y => y.2.1) hx
    obtain ⟨cp, hcp⟩ := GroupDoc.container_some tk.doc P p c hp hc (hcc ▸ hc1P)
    obtain ⟨tk1, n, hlater, hd1, _, haddr, hn, _, hnext, hfresh⟩ :=
      Ungroup.later_spec h groupType (el u) locals tk P S cp hfp hsp hcp hnc hsyl
    have helu : (el u).uuid = u := (GroupDoc.entriesOf_uuid tk.doc u _ hcu).1
    rw [helu] at hd1
    have hinv1 := Ungroup.Separated.round h.ReorderContainers hR el P S id1 n0 moved u
      waiting tk.doc tk1.doc n hinv hnd hempty hsyl hd1 hn haddr hnext hfresh
    have hnd1 : (id1 :: ((moved ++ [u]) ++ waiting)).Nodup := by
      rw [List.append_assoc]
      exact hnd
    have hempty1 : "" ∉ id1 :: ((moved ++ [u]) ++ waiting) := by
      rw [List.append_assoc]
      exact hempty
    obtain ⟨tk2, hloop, hinv2⟩ := ih (moved ++ [u]) locals tk1 hfp hsp hfs hnd1 hempty1
      (fun v hv => hcls v (List.mem_cons_of_mem _ hv)) hinv1
    refine ⟨tk2, ?_, ?_⟩
    · rw [← hloop]
      have hlig : (if groupType = "nc" ∧ size = 2 then
          Ungroup.ligature doubleUnit (el u) locals tk else Ungroup.Round.next locals tk)
          = Ungroup.Round.next locals tk := by
        split_ifs with hc2
        · exact Ungroup.ligature_none _ _ _ _ (hnc hc2.1).1 (hnc hc2.1).2
        · rfl
      have hcond : ¬ ((false = true) ∨ locals.firstIsSyl = true) := by
        rw [hfs]
        decide
      rw [Ungroup.loop]
      simp only [hfind, hfel1, hlig, if_neg hcond, hlater]
    · rw [List.append_assoc] at hinv2
      exact hinv2

/-- Ungrouping ids that share one container: when the ids are distinct, each
of them the uuid of one element of the kind that `groupType` names (a note
component without a ligated attribute, or a neume), all in the one container
`P` below the second-level parent `S`, `Ungroup` returns true and leaves the page
as `Ungroup.Separated` describes it: the first element in a container with uuid
`P`, each other one alone, apart from a syl, in a container of its own that
was made during the call. -/
theorem Ungroup_separates (h : GroupHelpers)
    (hR : ∀ l, (h.ReorderContainers l).Perm l) (doubleUnit : Option Int)
    (groupType : String) (K CK DK : ClassId)
    (hkind : (groupType = "nc" ∧ K = ClassId.NC ∧ CK = ClassId.NEUME ∧ DK = ClassId.SYLLABLE)
      ∨ (groupType = "neume" ∧ K = ClassId.NEUME ∧ CK = ClassId.SYLLABLE
          ∧ DK = ClassId.LAYER))
    (tk : Toolkit GroupDoc) (hpage : tk.doc.hasDrawingPage = true)
    (el : String → GroupChild) (P S id1 : String) (rest : List String)
    (hnd : (id1 :: rest).Nodup) (hempty : "" ∉ id1 :: rest)
    (hparents : (tk.doc.parents.map (fun p => p.uuid)).Nodup)
    (hS : ∀ p ∈ tk.doc.parents, p.uuid = S → p.cls = DK)
    (hsel : ∀ u ∈ id1 :: rest, ∃ c, tk.doc.entriesOf u = [(S, c, el u)] ∧ c.uuid = P
      ∧ c.cls = CK ∧ (el u).cls = K ∧ (groupType = "nc" → (el u).ligated = none))
    (hfresh : ∀ u ∈ id1 :: rest, u ∉ tk.doc.freshUuids) :
    ∃ tk2, Ungroup h doubleUnit groupType (id1 :: rest) tk = Outcome.returned true tk2
      ∧ Ungroup.Separated el P S id1 tk.doc.nextAddr rest [] tk2.doc := by
  have hK : K ≠ ClassId.SYL := by
    rcases hkind with ⟨_, hk, _⟩ | ⟨_, hk, _⟩ <;> rw [hk] <;> decide
  have hKnc : groupType = "nc" → K = ClassId.NC := by
    intro hg
    rcases hkind with ⟨_, hk, _⟩ | ⟨hg2, _⟩
    · exact hk
    · rw [hg] at hg2
      exact absurd hg2 (by decide)
  obtain ⟨c1, hc1, hc1P, hc1K, he1K, he1L⟩ := hsel id1 (List.mem_cons_self _ _)
  obtain ⟨f, hfind, hfS, hfpar, hfel⟩ := GroupDoc.find_of_entriesOf tk.doc id1 _ hc1
  have hfS1 : f.doubleParent.uuid = S := hfS
  have hfpar1 : f.par = c1 := hfpar
  have hfel1 : f.el = el id1 := hfel
  have hfD : f.doubleParent.cls = DK :=
    hS _ (GroupDoc.find_some tk.doc id1 f hfind).1 hfS1
  have hinv0 : Ungroup.Separated el P S id1 tk.doc.nextAddr [] rest tk.doc := by
    refine ⟨hparents, ⟨c1, hc1, hc1P⟩, ?_, ?_, ?_, le_refl _⟩
    · intro u hu
      obtain ⟨c, hc, hcP, _⟩ := hsel u (List.mem_cons_of_mem _ hu)
      exact ⟨c, hc, hcP⟩
    · intro u hu
      exact absurd hu (List.not_mem_nil u)
    · intro u hu
      exact hfresh u hu
  have hcls : ∀ u ∈ rest, (el u).cls ≠ ClassId.SYL
      ∧ (groupType = "nc" → (el u).cls = ClassId.NC ∧ (el u).ligated = none) := by
    intro u hu
    obtain ⟨c, _, _, _, heK, heL⟩ := hsel u (List.mem_cons_of_mem _ hu)
    exact ⟨heK ▸ hK, fun hg => ⟨heK.trans (hKnc hg), heL hg⟩⟩
  obtain ⟨tk2, hloop, hinv2⟩ := Ungroup.loop_separates h hR doubleUnit groupType
    (id1 :: rest).length el P S id1 tk.doc.nextAddr rest []
    { fparent := some P, sparent := some S, ligCount := 0, firstNc := none,
      firstIsSyl := false }
    { doc := tk.doc, m_editInfo := "" ++ P } rfl rfl rfl hnd hempty hcls hinv0
  refine ⟨tk2, ?_, ?_⟩
  · rw [← hloop]
    unfold Ungroup
    have hp : ¬ ((!tk.doc.hasDrawingPage) = true) := by
      rw [hpage]
      decide
    simp only
    rw [if_neg hp, Ungroup.loop]
    have hlig : (if groupType = "nc" ∧ (id1 :: rest).length = 2 then
        Ungroup.ligature doubleUnit (el id1)
          { fparent := none, sparent := none, ligCount := 0, firstNc := none,
            firstIsSyl := false } { doc := tk.doc, m_editInfo := "" }
        else Ungroup.Round.next
          { fparent := none, sparent := none, ligCount := 0, firstNc := none,
            firstIsSyl := false } { doc := tk.doc, m_editInfo := "" })
        = Ungroup.Round.next
          { fparent := none, sparent := none, ligCount := 0, firstNc := none,
            firstIsSyl := false } { doc := tk.doc, m_editInfo := "" } := by
      split_ifs with hc2
      · exact Ungroup.ligature_none _ _ _ _ (he1K.trans (hKnc hc2.1)) (he1L hc2.1)
      · rfl
    have hfirst : Ungroup.first groupType f
        { fparent := none, sparent := none, ligCount := 0, firstNc := none,
          firstIsSyl := false } { doc := tk.doc, m_editInfo := "" }
        = Ungroup.Round.next
            { fparent := some P, sparent := some S, ligCount := 0, firstNc := none,
              firstIsSyl := false } { doc := tk.doc, m_editInfo := "" ++ P } := by
      unfold Ungroup.first
      rw [if_neg (by rw [hfel1, he1K]; exact hK)]
      rcases hkind with ⟨hg, _, hck, hdk⟩ | ⟨hg, _, hck, hdk⟩
      · rw [if_pos hg, if_pos ⟨by rw [hfpar1, hc1K, hck], by rw [hfD, hdk]⟩, hfpar1, hc1P,
          hfS1]
      · have hg1 : ¬ (groupType = "nc") := by
          rw [hg]
          decide
        rw [if_neg hg1, if_pos hg, if_pos ⟨by rw [hfpar1, hc1K, hck], by rw [hfD, hdk]⟩,
          hfpar1, hc1P, hfS1]
    simp only [hfind, hfel1, hlig, true_or, if_true, hfirst]
  · rw [List.nil_append] at hinv2
    exact hinv2

/-- What the lookups find on a page that `Ungroup` has left as `Ungroup.Separated`
describes it: the first element in a container with uuid `P`, each other one
as the only child that is no syl of a container made during the call, and no
two of the elements in one container. -/
theorem Ungroup.Separated.find_spec (el : String → GroupChild) (P S id1 : String)
    (n0 : Nat) (moved : List String) (d : GroupDoc)
    (hsep : Ungroup.Separated el P S id1 n0 moved [] d)
    (hnd : (id1 :: moved).Nodup) (hK : (el id1).cls ≠ ClassId.SYL) :
    (∃ f, d.find id1 = some f ∧ f.el = el id1 ∧ f.par.uuid = P ∧ f.doubleParent.uuid = S)
    ∧ (∀ u ∈ moved, ∃ f, d.find u = some f ∧ f.el = el u
        ∧ f.par.children.filter (fun e => e.cls ≠ ClassId.SYL) = [el u] ∧ n0 ≤ f.par.addr
        ∧ f.doubleParent.uuid = S)
    ∧ (∀ u ∈ id1 :: moved, ∀ v ∈ id1 :: moved, u ≠ v →
        (d.find u).map (fun f => f.par) ≠ (d.find v).map (fun f => f.par)) := by
  obtain ⟨c1, hc1, hc1P⟩ := hsep.first_stays
  obtain ⟨f1, hf1, hf1S, hf1par, hf1el⟩ := GroupDoc.find_of_entriesOf d id1 _ hc1
  have hf1par1 : f1.par = c1 := hf1par
  have hf1el1 : f1.el = el id1 := hf1el
  have hmoved : ∀ u ∈ moved, ∃ f, d.find u = some f ∧ f.el = el u
      ∧ f.par.children.filter (fun e => e.cls ≠ ClassId.SYL) = [el u] ∧ n0 ≤ f.par.addr
      ∧ f.doubleParent.uuid = S := by
    intro u hu
    obtain ⟨c, hc, hch, hca⟩ := hsep.moved_out u hu
    obtain ⟨f, hf, hfS, hfpar, hfel⟩ := GroupDoc.find_of_entriesOf d u _ hc
    have hfpar1 : f.par = c := hfpar
    refine ⟨f, hf, hfel, ?_, ?_, hfS⟩
    · rw [hfpar1]
      exact hch
    · rw [hfpar1]
      exact hca
  have huuid : ∀ u ∈ moved, (el u).uuid = u := by
    intro u hu
    obtain ⟨c, hc, _⟩ := hsep.moved_out u hu
    exact (GroupDoc.entriesOf_uuid d u _ hc).1
  have huuid1 : (el id1).uuid = id1 := (GroupDoc.entriesOf_uuid d id1 _ hc1).1
  have hmem1 : el id1 ∈ c1.children.filter (fun e => e.cls ≠ ClassId.SYL) := by
    have h1 := (GroupDoc.find_some d id1 f1 hf1).2.2.1
    rw [hf1par1, hf1el1] at h1
    exact List.mem_filter.mpr ⟨h1, by simpa using hK⟩
  have hnd1 := List.nodup_cons.mp hnd
  have hfirst : ∀ v ∈ moved,
      (d.find id1).map (fun f => f.par) ≠ (d.find v).map (fun f => f.par) := by
    intro v hv he
    obtain ⟨f, hf, _, hch, _⟩ := hmoved v hv
    rw [hf1, hf] at he
    simp only [Option.map_some', Option.some.injEq] at he
    rw [hf1par1] at he
    rw [he, hch] at hmem1
    have h2 : el id1 = el v := List.mem_singleton.mp hmem1
    apply hnd1.1
    have h3 : id1 = v := by rw [← huuid1, h2, huuid v hv]
    rw [h3]
    exact hv
  refine ⟨⟨f1, hf1, hf1el, hf1par1 ▸ hc1P, hf1S⟩, hmoved, ?_⟩
  intro u hu v hv huv
  rcases List.mem_cons.mp hu with hu | hu
  · rcases List.mem_cons.mp hv with hv | hv
    · exact absurd (hu.trans hv.symm) huv
    · rw [hu]
      exact hfirst v hv
  · rcases List.mem_cons.mp hv with hv | hv
    · rw [hv]
      exact fun he => hfirst u hu he.symm
    · intro he
      obtain ⟨fu, hfu, _, hchu, _⟩ := hmoved u hu
      obtain ⟨fv, hfv, _, hchv, _⟩ := hmoved v hv
      rw [hfu, hfv] at he
      simp only [Option.map_some', Option.some.injEq] at he
      rw [he, hchv] at hchu
      have h2 : el v = el u := by
        simpa using hchu
      apply huv
      rw [← huuid u hu, ← h2, huuid v hv]

/-- C16, counterexample: on a page whose syllable holds the neumes m1 = [a, b],
m2 = [c, d], m3 = [e], `Group("nc", ["a", "b"])` succeeds and reports m1 (its
one full parent); `Ungroup("nc", ["a", "b"])` then succeeds and leaves a in m1 and
b alone in the new neume "new1".  Before the Group a and b shared the neume
m1; afterwards they do not share a container. -/
theorem C16_counterexample :
    sampleGroupDoc.parentOf "a" = some "m1" ∧ sampleGroupDoc.parentOf "b" = some "m1"
    ∧ ∃ tk1 tk2, Group sampleGroupHelpers "nc" ["a", "b"]
          { doc := sampleGroupDoc, m_editInfo := "" } = Outcome.returned true tk1
      ∧ Ungroup sampleGroupHelpers (some 100) "nc" ["a", "b"] tk1 = Outcome.returned true tk2
      ∧ tk2.doc.parentOf "a" = some "m1" ∧ tk2.doc.parentOf "b" = some "new1"
      ∧ (tk2.doc.container "m1").map (fun c => c.children.map (fun e => e.uuid))
          = some ["a"]
      ∧ (tk2.doc.container "new1").map (fun c => c.children.map (fun e => e.uuid))
          = some ["b"] :=
  ⟨by decide, by decide, _, _, rfl, rfl, by decide, by decide, by decide, by decide⟩

/-- Grouping the note components of two full neumes: the comment of the source
for the branch without a full parent ("we need to make a new one to attach
everything to") is carried out in this branch, where the new neume receives
all selected note components. -/
theorem Group_nc_two_full_parents_moves :
    ∃ tk1, Group sampleGroupHelpers "nc" ["a", "b", "e"]
        { doc := sampleGroupDoc, m_editInfo := "" } = Outcome.returned true tk1
      ∧ tk1.m_editInfo = "new1"
      ∧ (tk1.doc.container "new1").map (fun c => c.children.map (fun e => e.uuid))
          = some ["a", "b", "e"] :=
  ⟨_, rfl, by decide, by decide⟩

/-! ## Theorems: the zone of a dragged pitched element -/

/-- The zone of a dragged pitched element that has the facsimile interface and
does not share its zone as the first half of a ligature moves by `x` and by
the pitch difference times `staff->m_drawingStaffSize`, whatever the unit the
pitch difference was rounded with. -/
theorem Drag_pitched_zone (unit drawingStaffSize : Int) (clef newClef : Clef) (x y : Int)
    (element : PitchedElement) (hf : element.hasFacsimileInterface = true)
    (hown : (element.isNc && element.ligated && element.nextNcSharesZone) = false) :
    (Drag_pitched unit drawingStaffSize clef newClef x y element).zone
      = element.zone.ShiftByXY x (roundDiv y unit * drawingStaffSize) := by
  unfold Drag_pitched
  simp only [hf, hown, Bool.not_false, Bool.and_self, if_true]

/-- C22, the failing input: a note component with its own zone (100, 100, 150, 150)
on a staff of size 100 whose unit `GetDrawingUnit(100)` is 90, dragged by (7, 180).
The pitch difference is round(180 / 90) = 2; the zone moves by (7, 2 * 100), the
pitch difference times the staff size, and not by (7, 2 * 90), the pitch
difference times the unit it was computed with. -/
theorem C22_Drag_pitched_zone_shift_uses_staff_size :
    roundDiv 180 90 = 2
    ∧ (Drag_pitched 90 100 { shape := ClefShape.CLEFSHAPE_C, line := 3 }
          { shape := ClefShape.CLEFSHAPE_C, line := 3 } 7 180
          { pitch := { pname := 1, oct := 3 }, hasFacsimileInterface := true,
            zone := { ulx := 100, uly := 100, lrx := 150, lry := 150 }, isNc := true,
            ligated := false, nextNcSharesZone := false }).zone
        = { ulx := 107, uly := 300, lrx := 157, lry := 350 }
    ∧ ({ ulx := 100, uly := 100, lrx := 150, lry := 150 } : Zone).ShiftByXY 7 (2 * 90)
        = { ulx := 107, uly := 280, lrx := 157, lry := 330 } := by
  refine ⟨by decide, by decide, by decide⟩

/-! ## Theorems: full parents, text boxes and default boxes in `Group` -/

/-- C25, the failing input: `Group("nc", ["b", "b", "c"])` on a page whose syllable holds
the neumes m1 = [a, b], m2 = [c, d], m3 = [e].  The id b counts twice for m1, so
the count 2 equals the number of children of m1 and m1 is treated as full,
although its child a is not selected; the call goes on as for one full parent
and moves c into m1.  For `["a", "a", "b"]` the count 3 differs from 2, and m1 is not
treated as full although all its children are selected. -/
theorem C25_Group_duplicate_ids_counted :
    (Group.collect sampleGroupDoc ClassId.NC ["b", "b", "c"]
        { doubleParent := none, parents := [], elements := [] }).map
      (fun locals => (Group.fullParents locals.parents).map (fun c => c.uuid)) = some ["m1"]
    ∧ (sampleGroupDoc.container "m1").map (fun c => c.children.map (fun e => e.uuid))
        = some ["a", "b"]
    ∧ (∃ tk1, Group sampleGroupHelpers "nc" ["b", "b", "c"]
          { doc := sampleGroupDoc, m_editInfo := "" } = Outcome.returned true tk1
        ∧ tk1.m_editInfo = "m1"
        ∧ (tk1.doc.container "m1").map (fun c => c.children.map (fun e => e.uuid))
            = some ["a", "b", "c"])
    ∧ (Group.collect sampleGroupDoc ClassId.NC ["a", "a", "b"]
        { doubleParent := none, parents := [], elements := [] }).map
      (fun locals => (Group.fullParents locals.parents).map (fun c => c.uuid)) = some [] :=
  ⟨by decide, by decide, ⟨_, rfl, by decide, by decide⟩, by decide⟩

/-- Without a repeated id the same neume is judged as the claim says: for
`["b", "c"]` no neume is full, for `["a", "b"]` the neume m1 is. -/
theorem Group_distinct_ids_counted :
    (Group.collect sampleGroupDoc ClassId.NC ["b", "c"]
        { doubleParent := none, parents := [], elements := [] }).map
      (fun locals => (Group.fullParents locals.parents).map (fun c => c.uuid)) = some []
    ∧ (Group.collect sampleGroupDoc ClassId.NC ["a", "b"]
        { doubleParent := none, parents := [], elements := [] }).map
      (fun locals => (Group.fullParents locals.parents).map (fun c => c.uuid)) = some ["m1"] :=
  ⟨by decide, by decide⟩

/-- C26, the failing input: `Group("neume", ["n1", "n2"])` on a page with two full
syllables whose syls have the zones (0, 110, 100, 150) and (50, 100, 80, 140).  The
zone of the syl of the resulting syllable is set to (0, 110, 80, 140): left and
top of the first zone, right and bottom of the last one.  The rectangle that
encloses both zones is (0, 100, 100, 150). -/
theorem C26_Group_text_box_first_and_last :
    (∃ tk1, Group sampleGroupHelpers "neume" ["n1", "n2"]
          { doc := sampleTextGroupDoc, m_editInfo := "" } = Outcome.returned true tk1
        ∧ tk1.m_editInfo = "new1"
        ∧ (tk1.doc.find "t1").map (fun f => (f.par.uuid, f.el.text, f.el.zone))
            = some ("new1", some "Alle", some { ulx := 0, uly := 110, lrx := 80, lry := 140 }))
    ∧ enclosingRect_spec [{ ulx := 0, uly := 110, lrx := 100, lry := 150 },
          { ulx := 50, uly := 100, lrx := 80, lry := 140 }]
        = some { ulx := 0, uly := 100, lrx := 100, lry := 150 } :=
  ⟨⟨_, rfl, by decide, by decide⟩, by decide⟩

/-- C29, the failing input: with the options for a default syl and its bounding
box set, `Group("neume", ["n2", "n3"])` makes a syllable for the neumes n2 (zones
(60, 10, 90, 70) and (95, 0, 120, 30)) and n3 (zone (100, 0, 130, 40)); the zone of the
new syl is (100, 100, 230, 240), the last zone met with the three offsets, while
the union of the three zones with the offsets is (60, 100, 230, 270).  In the
same way `Ungroup("neume", ["n1", "n2"])` gives the syl of the new syllable of n2 the
zone (95, 100, 220, 230), the union being (60, 100, 220, 270). -/
theorem C29_default_bbox_is_last_zone :
    (∃ tk1, Group sampleGroupHelpers "neume" ["n2", "n3"]
          { doc := sampleBBoxGroupDoc, m_editInfo := "" } = Outcome.returned true tk1
        ∧ (tk1.doc.find "new2").map (fun f => (f.par.uuid, f.el.cls, f.el.zone))
            = some ("new1", ClassId.SYL,
                some { ulx := 100, uly := 100, lrx := 230, lry := 240 })
        ∧ tk1.doc.surfaceAdded = [{ ulx := 100, uly := 100, lrx := 230, lry := 240 }])
    ∧ defaultSylBBox_spec [{ ulx := 60, uly := 10, lrx := 90, lry := 70 },
          { ulx := 95, uly := 0, lrx := 120, lry := 30 },
          { ulx := 100, uly := 0, lrx := 130, lry := 40 }]
        = some { ulx := 60, uly := 100, lrx := 230, lry := 270 }
    ∧ (∃ tk2, Ungroup sampleGroupHelpers none "neume" ["n1", "n2"]
          { doc := sampleBBoxGroupDoc, m_editInfo := "" } = Outcome.returned true tk2
        ∧ (tk2.doc.find "new2").map (fun f => (f.par.uuid, f.el.cls, f.el.zone))
            = some ("new1", ClassId.SYL,
                some { ulx := 95, uly := 100, lrx := 220, lry := 230 }))
    ∧ defaultSylBBox_spec [{ ulx := 60, uly := 10, lrx := 90, lry := 70 },
          { ulx := 95, uly := 0, lrx := 120, lry := 30 }]
        = some { ulx := 60, uly := 100, lrx := 220, lry := 270 } :=
  ⟨⟨_, rfl, by decide, by decide⟩, by decide, ⟨_, rfl, by decide⟩, by decide⟩

/-! ## Theorems: `Insert` of a note component or a grouping -/

/-- With a contour over `u`, `d`, `s` the same calls return true. -/
theorem Insert_grouping_good_contour :
    ∃ tk1, Insert_nc sampleInsertEnv (some sampleInsertStaff)
        (some { shape := ClefShape.CLEFSHAPE_C, line := 3 }) "grouping" 500 90
        [("contour", "ud")] { doc := sampleInsertDoc, m_editInfo := "" }
        = Outcome.returned true tk1
      ∧ tk1.m_editInfo = "m9"
      ∧ tk1.doc.objects.map (fun e => e.uuid) = ["c1", "y9", "m9", "n9", "t9", "k0", "k1"] :=
  ⟨_, rfl, by decide, by decide⟩

/-- C30, the failing input: `Insert` of a note component at (500, 90) with the option
`m_createDefaultSylBBox` set.  The note component n9 refers to the zone at
address 2 by back-reference and by `facs`.  The syl t9 refers by back-reference
to its own zone at address 3, whose rectangle is (650, 140, 850, 340), but its
`facs` names the zone at address 2, the zone of the note component. -/
theorem C30_Insert_syl_facs_names_nc_zone :
    ∃ tk1, Insert_nc sampleInsertEnv (some sampleInsertStaff)
        (some { shape := ClefShape.CLEFSHAPE_C, line := 3 }) "nc" 500 90 []
        { doc := sampleInsertDoc, m_editInfo := "" } = Outcome.returned true tk1
      ∧ tk1.m_editInfo = "n9"
      ∧ (tk1.doc.FindChildByUuid "n9").map (fun e => (e.zone, e.facs)) = some (some 2, some 2)
      ∧ (tk1.doc.FindChildByUuid "t9").map (fun e => (e.zone, e.facs)) = some (some 3, some 2)
      ∧ tk1.doc.zoneAt 3 = some { ulx := 500 + 150, uly := 90 + 50, lrx := 500 + 350,
                                   lry := 90 + 250 }
      ∧ tk1.doc.surface = [1, 2, 3] :=
  ⟨_, rfl, by decide, by decide, by decide, by decide, by decide⟩

/-! ## Theorems: the containers `Ungroup` makes -/

/-- The containers after a change of every container. -/
theorem GroupDoc.containers_mapContainers (g : GroupContainer → GroupContainer)
    (d : GroupDoc) : (d.mapContainers g).containers = d.containers.map g := by
  unfold GroupDoc.mapContainers GroupDoc.containers
  simp only
  induction d.parents with
  | nil => rfl
  | cons p rest ih =>
    simp only [List.map_cons, List.flatMap_cons, List.map_append, ih]

/-- The containers after a new container is added to the one second-level
parent with a given uuid and the containers of that parent are put in another
order. -/
theorem GroupDoc.containers_modifyParent (R : List GroupContainer → List GroupContainer)
    (hR : ∀ l, (R l).Perm l) (S : String) (n : GroupContainer) (d : GroupDoc)
    (hnodup : (d.parents.map (fun p => p.uuid)).Nodup)
    (hS : S ∈ d.parents.map (fun p => p.uuid)) :
    (d.modifyParent S (fun cs => R (cs ++ [n]))).containers.Perm (d.containers ++ [n]) := by
  unfold GroupDoc.modifyParent GroupDoc.containers
  simp only
  revert hnodup hS
  generalize d.parents = ps
  intro hnodup hS
  induction ps with
  | nil => simp at hS
  | cons p rest ih =>
    simp only [List.map_cons, List.nodup_cons] at hnodup
    simp only [List.map_cons, List.flatMap_cons]
    by_cases hp : p.uuid = S
    · rw [if_pos hp]
      have hrest : rest.map (fun p => if p.uuid = S then
          { p with containers := R (p.containers ++ [n]) } else p) = rest := by
        have hall : ∀ r ∈ rest, (if r.uuid = S then
            ({ r with containers := R (r.containers ++ [n]) } : GroupParent) else r) = r := by
          intro r hr
          have hne : r.uuid ≠ S := by
            intro he
            apply hnodup.1
            rw [hp, ← he]
            exact List.mem_map_of_mem (fun p => p.uuid) hr
          rw [if_neg hne]
        calc rest.map _ = rest.map id := List.map_congr_left hall
          _ = rest := List.map_id rest
      rw [hrest]
      show (R (p.containers ++ [n]) ++ _).Perm _
      refine (List.Perm.append_right _ (hR _)).trans ?_
      rw [List.append_assoc, List.append_assoc]
      exact List.Perm.append_left _ List.perm_append_comm
    · rw [if_neg hp]
      have hS1 : S ∈ rest.map (fun p => p.uuid) := by
        simp only [List.map_cons, List.mem_cons] at hS
        rcases hS with hS | hS
        · exact absurd hS.symm hp
        · exact hS
      rw [List.append_assoc]
      exact List.Perm.append_left _ (ih hnodup.2 hS1)

/-- The container a lookup by uuid finds is a container of the page with that
uuid. -/
theorem GroupDoc.container_mem (d : GroupDoc) (P : String) (cp : GroupContainer)
    (h : d.container P = some cp) : cp ∈ d.containers ∧ cp.uuid = P := by
  unfold GroupDoc.container at h
  obtain ⟨p, hp, hfp⟩ := List.exists_of_findSome?_eq_some h
  have h1 := List.find?_some hfp
  have h2 := List.mem_of_find?_eq_some hfp
  refine ⟨?_, by simpa using h1⟩
  unfold GroupDoc.containers
  exact List.mem_flatMap.mpr ⟨p, hp, h2⟩

/-- A round of `Ungroup` that moves an element keeps the count of the containers
as `Ungroup.Counted` describes it, with one container more. -/
theorem Ungroup.Counted.after_round (R : List GroupContainer → List GroupContainer)
    (hR : ∀ l, (R l).Perm l) (CK : ClassId) (P S u : String) (n0 L0 k : Nat)
    (d d1 : GroupDoc) (n cp : GroupContainer)
    (hinv : Ungroup.Counted CK P n0 L0 k d)
    (hd1 : d1.parents
        = (((d.mapContainers (fun c => c.Relinquish u)).mapContainers
              (fun c => if c.uuid = P then { c with relinquished := [] } else c)).modifyParent
            S (fun cs => R (cs ++ [n]))).parents)
    (hnodup : (d.parents.map (fun p => p.uuid)).Nodup)
    (hS : S ∈ d.parents.map (fun p => p.uuid))
    (hcp : d.container P = some cp) (hn : n.cls = cp.cls) :
    Ungroup.Counted CK P n0 L0 (k + 1) d1 := by
  have hperm : d1.containers.Perm
      (d.containers.map (fun c =>
          if (c.Relinquish u).uuid = P then { c.Relinquish u with relinquished := [] }
          else c.Relinquish u) ++ [n]) := by
    have h1 : d1.containers = (((d.mapContainers (fun c => c.Relinquish u)).mapContainers
        (fun c => if c.uuid = P then { c with relinquished := [] } else c)).modifyParent
          S (fun cs => R (cs ++ [n]))).containers := by
      unfold GroupDoc.containers
      rw [hd1]
    rw [h1]
    refine (GroupDoc.containers_modifyParent R hR S n _ ?_ ?_).trans ?_
    · rw [GroupDoc.parents_uuid_mapContainers, GroupDoc.parents_uuid_mapContainers]
      exact hnodup
    · rw [GroupDoc.parents_uuid_mapContainers, GroupDoc.parents_uuid_mapContainers]
      exact hS
    · rw [GroupDoc.containers_mapContainers, GroupDoc.containers_mapContainers,
        List.map_map]
      exact List.Perm.refl _
  have hncls : n.cls = CK := by
    obtain ⟨hm, hu⟩ := GroupDoc.container_mem d P cp hcp
    rw [hn]
    exact hinv.kind_stays cp hm hu
  have hg : ∀ c : GroupContainer,
      (if (c.Relinquish u).uuid = P then
          ({ c.Relinquish u with relinquished := [] } : GroupContainer)
        else c.Relinquish u).uuid = c.uuid
      ∧ (if (c.Relinquish u).uuid = P then
          ({ c.Relinquish u with relinquished := [] } : GroupContainer)
        else c.Relinquish u).cls = c.cls
      ∧ (if (c.Relinquish u).uuid = P then
          ({ c.Relinquish u with relinquished := [] } : GroupContainer)
        else c.Relinquish u).addr = c.addr := by
    intro c
    split_ifs <;> exact ⟨rfl, rfl, rfl⟩
  have hmem : ∀ c1 ∈ d1.containers, c1 = n ∨ ∃ c ∈ d.containers,
      c1.uuid = c.uuid ∧ c1.cls = c.cls ∧ c1.addr = c.addr := by
    intro c1 hc1
    have h2 := hperm.mem_iff.mp hc1
    rcases List.mem_append.mp h2 with h2 | h2
    · obtain ⟨c, hc, he⟩ := List.mem_map.mp h2
      exact Or.inr ⟨c, hc, he ▸ hg c⟩
    · exact Or.inl (List.mem_singleton.mp h2)
  refine ⟨?_, ?_, ?_⟩
  · intro c1 hc1 hu
    rcases hmem c1 hc1 with he | ⟨c, hc, e1, e2, _⟩
    · rw [he]
      exact hncls
    · rw [e2]
      exact hinv.kind_stays c hc (e1 ▸ hu)
  · intro c1 hc1 ha
    rcases hmem c1 hc1 with he | ⟨c, hc, _, e2, e3⟩
    · rw [he]
      exact hncls
    · rw [e2]
      exact hinv.kind_made c hc (e3 ▸ ha)
  · rw [hperm.length_eq, List.length_append, List.length_map, hinv.count]
    rfl

/-- The rounds of `Ungroup` after the first, with the containers counted: every
id still to come is moved into a container of its own, of the class of the
container that stays, and each round adds one container to the page. -/
theorem Ungroup.loop_counted (h : GroupHelpers)
    (hR : ∀ l, (h.ReorderContainers l).Perm l) (doubleUnit : Option Int)
    (groupType : String) (size : Nat) (el : String → GroupChild) (CK : ClassId)
    (P S id1 : String) (n0 L0 : Nat) :
    ∀ (waiting moved : List String) (locals : Ungroup.Locals) (tk : Toolkit GroupDoc),
      locals.fparent = some P → locals.sparent = some S → locals.firstIsSyl = false →
      (id1 :: (moved ++ waiting)).Nodup → "" ∉ id1 :: (moved ++ waiting) →
      (∀ u ∈ waiting, (el u).cls ≠ ClassId.SYL
        ∧ (groupType = "nc" → (el u).cls = ClassId.NC ∧ (el u).ligated = none)) →
      Ungroup.Separated el P S id1 n0 moved waiting tk.doc →
      Ungroup.Counted CK P n0 L0 moved.length tk.doc →
      ∃ tk2, Ungroup.loop h doubleUnit groupType size waiting false locals tk
          = Outcome.returned true tk2
        ∧ Ungroup.Separated el P S id1 n0 (moved ++ waiting) [] tk2.doc
        ∧ Ungroup.Counted CK P n0 L0 (moved ++ waiting).length tk2.doc := by
  intro waiting
  induction waiting with
  | nil =>
    intro moved locals tk _ _ _ _ _ _ hinv hcnt
    refine ⟨tk, rfl, ?_, ?_⟩
    · rw [List.append_nil]
      exact hinv
    · rw [List.append_nil]
      exact hcnt
  | cons u waiting ih =>
    intro moved locals tk hfp hsp hfs hnd hempty hcls hinv hcnt
    obtain ⟨cu, hcu, _⟩ := hinv.waiting_in u (List.mem_cons_self _ _)
    obtain ⟨f, hfind, _, _, hfel⟩ := GroupDoc.find_of_entriesOf tk.doc u _ hcu
    have hfel1 : f.el = el u := hfel
    obtain ⟨hsyl, hnc⟩ := hcls u (List.mem_cons_self _ _)
    obtain ⟨c1, hc1, hc1P⟩ := hinv.first_stays
    obtain ⟨p, hp, c, hc, e, _, hx⟩ :=
      (GroupDoc.mem_entries tk.doc _).mp (GroupDoc.entriesOf_uuid tk.doc id1 _ hc1).2
    have hcc : c1 = c := congrArg (fun y => y.2.1) hx
    have hSp : S = p.uuid := congrArg (fun y => y.1) hx
    have hS : S ∈ tk.doc.parents.map (fun p => p.uuid) := by
      rw [hSp]
      exact List.mem_map_of_mem (fun p => p.uuid) hp
    obtain ⟨cp, hcp⟩ := GroupDoc.container_some tk.doc P p c hp hc (hcc ▸ hc1P)
    obtain ⟨tk1, n, hlater, hd1, hncls, haddr, hn, _, hnext, hfresh⟩ :=
      Ungroup.later_spec h groupType (el u) locals tk P S cp hfp hsp hcp hnc hsyl
    have helu : (el u).uuid = u := (GroupDoc.entriesOf_uuid tk.doc u _ hcu).1
    rw [helu] at hd1
    have hinv1 := Ungroup.Separated.round h.ReorderContainers hR el P S id1 n0 moved u
      waiting tk.doc tk1.doc n hinv hnd hempty hsyl hd1 hn haddr hnext hfresh
    have hcnt1 := Ungroup.Counted.after_round h.ReorderContainers hR CK P S u n0 L0 moved.length
      tk.doc tk1.doc n cp hcnt hd1 hinv.parents_nodup hS hcp hncls
    have hlen : (moved ++ [u]).length = moved.length + 1 := by
      rw [List.length_append]
      rfl
    have hnd1 : (id1 :: ((moved ++ [u]) ++ waiting)).Nodup := by
      rw [List.append_assoc]
      exact hnd
    have hempty1 : "" ∉ id1 :: ((moved ++ [u]) ++ waiting) := by
      rw [List.append_assoc]
      exact hempty
    obtain ⟨tk2, hloop, hinv2, hcnt2⟩ := ih (moved ++ [u]) locals tk1 hfp hsp hfs hnd1 hempty1
      (fun v hv => hcls v (List.mem_cons_of_mem _ hv)) hinv1 (hlen ▸ hcnt1)
    refine ⟨tk2, ?_, ?_, ?_⟩
    · rw [← hloop]
      have hlig : (if groupType = "nc" ∧ size = 2 then
          Ungroup.ligature doubleUnit (el u) locals tk else Ungroup.Round.next locals tk)
          = Ungroup.Round.next locals tk := by
        split_ifs with hc2
        · exact Ungroup.ligature_none _ _ _ _ (hnc hc2.1).1 (hnc hc2.1).2
        · rfl
      have hcond : ¬ ((false = true) ∨ locals.firstIsSyl = true) := by
        rw [hfs]
        decide
      rw [Ungroup.loop]
      simp only [hfind, hfel1, hlig, if_neg hcond, hlater]
    · rw [List.append_assoc] at hinv2
      exact hinv2
    · rw [List.append_assoc] at hcnt2
      exact hcnt2

/-- The first round of `Ungroup` on an element that is no syl, with its container
of the class that `groupType` asks for: the loop goes on with the container of
that element as the one that stays. -/
theorem Ungroup_first_round (h : GroupHelpers) (doubleUnit : Option Int)
    (groupType : String) (K CK DK : ClassId)
    (hkind : (groupType = "nc" ∧ K = ClassId.NC ∧ CK = ClassId.NEUME ∧ DK = ClassId.SYLLABLE)
      ∨ (groupType = "neume" ∧ K = ClassId.NEUME ∧ CK = ClassId.SYLLABLE
          ∧ DK = ClassId.LAYER))
    (tk : Toolkit GroupDoc) (hpage : tk.doc.hasDrawingPage = true)
    (e1 : GroupChild) (P S id1 : String) (rest : List String)
    (hS : ∀ p ∈ tk.doc.parents, p.uuid = S → p.cls = DK)
    (hsel : ∃ c, tk.doc.entriesOf id1 = [(S, c, e1)] ∧ c.uuid = P
      ∧ c.cls = CK ∧ e1.cls = K ∧ (groupType = "nc" → e1.ligated = none)) :
    Ungroup h doubleUnit groupType (id1 :: rest) tk
      = Ungroup.loop h doubleUnit groupType (id1 :: rest).length rest false
          { fparent := some P, sparent := some S, ligCount := 0, firstNc := none,
            firstIsSyl := false }
          { doc := tk.doc, m_editInfo := "" ++ P } := by
  have hK : K ≠ ClassId.SYL := by
    rcases hkind with ⟨_, hk, _⟩ | ⟨_, hk, _⟩ <;> rw [hk] <;> decide
  have hKnc : groupType = "nc" → K = ClassId.NC := by
    intro hg
    rcases hkind with ⟨_, hk, _⟩ | ⟨hg2, _⟩
    · exact hk
    · rw [hg] at hg2
      exact absurd hg2 (by decide)
  obtain ⟨c1, hc1, hc1P, hc1K, he1K, he1L⟩ := hsel
  obtain ⟨f, hfind, hfS, hfpar, hfel⟩ := GroupDoc.find_of_entriesOf tk.doc id1 _ hc1
  have hfS1 : f.doubleParent.uuid = S := hfS
  have hfpar1 : f.par = c1 := hfpar
  have hfel1 : f.el = e1 := hfel
  have hfD : f.doubleParent.cls = DK :=
    hS _ (GroupDoc.find_some tk.doc id1 f hfind).1 hfS1
  unfold Ungroup
  have hp : ¬ ((!tk.doc.hasDrawingPage) = true) := by
    rw [hpage]
    decide
  simp only
  rw [if_neg hp, Ungroup.loop]
  have hlig : (if groupType = "nc" ∧ (id1 :: rest).length = 2 then
      Ungroup.ligature doubleUnit e1
        { fparent := none, sparent := none, ligCount := 0, firstNc := none,
          firstIsSyl := false } { doc := tk.doc, m_editInfo := "" }
      else Ungroup.Round.next
        { fparent := none, sparent := none, ligCount := 0, firstNc := none,
          firstIsSyl := false } { doc := tk.doc, m_editInfo := "" })
      = Ungroup.Round.next
        { fparent := none, sparent := none, ligCount := 0, firstNc := none,
          firstIsSyl := false } { doc := tk.doc, m_editInfo := "" } := by
    split_ifs with hc2
    · exact Ungroup.ligature_none _ _ _ _ (he1K.trans (hKnc hc2.1)) (he1L hc2.1)
    · rfl
  have hfirst : Ungroup.first groupType f
      { fparent := none, sparent := none, ligCount := 0, firstNc := none,
        firstIsSyl := false } { doc := tk.doc, m_editInfo := "" }
      = Ungroup.Round.next
          { fparent := some P, sparent := some S, ligCount := 0, firstNc := none,
            firstIsSyl := false } { doc := tk.doc, m_editInfo := "" ++ P } := by
    unfold Ungroup.first
    rw [if_neg (by rw [hfel1, he1K]; exact hK)]
    rcases hkind with ⟨hg, _, hck, hdk⟩ | ⟨hg, _, hck, hdk⟩
    · rw [if_pos hg, if_pos ⟨by rw [hfpar1, hc1K, hck], by rw [hfD, hdk]⟩, hfpar1, hc1P,
        hfS1]
    · have hg1 : ¬ (groupType = "nc") := by
        rw [hg]
        decide
      rw [if_neg hg1, if_pos hg, if_pos ⟨by rw [hfpar1, hc1K, hck], by rw [hfD, hdk]⟩,
        hfpar1, hc1P, hfS1]
  simp only [hfind, hfel1, hlig, true_or, if_true, hfirst]

/-- Ungrouping distinct elements without a ligated attribute that share one
container.  Let the ids be distinct, each the uuid of one element of
the kind that `groupType` names (for note components: without a ligated
attribute), all in the container `P` below the second-level parent `S`.  Then
`Ungroup` returns true; the first selected element is still in a container with
the uuid `P`; each of the other n - 1 selected elements is the only child that
is no syl of a container of the same class, below `S`, that the page did not
have before; no two selected elements are in one container; and the page has
exactly n - 1 containers more than before. -/
theorem Ungroup_moves_unligated (h : GroupHelpers)
    (hR : ∀ l, (h.ReorderContainers l).Perm l) (doubleUnit : Option Int)
    (groupType : String) (K CK DK : ClassId)
    (hkind : (groupType = "nc" ∧ K = ClassId.NC ∧ CK = ClassId.NEUME ∧ DK = ClassId.SYLLABLE)
      ∨ (groupType = "neume" ∧ K = ClassId.NEUME ∧ CK = ClassId.SYLLABLE
          ∧ DK = ClassId.LAYER))
    (tk : Toolkit GroupDoc) (hpage : tk.doc.hasDrawingPage = true)
    (el : String → GroupChild) (P S id1 : String) (rest : List String)
    (hnd : (id1 :: rest).Nodup) (hempty : "" ∉ id1 :: rest)
    (hparents : (tk.doc.parents.map (fun p => p.uuid)).Nodup)
    (hS : ∀ p ∈ tk.doc.parents, p.uuid = S → p.cls = DK)
    (hP : ∀ c ∈ tk.doc.containers, c.uuid = P → c.cls = CK)
    (hold : ∀ c ∈ tk.doc.containers, c.addr < tk.doc.nextAddr)
    (hsel : ∀ u ∈ id1 :: rest, ∃ c, tk.doc.entriesOf u = [(S, c, el u)] ∧ c.uuid = P
      ∧ c.cls = CK ∧ (el u).cls = K ∧ (groupType = "nc" → (el u).ligated = none))
    (hfresh : ∀ u ∈ id1 :: rest, u ∉ tk.doc.freshUuids) :
    ∃ tk2, Ungroup h doubleUnit groupType (id1 :: rest) tk = Outcome.returned true tk2
      ∧ (∃ f, tk2.doc.find id1 = some f ∧ f.el = el id1 ∧ f.par.uuid = P)
      ∧ (∀ u ∈ rest, ∃ f, tk2.doc.find u = some f ∧ f.el = el u
          ∧ f.par.children.filter (fun e => e.cls ≠ ClassId.SYL) = [el u]
          ∧ f.par.cls = CK ∧ f.doubleParent.uuid = S ∧ f.par ∉ tk.doc.containers)
      ∧ (∀ u ∈ id1 :: rest, ∀ v ∈ id1 :: rest, u ≠ v →
          (tk2.doc.find u).map (fun f => f.par) ≠ (tk2.doc.find v).map (fun f => f.par))
      ∧ tk2.doc.containers.length = tk.doc.containers.length + rest.length := by
  have hK : K ≠ ClassId.SYL := by
    rcases hkind with ⟨_, hk, _⟩ | ⟨_, hk, _⟩ <;> rw [hk] <;> decide
  have hKnc : groupType = "nc" → K = ClassId.NC := by
    intro hg
    rcases hkind with ⟨_, hk, _⟩ | ⟨hg2, _⟩
    · exact hk
    · rw [hg] at hg2
      exact absurd hg2 (by decide)
  obtain ⟨c1, hc1, hc1P, hc1K, he1K, he1L⟩ := hsel id1 (List.mem_cons_self _ _)
  have hinv0 : Ungroup.Separated el P S id1 tk.doc.nextAddr [] rest tk.doc := by
    refine ⟨hparents, ⟨c1, hc1, hc1P⟩, ?_, ?_, ?_, le_refl _⟩
    · intro u hu
      obtain ⟨c, hc, hcP, _⟩ := hsel u (List.mem_cons_of_mem _ hu)
      exact ⟨c, hc, hcP⟩
    · intro u hu
      exact absurd hu (List.not_mem_nil u)
    · intro u hu
      exact hfresh u hu
  have hcnt0 : Ungroup.Counted CK P tk.doc.nextAddr tk.doc.containers.length
      ([] : List String).length tk.doc := by
    refine ⟨hP, ?_, rfl⟩
    intro c hc ha
    exact absurd (hold c hc) (Nat.not_lt.mpr ha)
  have hcls : ∀ u ∈ rest, (el u).cls ≠ ClassId.SYL
      ∧ (groupType = "nc" → (el u).cls = ClassId.NC ∧ (el u).ligated = none) := by
    intro u hu
    obtain ⟨c, _, _, _, heK, heL⟩ := hsel u (List.mem_cons_of_mem _ hu)
    exact ⟨heK ▸ hK, fun hg => ⟨heK.trans (hKnc hg), heL hg⟩⟩
  obtain ⟨tk2, hloop, hsep, hcnt⟩ := Ungroup.loop_counted h hR doubleUnit groupType
    (id1 :: rest).length el CK P S id1 tk.doc.nextAddr tk.doc.containers.length rest []
    { fparent := some P, sparent := some S, ligCount := 0, firstNc := none,
      firstIsSyl := false }
    { doc := tk.doc, m_editInfo := "" ++ P } rfl rfl rfl hnd hempty hcls hinv0 hcnt0
  rw [List.nil_append] at hsep hcnt
  have hU : Ungroup h doubleUnit groupType (id1 :: rest) tk = Outcome.returned true tk2 :=
    (Ungroup_first_round h doubleUnit groupType K CK DK hkind tk hpage (el id1) P S id1 rest
      hS ⟨c1, hc1, hc1P, hc1K, he1K, he1L⟩).trans hloop
  obtain ⟨⟨f1, hf1, hf1el, hf1P, _⟩, hmoved, hapart⟩ :=
    Ungroup.Separated.find_spec el P S id1 tk.doc.nextAddr rest tk2.doc hsep hnd
      (he1K ▸ hK)
  refine ⟨tk2, hU, ⟨f1, hf1, hf1el, hf1P⟩, ?_, hapart, hcnt.count⟩
  intro u hu
  obtain ⟨f, hf, hfel, hch, haddr, hfS⟩ := hmoved u hu
  have hmem : f.par ∈ tk2.doc.containers := by
    obtain ⟨h1, h2, _⟩ := GroupDoc.find_some tk2.doc u f hf
    unfold GroupDoc.containers
    exact List.mem_flatMap.mpr ⟨f.doubleParent, h1, h2⟩
  refine ⟨f, hf, hfel, hch, hcnt.kind_made f.par hmem haddr, hfS, ?_⟩
  intro hin
  exact absurd (hold f.par hin) (Nat.not_lt.mpr haddr)

/-- An instance: `Ungroup("nc", ["c", "d"])` on the page whose syllable
holds the neumes m1 = [a, b], m2 = [c, d], m3 = [e] leaves c in m2 and puts d alone
into one new neume. -/
theorem Ungroup_moves_unligated_instance :
    ∃ tk2, Ungroup sampleGroupHelpers none "nc" ["c", "d"]
        { doc := sampleGroupDoc, m_editInfo := "" } = Outcome.returned true tk2
      ∧ (∃ f, tk2.doc.find "c" = some f ∧ f.el = sampleNcOf "c" ∧ f.par.uuid = "m2")
      ∧ (∀ u ∈ ["d"], ∃ f, tk2.doc.find u = some f ∧ f.el = sampleNcOf u
          ∧ f.par.children.filter (fun e => e.cls ≠ ClassId.SYL) = [sampleNcOf u]
          ∧ f.par.cls = ClassId.NEUME ∧ f.doubleParent.uuid = "y1"
          ∧ f.par ∉ sampleGroupDoc.containers)
      ∧ (∀ u ∈ ["c", "d"], ∀ v ∈ ["c", "d"], u ≠ v →
          (tk2.doc.find u).map (fun f => f.par) ≠ (tk2.doc.find v).map (fun f => f.par))
      ∧ tk2.doc.containers.length = sampleGroupDoc.containers.length + 1 :=
  Ungroup_moves_unligated sampleGroupHelpers (fun l => List.Perm.refl l) none
    "nc" ClassId.NC ClassId.NEUME ClassId.SYLLABLE (Or.inl ⟨rfl, rfl, rfl, rfl⟩)
    { doc := sampleGroupDoc, m_editInfo := "" } rfl sampleNcOf
    "m2" "y1" "c" ["d"] (by decide) (by decide) (by decide) (by decide) (by decide)
    (by decide)
    (by
      intro u hu
      simp only [List.mem_cons, List.mem_singleton, List.not_mem_nil, or_false] at hu
      rcases hu with rfl | rfl
      · exact ⟨_, rfl, rfl, rfl, rfl, fun _ => rfl⟩
      · exact ⟨_, rfl, rfl, rfl, rfl, fun _ => rfl⟩)
    (by decide)

/-! ## Theorems: the order of the calls in the clef drag -/

/-- The loop over `AdjustPitchForNewClef` is the sequence of its calls. -/
theorem ClefDragCall.run_AdjustPitchForNewClef (clef : Nat) (elements : List Nat)
    (oldClef newClef : Nat) (pg : NeumePage) :
    (elements.map (fun e => ClefDragCall.AdjustPitchForNewClef e oldClef newClef)).foldl
        (ClefDragCall.run clef) pg
      = pg.AdjustPitchForNewClef elements oldClef newClef := by
  rw [List.foldl_map]
  rfl

/-- The loop over `AdjustPitchByOffset` is the sequence of its calls. -/
theorem ClefDragCall.run_AdjustPitchByOffset (clef : Nat) (elements : List Nat)
    (pitchOffset : Int) (pg : NeumePage) :
    (elements.map (fun e => ClefDragCall.AdjustPitchByOffset e pitchOffset)).foldl
        (ClefDragCall.run clef) pg
      = pg.AdjustPitchByOffset elements pitchOffset := by
  rw [List.foldl_map]
  rfl

/-- Running the calls of case 1 in order gives the page of case 1. -/
theorem Drag_clef.run_case1_calls (s : ClefDragSnapshot) (clef : Nat) :
    (Drag_clef.case1_calls s clef).foldl (ClefDragCall.run clef) s.moved
      = Drag_clef.case1 s clef := by
  unfold Drag_clef.case1_calls Drag_clef.case1
  simp only
  split_ifs <;>
    simp only [List.foldl_cons, List.foldl_append, List.foldl_nil,
      ClefDragCall.run_AdjustPitchForNewClef, ClefDragCall.run_AdjustPitchByOffset] <;> rfl

/-- Running the calls of case 2 in order gives the page of case 2. -/
theorem Drag_clef.run_case2_calls (s : ClefDragSnapshot) (clef : Nat) :
    (Drag_clef.case2_calls s clef).foldl (ClefDragCall.run clef) s.moved
      = Drag_clef.case2 s clef := by
  unfold Drag_clef.case2_calls Drag_clef.case2
  simp only [List.foldl_cons, List.foldl_append, List.foldl_nil,
    ClefDragCall.run_AdjustPitchForNewClef, ClefDragCall.run_AdjustPitchByOffset]
  rfl

/-- Running the calls of the clef drag in order, and reordering the layer at
the end outside a chain, gives the page `Drag_clef` computes. -/
theorem Drag_clef.run_calls (pg : NeumePage) (clef : Nat) (x y : Int) (isChain : Bool) :
    Drag_clef pg clef x y isChain
      = (if !isChain then
          { (Drag_clef.calls pg clef x y).foldl (ClefDragCall.run clef)
              (Drag_clef.snapshot pg clef x y).moved with
            layer := ReorderByXPos
              ((Drag_clef.calls pg clef x y).foldl (ClefDragCall.run clef)
                (Drag_clef.snapshot pg clef x y).moved).layer }
        else (Drag_clef.calls pg clef x y).foldl (ClefDragCall.run clef)
          (Drag_clef.snapshot pg clef x y).moved) := by
  unfold Drag_clef Drag_clef.calls
  simp only
  split_ifs <;> simp only [Drag_clef.run_case1_calls, Drag_clef.run_case2_calls]

/-- A `Clef *` to the dragged clef points to its data. -/
theorem NeumePage.HasClef.clefAt {pg : NeumePage} {clef : Nat} {c : Clef}
    (h : pg.HasClef clef c) : pg.clefAt clef = c := by
  obtain ⟨hnd, hcur, o, ho, ha, hk⟩ := h
  subst ha
  exact NeumePage.clefAt_of_mem pg o c hnd hcur ho hk

/-- A pitch change leaves the dragged clef as it is. -/
theorem NeumePage.HasClef.updatePitch {pg : NeumePage} {clef : Nat} {c : Clef}
    (h : pg.HasClef clef c) (b : Nat) (f : Pitch → Pitch) :
    (pg.updatePitch b f).HasClef clef c := by
  obtain ⟨hnd, hcur, o, ho, ha, hk⟩ := h
  have haddrs : (pg.updatePitch b f).objects.map (fun o => o.addr)
      = pg.objects.map (fun o => o.addr) :=
    NeumePage.foldl_updatePitch_objects_addrs (fun _ => f) [b] pg
  refine ⟨by rw [haddrs]; exact hnd, ?_, o, ?_, ha, hk⟩
  · rw [haddrs]
    exact hcur
  · by_cases hb : o.addr = b
    · have h1 := NeumePage.mem_updatePitch_of_eq pg b f o ho hb
      rwa [PageObject.setPitch_of_not_pitched o f (PageObject.isPitched_of_clef o c hk)] at h1
    · exact NeumePage.mem_updatePitch_of_ne pg b f o ho hb

/-- The call `clef->SetLine(line)` changes the line of the dragged clef and
nothing else of it. -/
theorem NeumePage.HasClef.SetLine {pg : NeumePage} {clef : Nat} {c : Clef}
    (h : pg.HasClef clef c) (line : Int) :
    (pg.SetLine clef line).HasClef clef { c with line := line } := by
  obtain ⟨hnd, hcur, o, ho, ha, hk⟩ := h
  refine ⟨by rw [NeumePage.SetLine_objects_addrs]; exact hnd, ?_, o.setLine line,
    NeumePage.mem_SetLine_eq pg clef line o ho ha, ?_, ?_⟩
  · rw [NeumePage.SetLine_objects_addrs]
    exact hcur
  · unfold PageObject.setLine
    rw [hk]
    exact ha
  · unfold PageObject.setLine
    rw [hk]

/-- Reordering the layer leaves the dragged clef as it is. -/
theorem NeumePage.HasClef.reorder {pg : NeumePage} {clef : Nat} {c : Clef}
    (h : pg.HasClef clef c) :
    ({ pg with layer := ReorderByXPos pg.layer } : NeumePage).HasClef clef c := by
  obtain ⟨hnd, hcur, o, ho, ha, hk⟩ := h
  refine ⟨NeumePage.nodup_reorder pg hnd, ?_, o, (NeumePage.mem_reorder pg o).mpr ho, ha, hk⟩
  intro hm
  obtain ⟨q, hq, hqa⟩ := List.mem_map.mp hm
  exact hcur (List.mem_map.mpr ⟨q, (NeumePage.mem_reorder pg q).mp hq, hqa⟩)

/-- While the calls do not set the line, each of them is made with the dragged
clef as it was, and leaves it so. -/
theorem ClefDragCall.timeline_unchanged (clef : Nat) (calls : List ClefDragCall)
    (hcalls : ∀ call ∈ calls, ∀ l, call ≠ ClefDragCall.SetLine l) :
    ∀ (pg : NeumePage) (c : Clef), pg.HasClef clef c →
      (∀ entry ∈ ClefDragCall.timeline clef pg calls, entry.1 ∈ calls ∧ entry.2 = c.line)
        ∧ (calls.foldl (ClefDragCall.run clef) pg).HasClef clef c := by
  induction calls with
  | nil =>
    intro pg c h
    exact ⟨fun entry he => by simp [ClefDragCall.timeline] at he, h⟩
  | cons call rest ih =>
    intro pg c h
    have hrun : (call.run clef pg).HasClef clef c := by
      cases call with
      | SetLine l => exact absurd rfl (hcalls _ (List.mem_cons_self _ _) l)
      | AdjustPitchForNewClef e o n => exact h.updatePitch e _
      | AdjustPitchByOffset e k => exact h.updatePitch e _
    obtain ⟨h1, h2⟩ := ih (fun call hc => hcalls call (List.mem_cons_of_mem _ hc)) _ c hrun
    refine ⟨?_, h2⟩
    intro entry he
    simp only [ClefDragCall.timeline, List.mem_cons] at he
    rcases he with rfl | he
    · exact ⟨List.mem_cons_self _ _, by rw [h.clefAt]⟩
    · exact ⟨List.mem_cons_of_mem _ (h1 entry he).1, (h1 entry he).2⟩

/-- The calls before `clef->SetLine(line)` are made with the old line of the
dragged clef, the calls after it with the new line. -/
theorem ClefDragCall.timeline_phases (clef : Nat) (line : Int) (pre post : List ClefDragCall)
    (hpre : ∀ call ∈ pre, ∀ l, call ≠ ClefDragCall.SetLine l)
    (hpost : ∀ call ∈ post, ∀ l, call ≠ ClefDragCall.SetLine l) :
    ∀ (pg : NeumePage) (c : Clef), pg.HasClef clef c →
      (∀ entry ∈ ClefDragCall.timeline clef pg (pre ++ ClefDragCall.SetLine line :: post),
          (entry.1 ∈ pre ∧ entry.2 = c.line)
            ∨ (entry.1 = ClefDragCall.SetLine line ∧ entry.2 = c.line)
            ∨ (entry.1 ∈ post ∧ entry.2 = line))
        ∧ ((pre ++ ClefDragCall.SetLine line :: post).foldl (ClefDragCall.run clef) pg).HasClef
            clef { c with line := line } := by
  induction pre with
  | nil =>
    intro pg c h
    obtain ⟨h1, h2⟩ := ClefDragCall.timeline_unchanged clef post hpost _ _ (h.SetLine line)
    refine ⟨?_, h2⟩
    intro entry he
    simp only [List.nil_append, ClefDragCall.timeline, List.mem_cons] at he
    rcases he with rfl | he
    · exact Or.inr (Or.inl ⟨rfl, by rw [h.clefAt]⟩)
    · exact Or.inr (Or.inr (h1 entry he))
  | cons call rest ih =>
    intro pg c h
    have hrun : (call.run clef pg).HasClef clef c := by
      cases call with
      | SetLine l => exact absurd rfl (hpre _ (List.mem_cons_self _ _) l)
      | AdjustPitchForNewClef e o n => exact h.updatePitch e _
      | AdjustPitchByOffset e k => exact h.updatePitch e _
    obtain ⟨h1, h2⟩ := ih (fun call hc => hpre call (List.mem_cons_of_mem _ hc)) _ c hrun
    refine ⟨?_, h2⟩
    intro entry he
    simp only [List.cons_append, ClefDragCall.timeline, List.mem_cons] at he
    rcases he with rfl | he
    · exact Or.inl ⟨List.mem_cons_self _ _, by rw [h.clefAt]⟩
    · rcases h1 entry he with h3 | h3 | h3
      · exact Or.inl ⟨List.mem_cons_of_mem _ h3.1, h3.2⟩
      · exact Or.inr (Or.inl h3)
      · exact Or.inr (Or.inr h3)

/-- The preceding clef of a clef of the page is another object. -/
theorem NeumePage.precedingClef_ne (pg : NeumePage) (co : PageObject)
    (hnd : (pg.objects.map (fun o => o.addr)).Nodup)
    (hcur : pg.currentClefAddr ∉ pg.objects.map (fun o => o.addr))
    (hco : co ∈ pg.objects) : pg.precedingClef co.addr ≠ co.addr := by
  obtain ⟨pre, post, hobjs, hpre, _, _⟩ := split_at_object pg.objects co hnd hco
  rcases NeumePage.precedingClef_cases pg pre post co hobjs hpre with h | h
  · rw [h]
    intro he
    exact hcur (by rw [he]; exact List.mem_map.mpr ⟨co, hco, rfl⟩)
  · obtain ⟨o, ho, hoa⟩ := List.mem_map.mp h
    rw [← hoa]
    exact hpre o ho

/-- The calls of the clef drag are those that read the dragged clef as the old
clef, then `clef->SetLine(clefLine)`, then those that read it as the new
clef. -/
theorem Drag_clef.calls_shape (pg : NeumePage) (clef : Nat) (x y : Int)
    (hb : (Drag_clef.snapshot pg clef x y).precedingClefBefore ≠ clef)
    (ha : (Drag_clef.snapshot pg clef x y).precedingClefAfter ≠ clef) :
    ∃ pre post, Drag_clef.calls pg clef x y
        = pre ++ ClefDragCall.SetLine (Drag_clef.snapshot pg clef x y).clefLine :: post
      ∧ (∀ call ∈ pre, (∀ l, call ≠ ClefDragCall.SetLine l)
          ∧ ∀ e o, call ≠ ClefDragCall.AdjustPitchForNewClef e o clef)
      ∧ (∀ call ∈ post, (∀ l, call ≠ ClefDragCall.SetLine l)
          ∧ ∀ e t, call ≠ ClefDragCall.AdjustPitchForNewClef e clef t) := by
  generalize hs : Drag_clef.snapshot pg clef x y = s at hb ha
  unfold Drag_clef.calls
  simp only [hs]
  split
  · unfold Drag_clef.case1_calls
    simp only
    split
    · refine ⟨[], _, rfl, fun call hc => by simp at hc, ?_⟩
      intro call hc
      rcases List.mem_append.mp hc with h | h
      · obtain ⟨e, _, rfl⟩ := List.mem_map.mp h
        refine ⟨fun l => by simp, fun e2 t => ?_⟩
        intro he
        injection he with _ h2 _
        exact hb h2
      · split at h
        · obtain ⟨e, _, rfl⟩ := List.mem_map.mp h
          exact ⟨fun l => by simp, fun e2 t => by simp⟩
        · simp at h
    · split
      · refine ⟨_, [], rfl, ?_, fun call hc => by simp at hc⟩
        intro call hc
        rcases List.mem_append.mp hc with h | h
        · obtain ⟨e, _, rfl⟩ := List.mem_map.mp h
          refine ⟨fun l => by simp, fun e2 o => ?_⟩
          intro he
          injection he with _ _ h3
          exact hb h3
        · split at h
          · obtain ⟨e, _, rfl⟩ := List.mem_map.mp h
            exact ⟨fun l => by simp, fun e2 t => by simp⟩
          · simp at h
      · refine ⟨[], _, rfl, fun call hc => by simp at hc, ?_⟩
        intro call h
        split at h
        · obtain ⟨e, _, rfl⟩ := List.mem_map.mp h
          exact ⟨fun l => by simp, fun e2 t => by simp⟩
        · simp at h
  · unfold Drag_clef.case2_calls
    simp only
    refine ⟨_, _, rfl, ?_, ?_⟩
    · intro call h
      obtain ⟨e, _, rfl⟩ := List.mem_map.mp h
      refine ⟨fun l => by simp, fun e2 o => ?_⟩
      intro he
      injection he with _ _ h3
      exact hb h3
    · intro call h
      obtain ⟨e, _, rfl⟩ := List.mem_map.mp h
      refine ⟨fun l => by simp, fun e2 t => ?_⟩
      intro he
      injection he with _ h2 _
      exact ha h2

/-- C21: the clef branch of `Drag` is the run of its calls in the order of the
source (followed by the reordering of the layer outside a chain), and in every
branch each call of `AdjustPitchForNewClef` whose old clef is the dragged clef
is made while the clef still has its line from before the drag, each call
whose new clef is the dragged clef is made when the line is already the new
one, and on return the clef has the line `round(y / doubleUnit + initialLine)`,
the integer nearest to that quotient, with its other data unchanged. -/
theorem C21_Drag_clef_calls_in_order (pg : NeumePage) (co : PageObject) (c : Clef)
    (x y : Int) (isChain : Bool)
    (hnd : (pg.objects.map (fun o => o.addr)).Nodup)
    (hcur : pg.currentClefAddr ∉ pg.objects.map (fun o => o.addr))
    (hco : co ∈ pg.layer) (hk : co.kind = PageKind.clef c) :
    Drag_clef pg co.addr x y isChain
        = (if !isChain then
            { (Drag_clef.calls pg co.addr x y).foldl (ClefDragCall.run co.addr)
                (Drag_clef.snapshot pg co.addr x y).moved with
              layer := ReorderByXPos
                ((Drag_clef.calls pg co.addr x y).foldl (ClefDragCall.run co.addr)
                  (Drag_clef.snapshot pg co.addr x y).moved).layer }
          else (Drag_clef.calls pg co.addr x y).foldl (ClefDragCall.run co.addr)
            (Drag_clef.snapshot pg co.addr x y).moved)
      ∧ (∀ entry ∈ ClefDragCall.timeline co.addr (Drag_clef.snapshot pg co.addr x y).moved
            (Drag_clef.calls pg co.addr x y),
          (∀ e t, entry.1 = ClefDragCall.AdjustPitchForNewClef e co.addr t →
            entry.2 = c.line)
          ∧ (∀ e o, entry.1 = ClefDragCall.AdjustPitchForNewClef e o co.addr →
            entry.2 = roundDiv (y + c.line * pg.doubleUnit) pg.doubleUnit))
      ∧ (Drag_clef pg co.addr x y isChain).clefAt co.addr
        = { c with line := roundDiv (y + c.line * pg.doubleUnit) pg.doubleUnit }
      ∧ (pg.doubleUnit ≠ 0 →
          2 * |((Drag_clef pg co.addr x y isChain).clefAt co.addr).line * pg.doubleUnit
              - (y + c.line * pg.doubleUnit)| ≤ |pg.doubleUnit|) := by
  have hcoO : co ∈ pg.objects := by
    simp only [NeumePage.objects, List.mem_append]
    exact Or.inl (Or.inr hco)
  have hclef : pg.clefAt co.addr = c := NeumePage.clefAt_of_mem pg co c hnd hcur hcoO hk
  have hL : (Drag_clef.snapshot pg co.addr x y).clefLine
      = roundDiv (y + c.line * pg.doubleUnit) pg.doubleUnit := by
    show Drag_clef.clefLine pg co.addr y = _
    unfold Drag_clef.clefLine
    rw [hclef]
  have hperm := Drag_clef.moved_perm pg co.addr x y
  generalize hdy : ((Drag_clef.snapshot pg co.addr x y).clefLine
    - (Drag_clef.snapshot pg co.addr x y).initialClefLine) * 2 * pg.m_drawingStaffSize = dy
    at hperm
  have haddr : ((pg.objects.map (fun o => o.shiftClefZone co.addr x dy)).map (fun o => o.addr))
      = pg.objects.map (fun o => o.addr) := by
    rw [List.map_map]
    apply List.map_congr_left
    intro q _
    exact (PageObject.shiftClefZone_addr_kind q co.addr x dy).1
  have hndM : ((Drag_clef.snapshot pg co.addr x y).moved.objects.map
      (fun o => o.addr)).Nodup := by
    rw [List.Perm.nodup_iff (hperm.map _), haddr]
    exact hnd
  have hcurM : (Drag_clef.snapshot pg co.addr x y).moved.currentClefAddr
      ∉ (Drag_clef.snapshot pg co.addr x y).moved.objects.map (fun o => o.addr) := by
    rw [(hperm.map (fun o => o.addr)).mem_iff, haddr]
    exact hcur
  have hcoM : co.shiftClefZone co.addr x dy
      ∈ (Drag_clef.snapshot pg co.addr x y).moved.objects := by
    rw [hperm.mem_iff]
    exact List.mem_map.mpr ⟨co, hcoO, rfl⟩
  obtain ⟨hca, hck⟩ := PageObject.shiftClefZone_addr_kind co co.addr x dy
  have hM : (Drag_clef.snapshot pg co.addr x y).moved.HasClef co.addr c :=
    ⟨hndM, hcurM, _, hcoM, hca, hck.trans hk⟩
  have hb : (Drag_clef.snapshot pg co.addr x y).precedingClefBefore ≠ co.addr :=
    NeumePage.precedingClef_ne pg co hnd hcur hcoO
  have ha : (Drag_clef.snapshot pg co.addr x y).precedingClefAfter ≠ co.addr := by
    have h := NeumePage.precedingClef_ne (Drag_clef.snapshot pg co.addr x y).moved
      (co.shiftClefZone co.addr x dy) hndM hcurM hcoM
    rw [hca] at h
    exact h
  obtain ⟨pre, post, hcalls, hpre, hpost⟩ := Drag_clef.calls_shape pg co.addr x y hb ha
  obtain ⟨h1, h2⟩ := ClefDragCall.timeline_phases co.addr
    (Drag_clef.snapshot pg co.addr x y).clefLine pre post
    (fun call hc => (hpre call hc).1) (fun call hc => (hpost call hc).1) _ c hM
  rw [← hcalls, hL] at h1 h2
  have hfin : (Drag_clef pg co.addr x y isChain).clefAt co.addr
      = { c with line := roundDiv (y + c.line * pg.doubleUnit) pg.doubleUnit } := by
    rw [Drag_clef.run_calls]
    split
    · exact h2.reorder.clefAt
    · exact h2.clefAt
  refine ⟨Drag_clef.run_calls pg co.addr x y isChain, ?_, hfin, ?_⟩
  · intro entry he
    refine ⟨fun e t h => ?_, fun e o h => ?_⟩
    · rcases h1 entry he with h3 | h3 | h3
      · exact h3.2
      · exact h3.2
      · exact absurd h ((fun hh => (hpost _ h3.1).2 e t hh))
    · rcases h1 entry he with h3 | h3 | h3
      · exact absurd h ((fun hh => (hpre _ h3.1).2 e o hh))
      · rw [h3.1] at h
        exact absurd h (by simp)
      · exact h3.2
  · intro hd
    rw [hfin]
    exact roundDiv_nearest _ _ hd

/-- C21 on the sample page: the clef at address 12 is dragged to the right by
35, across the F clef at address 15, and up by one line.  The notes at the
addresses 13 and 14 leave it for the clef at address 10 while its line is
still 3, then the line is set to 4, then the note at address 16 comes to it
from the clef at address 15; on return the clef is a C clef on line 4. -/
theorem C21_Drag_clef_calls_in_order_witness :
    ClefDragCall.timeline 12 (Drag_clef.snapshot samplePage 12 35 59).moved
        (Drag_clef.calls samplePage 12 35 59)
      = [(ClefDragCall.AdjustPitchForNewClef 13 12 10, 3),
         (ClefDragCall.AdjustPitchForNewClef 14 12 10, 3),
         (ClefDragCall.SetLine 4, 3),
         (ClefDragCall.AdjustPitchForNewClef 16 15 12, 4)]
      ∧ (Drag_clef samplePage 12 35 59 false).clefAt 12
        = { shape := ClefShape.CLEFSHAPE_C, line := 4 } :=
  ⟨by decide,
    (C21_Drag_clef_calls_in_order samplePage
      { addr := 12, hasFacs := true, ulx := 20, uly := 0,
        kind := PageKind.clef { shape := ClefShape.CLEFSHAPE_C, line := 3 } }
      { shape := ClefShape.CLEFSHAPE_C, line := 3 } 35 59 false
      (by decide) (by decide) (by decide) rfl).2.2.1⟩

/-! ## Theorems: insertion of a clef -/

/-- The objects of the page once the new clef is placed: those of the page
and the clef. -/
theorem Insert_clef.placed_perm (pg : NeumePage) (clef : PageObject) :
    (Insert_clef.placed pg clef).objects.Perm (clef :: pg.objects) := by
  simp only [Insert_clef.placed, NeumePage.objects, ReorderByXPos]
  have h1 : ((pg.layer ++ [clef]).insertionSort (fun a b => a.ulx ≤ b.ulx)).Perm
      (clef :: pg.layer) :=
    (List.perm_insertionSort _ _).trans (List.perm_append_singleton clef pg.layer)
  have h2 := ((h1.append_left pg.before).append_right pg.after)
  refine h2.trans ?_
  simp only [List.append_assoc]
  exact (List.perm_middle).trans (List.Perm.refl _)

/-- Reordering puts the layer into horizontal order. -/
theorem ReorderByXPos_sorted (children : List PageObject) :
    (ReorderByXPos children).Sorted (fun a b => a.ulx ≤ b.ulx) := by
  haveI : IsTotal PageObject (fun a b => a.ulx ≤ b.ulx) := ⟨fun a b => le_total a.ulx b.ulx⟩
  haveI : IsTrans PageObject (fun a b => a.ulx ≤ b.ulx) :=
    ⟨fun a b c h1 h2 => le_trans h1 h2⟩
  exact List.sorted_insertionSort _ children

/-- C23 (amended): `Insert` of a clef with a shape C or F puts the clef into
the layer, orders the layer horizontally, and then applies
`AdjustPitchForNewClef(previousGovernor, newClef)` exactly once to each
pitched element between the new clef and the next clef (or the end of the
page), where previousGovernor is the nearest preceding clef or the layer's
current clef when none precedes; every other pitched element keeps its pitch;
each adjusted element is drawn under the new clef at its position under
previousGovernor plus `(staffSize - 2 * (staffSize / 2))` times the difference
of the two clef lines, hence at the same position for an even staff size. -/
theorem C23_Insert_clef (pg : NeumePage) (newClef : Nat)
    (staffUly m_drawingLines ulx uly : Int) (attributes : List (String × String))
    (k : PageObject)
    (hk : k = { addr := newClef, hasFacs := true, ulx := ulx, uly := uly,
                kind := PageKind.clef
                  { shape := Insert_clef.shape attributes,
                    line := m_drawingLines - roundDiv (-staffUly + uly) pg.doubleUnit } })
    (hshape : Insert_clef.shape attributes ≠ ClefShape.CLEFSHAPE_NONE)
    (hnd : (pg.objects.map (fun o => o.addr)).Nodup)
    (hcur : pg.currentClefAddr ∉ pg.objects.map (fun o => o.addr))
    (hnew : newClef ∉ pg.objects.map (fun o => o.addr))
    (hnew2 : newClef ≠ pg.currentClefAddr)
    (o : PageObject) (p : Pitch) (ho : o ∈ pg.objects) (hp : o.kind = PageKind.pitched p) :
    (Insert_clef pg newClef staffUly m_drawingLines ulx uly attributes).1 = true
      ∧ newClef ∈ (Insert_clef pg newClef staffUly m_drawingLines ulx uly attributes).2.layer.map
          (fun o => o.addr)
      ∧ k ∈ (Insert_clef pg newClef staffUly m_drawingLines ulx uly attributes).2.objects
      ∧ ((Insert_clef.placed pg k).layer.Sorted (fun a b => a.ulx ≤ b.ulx)
        ∧ (Insert_clef pg newClef staffUly m_drawingLines ulx uly attributes).2.layer.Sorted
            (fun a b => a.ulx ≤ b.ulx))
      ∧ (o.addr ∈ FindAllChildBetween (Insert_clef.placed pg k).objects newClef
            ((Insert_clef.placed pg k).nextClef newClef) →
          o.withPitch (AdjustPitchForNewClef p
              ((Insert_clef.placed pg k).clefAt ((Insert_clef.placed pg k).precedingClef newClef))
              { shape := Insert_clef.shape attributes,
                line := m_drawingLines - roundDiv (-staffUly + uly) pg.doubleUnit })
            ∈ (Insert_clef pg newClef staffUly m_drawingLines ulx uly attributes).2.objects)
      ∧ (o.addr ∉ FindAllChildBetween (Insert_clef.placed pg k).objects newClef
            ((Insert_clef.placed pg k).nextClef newClef) →
          o ∈ (Insert_clef pg newClef staffUly m_drawingLines ulx uly attributes).2.objects)
      ∧ (∀ q ∈ (Insert_clef pg newClef staffUly m_drawingLines ulx uly attributes).2.objects,
          q.addr = o.addr →
          q = (if o.addr ∈ FindAllChildBetween (Insert_clef.placed pg k).objects newClef
                  ((Insert_clef.placed pg k).nextClef newClef) then
                o.withPitch (AdjustPitchForNewClef p
                  ((Insert_clef.placed pg k).clefAt
                    ((Insert_clef.placed pg k).precedingClef newClef))
                  { shape := Insert_clef.shape attributes,
                    line := m_drawingLines - roundDiv (-staffUly + uly) pg.doubleUnit })
              else o))
      ∧ (∀ (prev : Clef) (staffSize staffLineNumber noteY : Int),
          prev = (Insert_clef.placed pg k).clefAt
            ((Insert_clef.placed pg k).precedingClef newClef) →
          (prev.shape = ClefShape.CLEFSHAPE_C ∨ prev.shape = ClefShape.CLEFSHAPE_F) →
          DrawNc staffSize staffLineNumber noteY
              { shape := Insert_clef.shape attributes,
                line := m_drawingLines - roundDiv (-staffUly + uly) pg.doubleUnit }
              (AdjustPitchForNewClef p prev
                { shape := Insert_clef.shape attributes,
                  line := m_drawingLines - roundDiv (-staffUly + uly) pg.doubleUnit })
            = DrawNc staffSize staffLineNumber noteY prev p
              + (staffSize - 2 * Int.tdiv staffSize 2)
                * (m_drawingLines - roundDiv (-staffUly + uly) pg.doubleUnit - prev.line)
          ∧ (staffSize = 2 * Int.tdiv staffSize 2 →
            DrawNc staffSize staffLineNumber noteY
                { shape := Insert_clef.shape attributes,
                  line := m_drawingLines - roundDiv (-staffUly + uly) pg.doubleUnit }
                (AdjustPitchForNewClef p prev
                  { shape := Insert_clef.shape attributes,
                    line := m_drawingLines - roundDiv (-staffUly + uly) pg.doubleUnit })
              = DrawNc staffSize staffLineNumber noteY prev p)) := by
  generalize hline : m_drawingLines - roundDiv (-staffUly + uly) pg.doubleUnit = line at hk ⊢
  have hka : k.addr = newClef := by rw [hk]
  have hkk : k.kind = PageKind.clef { shape := Insert_clef.shape attributes, line := line } := by
    rw [hk]
  have hperm := Insert_clef.placed_perm pg k
  have hR : Insert_clef pg newClef staffUly m_drawingLines ulx uly attributes
      = (true,
         { ((Insert_clef.placed pg k).AdjustPitchForNewClef
              (FindAllChildBetween (Insert_clef.placed pg k).objects newClef
                ((Insert_clef.placed pg k).nextClef newClef))
              ((Insert_clef.placed pg k).precedingClef newClef) newClef) with
            layer := ReorderByXPos
              ((Insert_clef.placed pg k).AdjustPitchForNewClef
                (FindAllChildBetween (Insert_clef.placed pg k).objects newClef
                  ((Insert_clef.placed pg k).nextClef newClef))
                ((Insert_clef.placed pg k).precedingClef newClef) newClef).layer }) := by
    unfold Insert_clef
    simp only [if_neg hshape, hline]
    rw [hk]
    rfl
  have hndP : ((Insert_clef.placed pg k).objects.map (fun o => o.addr)).Nodup := by
    rw [List.Perm.nodup_iff (hperm.map _), List.map_cons, List.nodup_cons, hka]
    exact ⟨hnew, hnd⟩
  have hcurP : (Insert_clef.placed pg k).currentClefAddr
      ∉ (Insert_clef.placed pg k).objects.map (fun o => o.addr) := by
    rw [(hperm.map (fun o => o.addr)).mem_iff, List.map_cons, List.mem_cons, hka]
    show ¬ (pg.currentClefAddr = newClef ∨ _)
    rintro (h | h)
    · exact hnew2 h.symm
    · exact hcur h
  have hkP : k ∈ (Insert_clef.placed pg k).objects := hperm.mem_iff.mpr (List.mem_cons_self _ _)
  have hoP : o ∈ (Insert_clef.placed pg k).objects :=
    hperm.mem_iff.mpr (List.mem_cons_of_mem _ ho)
  have hclef : (Insert_clef.placed pg k).clefAt newClef
      = { shape := Insert_clef.shape attributes, line := line } := by
    rw [← hka]
    exact NeumePage.clefAt_of_mem _ k _ hndP hcurP hkP hkk
  have hkL : newClef ∈ (Insert_clef.placed pg k).layer.map (fun o => o.addr) := by
    simp only [Insert_clef.placed, ReorderByXPos]
    rw [((List.perm_insertionSort _ _).map _).mem_iff]
    exact List.mem_map.mpr ⟨k, by simp, hka⟩
  have hsP := ReorderByXPos_sorted (pg.layer ++ [k])
  have hEnd := FindAllChildBetween_nodup (Insert_clef.placed pg k).objects newClef
    ((Insert_clef.placed pg k).nextClef newClef) hndP
  rw [hR]
  generalize FindAllChildBetween (Insert_clef.placed pg k).objects newClef
    ((Insert_clef.placed pg k).nextClef newClef) = E at hEnd ⊢
  obtain ⟨_, ha2, _⟩ := NeumePage.AdjustPitchForNewClef_addrs (Insert_clef.placed pg k) E
    ((Insert_clef.placed pg k).precedingClef newClef) newClef
  have haO := NeumePage.AdjustPitchForNewClef_objects_addrs (Insert_clef.placed pg k) E
    ((Insert_clef.placed pg k).precedingClef newClef) newClef
  obtain ⟨hm1, hm2, _⟩ := NeumePage.AdjustPitchForNewClef_mem (Insert_clef.placed pg k) E
    ((Insert_clef.placed pg k).precedingClef newClef) newClef o hoP
  obtain ⟨_, _, hk3⟩ := NeumePage.AdjustPitchForNewClef_mem (Insert_clef.placed pg k) E
    ((Insert_clef.placed pg k).precedingClef newClef) newClef k hkP
  rw [PageObject.setPitch_pitched o _ p hp, hclef] at hm2
  generalize (Insert_clef.placed pg k).clefAt ((Insert_clef.placed pg k).precedingClef newClef)
    = prev at hm2 ⊢
  generalize (Insert_clef.placed pg k).AdjustPitchForNewClef E
    ((Insert_clef.placed pg k).precedingClef newClef) newClef = pg2 at ha2 haO hm1 hm2 hk3 ⊢
  have hnd2 : (pg2.objects.map (fun o => o.addr)).Nodup := by
    rw [haO]
    exact hndP
  refine ⟨rfl, ?_, ?_, ⟨hsP, ReorderByXPos_sorted _⟩, ?_, ?_, ?_, ?_⟩
  · show newClef ∈ (ReorderByXPos pg2.layer).map (fun o => o.addr)
    simp only [ReorderByXPos]
    rw [((List.perm_insertionSort _ _).map _).mem_iff, ha2]
    exact hkL
  · exact (NeumePage.mem_reorder pg2 k).mpr (hk3 (PageObject.isPitched_of_clef k _ hkk))
  · intro hmem
    exact (NeumePage.mem_reorder pg2 _).mpr (hm2 hEnd hmem)
  · intro hmem
    exact (NeumePage.mem_reorder pg2 _).mpr (hm1 hmem)
  · intro q hq hqa
    have hq2 := (NeumePage.mem_reorder pg2 q).mp hq
    split
    · rename_i hmem
      exact eq_of_addr_eq pg2.objects q _ hnd2 hq2 (hm2 hEnd hmem) hqa
    · rename_i hmem
      exact eq_of_addr_eq pg2.objects q _ hnd2 hq2 (hm1 hmem) hqa
  · intro prev2 staffSize staffLineNumber noteY _ hs2
    have hs1 : Insert_clef.shape attributes = ClefShape.CLEFSHAPE_C
        ∨ Insert_clef.shape attributes = ClefShape.CLEFSHAPE_F := by
      cases hc : Insert_clef.shape attributes with
      | CLEFSHAPE_NONE => exact absurd hc hshape
      | CLEFSHAPE_F => exact Or.inr rfl
      | CLEFSHAPE_C => exact Or.inl rfl
    have hd := DrawNc_AdjustPitchForNewClef staffSize staffLineNumber noteY prev2
      { shape := Insert_clef.shape attributes, line := line } p hs2 hs1
    refine ⟨hd, fun he => ?_⟩
    rw [hd]
    have h0 : staffSize - 2 * Int.tdiv staffSize 2 = 0 := by omega
    rw [h0]
    ring

/-- C23, as stated, fails for an odd staff size: on the sample page (double
unit 59) a C clef is inserted at x = 35 and 118 below the top of the staff, so
on line 2, between the notes at the addresses 13 and 14; the note at address
14 was governed by the C clef on line 3 at address 12, its pitch is adjusted
from d of octave 3 to f of octave 3, and `DrawNc` then puts it under the new
clef at another height than before under the old one. -/
theorem C23_counterexample :
    (Insert_clef samplePage 20 0 4 35 118 [("shape", "C")]).1 = true
      ∧ (Insert_clef samplePage 20 0 4 35 118 [("shape", "C")]).2.layer.map (fun o => o.addr)
        = [10, 11, 12, 13, 20, 14, 15, 16]
      ∧ samplePage.pitchAt 14 = some { pname := 2, oct := 3 }
      ∧ samplePage.clefAt (samplePage.precedingClef 14)
        = { shape := ClefShape.CLEFSHAPE_C, line := 3 }
      ∧ (Insert_clef samplePage 20 0 4 35 118 [("shape", "C")]).2.clefAt 20
        = { shape := ClefShape.CLEFSHAPE_C, line := 2 }
      ∧ (Insert_clef samplePage 20 0 4 35 118 [("shape", "C")]).2.pitchAt 14
        = some { pname := 4, oct := 3 }
      ∧ DrawNc samplePage.doubleUnit 4 0 { shape := ClefShape.CLEFSHAPE_C, line := 2 }
          { pname := 4, oct := 3 } = -31
      ∧ DrawNc samplePage.doubleUnit 4 0 { shape := ClefShape.CLEFSHAPE_C, line := 3 }
          { pname := 2, oct := 3 } = -30 := by
  decide

/-- C23 (amended) on the sample page: a C clef inserted on line 2 between the
notes at the addresses 13 and 14 leaves the note at address 14 with the pitch
adjusted from the preceding clef to the new one. -/
theorem C23_Insert_clef_witness :
    ({ addr := 14, hasFacs := true, ulx := 40, uly := 0,
       kind := PageKind.pitched { pname := 2, oct := 3 } } : PageObject).withPitch
        { pname := 4, oct := 3 }
      ∈ (Insert_clef samplePage 20 0 4 35 118 [("shape", "C")]).2.objects :=
  (C23_Insert_clef samplePage 20 0 4 35 118 [("shape", "C")]
    { addr := 20, hasFacs := true, ulx := 35, uly := 118,
      kind := PageKind.clef { shape := ClefShape.CLEFSHAPE_C, line := 2 } }
    (by decide) (by decide) (by decide) (by decide) (by decide) (by decide)
    { addr := 14, hasFacs := true, ulx := 40, uly := 0,
      kind := PageKind.pitched { pname := 2, oct := 3 } }
    { pname := 2, oct := 3 } (by decide) rfl).2.2.2.2.1 (by decide)

/-! ## Theorems: the change of the shape of a clef -/

/-- A change of the objects that keeps their addresses and tells clefs from
other objects as before keeps the governing clef of every element. -/
theorem NeumePage.GetClef_mapObjects (pg : NeumePage) (g : PageObject → PageObject)
    (hga : ∀ o, (g o).addr = o.addr) (hgc : ∀ o, (g o).isClef = o.isClef) (b : Nat) :
    (pg.mapObjects g).GetClef b = pg.GetClef b := by
  have h1 : (fun o : PageObject => o.addr) ∘ g = fun o => o.addr := funext hga
  have h2 : (fun o : PageObject => o.addr != b) ∘ g = fun o => o.addr != b := by
    funext o
    simp only [Function.comp, hga]
  have h3 : PageObject.isClef ∘ g = PageObject.isClef := funext hgc
  unfold NeumePage.GetClef
  simp only [NeumePage.mapObjects, List.map_map, h1, List.takeWhile_map, h2, List.filter_map,
    h3, List.getLast?_map]
  cases ((pg.layer.takeWhile (fun o => o.addr != b)).filter PageObject.isClef).getLast? with
  | none => rfl
  | some k => simp only [Option.map_some', hga]

/-- Taking through an address commutes with a change of the objects that keeps
their addresses. -/
theorem takeThrough_map (last : Option Nat) (g : PageObject → PageObject)
    (hga : ∀ o, (g o).addr = o.addr) (l : List PageObject) :
    takeThrough last (l.map g) = (takeThrough last l).map g := by
  induction l with
  | nil => rfl
  | cons o rest ih =>
    simp only [List.map_cons, takeThrough, hga]
    split
    · rfl
    · rw [ih]
      rfl

/-- A change of the objects that keeps their addresses and tells pitched
objects from others as before keeps what `FindAllChildBetween` finds. -/
theorem FindAllChildBetween_map (objs : List PageObject) (g : PageObject → PageObject)
    (hga : ∀ o, (g o).addr = o.addr) (hgp : ∀ o, (g o).isPitched = o.isPitched)
    (start : Nat) (last : Option Nat) :
    FindAllChildBetween (objs.map g) start last = FindAllChildBetween objs start last := by
  have h1 : (fun o : PageObject => o.addr) ∘ g = fun o => o.addr := funext hga
  have h2 : (fun o : PageObject => o.addr != start) ∘ g = fun o => o.addr != start := by
    funext o
    simp only [Function.comp, hga]
  have h3 : PageObject.isPitched ∘ g = PageObject.isPitched := funext hgp
  unfold FindAllChildBetween
  rw [List.dropWhile_map, h2, takeThrough_map last g hga, List.filter_map, h3, List.map_map, h1]

/-- The change of a pitch keeps address and class. -/
theorem PageObject.updatePitch_keeps (a : Nat) (f : Pitch → Pitch) (o : PageObject) :
    (if o.addr = a then o.setPitch f else o).addr = o.addr
      ∧ (if o.addr = a then o.setPitch f else o).isClef = o.isClef
      ∧ (if o.addr = a then o.setPitch f else o).isPitched = o.isPitched := by
  split
  · unfold PageObject.setPitch PageObject.isClef PageObject.isPitched
    cases hk : o.kind <;> simp [hk]
  · exact ⟨rfl, rfl, rfl⟩

/-- The change of a clef shape keeps address and class. -/
theorem PageObject.setShape_keeps (a : Nat) (s : ClefShape) (o : PageObject) :
    (if o.addr = a then o.setShape s else o).addr = o.addr
      ∧ (if o.addr = a then o.setShape s else o).isClef = o.isClef
      ∧ (if o.addr = a then o.setShape s else o).isPitched = o.isPitched := by
  split
  · unfold PageObject.setShape PageObject.isClef PageObject.isPitched
    cases hk : o.kind <;> simp [hk]
  · exact ⟨rfl, rfl, rfl⟩

/-- The loop of `SetClef` adjusts the elements found whose governing clef is the
clef at hand, as that is when the loop starts. -/
theorem SetClef.loop_eq (clef : Nat) (shift : Int) (objects : List Nat) (pg : NeumePage) :
    SetClef.loop clef shift objects pg
      = pg.AdjustPitchByOffset (objects.filter (fun a => decide (pg.GetClef a = clef))) shift := by
  unfold SetClef.loop NeumePage.AdjustPitchByOffset
  induction objects generalizing pg with
  | nil => rfl
  | cons a rest ih =>
    simp only [List.foldl_cons, List.filter_cons]
    by_cases h : pg.GetClef a = clef
    · simp only [h, ne_eq, not_true_eq_false, if_false, decide_True, if_true, List.foldl_cons]
      rw [ih]
      have hG : ∀ b, (pg.updatePitch a (fun p => Vrv.AdjustPitchByOffset p shift)).GetClef b
          = pg.GetClef b := by
        intro b
        exact NeumePage.GetClef_mapObjects pg _
          (fun o => (PageObject.updatePitch_keeps a _ o).1)
          (fun o => (PageObject.updatePitch_keeps a _ o).2.1) b
      simp only [hG]
    · simp only [h, ne_eq, not_false_eq_true, if_true, decide_False, Bool.false_eq_true,
        if_false]
      exact ih pg

/-- An object is found when the search takes through an address that none of
the objects before it has. -/
theorem takeThrough_mem (last : Option Nat) (l1 : List PageObject) (o : PageObject)
    (l2 : List PageObject) (h : ∀ x ∈ l1, some x.addr ≠ last) :
    o ∈ takeThrough last (l1 ++ o :: l2) := by
  induction l1 with
  | nil =>
    simp only [List.nil_append, takeThrough]
    split <;> simp
  | cons x rest ih =>
    simp only [List.cons_append, takeThrough]
    rw [if_neg (h x (List.mem_cons_self _ _))]
    exact List.mem_cons_of_mem _ (ih (fun y hy => h y (List.mem_cons_of_mem _ hy)))

/-- When the last object with a property is the one at which the list is
split, no object after it has the property. -/
theorem getLast?_filter_split (p : PageObject → Bool) (m1 m2 : List PageObject)
    (co : PageObject) (hco : co ∉ m2)
    (h : ((m1 ++ co :: m2).filter p).getLast? = some co) : ∀ x ∈ m2, p x = false := by
  intro x hx
  by_contra hpx
  have hpx2 : p x = true := by simpa using hpx
  have hne : m2.filter p ≠ [] :=
    List.ne_nil_of_mem (List.mem_filter.mpr ⟨hx, hpx2⟩)
  have hsplit : (m1 ++ co :: m2).filter p = (m1 ++ [co]).filter p ++ m2.filter p := by
    rw [← List.filter_append]
    simp
  rw [hsplit, List.getLast?_append_of_ne_nil _ hne] at h
  exact hco (List.mem_filter.mp (List.mem_of_mem_getLast? h)).1

/-- On a list without shared addresses, split at an object: the addresses on
both sides differ from that of the object and from each other, and both sides
are without shared addresses. -/
theorem nodup_split (pre post : List PageObject) (co : PageObject)
    (hnd : ((pre ++ co :: post).map (fun o => o.addr)).Nodup) :
    (∀ o ∈ pre, o.addr ≠ co.addr)
      ∧ (∀ o ∈ post, o.addr ≠ co.addr)
      ∧ (∀ a, a ∈ pre.map (fun o => o.addr) → a ∉ post.map (fun o => o.addr))
      ∧ (post.map (fun o => o.addr)).Nodup := by
  simp only [List.map_append, List.map_cons] at hnd
  rw [List.nodup_append] at hnd
  obtain ⟨_, h2, h3⟩ := hnd
  rw [List.nodup_cons] at h2
  refine ⟨?_, ?_, ?_, h2.2⟩
  · intro o ho he
    exact h3 (List.mem_map.mpr ⟨o, ho, rfl⟩) (by rw [he]; exact List.mem_cons_self _ _)
  · intro o ho he
    exact h2.1 (by rw [← he]; exact List.mem_map.mpr ⟨o, ho, rfl⟩)
  · intro a ha hb
    exact h3 ha (List.mem_cons_of_mem _ hb)

/-- A pitched element governed by a clef of the layer is among the elements
`FindAllChildBetween` finds from that clef up to the next clef of the page, or up
to the end of the page. -/
theorem NeumePage.governed_between (q : NeumePage) (co o : PageObject) (c : Clef) (p : Pitch)
    (hnd : (q.objects.map (fun o => o.addr)).Nodup)
    (hcur : q.currentClefAddr ∉ q.objects.map (fun o => o.addr))
    (hco : co ∈ q.layer) (hk : co.kind = PageKind.clef c)
    (ho : o ∈ q.objects) (hp : o.kind = PageKind.pitched p)
    (hg : q.GetClef o.addr = co.addr) (last : Option Nat)
    (hlast : last = none ∨ last = q.nextClef co.addr) :
    o.addr ∈ FindAllChildBetween q.objects co.addr last := by
  have hsub : ∀ x, x ∈ q.layer → x ∈ q.objects := by
    intro x hx
    simp only [NeumePage.objects, List.mem_append]
    exact Or.inl (Or.inr hx)
  have hcne : q.currentClefAddr ≠ co.addr := by
    intro h
    exact hcur (by rw [h]; exact List.mem_map.mpr ⟨co, hsub co hco, rfl⟩)
  have hoC : o.isClef = false := by
    unfold PageObject.isClef
    rw [hp]
  have hoP : o.isPitched = true := by
    unfold PageObject.isPitched
    rw [hp]
  unfold NeumePage.GetClef at hg
  split at hg
  swap
  · exact absurd hg hcne
  rename_i hin
  obtain ⟨o2, ho2, hoa⟩ := List.mem_map.mp hin
  have ho2e : o2 = o := eq_of_addr_eq q.objects o2 o hnd (hsub o2 ho2) ho hoa
  rw [ho2e] at ho2
  obtain ⟨l1, l2, hl⟩ := List.append_of_mem ho2
  have hobjs1 : q.objects = (q.before ++ l1) ++ o :: (l2 ++ q.after) := by
    simp only [NeumePage.objects, hl, List.append_assoc, List.cons_append]
  have hnd1 := hnd
  rw [hobjs1] at hnd1
  obtain ⟨hb1, _, _, _⟩ := nodup_split _ _ o hnd1
  have hl1 : ∀ x ∈ l1, x.addr ≠ o.addr :=
    fun x hx => hb1 x (List.mem_append.mpr (Or.inr hx))
  rw [hl, takeWhile_addr_append l1 l2 o hl1] at hg
  cases hlc : (l1.filter PageObject.isClef).getLast? with
  | none =>
    rw [hlc] at hg
    exact absurd hg hcne
  | some k =>
    rw [hlc] at hg
    have hk1 : k ∈ l1 := (List.mem_filter.mp (List.mem_of_mem_getLast? hlc)).1
    have hkL : k ∈ q.layer := by
      rw [hl]
      exact List.mem_append.mpr (Or.inl hk1)
    have hke : k = co := eq_of_addr_eq q.objects k co hnd (hsub k hkL) (hsub co hco) hg
    rw [hke] at hlc hk1
    obtain ⟨m1, m2, hm⟩ := List.append_of_mem hk1
    have hobjs : q.objects = (q.before ++ m1) ++ co :: (m2 ++ o :: (l2 ++ q.after)) := by
      simp only [NeumePage.objects, hl, hm, List.append_assoc, List.cons_append]
    have hnd2 := hnd
    rw [hobjs] at hnd2
    obtain ⟨hA, hB, _, hndR⟩ := nodup_split _ _ co hnd2
    obtain ⟨_, _, hdis, _⟩ := nodup_split _ _ o hndR
    have hcom2 : co ∉ m2 := fun h => hB co (List.mem_append.mpr (Or.inl h)) rfl
    rw [hm] at hlc
    have hm2 := getLast?_filter_split PageObject.isClef m1 m2 co hcom2 hlc
    have hthrough : ∀ x ∈ co :: m2, some x.addr ≠ last := by
      rcases hlast with h | h
      · intro x _
        rw [h]
        simp
      · intro x hx
        rw [h]
        unfold NeumePage.nextClef FindNextChildOfType
        rw [hobjs, dropWhile_addr_append _ _ co.addr hA]
        simp only [List.dropWhile_cons, bne_self_eq_false, Bool.false_eq_true, if_false,
          List.drop_succ_cons, List.drop_zero]
        have hf1 : m2.find? PageObject.isClef = none := by
          rw [List.find?_eq_none]
          intro y hy
          rw [hm2 y hy]
          simp
        rw [List.find?_append, hf1, Option.none_or,
          List.find?_cons_of_neg _ (by rw [hoC]; simp)]
        cases hf : (l2 ++ q.after).find? PageObject.isClef with
        | none => simp
        | some n =>
          have hn : n ∈ l2 ++ q.after := List.mem_of_find?_eq_some hf
          simp only [Option.map_some', ne_eq, Option.some.injEq]
          rcases List.mem_cons.mp hx with rfl | hx2
          · intro he
            exact hB n (List.mem_append.mpr (Or.inr (List.mem_cons_of_mem _ hn))) he.symm
          · intro he
            exact hdis x.addr (List.mem_map.mpr ⟨x, hx2, rfl⟩)
              (List.mem_map.mpr ⟨n, hn, he.symm⟩)
    unfold FindAllChildBetween
    rw [hobjs, dropWhile_addr_append _ _ co.addr hA]
    simp only [List.dropWhile_cons, bne_self_eq_false, Bool.false_eq_true, if_false]
    refine List.mem_map.mpr ⟨o, List.mem_filter.mpr ⟨?_, hoP⟩, rfl⟩
    have := takeThrough_mem last (co :: m2) o (l2 ++ q.after) hthrough
    simpa only [List.cons_append] using this

/-- The call `clef->SetShape(shape)` changes the shape of the clef and nothing
else of it. -/
theorem NeumePage.HasClef.SetShape {pg : NeumePage} {clef : Nat} {c : Clef}
    (h : pg.HasClef clef c) (shape : ClefShape) :
    (pg.SetShape clef shape).HasClef clef { c with shape := shape } := by
  obtain ⟨hnd, hcur, o, ho, ha, hk⟩ := h
  have haddrs : (pg.SetShape clef shape).objects.map (fun o => o.addr)
      = pg.objects.map (fun o => o.addr) := by
    rw [NeumePage.SetShape, NeumePage.objects_mapObjects, List.map_map]
    apply List.map_congr_left
    intro q _
    exact (PageObject.setShape_keeps clef shape q).1
  refine ⟨by rw [haddrs]; exact hnd, ?_, o.setShape shape, ?_, ?_, ?_⟩
  · rw [haddrs]
    exact hcur
  · rw [NeumePage.SetShape, NeumePage.objects_mapObjects]
    exact List.mem_map.mpr ⟨o, ho, by simp [ha]⟩
  · unfold PageObject.setShape
    rw [hk]
    exact ha
  · unfold PageObject.setShape
    rw [hk]

/-- The loop over `AdjustPitchByOffset` leaves the clef as it is. -/
theorem NeumePage.HasClef.AdjustPitchByOffset {clef : Nat} {c : Clef} (elements : List Nat)
    (pitchOffset : Int) :
    ∀ {pg : NeumePage}, pg.HasClef clef c →
      (pg.AdjustPitchByOffset elements pitchOffset).HasClef clef c := by
  unfold NeumePage.AdjustPitchByOffset
  induction elements with
  | nil => intro pg h; exact h
  | cons a rest ih =>
    intro pg h
    simp only [List.foldl_cons]
    exact ih (h.updatePitch a _)

/-- The loop over `AdjustPitchByOffset` keeps the governing clef of every
element. -/
theorem NeumePage.GetClef_AdjustPitchByOffset (elements : List Nat) (pitchOffset : Int)
    (b : Nat) :
    ∀ pg : NeumePage, (pg.AdjustPitchByOffset elements pitchOffset).GetClef b = pg.GetClef b := by
  unfold NeumePage.AdjustPitchByOffset
  induction elements with
  | nil => intro pg; rfl
  | cons a rest ih =>
    intro pg
    simp only [List.foldl_cons]
    rw [ih]
    exact NeumePage.GetClef_mapObjects pg _
      (fun o => (PageObject.updatePitch_keeps a _ o).1)
      (fun o => (PageObject.updatePitch_keeps a _ o).2.1) b

/-- What `SetClef` does after `Att::SetShared` gave the clef its new shape: the clef
keeps its line, no governing clef changes, each pitched element governed by
the clef is adjusted by `shift` once, and every other pitched element keeps
its pitch. -/
theorem SetClef.loop_governed (pg : NeumePage) (co : PageObject) (c : Clef)
    (newShape : ClefShape) (shift : Int) (GetNext : Option Nat)
    (hnd : (pg.objects.map (fun o => o.addr)).Nodup)
    (hcur : pg.currentClefAddr ∉ pg.objects.map (fun o => o.addr))
    (hco : co ∈ pg.layer) (hk : co.kind = PageKind.clef c)
    (hnext : GetNext = none ∨ GetNext = pg.nextClef co.addr)
    (o : PageObject) (p : Pitch) (ho : o ∈ pg.objects) (hp : o.kind = PageKind.pitched p)
    (r : NeumePage)
    (hr : r = SetClef.loop co.addr shift
      (FindAllChildBetween (pg.SetShape co.addr newShape).objects co.addr GetNext)
      (pg.SetShape co.addr newShape)) :
    r.clefAt co.addr = { c with shape := newShape }
      ∧ (∀ b, r.GetClef b = pg.GetClef b)
      ∧ (pg.GetClef o.addr = co.addr →
          o.withPitch (AdjustPitchByOffset p shift) ∈ r.objects)
      ∧ (pg.GetClef o.addr ≠ co.addr → o ∈ r.objects)
      ∧ (∀ q ∈ r.objects, q.addr = o.addr →
          q = (if pg.GetClef o.addr = co.addr then o.withPitch (AdjustPitchByOffset p shift)
              else o)) := by
  have hcoO : co ∈ pg.objects := by
    simp only [NeumePage.objects, List.mem_append]
    exact Or.inl (Or.inr hco)
  have hne : o.addr ≠ co.addr := addr_ne_of_kinds pg.objects o co p c hnd ho hcoO hp hk
  have hG1 : ∀ b, (pg.SetShape co.addr newShape).GetClef b = pg.GetClef b := by
    intro b
    exact NeumePage.GetClef_mapObjects pg _
      (fun o => (PageObject.setShape_keeps co.addr newShape o).1)
      (fun o => (PageObject.setShape_keeps co.addr newShape o).2.1) b
  have hF : FindAllChildBetween (pg.SetShape co.addr newShape).objects co.addr GetNext
      = FindAllChildBetween pg.objects co.addr GetNext := by
    rw [NeumePage.SetShape, NeumePage.objects_mapObjects]
    exact FindAllChildBetween_map pg.objects _
      (fun o => (PageObject.setShape_keeps co.addr newShape o).1)
      (fun o => (PageObject.setShape_keeps co.addr newShape o).2.2) co.addr GetNext
  rw [SetClef.loop_eq, hF] at hr
  simp only [hG1] at hr
  have hEnd : ((FindAllChildBetween pg.objects co.addr GetNext).filter
      (fun a => decide (pg.GetClef a = co.addr))).Nodup :=
    (FindAllChildBetween_nodup pg.objects co.addr GetNext hnd).filter _
  have hH : pg.HasClef co.addr c := ⟨hnd, hcur, co, hcoO, rfl, hk⟩
  have hHr := (hH.SetShape newShape).AdjustPitchByOffset
    ((FindAllChildBetween pg.objects co.addr GetNext).filter
      (fun a => decide (pg.GetClef a = co.addr))) shift
  have ho1 : o ∈ (pg.SetShape co.addr newShape).objects := by
    rw [NeumePage.SetShape, NeumePage.objects_mapObjects]
    exact List.mem_map.mpr ⟨o, ho, by rw [if_neg hne]⟩
  obtain ⟨hm1, hm2, _⟩ := NeumePage.AdjustPitchByOffset_mem (pg.SetShape co.addr newShape)
    ((FindAllChildBetween pg.objects co.addr GetNext).filter
      (fun a => decide (pg.GetClef a = co.addr))) shift o ho1
  rw [PageObject.setPitch_pitched o _ p hp] at hm2
  have hgE : pg.GetClef o.addr = co.addr →
      o.addr ∈ (FindAllChildBetween pg.objects co.addr GetNext).filter
        (fun a => decide (pg.GetClef a = co.addr)) := by
    intro hg
    exact List.mem_filter.mpr
      ⟨NeumePage.governed_between pg co o c p hnd hcur hco hk ho hp hg GetNext hnext,
        decide_eq_true hg⟩
  have hnE : pg.GetClef o.addr ≠ co.addr →
      o.addr ∉ (FindAllChildBetween pg.objects co.addr GetNext).filter
        (fun a => decide (pg.GetClef a = co.addr)) := by
    intro hg hmem
    exact hg (of_decide_eq_true (List.mem_filter.mp hmem).2)
  rw [← hr] at hHr hm1 hm2
  refine ⟨hHr.clefAt, ?_, fun hg => hm2 hEnd (hgE hg), fun hg => hm1 (hnE hg), ?_⟩
  · intro b
    rw [hr, NeumePage.GetClef_AdjustPitchByOffset, hG1]
  · intro q hq hqa
    split
    · rename_i hg
      exact eq_of_addr_eq r.objects q _ hHr.1 hq (hm2 hEnd (hgE hg)) hqa
    · rename_i hg
      exact eq_of_addr_eq r.objects q _ hHr.1 hq (hm1 (hnE hg)) hqa

/-- Three steps up under an F clef, or three steps down under a C clef, are
drawn where the pitch was drawn under the other shape on the same line. -/
theorem DrawNc_shape_change (staffSize staffLineNumber noteY : Int) (c : Clef) (p : Pitch) :
    (c.shape = ClefShape.CLEFSHAPE_C →
        DrawNc staffSize staffLineNumber noteY { c with shape := ClefShape.CLEFSHAPE_F }
            (AdjustPitchByOffset p 3)
          = DrawNc staffSize staffLineNumber noteY c p)
      ∧ (c.shape = ClefShape.CLEFSHAPE_F →
        DrawNc staffSize staffLineNumber noteY { c with shape := ClefShape.CLEFSHAPE_C }
            (AdjustPitchByOffset p (-3))
          = DrawNc staffSize staffLineNumber noteY c p) := by
  constructor
  · intro hc
    rw [DrawNc_affine _ _ _ _ _ (show ({ c with shape := ClefShape.CLEFSHAPE_F } : Clef).shape
        = ClefShape.CLEFSHAPE_C ∨ ({ c with shape := ClefShape.CLEFSHAPE_F } : Clef).shape
        = ClefShape.CLEFSHAPE_F from Or.inr rfl),
      DrawNc_affine _ _ _ _ _ (Or.inl hc), GetDiatonicPitch_AdjustPitchByOffset, hc]
    simp only [clefBaseline]
    ring
  · intro hc
    rw [DrawNc_affine _ _ _ _ _ (show ({ c with shape := ClefShape.CLEFSHAPE_C } : Clef).shape
        = ClefShape.CLEFSHAPE_C ∨ ({ c with shape := ClefShape.CLEFSHAPE_C } : Clef).shape
        = ClefShape.CLEFSHAPE_F from Or.inl rfl),
      DrawNc_affine _ _ _ _ _ (Or.inr hc), GetDiatonicPitch_AdjustPitchByOffset, hc]
    simp only [clefBaseline]
    ring

/-- C24: when `SetClef` changes the shape of a clef of the layer from C to F or
from F to C (assertions compiled out, or a next clef found), it returns true,
the clef has the new shape on the same line, every pitched element governed by
the clef has its pitch shifted once, by +3 diatonic steps from C to F and by
-3 from F to C, so that `DrawNc` puts it under the new shape where it was
under the old one, and every pitched element not governed by the clef keeps
its pitch. -/
theorem C24_SetClef_shape_change (NDEBUG : Bool) (pg : NeumePage) (co : PageObject) (c : Clef)
    (shape : String) (GetNext : Option Nat)
    (hnd : (pg.objects.map (fun o => o.addr)).Nodup)
    (hcur : pg.currentClefAddr ∉ pg.objects.map (fun o => o.addr))
    (hco : co ∈ pg.layer) (hk : co.kind = PageKind.clef c)
    (hshape : (shape = "F" ∧ c.shape = ClefShape.CLEFSHAPE_C)
      ∨ (shape = "C" ∧ c.shape = ClefShape.CLEFSHAPE_F))
    (hnext : GetNext = none ∨ GetNext = pg.nextClef co.addr)
    (hassert : NDEBUG = true ∨ GetNext ≠ none)
    (o : PageObject) (p : Pitch) (ho : o ∈ pg.objects) (hp : o.kind = PageKind.pitched p) :
    ∃ r, SetClef NDEBUG pg true co.addr shape GetNext = Outcome.returned true r
      ∧ r.clefAt co.addr
        = { c with shape := if shape = "F" then ClefShape.CLEFSHAPE_F
                            else ClefShape.CLEFSHAPE_C }
      ∧ (∀ b, r.GetClef b = pg.GetClef b)
      ∧ (pg.GetClef o.addr = co.addr →
          o.withPitch (AdjustPitchByOffset p (if shape = "F" then 3 else -3)) ∈ r.objects)
      ∧ (pg.GetClef o.addr ≠ co.addr → o ∈ r.objects)
      ∧ (∀ q ∈ r.objects, q.addr = o.addr →
          q = (if pg.GetClef o.addr = co.addr then
                o.withPitch (AdjustPitchByOffset p (if shape = "F" then 3 else -3))
              else o))
      ∧ GetDiatonicPitch (AdjustPitchByOffset p (if shape = "F" then 3 else -3))
        = GetDiatonicPitch p + (if shape = "F" then 3 else -3)
      ∧ (∀ staffSize staffLineNumber noteY : Int,
          DrawNc staffSize staffLineNumber noteY
              { c with shape := if shape = "F" then ClefShape.CLEFSHAPE_F
                                else ClefShape.CLEFSHAPE_C }
              (AdjustPitchByOffset p (if shape = "F" then 3 else -3))
            = DrawNc staffSize staffLineNumber noteY c p) := by
  have hcoO : co ∈ pg.objects := by
    simp only [NeumePage.objects, List.mem_append]
    exact Or.inl (Or.inr hco)
  have hfind : pg.findClef co.addr = some c := by
    unfold NeumePage.findClef
    rw [find?_addr_of_mem pg.objects co hnd hcoO]
    simp only [hk]
  have hA : ¬ ((!NDEBUG) = true ∧ GetNext = none) := by
    rintro ⟨h1, h2⟩
    rcases hassert with h | h
    · rw [h] at h1
      exact absurd h1 (by decide)
    · exact h h2
  have hFC : ("F" : String) ≠ "C" := by decide
  rcases hshape with ⟨rfl, hc⟩ | ⟨rfl, hc⟩
  · have hS : SetClef NDEBUG pg true co.addr "F" GetNext
        = Outcome.returned true (SetClef.loop co.addr 3
            (FindAllChildBetween (pg.SetShape co.addr ClefShape.CLEFSHAPE_F).objects
              co.addr GetNext)
            (pg.SetShape co.addr ClefShape.CLEFSHAPE_F)) := by
      unfold SetClef
      simp only [Bool.not_true, Bool.false_eq_true, if_false, hfind,
        hc, SetShared_shape, if_neg hFC, if_true, ne_eq, if_neg hA]
      simp
    obtain ⟨h1, h2, h3, h4, h5⟩ := SetClef.loop_governed pg co c ClefShape.CLEFSHAPE_F 3
      GetNext hnd hcur hco hk hnext o p ho hp _ rfl
    refine ⟨_, hS, ?_, h2, ?_, h4, ?_, ?_, ?_⟩
    · simpa only [if_true] using h1
    · simpa only [if_true] using h3
    · simpa only [if_true] using h5
    · simp only [if_true]
      exact GetDiatonicPitch_AdjustPitchByOffset p 3
    · intro staffSize staffLineNumber noteY
      simp only [if_true]
      exact (DrawNc_shape_change staffSize staffLineNumber noteY c p).1 hc
  · have hS : SetClef NDEBUG pg true co.addr "C" GetNext
        = Outcome.returned true (SetClef.loop co.addr (-3)
            (FindAllChildBetween (pg.SetShape co.addr ClefShape.CLEFSHAPE_C).objects
              co.addr GetNext)
            (pg.SetShape co.addr ClefShape.CLEFSHAPE_C)) := by
      unfold SetClef
      simp only [Bool.not_true, Bool.false_eq_true, if_false, hfind,
        hc, SetShared_shape, if_true, ne_eq, if_neg hA]
      simp
    obtain ⟨h1, h2, h3, h4, h5⟩ := SetClef.loop_governed pg co c ClefShape.CLEFSHAPE_C (-3)
      GetNext hnd hcur hco hk hnext o p ho hp _ rfl
    refine ⟨_, hS, ?_, h2, ?_, h4, ?_, ?_, ?_⟩
    · simpa only [if_neg hFC.symm] using h1
    · simpa only [if_neg hFC.symm] using h3
    · simpa only [if_neg hFC.symm] using h5
    · simp only [if_neg hFC.symm]
      exact GetDiatonicPitch_AdjustPitchByOffset p (-3)
    · intro staffSize staffLineNumber noteY
      simp only [if_neg hFC.symm]
      exact (DrawNc_shape_change staffSize staffLineNumber noteY c p).2 hc

/-- C24 on the page of the examples: the F clef at address 13, the last clef of
the page, is given the shape C; the note at address 14, which it governs, goes
three steps down, from f to c of octave 3. -/
theorem C24_SetClef_shape_change_witness :
    ∃ r, SetClef true lastClefPage true 13 "C" none = Outcome.returned true r
      ∧ ({ addr := 14, hasFacs := true, ulx := 40, uly := 0,
           kind := PageKind.pitched { pname := 4, oct := 3 } } : PageObject).withPitch
          { pname := 1, oct := 3 } ∈ r.objects :=
  (C24_SetClef_shape_change true lastClefPage
    { addr := 13, hasFacs := true, ulx := 30, uly := 0,
      kind := PageKind.clef { shape := ClefShape.CLEFSHAPE_F, line := 2 } }
    { shape := ClefShape.CLEFSHAPE_F, line := 2 } "C" none
    (by decide) (by decide) (by decide) rfl (Or.inr ⟨rfl, rfl⟩) (Or.inl rfl) (Or.inl rfl)
    { addr := 14, hasFacs := true, ulx := 40, uly := 0,
      kind := PageKind.pitched { pname := 4, oct := 3 } }
    { pname := 4, oct := 3 } (by decide) rfl).imp
    (fun _ h => ⟨h.1, h.2.2.2.1 (by decide)⟩)

/-- The F clef at address 13 of the page of the examples is given the shape C:
the notes at the addresses 14 and 15, which it governs, go three steps down;
the notes at the addresses 11 and 12 before it and the note at address 16 of
another layer, which is found after it, keep their pitches. -/
theorem SetClef_lastClefPage :
    ∃ r, SetClef true lastClefPage true 13 "C" none = Outcome.returned true r
      ∧ r.clefAt 13 = { shape := ClefShape.CLEFSHAPE_C, line := 2 }
      ∧ FindAllChildBetween lastClefPage.objects 13 none = [14, 15, 16]
      ∧ r.pitchAt 14 = some { pname := 1, oct := 3 }
      ∧ r.pitchAt 15 = some { pname := 6, oct := 2 }
      ∧ r.pitchAt 11 = lastClefPage.pitchAt 11
      ∧ r.pitchAt 12 = lastClefPage.pitchAt 12
      ∧ r.pitchAt 16 = lastClefPage.pitchAt 16 :=
  ⟨_, rfl, by decide, by decide, by decide, by decide, by decide, by decide, by decide⟩

/-- With assertions compiled in, `SetClef` stops in `assert(nextClef)` when no
next clef is found, after the shape was set. -/
theorem SetClef_assert_nextClef :
    (match SetClef false lastClefPage true 13 "C" none with
      | Outcome.assertFailed => true
      | Outcome.returned _ _ => false) = true := by
  rfl

/-! ## Theorems: a contour with an unsupported character -/

/-- C27, two failing inputs.  First `Ungroup("nc", ["a", "b"])` on the neume
m1 = [a, b] whose two note components form a ligature (both `ligated` true): the
call returns true, the block that toggles a ligature before ungrouping sets
both attributes to false and gives b a zone of its own, and then b, which still
has the attribute (now false), is passed over: a and b are both still in m1 and
the page has one neume as before, none was created.  Then
`Ungroup("nc", ["a", "b", "c"])` on the neume m1 = [a, b, c], where b carries the
attribute `ligated` with the value false: the call returns true, b is passed
over and stays in m1 with a, only c is moved, into the new neume "new1"; one
container is made, not two. -/
theorem C27_Ungroup_passes_over_ligated_attribute :
    ((GroupDoc.find sampleLigatureGroupDoc "a").map (fun f => f.el.ligated) = some (some true)
      ∧ (GroupDoc.find sampleLigatureGroupDoc "b").map (fun f => f.el.ligated)
          = some (some true)
      ∧ sampleLigatureGroupDoc.parentOf "a" = some "m1"
      ∧ sampleLigatureGroupDoc.parentOf "b" = some "m1"
      ∧ sampleLigatureGroupDoc.containers.length = 1
      ∧ ∃ tk2, Ungroup sampleGroupHelpers (some 100) "nc" ["a", "b"]
            { doc := sampleLigatureGroupDoc, m_editInfo := "" } = Outcome.returned true tk2
        ∧ (GroupDoc.find tk2.doc "a").map (fun f => f.el.ligated) = some (some false)
        ∧ (GroupDoc.find tk2.doc "b").map (fun f => f.el.ligated) = some (some false)
        ∧ tk2.doc.parentOf "a" = some "m1" ∧ tk2.doc.parentOf "b" = some "m1"
        ∧ tk2.doc.containers.length = 1)
    ∧ ((GroupDoc.find sampleLigatedGroupDoc "b").map (fun f => f.el.ligated)
          = some (some false)
      ∧ sampleLigatedGroupDoc.containers.length = 1
      ∧ ∃ tk2, Ungroup sampleGroupHelpers none "nc" ["a", "b", "c"]
            { doc := sampleLigatedGroupDoc, m_editInfo := "" } = Outcome.returned true tk2
        ∧ tk2.doc.parentOf "a" = some "m1" ∧ tk2.doc.parentOf "b" = some "m1"
        ∧ tk2.doc.parentOf "c" = some "new1"
        ∧ tk2.doc.containers.length = 2) :=
  ⟨⟨by decide, by decide, by decide, by decide, by decide, _, rfl, by decide, by decide,
      by decide, by decide, by decide⟩,
    by decide, by decide, _, rfl, by decide, by decide, by decide, by decide⟩

/-! ## Theorems: the two clef lookups of a dragged pitched element -/

/-- C8, the failing input: `Drag` by (0, 0) of the note at address 11 of the sample
page, which stands between the C clef on line 2 at address 10 and the C clef
on line 3 at address 12; the layer ends with an F clef on line 2 and a note.
The note is governed by the clef at address 10 before and after the call and
the vertical delta is 0, yet its pitch goes from c to f of octave 3: the
second lookup runs in the clone of the layer, to which the note does not
belong, and finds the last clef of the clone, the copy of the F clef.  With
the layer's current clef (a C clef on line 3) in the place of the clef found
in the clone the pitch changes as well, to a of octave 2. -/
theorem C8_Drag_pitched_clone_lookup :
    samplePage.precedingClef 11 = 10
    ∧ (Drag_pitched_page (fun a => a + 1000) 29 false samplePage 11 0 0 false).precedingClef 11
        = 10
    ∧ (Drag_pitched_page (fun a => a + 1000) 29 false samplePage 11 0 0 false).layer.map
          (fun o => o.addr) = samplePage.layer.map (fun o => o.addr)
    ∧ samplePage.pitchAt 11 = some { pname := 1, oct := 3 }
    ∧ (FindPreviousChildOfType (samplePage.reorderedClone (fun a => a + 1000)) 11).map
          (fun o => (o.addr, o.kind))
        = some (1015, PageKind.clef { shape := ClefShape.CLEFSHAPE_F, line := 2 })
    ∧ (Drag_pitched_page (fun a => a + 1000) 29 false samplePage 11 0 0 false).pitchAt 11
        = some { pname := 4, oct := 3 }
    ∧ (Drag_pitched 29 33 (samplePage.clefAt 10) samplePage.currentClef 0 0
          { pitch := { pname := 1, oct := 3 }, hasFacsimileInterface := true,
            zone := { ulx := 10, uly := 0, lrx := 20, lry := 10 }, isNc := true,
            ligated := false, nextNcSharesZone := false }).pitch
        = { pname := 6, oct := 2 } := by
  decide

/-! ## Theorems: what `Group` gathers -/

/-- The entries of the page, read container by container. -/
theorem GroupDoc.entries_slots (d : GroupDoc) :
    d.entries = d.slots.flatMap (fun s => s.2.children.map (fun e => (s.1, s.2, e))) := by
  unfold GroupDoc.entries GroupDoc.slots GroupParent.entries
  induction d.parents with
  | nil => rfl
  | cons p rest ih =>
    simp only [List.flatMap_cons, List.flatMap_append, ih]
    congr 1
    induction p.containers with
    | nil => rfl
    | cons c cs ihc =>
      simp only [List.flatMap_cons, List.map_cons, ihc]

/-- The entries of one uuid, read container by container. -/
theorem GroupDoc.entriesOf_slots (d : GroupDoc) (v : String) :
    d.entriesOf v = d.slots.flatMap (fun s =>
      (s.2.children.filter (fun e => e.uuid == v)).map (fun e => (s.1, s.2, e))) := by
  unfold GroupDoc.entriesOf
  rw [GroupDoc.entries_slots]
  induction d.slots with
  | nil => rfl
  | cons s rest ih =>
    simp only [List.flatMap_cons, List.filter_append, ih]
    congr 1
    rw [List.filter_map]
    rfl

/-- The places of the page after a change of every container. -/
theorem GroupDoc.slots_mapContainers (g : GroupContainer → GroupContainer) (d : GroupDoc) :
    (d.mapContainers g).slots = d.slots.map (fun s => (s.1, g s.2)) := by
  unfold GroupDoc.mapContainers GroupDoc.slots
  simp only
  induction d.parents with
  | nil => rfl
  | cons p rest ih =>
    simp only [List.map_cons, List.flatMap_cons, List.map_append, ih, List.map_map]
    rfl

/-- The containers of the page are those of its places. -/
theorem GroupDoc.containers_slots (d : GroupDoc) :
    d.containers = d.slots.map (fun s => s.2) := by
  unfold GroupDoc.containers GroupDoc.slots
  induction d.parents with
  | nil => rfl
  | cons p rest ih =>
    simp only [List.flatMap_cons, List.map_append, ih, List.map_map]
    congr 1
    exact (List.map_id _).symm

/-- A change of every container that keeps, up to their order, the children
with the uuid `v` keeps the entries of `v`, up to their order, each with its
container changed. -/
theorem GroupDoc.entriesOf_mapContainers_perm (g : GroupContainer → GroupContainer)
    (v : String) (d : GroupDoc)
    (hg : ∀ c, ((g c).children.filter (fun e => e.uuid == v)).Perm
      (c.children.filter (fun e => e.uuid == v))) :
    ((d.mapContainers g).entriesOf v).Perm
      ((d.entriesOf v).map (fun x => (x.1, g x.2.1, x.2.2))) := by
  rw [GroupDoc.entriesOf_slots, GroupDoc.entriesOf_slots, GroupDoc.slots_mapContainers]
  induction d.slots with
  | nil => exact List.Perm.refl _
  | cons s rest ih =>
    simp only [List.map_cons, List.flatMap_cons, List.map_append]
    refine List.Perm.append ?_ ih
    rw [List.map_map]
    exact (hg s.2).map _

/-- The one entry of `v` after such a change. -/
theorem GroupDoc.entriesOf_mapContainers_single (g : GroupContainer → GroupContainer)
    (v : String) (d : GroupDoc) (x : String × GroupContainer × GroupChild)
    (hg : ∀ c, ((g c).children.filter (fun e => e.uuid == v)).Perm
      (c.children.filter (fun e => e.uuid == v)))
    (hx : d.entriesOf v = [x]) :
    (d.mapContainers g).entriesOf v = [(x.1, g x.2.1, x.2.2)] := by
  have h := GroupDoc.entriesOf_mapContainers_perm g v d hg
  rw [hx] at h
  exact List.perm_singleton.mp h

/-- No entry of `v` before such a change, none after it. -/
theorem GroupDoc.entriesOf_mapContainers_nil (g : GroupContainer → GroupContainer)
    (v : String) (d : GroupDoc)
    (hg : ∀ c, ((g c).children.filter (fun e => e.uuid == v)).Perm
      (c.children.filter (fun e => e.uuid == v)))
    (hx : d.entriesOf v = []) :
    (d.mapContainers g).entriesOf v = [] := by
  have h := GroupDoc.entriesOf_mapContainers_perm g v d hg
  rw [hx] at h
  exact List.perm_nil.mp h

/-- The places with a given uuid after a change of every container that keeps
the uuid. -/
theorem GroupDoc.slots_filter_mapContainers (g : GroupContainer → GroupContainer)
    (T : String) (d : GroupDoc) (hg : ∀ c, (g c).uuid = c.uuid) :
    (d.mapContainers g).slots.filter (fun s => s.2.uuid == T)
      = (d.slots.filter (fun s => s.2.uuid == T)).map (fun s => (s.1, g s.2)) := by
  rw [GroupDoc.slots_mapContainers, List.filter_map]
  congr 1
  apply List.filter_congr
  intro s _
  show ((g s.2).uuid == T) = (s.2.uuid == T)
  rw [hg]

/-- An element that is in no container is appended to the one container with
the uuid `T`: it then has one entry, in that container. -/
theorem GroupDoc.entriesOf_append (T S : String) (e : GroupChild) (cT : GroupContainer)
    (d : GroupDoc) (hnil : d.entriesOf e.uuid = [])
    (hT : d.slots.filter (fun s => s.2.uuid == T) = [(S, cT)]) :
    (d.mapContainers (fun c =>
        if c.uuid = T then { c with children := c.children ++ [e] } else c)).entriesOf e.uuid
      = [(S, { cT with children := cT.children ++ [e] }, e)] := by
  rw [GroupDoc.entriesOf_slots] at hnil
  rw [GroupDoc.entriesOf_slots, GroupDoc.slots_mapContainers]
  have hmap : [(S, ({ cT with children := cT.children ++ [e] } : GroupContainer), e)]
      = (d.slots.filter (fun s => s.2.uuid == T)).map
          (fun s => (s.1, ({ s.2 with children := s.2.children ++ [e] } : GroupContainer), e)) := by
    rw [hT]
    rfl
  rw [hmap]
  clear hmap hT
  revert hnil
  generalize d.slots = sl
  induction sl with
  | nil => exact fun _ => rfl
  | cons s rest ih =>
    intro hnil
    simp only [List.flatMap_cons, List.append_eq_nil] at hnil
    simp only [List.map_cons, List.flatMap_cons]
    rw [ih hnil.2]
    have h0 : s.2.children.filter (fun x => x.uuid == e.uuid) = [] := by
      have := hnil.1
      simpa using this
    by_cases hs : s.2.uuid = T
    · rw [List.filter_cons_of_pos (by simpa using hs)]
      simp only [if_pos hs, List.filter_append, h0, List.nil_append, List.map_cons]
      simp
    · rw [List.filter_cons_of_neg (by simpa using hs)]
      simp only [if_neg hs, h0, List.map_nil, List.nil_append]

/-- The entries after the containers of one second-level parent are
filtered. -/
theorem GroupDoc.entries_modifyParent_filter (S : String) (k : GroupContainer → Bool)
    (d : GroupDoc) :
    (d.modifyParent S (fun cs => cs.filter k)).entries
      = d.entries.filter (fun x => (x.1 != S) || k x.2.1) := by
  unfold GroupDoc.modifyParent GroupDoc.entries
  simp only
  induction d.parents with
  | nil => rfl
  | cons p rest ih =>
    simp only [List.map_cons, List.flatMap_cons, List.filter_append, ih]
    congr 1
    unfold GroupParent.entries
    by_cases hp : p.uuid = S
    · rw [if_pos hp]
      simp only
      induction p.containers with
      | nil => rfl
      | cons c cs ihc =>
        simp only [List.flatMap_cons, List.filter_append, ← ihc]
        by_cases hk : k c = true
        · rw [List.filter_cons_of_pos hk, List.flatMap_cons]
          congr 1
          rw [List.filter_map]
          symm
          rw [List.filter_eq_self.mpr]
          intro e _
          simp [hk]
        · rw [List.filter_cons_of_neg hk]
          rw [List.filter_map]
          have : c.children.filter ((fun x : String × GroupContainer × GroupChild =>
              (x.1 != S) || k x.2.1) ∘ fun e => (p.uuid, c, e)) = [] := by
            rw [List.filter_eq_nil_iff]
            intro e _
            simp [hp, hk]
          rw [this]
          rfl
    · rw [if_neg hp]
      symm
      rw [List.filter_eq_self]
      intro x hx
      simp only [List.mem_flatMap, List.mem_map] at hx
      obtain ⟨c, _, e, _, hxe⟩ := hx
      rw [← hxe]
      simp [hp]

/-- What the set of selected elements holds after an insertion. -/
theorem Group.insertElement_mem (e x : GroupChild) (l : List GroupChild)
    (hx : x ∈ Group.insertElement e l) : x = e ∨ x ∈ l := by
  induction l with
  | nil =>
    simp only [Group.insertElement, List.mem_singleton] at hx
    exact Or.inl hx
  | cons b rest ih =>
    unfold Group.insertElement at hx
    split_ifs at hx
    · rcases List.mem_cons.mp hx with h | h
      · exact Or.inl h
      · exact Or.inr h
    · exact Or.inr hx
    · rcases List.mem_cons.mp hx with h | h
      · exact Or.inr (h ▸ List.mem_cons_self _ _)
      · rcases ih h with h1 | h1
        · exact Or.inl h1
        · exact Or.inr (List.mem_cons_of_mem _ h1)

/-- An insertion keeps what the set of selected elements held. -/
theorem Group.insertElement_keeps (e x : GroupChild) (l : List GroupChild) (hx : x ∈ l) :
    x ∈ Group.insertElement e l := by
  induction l with
  | nil => exact absurd hx (List.not_mem_nil x)
  | cons b rest ih =>
    unfold Group.insertElement
    split_ifs
    · exact List.mem_cons_of_mem _ hx
    · exact hx
    · rcases List.mem_cons.mp hx with h | h
      · exact h ▸ List.mem_cons_self _ _
      · exact List.mem_cons_of_mem _ (ih h)

/-- After an insertion the set of selected elements holds an element at the
address of the inserted one. -/
theorem Group.insertElement_addr (e : GroupChild) (l : List GroupChild) :
    ∃ x ∈ Group.insertElement e l, x.addr = e.addr := by
  induction l with
  | nil => exact ⟨e, List.mem_singleton.mpr rfl, rfl⟩
  | cons b rest ih =>
    unfold Group.insertElement
    split_ifs with h1 h2
    · exact ⟨e, List.mem_cons_self _ _, rfl⟩
    · exact ⟨b, List.mem_cons_self _ _, h2.symm⟩
    · obtain ⟨x, hx, hxa⟩ := ih
      exact ⟨x, List.mem_cons_of_mem _ hx, hxa⟩

/-- The set of selected elements stays in strictly increasing order of
address. -/
theorem Group.insertElement_sorted (e : GroupChild) (l : List GroupChild)
    (hl : l.Pairwise (fun a b => a.addr < b.addr)) :
    (Group.insertElement e l).Pairwise (fun a b => a.addr < b.addr) := by
  induction l with
  | nil => exact List.pairwise_singleton _ _
  | cons b rest ih =>
    have hb := List.pairwise_cons.mp hl
    unfold Group.insertElement
    split_ifs with h1 h2
    · refine List.pairwise_cons.mpr ⟨?_, hl⟩
      intro x hx
      rcases List.mem_cons.mp hx with h | h
      · rw [h]
        exact h1
      · exact lt_trans h1 (hb.1 x h)
    · exact hl
    · refine List.pairwise_cons.mpr ⟨?_, ih hb.2⟩
      intro x hx
      rcases Group.insertElement_mem e x rest hx with h | h
      · rw [h]
        omega
      · exact hb.1 x h

/-- The containers the map of parents holds after an update. -/
theorem Group.countParent_mem (par : GroupContainer) (pair : GroupContainer × Nat)
    (l : List (GroupContainer × Nat)) (hx : pair ∈ Group.countParent par l) :
    pair.1 = par ∨ ∃ b ∈ l, b.1 = pair.1 := by
  induction l with
  | nil =>
    simp only [Group.countParent, List.mem_singleton] at hx
    exact Or.inl (by rw [hx])
  | cons b rest ih =>
    unfold Group.countParent at hx
    split_ifs at hx
    · rcases List.mem_cons.mp hx with h | h
      · exact Or.inl (by rw [h])
      · exact Or.inr ⟨pair, h, rfl⟩
    · rcases List.mem_cons.mp hx with h | h
      · exact Or.inr ⟨b, List.mem_cons_self _ _, by rw [h]⟩
      · exact Or.inr ⟨pair, List.mem_cons_of_mem _ h, rfl⟩
    · rcases List.mem_cons.mp hx with h | h
      · exact Or.inr ⟨b, List.mem_cons_self _ _, by rw [h]⟩
      · rcases ih h with h1 | ⟨b1, hb1, hb1e⟩
        · exact Or.inl h1
        · exact Or.inr ⟨b1, List.mem_cons_of_mem _ hb1, hb1e⟩

/-- The map of parents stays in strictly increasing order of address. -/
theorem Group.countParent_sorted (par : GroupContainer) (l : List (GroupContainer × Nat))
    (hl : l.Pairwise (fun a b => a.1.addr < b.1.addr)) :
    (Group.countParent par l).Pairwise (fun a b => a.1.addr < b.1.addr) := by
  induction l with
  | nil => exact List.pairwise_singleton _ _
  | cons b rest ih =>
    have hb := List.pairwise_cons.mp hl
    unfold Group.countParent
    split_ifs with h1 h2
    · refine List.pairwise_cons.mpr ⟨?_, hl⟩
      intro x hx
      rcases List.mem_cons.mp hx with h | h
      · rw [h]
        exact h1
      · exact lt_trans h1 (hb.1 x h)
    · exact List.pairwise_cons.mpr ⟨hb.1, hb.2⟩
    · refine List.pairwise_cons.mpr ⟨?_, ih hb.2⟩
      intro x hx
      rcases Group.countParent_mem par x rest hx with h | ⟨b1, hb1, hb1e⟩
      · rw [h]
        omega
      · rw [← hb1e]
        exact hb.1 b1 hb1

/-- The counts the map of parents holds for one address add up to one more
after an update for a parent at that address, and to the same otherwise. -/
theorem Group.countParent_sum (par : GroupContainer) (a : Nat)
    (l : List (GroupContainer × Nat)) :
    (((Group.countParent par l).filter (fun b => b.1.addr = a)).map (fun b => b.2)).sum
      = ((l.filter (fun b => b.1.addr = a)).map (fun b => b.2)).sum
        + (if par.addr = a then 1 else 0) := by
  induction l with
  | nil =>
    unfold Group.countParent
    by_cases h : par.addr = a
    · simp [h]
    · simp [h]
  | cons b rest ih =>
    unfold Group.countParent
    by_cases h1 : par.addr < b.1.addr
    · rw [if_pos h1]
      by_cases hpa : par.addr = a
      · rw [List.filter_cons_of_pos (by simpa using hpa), if_pos hpa, List.map_cons,
          List.sum_cons]
        omega
      · rw [List.filter_cons_of_neg (by simpa using hpa), if_neg hpa]
        rfl
    · rw [if_neg h1]
      by_cases h2 : par.addr = b.1.addr
      · rw [if_pos h2]
        by_cases hpa : par.addr = a
        · have hb : b.1.addr = a := by rw [← h2, hpa]
          rw [List.filter_cons_of_pos (by simpa using hb),
            List.filter_cons_of_pos (by simpa using hb), if_pos hpa, List.map_cons,
            List.map_cons, List.sum_cons, List.sum_cons]
          omega
        · have hb : ¬ b.1.addr = a := fun hh => hpa (h2.trans hh)
          rw [List.filter_cons_of_neg (by simpa using hb),
            List.filter_cons_of_neg (by simpa using hb), if_neg hpa]
          rfl
      · rw [if_neg h2]
        by_cases hb : b.1.addr = a
        · rw [List.filter_cons_of_pos (by simpa using hb),
            List.filter_cons_of_pos (by simpa using hb), List.map_cons, List.map_cons,
            List.sum_cons, List.sum_cons, ih]
          omega
        · rw [List.filter_cons_of_neg (by simpa using hb),
            List.filter_cons_of_neg (by simpa using hb)]
          exact ih

/-- One round of the first loop of `Group` that goes on: the element is found
and has the class asked for, its second-level parent is the one of the
elements before it, and the parent and the element are entered. -/
theorem Group.collect_cons (d : GroupDoc) (K : ClassId) (id : String) (rest : List String)
    (locals locals1 : Group.Locals)
    (hc : Group.collect d K (id :: rest) locals = some locals1) :
    ∃ f mid, d.find id = some f ∧ f.el.cls = K
      ∧ Group.collect d K rest mid = some locals1
      ∧ mid.parents = Group.countParent f.par locals.parents
      ∧ mid.elements = Group.insertElement f.el locals.elements
      ∧ ((locals.doubleParent = none ∧ mid.doubleParent = some f.doubleParent)
        ∨ ∃ dp, locals.doubleParent = some dp ∧ mid.doubleParent = some dp
            ∧ f.doubleParent.uuid = dp.uuid) := by
  unfold Group.collect at hc
  cases hf : d.find id with
  | none =>
    rw [hf] at hc
    exact absurd hc (by simp)
  | some f =>
    rw [hf] at hc
    simp only at hc
    by_cases hk : f.el.cls = K
    · rw [if_neg (fun hh => hh hk)] at hc
      cases hdp : locals.doubleParent with
      | none =>
        rw [hdp] at hc
        exact ⟨f, _, rfl, hk, hc, rfl, rfl, Or.inl ⟨rfl, rfl⟩⟩
      | some dp =>
        rw [hdp] at hc
        simp only at hc
        by_cases hu : f.doubleParent.uuid = dp.uuid
        · rw [if_neg (fun hh => hh hu)] at hc
          exact ⟨f, _, rfl, hk, hc, rfl, rfl, Or.inr ⟨dp, rfl, rfl, hu⟩⟩
        · rw [if_pos hu] at hc
          exact absurd hc (by simp)
    · rw [if_pos hk] at hc
      exact absurd hc (by simp)

/-- What the first loop of `Group` leaves in its locals: properties that hold
for what a lookup of a selected id finds hold for the elements, the parents
and the second-level parent it has entered. -/
theorem Group.collect_all (d : GroupDoc) (K : ClassId) (A : GroupChild → Prop)
    (B : GroupContainer → Prop) (C : GroupParent → Prop) :
    ∀ (rest : List String) (locals locals1 : Group.Locals),
      (∀ u ∈ rest, ∀ f, d.find u = some f → A f.el ∧ B f.par ∧ C f.doubleParent) →
      Group.collect d K rest locals = some locals1 →
      (∀ e ∈ locals.elements, A e) → (∀ b ∈ locals.parents, B b.1) →
      (∀ dp, locals.doubleParent = some dp → C dp) →
      (∀ e ∈ locals1.elements, A e) ∧ (∀ b ∈ locals1.parents, B b.1)
        ∧ (∀ dp, locals1.doubleParent = some dp → C dp) := by
  intro rest
  induction rest with
  | nil =>
    intro locals locals1 _ hc hA hB hC
    simp only [Group.collect, Option.some.injEq] at hc
    subst hc
    exact ⟨hA, hB, hC⟩
  | cons id rest ih =>
    intro locals locals1 hfind hc hA hB hC
    obtain ⟨f, mid, hf, _, hmid, hpar, hel, hdp⟩ := Group.collect_cons d K id rest _ _ hc
    obtain ⟨hfa, hfb, hfc⟩ := hfind id (List.mem_cons_self _ _) f hf
    refine ih mid locals1 (fun u hu => hfind u (List.mem_cons_of_mem _ hu)) hmid ?_ ?_ ?_
    · intro e he
      rw [hel] at he
      rcases Group.insertElement_mem _ _ _ he with h1 | h1
      · rw [h1]
        exact hfa
      · exact hA e h1
    · intro b hb
      rw [hpar] at hb
      rcases Group.countParent_mem _ _ _ hb with h1 | ⟨b1, hb1, hb1e⟩
      · rw [h1]
        exact hfb
      · rw [← hb1e]
        exact hB b1 hb1
    · intro dp hdp1
      rcases hdp with ⟨_, h2⟩ | ⟨dp0, h1, h2, _⟩
      · rw [h2] at hdp1
        simp only [Option.some.injEq] at hdp1
        rw [← hdp1]
        exact hfc
      · rw [h2] at hdp1
        simp only [Option.some.injEq] at hdp1
        rw [← hdp1]
        exact hC dp0 h1

/-- The first loop of `Group` keeps the set of elements and the map of parents
in strictly increasing order of address, keeps what the set held, and enters
for each id an element at the address of the element found. -/
theorem Group.collect_sorted (d : GroupDoc) (K : ClassId) :
    ∀ (rest : List String) (locals locals1 : Group.Locals),
      Group.collect d K rest locals = some locals1 →
      locals.elements.Pairwise (fun a b => a.addr < b.addr) →
      locals.parents.Pairwise (fun a b => a.1.addr < b.1.addr) →
      locals1.elements.Pairwise (fun a b => a.addr < b.addr)
        ∧ locals1.parents.Pairwise (fun a b => a.1.addr < b.1.addr)
        ∧ (∀ e ∈ locals.elements, e ∈ locals1.elements)
        ∧ (∀ u ∈ rest, ∃ f, d.find u = some f ∧ ∃ x ∈ locals1.elements, x.addr = f.el.addr)
        ∧ (rest ≠ [] ∨ locals.doubleParent ≠ none → locals1.doubleParent ≠ none) := by
  intro rest
  induction rest with
  | nil =>
    intro locals locals1 hc hE hP
    simp only [Group.collect, Option.some.injEq] at hc
    subst hc
    refine ⟨hE, hP, fun e he => he, fun u hu => absurd hu (List.not_mem_nil u), ?_⟩
    intro hh
    rcases hh with hh | hh
    · exact absurd rfl hh
    · exact hh
  | cons id rest ih =>
    intro locals locals1 hc hE hP
    obtain ⟨f, mid, hf, _, hmid, hpar, hel, hdp⟩ := Group.collect_cons d K id rest _ _ hc
    have hE1 : mid.elements.Pairwise (fun a b => a.addr < b.addr) := by
      rw [hel]
      exact Group.insertElement_sorted _ _ hE
    have hP1 : mid.parents.Pairwise (fun a b => a.1.addr < b.1.addr) := by
      rw [hpar]
      exact Group.countParent_sorted _ _ hP
    obtain ⟨r1, r2, r3, r4, r5⟩ := ih mid locals1 hmid hE1 hP1
    refine ⟨r1, r2, ?_, ?_, ?_⟩
    · intro e he
      apply r3
      rw [hel]
      exact Group.insertElement_keeps _ _ _ he
    · intro u hu
      rcases List.mem_cons.mp hu with h1 | h1
      · rw [h1]
        obtain ⟨x, hx, hxa⟩ := Group.insertElement_addr f.el locals.elements
        refine ⟨f, hf, x, r3 x ?_, hxa⟩
        rw [hel]
        exact hx
      · exact r4 u h1
    · intro _
      apply r5
      right
      rcases hdp with ⟨_, h2⟩ | ⟨dp0, _, h2, _⟩
      · rw [h2]
        exact Option.some_ne_none _
      · rw [h2]
        exact Option.some_ne_none _

/-- The counts of the map of parents after the first loop of `Group`: for each
address, the counts entered for it add up to what they were plus the number of
ids whose element has its parent at that address. -/
theorem Group.collect_count (d : GroupDoc) (K : ClassId) (a : Nat) :
    ∀ (rest : List String) (locals locals1 : Group.Locals),
      Group.collect d K rest locals = some locals1 →
      ((locals1.parents.filter (fun b => b.1.addr = a)).map (fun b => b.2)).sum
        = ((locals.parents.filter (fun b => b.1.addr = a)).map (fun b => b.2)).sum
          + (rest.filter (fun u =>
              decide ((d.find u).map (fun f => f.par.addr) = some a))).length := by
  intro rest
  induction rest with
  | nil =>
    intro locals locals1 hc
    simp only [Group.collect, Option.some.injEq] at hc
    subst hc
    rfl
  | cons id rest ih =>
    intro locals locals1 hc
    obtain ⟨f, mid, hf, _, hmid, hpar, _, _⟩ := Group.collect_cons d K id rest _ _ hc
    rw [ih mid locals1 hmid, hpar, Group.countParent_sum]
    by_cases ha : f.par.addr = a
    · rw [if_pos ha, List.filter_cons_of_pos (by simp [hf, ha]), List.length_cons]
      omega
    · rw [if_neg ha, List.filter_cons_of_neg (by simp [hf, ha])]
      omega

/-- A list in which no value of `f` is taken twice. -/
theorem nodup_map_of_filter_le_one {α β : Type} [DecidableEq β] (f : α → β) (l : List α)
    (h : ∀ b, (l.filter (fun x => f x == b)).length ≤ 1) : (l.map f).Nodup := by
  induction l with
  | nil => exact List.nodup_nil
  | cons a t ih =>
    rw [List.map_cons, List.nodup_cons]
    constructor
    · intro hmem
      obtain ⟨x, hx, hfx⟩ := List.mem_map.mp hmem
      have h1 := h (f a)
      rw [List.filter_cons_of_pos (by simp), List.length_cons] at h1
      have h2 : 0 < (t.filter (fun x => f x == f a)).length := by
        apply List.length_pos_of_mem
        exact List.mem_filter.mpr ⟨hx, by simpa using hfx⟩
      omega
    · apply ih
      intro b
      refine le_trans ?_ (h b)
      exact (List.Sublist.filter _ (List.sublist_cons_self a t)).length_le

/-- The children of a container with the uuid `v` are no more than the
entries of `v`. -/
theorem GroupDoc.filter_children_le (d : GroupDoc) (v : String) (c : GroupContainer)
    (hc : c ∈ d.containers) :
    (c.children.filter (fun e => e.uuid == v)).length ≤ (d.entriesOf v).length := by
  rw [GroupDoc.containers_slots] at hc
  obtain ⟨s, hs, hsc⟩ := List.mem_map.mp hc
  rw [GroupDoc.entriesOf_slots]
  obtain ⟨l1, l2, hl⟩ := List.append_of_mem hs
  rw [hl, List.flatMap_append, List.flatMap_cons, List.length_append, List.length_append,
    List.length_map, hsc]
  omega

/-- A child of a container of the page whose uuid has one entry is the element
of that entry, and the container is its container. -/
theorem GroupDoc.entry_of_child (d : GroupDoc) (c : GroupContainer) (e : GroupChild)
    (x : String × GroupContainer × GroupChild)
    (hc : c ∈ d.containers) (he : e ∈ c.children) (hx : d.entriesOf e.uuid = [x]) :
    x.2.1 = c ∧ x.2.2 = e := by
  rw [GroupDoc.containers_slots] at hc
  obtain ⟨s, hs, hsc⟩ := List.mem_map.mp hc
  have hmem : (s.1, c, e) ∈ d.entriesOf e.uuid := by
    rw [GroupDoc.entriesOf_slots]
    refine List.mem_flatMap.mpr ⟨s, hs, ?_⟩
    rw [hsc]
    exact List.mem_map.mpr ⟨e, List.mem_filter.mpr ⟨he, by simp⟩, rfl⟩
  rw [hx, List.mem_singleton] at hmem
  rw [← hmem]
  exact ⟨rfl, rfl⟩

/-- A list in strictly increasing order of a key holds at most one entry for
each key. -/
theorem filter_key_of_sorted (l : List (GroupContainer × Nat)) (a : Nat)
    (hl : l.Pairwise (fun x y => x.1.addr < y.1.addr)) :
    l.filter (fun b => b.1.addr = a) = []
      ∨ ∃ b, l.filter (fun b => b.1.addr = a) = [b] := by
  have hsub : (l.filter (fun b => decide (b.1.addr = a))).Sublist l := List.filter_sublist _
  have hp := hl.sublist hsub
  cases hf : l.filter (fun b => decide (b.1.addr = a)) with
  | nil => exact Or.inl rfl
  | cons x t =>
    cases t with
    | nil => exact Or.inr ⟨x, rfl⟩
    | cons y t2 =>
      exfalso
      rw [hf] at hp
      have hxy := (List.pairwise_cons.mp hp).1 y (List.mem_cons_self _ _)
      have hx : x ∈ l.filter (fun b => decide (b.1.addr = a)) := by
        rw [hf]
        exact List.mem_cons_self _ _
      have hy : y ∈ l.filter (fun b => decide (b.1.addr = a)) := by
        rw [hf]
        exact List.mem_cons_of_mem _ (List.mem_cons_self _ _)
      have hx1 := (List.mem_filter.mp hx).2
      have hy1 := (List.mem_filter.mp hy).2
      simp only [decide_eq_true_eq] at hx1 hy1
      omega

/-- A container all of whose children are selected is found full by the second
loop of `Group`: when the ids are distinct, each of them has one entry, the
containers have distinct addresses, and a container that is no syllable, has
children and has relinquished none has all its children among the ids, the
list of full parents is not empty. -/
theorem Group.fullParents_ne_nil (d : GroupDoc) (K : ClassId) (ids : List String)
    (locals : Group.Locals) (el : String → GroupChild) (S : String) (c : GroupContainer)
    (hc : Group.collect d K ids { doubleParent := none, parents := [], elements := [] }
      = some locals)
    (hnd : ids.Nodup)
    (hca : (d.containers.map (fun c => c.addr)).Nodup)
    (hsel : ∀ u ∈ ids, ∃ c1, d.entriesOf u = [(S, c1, el u)])
    (hcin : c ∈ d.containers) (hcls : c.cls ≠ ClassId.SYLLABLE) (hch : c.children ≠ [])
    (hrel : c.relinquished = []) (hall : ∀ e ∈ c.children, e.uuid ∈ ids) :
    Group.fullParents locals.parents ≠ [] := by
  have hinj : ∀ c1 ∈ d.containers, ∀ c2 ∈ d.containers, c1.addr = c2.addr → c1 = c2 :=
    fun c1 h1 c2 h2 he => List.inj_on_of_nodup_map hca h1 h2 he
  have hcount := Group.collect_count d K c.addr ids _ locals hc
  simp only [List.filter_nil, List.map_nil, List.sum_nil, zero_add] at hcount
  have hperm : (ids.filter (fun u =>
      decide ((d.find u).map (fun f => f.par.addr) = some c.addr))).Perm
      (c.children.map (fun e => e.uuid)) := by
    apply (List.perm_ext_iff_of_nodup (hnd.filter _) ?_).mpr
    · intro u
      constructor
      · intro hu
        obtain ⟨_, hu2⟩ := List.mem_filter.mp hu
        simp only [decide_eq_true_eq] at hu2
        cases hf : d.find u with
        | none =>
          rw [hf] at hu2
          simp at hu2
        | some f =>
          rw [hf] at hu2
          simp only [Option.map_some', Option.some.injEq] at hu2
          obtain ⟨h1, h2, h3, h4⟩ := GroupDoc.find_some d u f hf
          have hfc : f.par ∈ d.containers := List.mem_flatMap.mpr ⟨_, h1, h2⟩
          have hpc := hinj _ hfc _ hcin hu2
          rw [← hpc]
          exact List.mem_map.mpr ⟨f.el, h3, h4⟩
      · intro hu
        obtain ⟨e, he, heu⟩ := List.mem_map.mp hu
        have hin : u ∈ ids := heu ▸ hall e he
        obtain ⟨c1, hc1⟩ := hsel u hin
        refine List.mem_filter.mpr ⟨hin, ?_⟩
        obtain ⟨f, hf, _, hfpar, _⟩ := GroupDoc.find_of_entriesOf d u _ hc1
        have hc2 : d.entriesOf e.uuid = [(S, c1, el u)] := by
          rw [heu]
          exact hc1
        have h5 := (GroupDoc.entry_of_child d c e _ hcin he hc2).1
        have hfpar1 : f.par = c1 := hfpar
        have h6 : c1 = c := h5
        rw [hf]
        simp [hfpar1, h6]
    · apply nodup_map_of_filter_le_one
      intro b
      by_cases hb : ∃ e ∈ c.children, e.uuid = b
      · obtain ⟨e, he, heb⟩ := hb
        obtain ⟨c1, hc1⟩ := hsel b (heb ▸ hall e he)
        have h7 := GroupDoc.filter_children_le d b c hcin
        rw [hc1] at h7
        exact h7
      · have h8 : c.children.filter (fun e => e.uuid == b) = [] := by
          rw [List.filter_eq_nil_iff]
          intro e he hh
          exact hb ⟨e, he, by simpa using hh⟩
        rw [h8]
        exact Nat.zero_le _
  have hN := hperm.length_eq
  rw [List.length_map] at hN
  have hpos : 0 < c.children.length := List.length_pos.mpr hch
  obtain ⟨_, r2, _, _, _⟩ := Group.collect_sorted d K ids _ locals hc List.Pairwise.nil
    List.Pairwise.nil
  rcases filter_key_of_sorted locals.parents c.addr r2 with h0 | ⟨b, hb⟩
  · rw [h0] at hcount
    simp only [List.map_nil, List.sum_nil] at hcount
    omega
  · rw [hb] at hcount
    simp only [List.map_cons, List.map_nil, List.sum_cons, List.sum_nil, add_zero] at hcount
    have hbmem : b ∈ locals.parents.filter (fun b => decide (b.1.addr = c.addr)) := by
      rw [hb]
      exact List.mem_singleton.mpr rfl
    obtain ⟨hb1, hb2⟩ := List.mem_filter.mp hbmem
    simp only [decide_eq_true_eq] at hb2
    have hB := (Group.collect_all d K (fun _ => True) (fun c1 => c1 ∈ d.containers)
      (fun _ => True) ids _ locals
      (fun u _ f hf => ⟨trivial,
        List.mem_flatMap.mpr ⟨_, (GroupDoc.find_some d u f hf).1,
          (GroupDoc.find_some d u f hf).2.1⟩, trivial⟩)
      hc (fun e he => absurd he (List.not_mem_nil e))
      (fun b hb => absurd hb (List.not_mem_nil b)) (fun _ _ => trivial)).2.1 b hb1
    have hbc : b.1 = c := hinj _ hB _ hcin hb2
    intro hnil
    have hfull : b.1 ∈ Group.fullParents locals.parents := by
      unfold Group.fullParents
      refine List.mem_map.mpr ⟨b, List.mem_filter.mpr ⟨hb1, ?_⟩, rfl⟩
      simp only [hbc, if_neg hcls, GroupContainer.GetChildCount, hrel, List.length_nil,
        add_zero, beq_iff_eq]
      omega
    rw [hnil] at hfull
    exact absurd hfull (List.not_mem_nil _)

/-- What an entry of a uuid is. -/
theorem GroupDoc.mem_entriesOf (d : GroupDoc) (v : String)
    (x : String × GroupContainer × GroupChild) :
    x ∈ d.entriesOf v ↔ x ∈ d.entries ∧ x.2.2.uuid = v := by
  unfold GroupDoc.entriesOf
  rw [List.mem_filter]
  simp

/-- The uuids and classes of the second-level parents after a change of every
container. -/
theorem GroupDoc.parents_key_mapContainers (g : GroupContainer → GroupContainer)
    (d : GroupDoc) :
    (d.mapContainers g).parents.map (fun p => (p.uuid, p.cls))
      = d.parents.map (fun p => (p.uuid, p.cls)) := by
  unfold GroupDoc.mapContainers
  simp only [List.map_map]
  rfl

/-- The uuids and classes of the second-level parents after a change of the
containers of one of them. -/
theorem GroupDoc.parents_key_modifyParent (S : String)
    (f : List GroupContainer → List GroupContainer) (d : GroupDoc) :
    (d.modifyParent S f).parents.map (fun p => (p.uuid, p.cls))
      = d.parents.map (fun p => (p.uuid, p.cls)) := by
  unfold GroupDoc.modifyParent
  simp only [List.map_map]
  apply List.map_congr_left
  intro p _
  show ((if p.uuid = S then _ else p).uuid, (if p.uuid = S then _ else p).cls) = _
  split_ifs <;> rfl

/-- The uuids of the second-level parents, read from their uuids and
classes. -/
theorem GroupDoc.parents_uuid_of_key (d d1 : GroupDoc)
    (hk : d1.parents.map (fun p => (p.uuid, p.cls)) = d.parents.map (fun p => (p.uuid, p.cls))) :
    d1.parents.map (fun p => p.uuid) = d.parents.map (fun p => p.uuid) := by
  have h := congrArg (List.map (fun k : String × ClassId => k.1)) hk
  simpa only [List.map_map] using h

/-- The class of the second-level parent with a given uuid, read from the
uuids and classes. -/
theorem GroupDoc.parents_cls_of_key (d d1 : GroupDoc) (S : String) (DK : ClassId)
    (hk : d1.parents.map (fun p => (p.uuid, p.cls)) = d.parents.map (fun p => (p.uuid, p.cls)))
    (hS : ∀ p ∈ d.parents, p.uuid = S → p.cls = DK) :
    ∀ p ∈ d1.parents, p.uuid = S → p.cls = DK := by
  intro p hp hu
  have h1 : (p.uuid, p.cls) ∈ d1.parents.map (fun p => (p.uuid, p.cls)) :=
    List.mem_map.mpr ⟨p, hp, rfl⟩
  rw [hk] at h1
  obtain ⟨q, hq, hqe⟩ := List.mem_map.mp h1
  simp only [Prod.mk.injEq] at hqe
  rw [← hqe.2]
  exact hS q hq (hqe.1.trans hu)

/-- The entries of `v` after every container has relinquished the element with
the uuid `u`: none when there were none or when `v` is `u`. -/
theorem GroupDoc.entriesOf_Relinquish_nil (d : GroupDoc) (u v : String)
    (h : d.entriesOf v = [] ∨ v = u) :
    (d.mapContainers (fun c => c.Relinquish u)).entriesOf v = [] := by
  rw [GroupDoc.entriesOf_mapContainers (fun c => c.Relinquish u) (fun e => e.uuid != u)
    (fun c => rfl) d v]
  rcases h with h | h
  · rw [h]
    rfl
  · rw [List.map_eq_nil_iff, List.filter_eq_nil_iff]
    intro x hx
    have hxu := ((GroupDoc.mem_entriesOf d v x).mp hx).2
    rw [hxu, h]
    simp

/-- The loop that moves the selected elements into a new container, for
elements none of which is a syl: the container receives them in their order,
the second-level parents keep uuid and class, the containers of the page keep
their uuids, and no container of the page holds a moved element any more. -/
theorem Group.moveInto_spec (es : List GroupChild) (hsyl : ∀ e ∈ es, e.cls ≠ ClassId.SYL) :
    ∀ (d : GroupDoc) (t : GroupContainer),
      (Group.moveInto d t es).2 = { t with children := t.children ++ es }
      ∧ (Group.moveInto d t es).1.parents.map (fun p => (p.uuid, p.cls))
          = d.parents.map (fun p => (p.uuid, p.cls))
      ∧ (Group.moveInto d t es).1.freshUuids = d.freshUuids
      ∧ (Group.moveInto d t es).1.containers.map (fun c => c.uuid)
          = d.containers.map (fun c => c.uuid)
      ∧ (∀ v, (d.entriesOf v = [] ∨ ∃ e ∈ es, e.uuid = v) →
          (Group.moveInto d t es).1.entriesOf v = []) := by
  induction es with
  | nil =>
    intro d t
    refine ⟨?_, rfl, rfl, rfl, ?_⟩
    · show t = { t with children := t.children ++ [] }
      rw [List.append_nil]
    · intro v hv
      rcases hv with hv | ⟨e, he, _⟩
      · exact hv
      · exact absurd he (List.not_mem_nil e)
  | cons e rest ih =>
    intro d t
    have hstep : Group.moveInto d t (e :: rest)
        = Group.moveInto (d.mapContainers (fun c => c.Relinquish e.uuid))
            { t with children := t.children ++ [e] } rest := by
      unfold Group.moveInto
      rw [List.foldl_cons, if_pos (hsyl e (List.mem_cons_self _ _))]
    obtain ⟨r1, r2, r3, r4, r5⟩ := ih (fun x hx => hsyl x (List.mem_cons_of_mem _ hx))
      (d.mapContainers (fun c => c.Relinquish e.uuid)) { t with children := t.children ++ [e] }
    rw [hstep]
    refine ⟨?_, ?_, ?_, ?_, ?_⟩
    · rw [r1]
      show ({ t with children := (t.children ++ [e]) ++ rest } : GroupContainer) = _
      rw [List.append_assoc]
      rfl
    · rw [r2, GroupDoc.parents_key_mapContainers]
    · rw [r3]
      rfl
    · rw [r4, GroupDoc.containers_mapContainers, List.map_map]
      rfl
    · intro v hv
      apply r5
      rcases hv with hv | ⟨x, hx, hxv⟩
      · exact Or.inl (GroupDoc.entriesOf_Relinquish_nil d e.uuid v (Or.inl hv))
      · rcases List.mem_cons.mp hx with h1 | h1
        · exact Or.inl (GroupDoc.entriesOf_Relinquish_nil d e.uuid v
            (Or.inr (by rw [← hxv, h1])))
        · exact Or.inr ⟨x, h1, hxv⟩

/-- An element that is in no container of the page and is the one child with
its uuid of a new container has, once the new container has joined a
second-level parent, one entry, in the new container. -/
theorem GroupDoc.entriesOf_new_container (R : List GroupContainer → List GroupContainer)
    (hR : ∀ l, (R l).Perm l) (S : String) (n : GroupContainer) (d : GroupDoc)
    (hnodup : (d.parents.map (fun p => p.uuid)).Nodup)
    (hS : S ∈ d.parents.map (fun p => p.uuid)) (u : String) (e : GroupChild)
    (hnil : d.entriesOf u = [])
    (hn : n.children.filter (fun x => x.uuid == u) = [e]) :
    (d.modifyParent S (fun cs => R (cs ++ [n]))).entriesOf u = [(S, n, e)] := by
  have h3 := GroupDoc.entries_modifyParent R hR S n d hnodup hS
  have h4 := h3.filter (fun x => x.2.2.uuid == u)
  rw [List.filter_append] at h4
  have e1 : d.entries.filter (fun x => x.2.2.uuid == u) = [] := hnil
  have e2 : (n.children.map (fun e => (S, n, e))).filter (fun x => x.2.2.uuid == u)
      = [(S, n, e)] := by
    rw [List.filter_map]
    have : ((fun x : String × GroupContainer × GroupChild => x.2.2.uuid == u)
        ∘ fun e => (S, n, e)) = (fun x : GroupChild => x.uuid == u) := rfl
    rw [this, hn]
    rfl
  rw [e1, e2, List.nil_append] at h4
  exact List.perm_singleton.mp h4

/-- In a list of elements with distinct uuids, the elements with the uuid of
one of them are that one. -/
theorem filter_uuid_of_pairwise (es : List GroupChild)
    (hpw : es.Pairwise (fun a b => a.uuid ≠ b.uuid)) (e : GroupChild) (he : e ∈ es) :
    es.filter (fun x => x.uuid == e.uuid) = [e] := by
  induction es with
  | nil => exact absurd he (List.not_mem_nil e)
  | cons a rest ih =>
    have hp := List.pairwise_cons.mp hpw
    rcases List.mem_cons.mp he with h1 | h1
    · subst h1
      rw [List.filter_cons_of_pos (by simp)]
      congr 1
      rw [List.filter_eq_nil_iff]
      intro x hx hh
      have hxa : x.uuid = e.uuid := by simpa using hh
      exact hp.1 x hx hxa.symm
    · rw [List.filter_cons_of_neg (by
        have := hp.1 e h1
        simpa using this)]
      exact ih hp.2 h1

/-- One round of the loop that moves the selected elements into a container
of the tree.  The page has one container with the uuid `T`, below `S` and of
class `CK`; each selected id has one entry, below `S` in a container of class
`CK`.  After the round this is still so, the ids that were in the container
`T` are still there, and the element of the round is there too. -/
theorem Group.moveTo_round (el : String → GroupChild) (S T : String) (CK : ClassId)
    (ids : List String) (D : String → Prop) (e : GroupChild) (d : GroupDoc)
    (hsyl : e.cls ≠ ClassId.SYL) (hin : e.uuid ∈ ids) (hel : e = el e.uuid)
    (hT : ∃ cT, d.slots.filter (fun s => s.2.uuid == T) = [(S, cT)] ∧ cT.cls = CK)
    (hsel : ∀ u ∈ ids, ∃ c, d.entriesOf u = [(S, c, el u)] ∧ c.cls = CK
      ∧ (D u → c.uuid = T)) :
    (∃ cT, (Group.moveTo d T [e]).slots.filter (fun s => s.2.uuid == T) = [(S, cT)]
        ∧ cT.cls = CK)
    ∧ (∀ u ∈ ids, ∃ c, (Group.moveTo d T [e]).entriesOf u = [(S, c, el u)] ∧ c.cls = CK
        ∧ (D u ∨ u = e.uuid → c.uuid = T))
    ∧ (Group.moveTo d T [e]).parents.map (fun p => (p.uuid, p.cls))
        = d.parents.map (fun p => (p.uuid, p.cls))
    ∧ (Group.moveTo d T [e]).freshUuids = d.freshUuids := by
  obtain ⟨cT, hcT, hcTK⟩ := hT
  obtain ⟨c0, hc0, hc0K, _⟩ := hsel e.uuid hin
  obtain ⟨f, hf, _, hfpar, _⟩ := GroupDoc.find_of_entriesOf d e.uuid _ hc0
  have hfpar1 : f.par = c0 := hfpar
  have hpo : d.parentOf e.uuid = some c0.uuid := by
    unfold GroupDoc.parentOf
    rw [hf, Option.map_some', hfpar1]
  by_cases hfire : c0.uuid = T
  · have hstep : Group.moveTo d T [e] = d := by
      unfold Group.moveTo
      rw [List.foldl_cons, List.foldl_nil, if_neg]
      rw [hpo, hfire]
      exact fun hh => hh.1 rfl
    rw [hstep]
    refine ⟨⟨cT, hcT, hcTK⟩, ?_, rfl, rfl⟩
    intro u hu
    obtain ⟨c, hc, hcK, hcD⟩ := hsel u hu
    refine ⟨c, hc, hcK, ?_⟩
    intro hh
    rcases hh with hh | hh
    · exact hcD hh
    · rw [hh, hc0] at hc
      simp only [List.cons.injEq, Prod.mk.injEq, and_true, true_and] at hc
      rw [← hc]
      exact hfire
  · have hstep : Group.moveTo d T [e]
        = (d.mapContainers (fun c => c.Relinquish e.uuid)).mapContainers
            (fun c => if c.uuid = T then { c with children := c.children ++ [e] } else c) := by
      unfold Group.moveTo
      rw [List.foldl_cons, List.foldl_nil, if_pos]
      rw [hpo]
      exact ⟨fun hh => hfire (Option.some.inj hh), hsyl⟩
    rw [hstep]
    have hslot1 := GroupDoc.slots_filter_mapContainers (fun c => c.Relinquish e.uuid) T d
      (fun c => rfl)
    rw [hcT] at hslot1
    have hslot2 := GroupDoc.slots_filter_mapContainers
      (fun c => if c.uuid = T then { c with children := c.children ++ [e] } else c) T
      (d.mapContainers (fun c => c.Relinquish e.uuid))
      (fun c => by
        show (if c.uuid = T then _ else c).uuid = c.uuid
        split_ifs <;> rfl)
    rw [hslot1] at hslot2
    have hcTu : cT.uuid = T := by
      have hm : (S, cT) ∈ d.slots.filter (fun s => s.2.uuid == T) := by
        rw [hcT]
        exact List.mem_singleton.mpr rfl
      simpa using (List.mem_filter.mp hm).2
    refine ⟨⟨_, hslot2, ?_⟩, ?_, ?_, rfl⟩
    · show (if (cT.Relinquish e.uuid).uuid = T then _ else cT.Relinquish e.uuid).cls = CK
      split_ifs
      · exact hcTK
      · exact hcTK
    · intro u hu
      by_cases hue : u = e.uuid
      · have hnil := GroupDoc.entriesOf_Relinquish_nil d e.uuid e.uuid (Or.inr rfl)
        have happ := GroupDoc.entriesOf_append T S e (cT.Relinquish e.uuid)
          (d.mapContainers (fun c => c.Relinquish e.uuid)) hnil hslot1
        rw [hue, happ, ← hel]
        exact ⟨_, rfl, hcTK, fun _ => hcTu⟩
      · obtain ⟨c, hc, hcK, hcD⟩ := hsel u hu
        have h1 := GroupDoc.entriesOf_mapContainers_single (fun c => c.Relinquish e.uuid) u d _
          (fun c => by
            show ((c.children.filter (fun x => x.uuid != e.uuid)).filter
              (fun x => x.uuid == u)).Perm _
            rw [List.filter_filter]
            apply List.Perm.of_eq
            apply List.filter_congr
            intro x _
            by_cases hxu : x.uuid = u
            · simp [hxu, hue]
            · simp [hxu])
          hc
        have h2 := GroupDoc.entriesOf_mapContainers_single
          (fun c => if c.uuid = T then { c with children := c.children ++ [e] } else c) u
          (d.mapContainers (fun c => c.Relinquish e.uuid)) _
          (fun c => by
            apply List.Perm.of_eq
            show (if c.uuid = T then ({ c with children := c.children ++ [e] } : GroupContainer)
              else c).children.filter (fun x => x.uuid == u) = _
            split_ifs
            · show (c.children ++ [e]).filter (fun x => x.uuid == u) = _
              rw [List.filter_append, List.filter_cons_of_neg (by
                simpa using fun hh : e.uuid = u => hue hh.symm)]
              simp
            · rfl)
          h1
        rw [h2]
        refine ⟨_, rfl, ?_, ?_⟩
        · show (if (c.Relinquish e.uuid).uuid = T then _ else c.Relinquish e.uuid).cls = CK
          split_ifs
          · exact hcK
          · exact hcK
        · intro hh
          rcases hh with hh | hh
          · show (if (c.Relinquish e.uuid).uuid = T then _ else c.Relinquish e.uuid).uuid = T
            split_ifs
            · exact hcD hh
            · exact hcD hh
          · exact absurd hh hue
    · rw [GroupDoc.parents_key_mapContainers, GroupDoc.parents_key_mapContainers]

/-- The loop that moves the selected elements into a container of the tree,
for elements that are selected and no syls.  The page has one container with
the uuid `T`, below `S` and of class `CK`; each selected id has one entry, below
`S` in a container of class `CK`.  After the loop this is still so, the ids that
were in the container `T` are still there, and the elements of the loop are
there too. -/
theorem Group.moveTo_spec (el : String → GroupChild) (S T : String) (CK : ClassId)
    (ids : List String) :
    ∀ (es : List GroupChild) (D : String → Prop) (d : GroupDoc),
      (∀ e ∈ es, e.cls ≠ ClassId.SYL ∧ e.uuid ∈ ids ∧ e = el e.uuid) →
      (∃ cT, d.slots.filter (fun s => s.2.uuid == T) = [(S, cT)] ∧ cT.cls = CK) →
      (∀ u ∈ ids, ∃ c, d.entriesOf u = [(S, c, el u)] ∧ c.cls = CK ∧ (D u → c.uuid = T)) →
      (∃ cT, (Group.moveTo d T es).slots.filter (fun s => s.2.uuid == T) = [(S, cT)]
          ∧ cT.cls = CK)
      ∧ (∀ u ∈ ids, ∃ c, (Group.moveTo d T es).entriesOf u = [(S, c, el u)] ∧ c.cls = CK
          ∧ (D u ∨ (∃ e ∈ es, e.uuid = u) → c.uuid = T))
      ∧ (Group.moveTo d T es).parents.map (fun p => (p.uuid, p.cls))
          = d.parents.map (fun p => (p.uuid, p.cls))
      ∧ (Group.moveTo d T es).freshUuids = d.freshUuids := by
  intro es
  induction es with
  | nil =>
    intro D d _ hT hsel
    refine ⟨hT, ?_, rfl, rfl⟩
    intro u hu
    obtain ⟨c, hc, hcK, hcD⟩ := hsel u hu
    refine ⟨c, hc, hcK, ?_⟩
    intro hh
    rcases hh with hh | ⟨e, he, _⟩
    · exact hcD hh
    · exact absurd he (List.not_mem_nil e)
  | cons e rest ih =>
    intro D d hes hT hsel
    have hstep : Group.moveTo d T (e :: rest) = Group.moveTo (Group.moveTo d T [e]) T rest := by
      unfold Group.moveTo
      rw [List.foldl_cons, List.foldl_cons, List.foldl_nil]
    obtain ⟨he1, he2, he3⟩ := hes e (List.mem_cons_self _ _)
    obtain ⟨r1, r2, r3, r4⟩ := Group.moveTo_round el S T CK ids D e d he1 he2 he3 hT hsel
    obtain ⟨q1, q2, q3, q4⟩ := ih (fun u => D u ∨ u = e.uuid) (Group.moveTo d T [e])
      (fun x hx => hes x (List.mem_cons_of_mem _ hx)) r1 r2
    rw [hstep]
    refine ⟨q1, ?_, q3.trans r3, q4.trans r4⟩
    intro u hu
    obtain ⟨c, hc, hcK, hcD⟩ := q2 u hu
    refine ⟨c, hc, hcK, ?_⟩
    intro hh
    apply hcD
    rcases hh with hh | ⟨x, hx, hxu⟩
    · exact Or.inl (Or.inl hh)
    · rcases List.mem_cons.mp hx with h1 | h1
      · exact Or.inl (Or.inr (by rw [← hxu, h1]))
      · exact Or.inr ⟨x, h1, hxu⟩

/-- The containers that are left when the containers of one second-level
parent are filtered were containers of the page. -/
theorem GroupDoc.containers_modifyParent_filter (S : String) (k : GroupContainer → Bool)
    (d : GroupDoc) (c : GroupContainer)
    (hc : c ∈ (d.modifyParent S (fun cs => cs.filter k)).containers) : c ∈ d.containers := by
  unfold GroupDoc.modifyParent GroupDoc.containers at hc
  unfold GroupDoc.containers
  simp only [List.mem_flatMap, List.mem_map] at hc ⊢
  obtain ⟨p1, ⟨p, hp, hp1⟩, hc1⟩ := hc
  refine ⟨p, hp, ?_⟩
  rw [← hp1] at hc1
  split_ifs at hc1
  · exact (List.mem_filter.mp hc1).1
  · exact hc1

/-- The last loop of `Group` keeps a container that holds a child that is no
syl: when every container with the uuid `T` holds such a child, this is still
so after the loop, an id whose one entry is in a container with the uuid `T`
has its one entry in such a container still, and the second-level parents and
the supply of names are as before. -/
theorem Group.cleanup_spec (T : String) (dp : GroupParent) :
    ∀ (ps : List (GroupContainer × Nat)) (d : GroupDoc),
      (∀ c ∈ d.containers, c.uuid = T → ∃ e ∈ c.children, e.cls ≠ ClassId.SYL) →
      (∀ c ∈ (Group.cleanup d dp ps).containers, c.uuid = T →
          ∃ e ∈ c.children, e.cls ≠ ClassId.SYL)
      ∧ (∀ u s c e, d.entriesOf u = [(s, c, e)] → c.uuid = T →
          ∃ c1, (Group.cleanup d dp ps).entriesOf u = [(s, c1, e)] ∧ c1.uuid = T
            ∧ c1.cls = c.cls)
      ∧ (Group.cleanup d dp ps).parents.map (fun p => (p.uuid, p.cls))
          = d.parents.map (fun p => (p.uuid, p.cls))
      ∧ (Group.cleanup d dp ps).freshUuids = d.freshUuids := by
  intro ps
  induction ps with
  | nil =>
    intro d hI
    exact ⟨hI, fun u s c e hx hc => ⟨c, hx, hc, rfl⟩, rfl, rfl⟩
  | cons pair rest ih =>
    intro d hI
    have hg : ∀ c : GroupContainer,
        (if c.uuid = pair.1.uuid then ({ c with relinquished := [] } : GroupContainer) else c).uuid
            = c.uuid
        ∧ (if c.uuid = pair.1.uuid then ({ c with relinquished := [] } : GroupContainer)
            else c).cls = c.cls
        ∧ (if c.uuid = pair.1.uuid then ({ c with relinquished := [] } : GroupContainer)
            else c).children = c.children := by
      intro c
      split_ifs
      · exact ⟨rfl, rfl, rfl⟩
      · exact ⟨rfl, rfl, rfl⟩
    have hI1 : ∀ c ∈ (d.mapContainers (fun c =>
        if c.uuid = pair.1.uuid then { c with relinquished := [] } else c)).containers,
        c.uuid = T → ∃ e ∈ c.children, e.cls ≠ ClassId.SYL := by
      intro c hc hcT
      rw [GroupDoc.containers_mapContainers] at hc
      obtain ⟨c0, hc0, hc0e⟩ := List.mem_map.mp hc
      rw [← hc0e] at hcT ⊢
      rw [(hg c0).1] at hcT
      rw [(hg c0).2.2]
      exact hI c0 hc0 hcT
    have hE1 : ∀ u s c e, d.entriesOf u = [(s, c, e)] → c.uuid = T →
        ∃ c1, (d.mapContainers (fun c =>
          if c.uuid = pair.1.uuid then { c with relinquished := [] } else c)).entriesOf u
            = [(s, c1, e)] ∧ c1.uuid = T ∧ c1.cls = c.cls := by
      intro u s c e hx hcT
      have h1 := GroupDoc.entriesOf_mapContainers_single (fun c =>
        if c.uuid = pair.1.uuid then { c with relinquished := [] } else c) u d _
        (fun c => by rw [(hg c).2.2]) hx
      exact ⟨_, h1, (hg c).1.trans hcT, (hg c).2.1⟩
    have hstep : Group.cleanup d dp (pair :: rest)
        = Group.cleanup
            (match (d.mapContainers (fun c =>
                if c.uuid = pair.1.uuid then { c with relinquished := [] } else c)).container
                pair.1.uuid with
              | none => d.mapContainers (fun c =>
                  if c.uuid = pair.1.uuid then { c with relinquished := [] } else c)
              | some obj =>
                if obj.GetChildCount = 0
                    ∨ obj.GetChildCount = obj.GetChildCountOf ClassId.SYL then
                  (d.mapContainers (fun c =>
                    if c.uuid = pair.1.uuid then { c with relinquished := [] }
                    else c)).modifyParent dp.uuid
                    (fun cs => cs.filter (fun c => c.uuid != obj.uuid))
                else d.mapContainers (fun c =>
                  if c.uuid = pair.1.uuid then { c with relinquished := [] } else c))
            dp rest := by
      unfold Group.cleanup
      rw [List.foldl_cons]
    rw [hstep]
    generalize hd1 : d.mapContainers (fun c =>
      if c.uuid = pair.1.uuid then { c with relinquished := [] } else c) = d1 at hI1 hE1 ⊢
    have hk1 : d1.parents.map (fun p => (p.uuid, p.cls))
        = d.parents.map (fun p => (p.uuid, p.cls)) := by
      rw [← hd1, GroupDoc.parents_key_mapContainers]
    have hf1 : d1.freshUuids = d.freshUuids := by
      rw [← hd1]
      rfl
    have hkeep : ∀ d2, (∀ c ∈ d2.containers, c.uuid = T → ∃ e ∈ c.children, e.cls ≠ ClassId.SYL) →
        (∀ u s c e, d1.entriesOf u = [(s, c, e)] → c.uuid = T →
          d2.entriesOf u = [(s, c, e)]) →
        d2.parents.map (fun p => (p.uuid, p.cls)) = d1.parents.map (fun p => (p.uuid, p.cls)) →
        d2.freshUuids = d1.freshUuids →
        (∀ c ∈ (Group.cleanup d2 dp rest).containers, c.uuid = T →
            ∃ e ∈ c.children, e.cls ≠ ClassId.SYL)
        ∧ (∀ u s c e, d.entriesOf u = [(s, c, e)] → c.uuid = T →
            ∃ c1, (Group.cleanup d2 dp rest).entriesOf u = [(s, c1, e)] ∧ c1.uuid = T
              ∧ c1.cls = c.cls)
        ∧ (Group.cleanup d2 dp rest).parents.map (fun p => (p.uuid, p.cls))
            = d.parents.map (fun p => (p.uuid, p.cls))
        ∧ (Group.cleanup d2 dp rest).freshUuids = d.freshUuids := by
      intro d2 hI2 hE2 hk2 hf2
      obtain ⟨q1, q2, q3, q4⟩ := ih d2 hI2
      refine ⟨q1, ?_, q3.trans (hk2.trans hk1), q4.trans (hf2.trans hf1)⟩
      intro u s c e hx hcT
      obtain ⟨c1, hc1, hc1T, hc1K⟩ := hE1 u s c e hx hcT
      obtain ⟨c2, hc2, hc2T, hc2K⟩ := q2 u s c1 e (hE2 u s c1 e hc1 hc1T) hc1T
      exact ⟨c2, hc2, hc2T, hc2K.trans hc1K⟩
    cases hobj : d1.container pair.1.uuid with
    | none => exact hkeep d1 hI1 (fun u s c e hx _ => hx) rfl rfl
    | some obj =>
      simp only
      by_cases hcond : obj.GetChildCount = 0
          ∨ obj.GetChildCount = obj.GetChildCountOf ClassId.SYL
      · rw [if_pos hcond]
        obtain ⟨hobjmem, hobju⟩ := GroupDoc.container_mem d1 _ obj hobj
        have hne : obj.uuid ≠ T := by
          intro hT
          obtain ⟨e, he, hesyl⟩ := hI1 obj hobjmem hT
          have hlt : (obj.children.filter (fun e => decide (e.cls = ClassId.SYL))).length
              < obj.children.length := by
            apply List.length_filter_lt_length_iff_exists.mpr
            exact ⟨e, he, by simpa using hesyl⟩
          have hle : (obj.relinquished.filter (fun e => decide (e.cls = ClassId.SYL))).length
              ≤ obj.relinquished.length := List.length_filter_le _ _
          have hpos : 0 < obj.children.length := List.length_pos_of_mem he
          unfold GroupContainer.GetChildCount GroupContainer.GetChildCountOf at hcond
          omega
        apply hkeep
        · intro c hc hcT
          exact hI1 c (GroupDoc.containers_modifyParent_filter _ _ d1 c hc) hcT
        · intro u s c e hx hcT
          unfold GroupDoc.entriesOf at hx ⊢
          rw [GroupDoc.entries_modifyParent_filter, List.filter_filter]
          have hcomm : d1.entries.filter (fun x =>
              (x.2.2.uuid == u) && ((x.1 != dp.uuid) || (x.2.1.uuid != obj.uuid)))
              = (d1.entries.filter (fun x => x.2.2.uuid == u)).filter (fun x =>
                  (x.1 != dp.uuid) || (x.2.1.uuid != obj.uuid)) := by
            rw [List.filter_filter]
            apply List.filter_congr
            intro x _
            exact Bool.and_comm _ _
          rw [hcomm, hx, List.filter_cons_of_pos]
          · rfl
          · have : c.uuid ≠ obj.uuid := fun hh => hne (hh.symm.trans hcT)
            simp [this]
        · exact GroupDoc.parents_key_modifyParent _ _ d1
        · rfl
      · rw [if_neg hcond]
        exact hkeep d1 hI1 (fun u s c e hx _ => hx) rfl rfl

/-- What the first loop of `Group` has gathered when each selected id has one
entry, below `S` in a container of class `CK`, for an element of class `K`, and
distinct ids name elements at distinct addresses: the set of elements holds
the selected elements, each once, and nothing else; each parent entered is
the container of a selected element; and the second-level parent is the one
with the uuid `S`. -/
theorem Group.collect_selected (d : GroupDoc) (K CK DK : ClassId) (el : String → GroupChild)
    (S : String) (ids : List String) (locals : Group.Locals)
    (hc : Group.collect d K ids { doubleParent := none, parents := [], elements := [] }
      = some locals)
    (hne : ids ≠ []) (hK : K ≠ ClassId.SYL)
    (hS : ∀ p ∈ d.parents, p.uuid = S → p.cls = DK)
    (hea : ∀ u ∈ ids, ∀ v ∈ ids, (el u).addr = (el v).addr → u = v)
    (hsel : ∀ u ∈ ids, ∃ c, d.entriesOf u = [(S, c, el u)] ∧ c.cls = CK ∧ (el u).cls = K) :
    (∀ e ∈ locals.elements, e.cls ≠ ClassId.SYL ∧ e.uuid ∈ ids ∧ e = el e.uuid)
    ∧ (∀ u ∈ ids, el u ∈ locals.elements)
    ∧ locals.elements.Pairwise (fun a b => a.uuid ≠ b.uuid)
    ∧ (∀ b ∈ locals.parents, ∃ u ∈ ids, d.entriesOf u = [(S, b.1, el u)] ∧ b.1.cls = CK)
    ∧ (∃ dp, locals.doubleParent = some dp ∧ dp.uuid = S ∧ dp.cls = DK ∧ dp ∈ d.parents) := by
  have huuid : ∀ u ∈ ids, (el u).uuid = u := by
    intro u hu
    obtain ⟨c, hc1, _⟩ := hsel u hu
    exact (GroupDoc.entriesOf_uuid d u _ hc1).1
  have hfind : ∀ u ∈ ids, ∀ f, d.find u = some f →
      (∃ v ∈ ids, f.el = el v)
      ∧ (∃ v ∈ ids, d.entriesOf v = [(S, f.par, el v)] ∧ f.par.cls = CK)
      ∧ (f.doubleParent.uuid = S ∧ f.doubleParent ∈ d.parents) := by
    intro u hu f hf
    obtain ⟨c, hc1, hcK, _⟩ := hsel u hu
    obtain ⟨f1, hf1, h1, h2, h3⟩ := GroupDoc.find_of_entriesOf d u _ hc1
    rw [hf] at hf1
    simp only [Option.some.injEq] at hf1
    subst hf1
    have h2a : f.par = c := h2
    refine ⟨⟨u, hu, h3⟩, ⟨u, hu, ?_, ?_⟩, h1, (GroupDoc.find_some d u f hf).1⟩
    · rw [h2a]
      exact hc1
    · rw [h2a]
      exact hcK
  obtain ⟨a1, a2, a3⟩ := Group.collect_all d K (fun e => ∃ v ∈ ids, e = el v)
    (fun c => ∃ v ∈ ids, d.entriesOf v = [(S, c, el v)] ∧ c.cls = CK)
    (fun p => p.uuid = S ∧ p ∈ d.parents) ids _ locals hfind hc
    (fun e he => absurd he (List.not_mem_nil e)) (fun b hb => absurd hb (List.not_mem_nil b))
    (fun dp hdp => absurd hdp (by simp))
  obtain ⟨s1, _, _, s4, s5⟩ := Group.collect_sorted d K ids _ locals hc List.Pairwise.nil
    List.Pairwise.nil
  refine ⟨?_, ?_, ?_, a2, ?_⟩
  · intro e he
    obtain ⟨v, hv, hev⟩ := a1 e he
    obtain ⟨_, _, _, hvK⟩ := hsel v hv
    rw [hev, huuid v hv]
    exact ⟨by rw [hvK]; exact hK, hv, rfl⟩
  · intro u hu
    obtain ⟨f, hf, x, hx, hxa⟩ := s4 u hu
    obtain ⟨⟨v1, _, hfel⟩, _, _⟩ := hfind u hu f hf
    obtain ⟨c, hc1, _⟩ := hsel u hu
    obtain ⟨f1, hf1, _, _, h3⟩ := GroupDoc.find_of_entriesOf d u _ hc1
    rw [hf] at hf1
    simp only [Option.some.injEq] at hf1
    subst hf1
    have h3a : f.el = el u := h3
    obtain ⟨v, hv, hxv⟩ := a1 x hx
    rw [h3a, hxv] at hxa
    have hvu := hea v hv u hu hxa
    rw [hxv, hvu] at hx
    exact hx
  · refine s1.imp_of_mem ?_
    intro a b ha hb hlt hab
    obtain ⟨u, hu, hau⟩ := a1 a ha
    obtain ⟨v, hv, hbv⟩ := a1 b hb
    rw [hau, hbv, huuid u hu, huuid v hv] at hab
    rw [hau, hbv, hab] at hlt
    exact lt_irrefl _ hlt
  · cases hdp : locals.doubleParent with
    | none => exact absurd hdp (s5 (Or.inl hne))
    | some dp =>
      obtain ⟨h1, h2⟩ := a3 dp hdp
      exact ⟨dp, rfl, h1, hS dp h2 h1, h2⟩

/-- An entry of the page names a place of the page and a child of its
container. -/
theorem GroupDoc.entries_slot_mem (d : GroupDoc) (x : String × GroupContainer × GroupChild)
    (hx : x ∈ d.entries) : (x.1, x.2.1) ∈ d.slots ∧ x.2.2 ∈ x.2.1.children := by
  rw [GroupDoc.entries_slots] at hx
  obtain ⟨s, hs, hxs⟩ := List.mem_flatMap.mp hx
  obtain ⟨e, he, hxe⟩ := List.mem_map.mp hxs
  rw [← hxe]
  exact ⟨hs, he⟩

/-- In a list without two entries of the same key, the entries with the key of
one entry are that entry. -/
theorem filter_of_nodup_map {α β : Type} [DecidableEq β] (f : α → β) (l : List α)
    (hl : (l.map f).Nodup) (x : α) (hx : x ∈ l) :
    l.filter (fun y => f y == f x) = [x] := by
  induction l with
  | nil => exact absurd hx (List.not_mem_nil x)
  | cons a rest ih =>
    rw [List.map_cons, List.nodup_cons] at hl
    rcases List.mem_cons.mp hx with h1 | h1
    · subst h1
      rw [List.filter_cons_of_pos (by simp)]
      congr 1
      rw [List.filter_eq_nil_iff]
      intro y hy hh
      apply hl.1
      have hfy : f y = f x := by simpa using hh
      rw [← hfy]
      exact List.mem_map_of_mem f hy
    · rw [List.filter_cons_of_neg]
      · exact ih hl.2 h1
      · intro hh
        apply hl.1
        have hfa : f a = f x := by simpa using hh
        rw [hfa]
        exact List.mem_map_of_mem f h1

/-- Two changes of the containers of one second-level parent, made one after
the other, are one change. -/
theorem GroupDoc.modifyParent_modifyParent (S : String)
    (f g : List GroupContainer → List GroupContainer) (d : GroupDoc) :
    (d.modifyParent S f).modifyParent S g = d.modifyParent S (fun cs => g (f cs)) := by
  unfold GroupDoc.modifyParent
  simp only [List.map_map]
  congr 1
  apply List.map_congr_left
  intro p _
  show (if (if p.uuid = S then _ else p).uuid = S then _ else _) = _
  by_cases hp : p.uuid = S
  · simp only [if_pos hp]
  · simp only [if_neg hp]

/-- The end of `Group`: when the grouping has left every selected id with one
entry, below `S` in a container with the uuid `T` and of class `CK`, and every
container with the uuid `T` holds a child that is no syl, the last loop keeps
this, and the uuids of the second-level parents stay distinct, the class of
the one with the uuid `S` stays, and no selected id is a name still to be
given out. -/
theorem Group.cleanup_selected (el : String → GroupChild) (S T : String) (CK DK : ClassId)
    (ids : List String) (d d1 : GroupDoc) (dp : GroupParent)
    (ps : List (GroupContainer × Nat))
    (hparents : (d.parents.map (fun p => p.uuid)).Nodup)
    (hS : ∀ p ∈ d.parents, p.uuid = S → p.cls = DK)
    (hfresh : ∀ u ∈ ids, u ∉ d.freshUuids)
    (F1 : d1.parents.map (fun p => (p.uuid, p.cls)) = d.parents.map (fun p => (p.uuid, p.cls)))
    (F2 : ∀ u ∈ d1.freshUuids, u ∈ d.freshUuids)
    (F3 : ∀ u ∈ ids, ∃ c, d1.entriesOf u = [(S, c, el u)] ∧ c.uuid = T ∧ c.cls = CK)
    (F4 : ∀ c ∈ d1.containers, c.uuid = T → ∃ e ∈ c.children, e.cls ≠ ClassId.SYL) :
    ((Group.cleanup d1 dp ps).parents.map (fun p => p.uuid)).Nodup
    ∧ (∀ p ∈ (Group.cleanup d1 dp ps).parents, p.uuid = S → p.cls = DK)
    ∧ (∀ u ∈ ids, ∃ c, (Group.cleanup d1 dp ps).entriesOf u = [(S, c, el u)] ∧ c.uuid = T
        ∧ c.cls = CK)
    ∧ (∀ u ∈ ids, u ∉ (Group.cleanup d1 dp ps).freshUuids) := by
  obtain ⟨_, q2, q3, q4⟩ := Group.cleanup_spec T dp ps d1 F4
  have hk := q3.trans F1
  refine ⟨?_, GroupDoc.parents_cls_of_key d _ S DK hk hS, ?_, ?_⟩
  · rw [GroupDoc.parents_uuid_of_key d _ hk]
    exact hparents
  · intro u hu
    obtain ⟨c, hc, hcT, hcK⟩ := F3 u hu
    obtain ⟨c1, hc1, hc1T, hc1K⟩ := q2 u S c (el u) hc hcT
    exact ⟨c1, hc1, hc1T, hc1K.trans hcK⟩
  · intro u hu hmem
    rw [q4] at hmem
    exact hfresh u hu (F2 u hmem)

/-- The selected elements in a new container: the page `d0` holds none of the
selected ids any more and no container with the uuid `T`, and the new
container `n`, with the uuid `T` and of class `CK`, holds for each selected id
the one element with it.  Once `n` has joined the second-level parent `S`,
every selected id has one entry, in `n`, and every container with the uuid `T`
holds a child that is no syl. -/
theorem GroupDoc.new_container_selected (R : List GroupContainer → List GroupContainer)
    (hR : ∀ l, (R l).Perm l) (el : String → GroupChild) (S T : String) (CK : ClassId)
    (ids : List String) (d0 : GroupDoc) (n : GroupContainer)
    (hne : ids ≠ [])
    (hparents : (d0.parents.map (fun p => p.uuid)).Nodup)
    (hS : S ∈ d0.parents.map (fun p => p.uuid))
    (hnil : ∀ u ∈ ids, d0.entriesOf u = [])
    (hold : ∀ c ∈ d0.containers, c.uuid ≠ T)
    (hnT : n.uuid = T) (hnK : n.cls = CK)
    (hsyl : ∀ u ∈ ids, (el u).cls ≠ ClassId.SYL)
    (hn : ∀ u ∈ ids, n.children.filter (fun x => x.uuid == u) = [el u]) :
    (∀ u ∈ ids, ∃ c, (d0.modifyParent S (fun cs => R (cs ++ [n]))).entriesOf u
        = [(S, c, el u)] ∧ c.uuid = T ∧ c.cls = CK)
    ∧ (∀ c ∈ (d0.modifyParent S (fun cs => R (cs ++ [n]))).containers, c.uuid = T →
        ∃ e ∈ c.children, e.cls ≠ ClassId.SYL) := by
  constructor
  · intro u hu
    exact ⟨n, GroupDoc.entriesOf_new_container R hR S n d0 hparents hS u (el u) (hnil u hu)
      (hn u hu), hnT, hnK⟩
  · intro c hc hcT
    have hperm := GroupDoc.containers_modifyParent R hR S n d0 hparents hS
    have hc1 := hperm.mem_iff.mp hc
    rcases List.mem_append.mp hc1 with h1 | h1
    · exact absurd hcT (hold c h1)
    · rw [List.mem_singleton] at h1
      rw [h1]
      obtain ⟨u, hu⟩ := List.exists_mem_of_ne_nil ids hne
      refine ⟨el u, ?_, hsyl u hu⟩
      have hm : el u ∈ n.children.filter (fun x => x.uuid == u) := by
        rw [hn u hu]
        exact List.mem_singleton.mpr rfl
      exact (List.mem_filter.mp hm).1

/-- The one container with the uuid `T` holds a child that is no syl when an
element that is no syl has its entry in a container with that uuid. -/
theorem GroupDoc.target_holds (S T : String) (d : GroupDoc) (cT c : GroupContainer)
    (e : GroupChild) (u : String)
    (hT : d.slots.filter (fun s => s.2.uuid == T) = [(S, cT)])
    (hx : d.entriesOf u = [(S, c, e)]) (hcT : c.uuid = T) (hsyl : e.cls ≠ ClassId.SYL) :
    ∀ c1 ∈ d.containers, c1.uuid = T → ∃ e1 ∈ c1.children, e1.cls ≠ ClassId.SYL := by
  have hmem := (GroupDoc.entriesOf_uuid d u _ hx).2
  obtain ⟨h1, h2⟩ := GroupDoc.entries_slot_mem d _ hmem
  have hc : (S, c) ∈ d.slots.filter (fun s => s.2.uuid == T) :=
    List.mem_filter.mpr ⟨h1, by simpa using hcT⟩
  rw [hT, List.mem_singleton] at hc
  intro c1 hc1 hc1T
  rw [GroupDoc.containers_slots] at hc1
  obtain ⟨s, hs, hsc⟩ := List.mem_map.mp hc1
  have hs1 : s ∈ d.slots.filter (fun s => s.2.uuid == T) :=
    List.mem_filter.mpr ⟨hs, by rw [hsc]; simpa using hc1T⟩
  rw [hT, List.mem_singleton] at hs1
  have hcc : c1 = c := by
    rw [← hsc, hs1]
    exact (congrArg (fun y => y.2) hc).symm
  rw [hcc]
  exact ⟨e, h2, hsyl⟩

/-- The entries of a page are read from its second-level parents. -/
theorem GroupDoc.entriesOf_congr (d d1 : GroupDoc) (h : d1.parents = d.parents) (v : String) :
    d1.entriesOf v = d.entriesOf v := by
  unfold GroupDoc.entriesOf GroupDoc.entries
  rw [h]

/-- The containers of a page are read from its second-level parents. -/
theorem GroupDoc.containers_congr (d d1 : GroupDoc) (h : d1.parents = d.parents) :
    d1.containers = d.containers := by
  unfold GroupDoc.containers
  rw [h]

/-- The branch of `Group` for one full parent: the selected elements are moved
into the full parent, whose children are then put in order.  When the
containers of the page have distinct uuids and each selected id has one entry,
below `S` in a container of class `CK`, every selected id then has its one
entry in the container with the uuid of the full parent. -/
theorem Group.moveTo_selected (RC : List GroupChild → List GroupChild)
    (hRC : ∀ l, (RC l).Perm l) (el : String → GroupChild) (S : String) (CK : ClassId)
    (ids : List String) (d : GroupDoc) (elements : List GroupChild) (parent : GroupContainer)
    (hne : ids ≠ [])
    (hcu : (d.containers.map (fun c => c.uuid)).Nodup)
    (hsel : ∀ u ∈ ids, ∃ c, d.entriesOf u = [(S, c, el u)] ∧ c.cls = CK)
    (E1 : ∀ e ∈ elements, e.cls ≠ ClassId.SYL ∧ e.uuid ∈ ids ∧ e = el e.uuid)
    (E2 : ∀ u ∈ ids, el u ∈ elements)
    (hparent : ∃ u ∈ ids, d.entriesOf u = [(S, parent, el u)] ∧ parent.cls = CK) :
    ((Group.moveTo d parent.uuid elements).mapContainers (fun c =>
        if c.uuid = parent.uuid then { c with children := RC c.children } else c)).parents.map
          (fun p => (p.uuid, p.cls)) = d.parents.map (fun p => (p.uuid, p.cls))
    ∧ ((Group.moveTo d parent.uuid elements).mapContainers (fun c =>
        if c.uuid = parent.uuid then { c with children := RC c.children }
        else c)).freshUuids = d.freshUuids
    ∧ (∀ u ∈ ids, ∃ c, ((Group.moveTo d parent.uuid elements).mapContainers (fun c =>
          if c.uuid = parent.uuid then { c with children := RC c.children }
          else c)).entriesOf u = [(S, c, el u)] ∧ c.uuid = parent.uuid ∧ c.cls = CK)
    ∧ (∀ c ∈ ((Group.moveTo d parent.uuid elements).mapContainers (fun c =>
          if c.uuid = parent.uuid then { c with children := RC c.children }
          else c)).containers, c.uuid = parent.uuid →
        ∃ e ∈ c.children, e.cls ≠ ClassId.SYL) := by
  have huuid : ∀ u ∈ ids, (el u).uuid = u := by
    intro u hu
    obtain ⟨c, hc1, _⟩ := hsel u hu
    exact (GroupDoc.entriesOf_uuid d u _ hc1).1
  obtain ⟨u0, hu0, hx0, hpK⟩ := hparent
  have hslot : (S, parent) ∈ d.slots :=
    (GroupDoc.entries_slot_mem d _ (GroupDoc.entriesOf_uuid d u0 _ hx0).2).1
  have hT : ∃ cT, d.slots.filter (fun s => s.2.uuid == parent.uuid) = [(S, cT)]
      ∧ cT.cls = CK := by
    refine ⟨parent, ?_, hpK⟩
    have hnd : (d.slots.map (fun s => s.2.uuid)).Nodup := by
      rw [GroupDoc.containers_slots, List.map_map] at hcu
      exact hcu
    exact filter_of_nodup_map (fun s : String × GroupContainer => s.2.uuid) d.slots hnd
      (S, parent) hslot
  obtain ⟨⟨cT, q1, q1K⟩, q2, q3, q4⟩ := Group.moveTo_spec el S parent.uuid CK ids elements
    (fun _ => False) d E1 hT
    (fun u hu => by
      obtain ⟨c, hc, hcK⟩ := hsel u hu
      exact ⟨c, hc, hcK, fun hh => absurd hh (fun x => x)⟩)
  have hg : ∀ c : GroupContainer,
      (if c.uuid = parent.uuid then ({ c with children := RC c.children } : GroupContainer)
        else c).uuid = c.uuid
      ∧ (if c.uuid = parent.uuid then ({ c with children := RC c.children } : GroupContainer)
        else c).cls = c.cls
      ∧ (if c.uuid = parent.uuid then ({ c with children := RC c.children } : GroupContainer)
        else c).children.Perm c.children := by
    intro c
    split_ifs
    · exact ⟨rfl, rfl, hRC _⟩
    · exact ⟨rfl, rfl, List.Perm.refl _⟩
  have hF3 : ∀ u ∈ ids, ∃ c, ((Group.moveTo d parent.uuid elements).mapContainers (fun c =>
      if c.uuid = parent.uuid then { c with children := RC c.children }
      else c)).entriesOf u = [(S, c, el u)] ∧ c.uuid = parent.uuid ∧ c.cls = CK := by
    intro u hu
    obtain ⟨c, hc, hcK, hcT⟩ := q2 u hu
    have h1 := GroupDoc.entriesOf_mapContainers_single (fun c =>
      if c.uuid = parent.uuid then { c with children := RC c.children } else c) u
      (Group.moveTo d parent.uuid elements) _ (fun c => ((hg c).2.2).filter _) hc
    refine ⟨_, h1, ?_, ?_⟩
    · rw [(hg c).1]
      exact hcT (Or.inr ⟨el u, E2 u hu, huuid u hu⟩)
    · rw [(hg c).2.1]
      exact hcK
  refine ⟨?_, ?_, hF3, ?_⟩
  · rw [GroupDoc.parents_key_mapContainers]
    exact q3
  · exact q4
  · obtain ⟨u, hu⟩ := List.exists_mem_of_ne_nil ids hne
    obtain ⟨c, hc, hcT, _⟩ := hF3 u hu
    have hslot2 := GroupDoc.slots_filter_mapContainers (fun c =>
      if c.uuid = parent.uuid then { c with children := RC c.children } else c) parent.uuid
      (Group.moveTo d parent.uuid elements) (fun c => (hg c).1)
    rw [q1] at hslot2
    have huK : (el u).cls ≠ ClassId.SYL := (E1 (el u) (E2 u hu)).1
    exact GroupDoc.target_holds S parent.uuid _ _ c (el u) u hslot2 hc hcT huK

/-- The selected elements after they were moved into a new container that
then joins the second-level parent `S`.  The loop starts on the page `dm`,
which has the second-level parents and the container uuids of `d`; `d0` has
the second-level parents the loop leaves; the new container `n` has the uuid
`T`, which no container of `d` has, and the class `CK`, and holds for each
selected id the one element with it.  Then every selected id has one entry, in
a container with the uuid `T`, and every container with that uuid holds a
child that is no syl. -/
theorem Group.moveInto_selected (R : List GroupContainer → List GroupContainer)
    (hR : ∀ l, (R l).Perm l) (el : String → GroupChild) (S T : String) (CK : ClassId)
    (ids : List String) (d dm d0 : GroupDoc) (t n : GroupContainer)
    (elements : List GroupChild)
    (hne : ids ≠ [])
    (hparents : (d.parents.map (fun p => p.uuid)).Nodup)
    (hS : S ∈ d.parents.map (fun p => p.uuid))
    (hfreshc : ∀ c ∈ d.containers, c.uuid ≠ T)
    (E1 : ∀ e ∈ elements, e.cls ≠ ClassId.SYL ∧ e.uuid ∈ ids ∧ e = el e.uuid)
    (E2 : ∀ u ∈ ids, el u ∈ elements)
    (hkey : dm.parents.map (fun p => (p.uuid, p.cls)) = d.parents.map (fun p => (p.uuid, p.cls)))
    (hcu : dm.containers.map (fun c => c.uuid) = d.containers.map (fun c => c.uuid))
    (hd0 : d0.parents = (Group.moveInto dm t elements).1.parents)
    (hnT : n.uuid = T) (hnK : n.cls = CK)
    (hn : ∀ u ∈ ids, n.children.filter (fun x => x.uuid == u) = [el u]) :
    (d0.modifyParent S (fun cs => R (cs ++ [n]))).parents.map (fun p => (p.uuid, p.cls))
        = d.parents.map (fun p => (p.uuid, p.cls))
    ∧ (∀ u ∈ ids, ∃ c, (d0.modifyParent S (fun cs => R (cs ++ [n]))).entriesOf u
        = [(S, c, el u)] ∧ c.uuid = T ∧ c.cls = CK)
    ∧ (∀ c ∈ (d0.modifyParent S (fun cs => R (cs ++ [n]))).containers, c.uuid = T →
        ∃ e ∈ c.children, e.cls ≠ ClassId.SYL) := by
  obtain ⟨_, m2, _, m4, m5⟩ := Group.moveInto_spec elements (fun e he => (E1 e he).1) dm t
  have hk0 : d0.parents.map (fun p => (p.uuid, p.cls))
      = d.parents.map (fun p => (p.uuid, p.cls)) := by
    rw [hd0]
    exact m2.trans hkey
  have hsyl : ∀ u ∈ ids, (el u).cls ≠ ClassId.SYL := fun u hu => (E1 (el u) (E2 u hu)).1
  have huuid : ∀ u ∈ ids, (el u).uuid = u := by
    intro u hu
    have h1 := hn u hu
    have hm : el u ∈ n.children.filter (fun x => x.uuid == u) := by
      rw [h1]
      exact List.mem_singleton.mpr rfl
    simpa using (List.mem_filter.mp hm).2
  obtain ⟨r1, r2⟩ := GroupDoc.new_container_selected R hR el S T CK ids d0 n hne
    (by rw [GroupDoc.parents_uuid_of_key d d0 hk0]; exact hparents)
    (by rw [GroupDoc.parents_uuid_of_key d d0 hk0]; exact hS)
    (fun u hu => by
      rw [GroupDoc.entriesOf_congr _ d0 hd0]
      exact m5 u (Or.inr ⟨el u, E2 u hu, huuid u hu⟩))
    (fun c hc hcT => by
      rw [GroupDoc.containers_congr _ d0 hd0] at hc
      have h1 : c.uuid ∈ (Group.moveInto dm t elements).1.containers.map (fun c => c.uuid) :=
        List.mem_map_of_mem (fun c => c.uuid) hc
      rw [m4, hcu] at h1
      obtain ⟨c1, hc1, hc1u⟩ := List.mem_map.mp h1
      exact hfreshc c1 hc1 (hc1u.trans hcT))
    hnT hnK hsyl hn
  refine ⟨?_, r1, r2⟩
  rw [GroupDoc.parents_key_modifyParent]
  exact hk0

/-- The first element of a list that a partial function maps as a whole. -/
theorem mapM_option_head {α β : Type} (f : α → Option β) (l : List α) (y : β) (ys : List β)
    (h : l.mapM f = some (y :: ys)) : ∃ a rest, l = a :: rest ∧ f a = some y := by
  cases l with
  | nil =>
    rw [List.mapM_nil] at h
    exact absurd h (by simp)
  | cons a rest =>
    rw [List.mapM_cons] at h
    cases hfa : f a with
    | none =>
      rw [hfa] at h
      exact absurd h (by simp)
    | some b =>
      rw [hfa] at h
      cases hr : rest.mapM f with
      | none =>
        rw [hr] at h
        exact absurd h (by simp)
      | some bs =>
        rw [hr] at h
        simp only [Option.pure_def, Option.bind_eq_bind, Option.some_bind, Option.some.injEq,
          List.cons.injEq] at h
        exact ⟨a, rest, rfl, by rw [← h.1]; exact hfa⟩

/-- The branch of `Group` that concatenates syllables, for selected neumes: when
it returns a page and a syllable, the syllable has the uuid that was next to
be given out, every selected id has its one entry in a container with that
uuid, of class syllable, and every container with that uuid holds a child that
is no syl. -/
theorem Group.concatSyllables_selected (h : GroupHelpers)
    (hR : ∀ l, (h.ReorderContainers l).Perm l) (el : String → GroupChild)
    (ids : List String) (d : GroupDoc) (dp : GroupParent)
    (fullParents : List GroupContainer) (elements : List GroupChild)
    (r : GroupDoc × GroupContainer)
    (hr : Group.concatSyllables h d dp fullParents elements = some r)
    (hdpK : dp.cls = ClassId.LAYER)
    (hne : ids ≠ [])
    (hparents : (d.parents.map (fun p => p.uuid)).Nodup)
    (hS : dp.uuid ∈ d.parents.map (fun p => p.uuid))
    (hfreshc : ∀ c ∈ d.containers, c.uuid ≠ d.fresh.1)
    (hsel : ∀ u ∈ ids, ∃ c, d.entriesOf u = [(dp.uuid, c, el u)])
    (E1 : ∀ e ∈ elements, e.cls ≠ ClassId.SYL ∧ e.uuid ∈ ids ∧ e = el e.uuid)
    (E2 : ∀ u ∈ ids, el u ∈ elements)
    (E3 : elements.Pairwise (fun a b => a.uuid ≠ b.uuid))
    (hfp : ∀ c ∈ fullParents, c ∈ d.containers) :
    r.2.uuid = d.fresh.1
    ∧ r.1.parents.map (fun p => (p.uuid, p.cls)) = d.parents.map (fun p => (p.uuid, p.cls))
    ∧ (∀ u ∈ r.1.freshUuids, u ∈ d.freshUuids)
    ∧ (∀ u ∈ ids, ∃ c, r.1.entriesOf u = [(dp.uuid, c, el u)] ∧ c.uuid = d.fresh.1
        ∧ c.cls = ClassId.SYLLABLE)
    ∧ (∀ c ∈ r.1.containers, c.uuid = d.fresh.1 → ∃ e ∈ c.children, e.cls ≠ ClassId.SYL) := by
  have hfr := GroupDoc.fresh_spec d
  have huuid : ∀ u ∈ ids, (el u).uuid = u := by
    intro u hu
    obtain ⟨c, hc1⟩ := hsel u hu
    exact (GroupDoc.entriesOf_uuid d u _ hc1).1
  unfold Group.concatSyllables at hr
  simp only at hr
  split at hr
  · exact absurd hr (by simp)
  · split at hr
    · exact absurd hr (by simp)
    · exact absurd hr (by simp)
    · split at hr
      · split at hr
        · exact absurd hr (by simp)
        · rename_i _ _ fullSyl moreSyls hmapM _ _ sylZones _ _ _ _
          obtain ⟨c0, cs, hsorted, hfirst⟩ := mapM_option_head _ _ _ _ hmapM
          have hc0 : c0 ∈ fullParents := by
            have h1 : c0 ∈ List.insertionSort (fun a b => h.sortByUlx a b = true) fullParents := by
              rw [hsorted]
              exact List.mem_cons_self _ _
            exact (List.perm_insertionSort _ _).mem_iff.mp h1
          have hfs1 : fullSyl ∈ c0.children := List.mem_of_find?_eq_some hfirst
          have hfs2 : fullSyl.cls = ClassId.SYL := by
            simpa using List.find?_some hfirst
          have hfsu : ∀ u ∈ ids, fullSyl.uuid ≠ u := by
            intro u hu hfu
            obtain ⟨c, hc1⟩ := hsel u hu
            have h2 := (GroupDoc.entry_of_child d c0 fullSyl _ (hfp c0 hc0) hfs1
              (by rw [hfu]; exact hc1)).2
            have h3 : el u = fullSyl := h2
            exact (E1 (el u) (E2 u hu)).1 (by rw [h3]; exact hfs2)
          simp only [Option.some.injEq] at hr
          rw [← hr]
          have hspec := Group.moveInto_spec elements (fun e he => (E1 e he).1)
            (d.fresh.2.2.mapContainers fun c => c.Relinquish fullSyl.uuid)
            { GroupContainer.new d.fresh.1 d.fresh.2.1 ClassId.SYLLABLE with
              children := [{ fullSyl with text := some (List.foldl
                (fun acc syl => acc ++ syl.text.getD "") "" (fullSyl :: moreSyls)) }] }
          generalize hM : Group.moveInto
            (d.fresh.2.2.mapContainers fun c => c.Relinquish fullSyl.uuid)
            { GroupContainer.new d.fresh.1 d.fresh.2.1 ClassId.SYLLABLE with
              children := [{ fullSyl with text := some (List.foldl
                (fun acc syl => acc ++ syl.text.getD "") "" (fullSyl :: moreSyls)) }] }
            elements = M at hspec ⊢
          obtain ⟨m1, m2, m3, m4, m5⟩ := hspec
          generalize hn : (if (Group.textBox h sylZones).ulx ≥ 0 ∧ (Group.textBox h sylZones).uly ≥ 0
              ∧ (Group.textBox h sylZones).lrx ≥ 0 ∧ (Group.textBox h sylZones).lry ≥ 0 then
              ({ M.2 with children := M.2.children.map (fun e =>
                  if e.uuid = fullSyl.uuid then
                    { e with zone := some (Group.textBox h sylZones),
                             facsZones := [Group.textBox h sylZones] }
                  else e) } : GroupContainer)
              else M.2) = n
          have hre : Group.reorderLayer h (M.1.modifyParent dp.uuid fun cs => cs ++ [n]) dp
              = M.1.modifyParent dp.uuid (fun cs => h.ReorderContainers (cs ++ [n])) := by
            unfold Group.reorderLayer
            rw [if_pos hdpK, GroupDoc.modifyParent_modifyParent]
          have hbase : ∀ u ∈ ids, M.2.children.filter (fun x => x.uuid == u) = [el u] := by
            intro u hu
            rw [m1]
            show (([{ fullSyl with text := some (List.foldl
                (fun acc syl => acc ++ syl.text.getD "") "" (fullSyl :: moreSyls)) }] : List GroupChild)
              ++ elements).filter (fun x => x.uuid == u) = [el u]
            rw [List.filter_append, List.filter_cons_of_neg (by simpa using hfsu u hu),
              List.filter_nil, List.nil_append]
            have h5 := filter_uuid_of_pairwise elements E3 (el u) (E2 u hu)
            rw [huuid u hu] at h5
            exact h5
          have hM2 : M.2.uuid = d.fresh.1 ∧ M.2.cls = ClassId.SYLLABLE := by
            rw [m1]
            exact ⟨rfl, rfl⟩
          have hnprops : n.uuid = d.fresh.1 ∧ n.cls = ClassId.SYLLABLE
              ∧ ∀ u ∈ ids, n.children.filter (fun x => x.uuid == u) = [el u] := by
            rw [← hn]
            split_ifs
            · refine ⟨hM2.1, hM2.2, ?_⟩
              intro u hu
              show (M.2.children.map (fun e =>
                  if e.uuid = fullSyl.uuid then
                    { e with zone := some (Group.textBox h sylZones),
                             facsZones := [Group.textBox h sylZones] }
                  else e)).filter (fun x => x.uuid == u) = [el u]
              rw [List.filter_map]
              have hcomp : M.2.children.filter ((fun x : GroupChild => x.uuid == u) ∘ (fun e =>
                  if e.uuid = fullSyl.uuid then
                    { e with zone := some (Group.textBox h sylZones),
                             facsZones := [Group.textBox h sylZones] }
                  else e)) = M.2.children.filter (fun x => x.uuid == u) := by
                apply List.filter_congr
                intro x _
                show ((if x.uuid = fullSyl.uuid then _ else x).uuid == u) = (x.uuid == u)
                split_ifs <;> rfl
              rw [hcomp, hbase u hu, List.map_cons, List.map_nil,
                if_neg (by rw [huuid u hu]; exact fun hh => hfsu u hu hh.symm)]
            · exact ⟨hM2.1, hM2.2, hbase⟩
          obtain ⟨hnT, hnK, hnf⟩ := hnprops
          have hkey : (d.fresh.2.2.mapContainers fun c => c.Relinquish fullSyl.uuid).parents.map
              (fun p => (p.uuid, p.cls)) = d.parents.map (fun p => (p.uuid, p.cls)) := by
            rw [GroupDoc.parents_key_mapContainers, hfr.1]
          have hcu : (d.fresh.2.2.mapContainers fun c => c.Relinquish fullSyl.uuid).containers.map
              (fun c => c.uuid) = d.containers.map (fun c => c.uuid) := by
            rw [GroupDoc.containers_mapContainers, List.map_map,
              GroupDoc.containers_congr d d.fresh.2.2 hfr.1]
            rfl
          have key := Group.moveInto_selected h.ReorderContainers hR el dp.uuid d.fresh.1
            ClassId.SYLLABLE ids d _ M.1 _ n elements hne hparents hS hfreshc E1 E2 hkey hcu
            (by rw [hM]) hnT hnK hnf
          simp only [hre]
          refine ⟨hnT, key.1, ?_, key.2.1, key.2.2⟩
          intro u hu
          have h6 : u ∈ M.1.freshUuids := hu
          rw [m3] at h6
          exact hfr.2.2.2.2.2.2 u h6
      · exact absurd hr (by simp)

/-- A full parent is a parent that the first loop of `Group` has entered. -/
theorem Group.fullParents_mem (ps : List (GroupContainer × Nat)) (c : GroupContainer)
    (hc : c ∈ Group.fullParents ps) : ∃ b ∈ ps, b.1 = c := by
  unfold Group.fullParents at hc
  obtain ⟨b, hb, hbc⟩ := List.mem_map.mp hc
  exact ⟨b, (List.mem_filter.mp hb).1, hbc⟩

/-- The container of the one entry of a uuid is a container of the page. -/
theorem GroupDoc.container_of_entriesOf (d : GroupDoc) (u : String)
    (x : String × GroupContainer × GroupChild) (hx : d.entriesOf u = [x]) :
    x.2.1 ∈ d.containers := by
  have h1 := (GroupDoc.entries_slot_mem d x (GroupDoc.entriesOf_uuid d u _ hx).2).1
  rw [GroupDoc.containers_slots]
  exact List.mem_map.mpr ⟨_, h1, rfl⟩

/-- What `Group` gathers: the selection.  Let the ids be distinct and not empty, each
of them the uuid of one element of the page, of the kind that `groupType`
names, below the second-level parent `S`; let the second-level parents and the
containers of the page have distinct uuids, the containers and the selected
elements distinct addresses, and let no id and no uuid of a container be a
name that is still to be given out; for note components let some neume have
all its children selected.  When `Group` returns true, every selected element is,
as it was, the one element with its uuid, in a container that has the uuid
`Group` reports and the class of the containers of the kind. -/
theorem Group_gathers (h : GroupHelpers)
    (hRC : ∀ l, (h.ReorderChildren l).Perm l) (hR : ∀ l, (h.ReorderContainers l).Perm l)
    (groupType : String) (K CK DK : ClassId)
    (hkind : (groupType = "nc" ∧ K = ClassId.NC ∧ CK = ClassId.NEUME ∧ DK = ClassId.SYLLABLE)
      ∨ (groupType = "neume" ∧ K = ClassId.NEUME ∧ CK = ClassId.SYLLABLE
          ∧ DK = ClassId.LAYER))
    (tk tk1 : Toolkit GroupDoc) (el : String → GroupChild) (S : String) (ids : List String)
    (hG : Group h groupType ids tk = Outcome.returned true tk1)
    (hne : ids ≠ []) (hnd : ids.Nodup) (hempty : "" ∉ ids)
    (hparents : (tk.doc.parents.map (fun p => p.uuid)).Nodup)
    (hS : ∀ p ∈ tk.doc.parents, p.uuid = S → p.cls = DK)
    (hcu : (tk.doc.containers.map (fun c => c.uuid)).Nodup)
    (hca : (tk.doc.containers.map (fun c => c.addr)).Nodup)
    (hea : ∀ u ∈ ids, ∀ v ∈ ids, (el u).addr = (el v).addr → u = v)
    (hsel : ∀ u ∈ ids, ∃ c, tk.doc.entriesOf u = [(S, c, el u)] ∧ c.cls = CK
      ∧ (el u).cls = K)
    (hfresh : ∀ u ∈ ids, u ∉ tk.doc.freshUuids)
    (hfreshc : ∀ c ∈ tk.doc.containers, c.uuid ≠ tk.doc.fresh.1)
    (hfull : groupType = "nc" → ∃ c ∈ tk.doc.containers, c.children ≠ []
      ∧ c.relinquished = [] ∧ ∀ e ∈ c.children, e.uuid ∈ ids) :
    (tk1.doc.parents.map (fun p => p.uuid)).Nodup
    ∧ (∀ p ∈ tk1.doc.parents, p.uuid = S → p.cls = DK)
    ∧ (∀ u ∈ ids, ∃ c, tk1.doc.entriesOf u = [(S, c, el u)] ∧ c.uuid = tk1.m_editInfo
        ∧ c.cls = CK)
    ∧ (∀ u ∈ ids, u ∉ tk1.doc.freshUuids) := by
  have hK : K ≠ ClassId.SYL := by
    rcases hkind with ⟨_, hk, _⟩ | ⟨_, hk, _⟩ <;> rw [hk] <;> decide
  have hKe : (if groupType = "nc" then ClassId.NC else ClassId.NEUME) = K := by
    rcases hkind with ⟨hg, hk, _⟩ | ⟨hg, hk, _⟩
    · rw [if_pos hg, hk]
    · rw [if_neg (by rw [hg]; decide), hk]
  have hfr := GroupDoc.fresh_spec tk.doc
  have huuid : ∀ u ∈ ids, (el u).uuid = u := by
    intro u hu
    obtain ⟨c, hc1, _⟩ := hsel u hu
    exact (GroupDoc.entriesOf_uuid tk.doc u _ hc1).1
  unfold Group at hG
  simp only at hG
  split at hG
  · simp only [Outcome.returned.injEq] at hG
    exact absurd hG.1 (by decide)
  · split at hG
    · rename_i hlen
      exact absurd (List.length_eq_zero.mp hlen) hne
    · split at hG
      · simp only [Outcome.returned.injEq] at hG
        exact absurd hG.1 (by decide)
      · split at hG
        · simp only [Outcome.returned.injEq] at hG
          exact absurd hG.1 (by decide)
        · split at hG
          · exact absurd hG (by simp)
          · split at hG
            · exact absurd hG (by simp)
            · rename_i _ _ _ _ locals hcollect _ dp hdp _ d1 parentUuid hgrouped
              simp only [Outcome.returned.injEq, true_and] at hG
              rw [hKe] at hcollect hgrouped
              obtain ⟨E1, E2, E3, Pa, dp1, hdp1, hdpS, hdpK, hdpmem⟩ :=
                Group.collect_selected tk.doc K CK DK el S ids locals hcollect hne hK hS hea hsel
              rw [hdp] at hdp1
              simp only [Option.some.injEq] at hdp1
              subst hdp1
              subst hdpS
              have hSmem : dp.uuid ∈ tk.doc.parents.map (fun p => p.uuid) :=
                List.mem_map_of_mem (fun p => p.uuid) hdpmem
              have hsel1 : ∀ u ∈ ids, ∃ c, tk.doc.entriesOf u = [(dp.uuid, c, el u)]
                  ∧ c.cls = CK := by
                intro u hu
                obtain ⟨c, hc, hcK, _⟩ := hsel u hu
                exact ⟨c, hc, hcK⟩
              have hfin : ∀ T, parentUuid = T →
                  d1.parents.map (fun p => (p.uuid, p.cls))
                    = tk.doc.parents.map (fun p => (p.uuid, p.cls)) →
                  (∀ u ∈ d1.freshUuids, u ∈ tk.doc.freshUuids) →
                  (∀ u ∈ ids, ∃ c, d1.entriesOf u = [(dp.uuid, c, el u)] ∧ c.uuid = T
                    ∧ c.cls = CK) →
                  (∀ c ∈ d1.containers, c.uuid = T → ∃ e ∈ c.children, e.cls ≠ ClassId.SYL) →
                  (tk1.doc.parents.map (fun p => p.uuid)).Nodup
                  ∧ (∀ p ∈ tk1.doc.parents, p.uuid = dp.uuid → p.cls = DK)
                  ∧ (∀ u ∈ ids, ∃ c, tk1.doc.entriesOf u = [(dp.uuid, c, el u)]
                      ∧ c.uuid = tk1.m_editInfo ∧ c.cls = CK)
                  ∧ (∀ u ∈ ids, u ∉ tk1.doc.freshUuids) := by
                intro T hT F1 F2 F3 F4
                rw [← hG]
                show (((Group.cleanup d1 dp locals.parents).parents.map (fun p => p.uuid)).Nodup
                  ∧ (∀ p ∈ (Group.cleanup d1 dp locals.parents).parents,
                      p.uuid = dp.uuid → p.cls = DK)
                  ∧ (∀ u ∈ ids, ∃ c, (Group.cleanup d1 dp locals.parents).entriesOf u
                      = [(dp.uuid, c, el u)] ∧ c.uuid = parentUuid ∧ c.cls = CK)
                  ∧ (∀ u ∈ ids, u ∉ (Group.cleanup d1 dp locals.parents).freshUuids))
                rw [hT]
                exact Group.cleanup_selected el dp.uuid T CK DK ids tk.doc d1 dp locals.parents
                  hparents hS hfresh F1 F2 F3 F4
              have hPa : ∀ c ∈ Group.fullParents locals.parents,
                  (∃ u ∈ ids, tk.doc.entriesOf u = [(dp.uuid, c, el u)] ∧ c.cls = CK)
                  ∧ c ∈ tk.doc.containers := by
                intro c hc
                obtain ⟨b, hb, hbc⟩ := Group.fullParents_mem _ c hc
                obtain ⟨u, hu, hx, hbK⟩ := Pa b hb
                rw [hbc] at hx hbK
                exact ⟨⟨u, hu, hx, hbK⟩, GroupDoc.container_of_entriesOf tk.doc u _ hx⟩
              have hkey0 : tk.doc.fresh.2.2.parents.map (fun p => (p.uuid, p.cls))
                  = tk.doc.parents.map (fun p => (p.uuid, p.cls)) := by
                rw [hfr.1]
              have hcu0 : tk.doc.fresh.2.2.containers.map (fun c => c.uuid)
                  = tk.doc.containers.map (fun c => c.uuid) := by
                rw [GroupDoc.containers_congr tk.doc tk.doc.fresh.2.2 hfr.1]
              split at hgrouped
              · rename_i hfp
                rcases hkind with ⟨hg, hk, hck, _⟩ | ⟨hg, hk, hck, hdk⟩
                · exfalso
                  obtain ⟨c, hcin, hch, hrel, hall⟩ := hfull hg
                  obtain ⟨e0, he0⟩ := List.exists_mem_of_ne_nil c.children hch
                  obtain ⟨c1, hc1, hc1K, _⟩ := hsel e0.uuid (hall e0 he0)
                  have hcc := (GroupDoc.entry_of_child tk.doc c e0 _ hcin he0 hc1).1
                  have hcc1 : c1 = c := hcc
                  have hcls : c.cls ≠ ClassId.SYLLABLE := by
                    rw [← hcc1, hc1K, hck]
                    decide
                  exact Group.fullParents_ne_nil tk.doc K ids locals el dp.uuid c hcollect hnd hca
                    (fun u hu => by
                      obtain ⟨c2, hc2, _⟩ := hsel u hu
                      exact ⟨c2, hc2⟩)
                    hcin hcls hch hrel hall hfp
                · have hKN : ¬ (K = ClassId.NC) := by
                    rw [hk]
                    decide
                  simp only [if_neg hKN] at hgrouped
                  split_ifs at hgrouped
                  simp only [Option.some.injEq, Prod.mk.injEq] at hgrouped
                  obtain ⟨hd1, hT⟩ := hgrouped
                  have hspec := Group.moveInto_spec locals.elements (fun e he => (E1 e he).1)
                    tk.doc.fresh.2.2
                    (GroupContainer.new tk.doc.fresh.1 tk.doc.fresh.2.1 ClassId.SYLLABLE)
                  generalize hM : Group.moveInto tk.doc.fresh.2.2
                    (GroupContainer.new tk.doc.fresh.1 tk.doc.fresh.2.1 ClassId.SYLLABLE)
                    locals.elements = M at hspec hd1 hT
                  obtain ⟨m1, m2, m3, m4, m5⟩ := hspec
                  have haspec := Group.addDefaultSyl_spec h M.1 M.2
                  generalize hA : Group.addDefaultSyl h M.1 M.2 = A at haspec hd1 hT
                  obtain ⟨a1, _, _, _, a5, a6, a7, _, a9⟩ := haspec
                  have hM2 : M.2.uuid = tk.doc.fresh.1 ∧ M.2.cls = ClassId.SYLLABLE
                      ∧ M.2.children = locals.elements := by
                    rw [m1]
                    exact ⟨rfl, rfl, List.nil_append _⟩
                  have hbase : ∀ u ∈ ids,
                      A.2.children.filter (fun x => x.uuid == u) = [el u] := by
                    intro u hu
                    have h5 := filter_uuid_of_pairwise locals.elements E3 (el u) (E2 u hu)
                    rw [huuid u hu] at h5
                    rcases a9 with a9 | ⟨syl, a9, _, hsylu⟩
                    · rw [a9, hM2.2.2]
                      exact h5
                    · rw [a9, hM2.2.2, List.filter_append, h5, List.filter_cons_of_neg,
                        List.filter_nil]
                      · rfl
                      · intro hh
                        have hsu : syl.uuid = u := by simpa using hh
                        rcases hsylu with hs | hs
                        · have hue : u = "" := hsu.symm.trans hs
                          exact hempty (hue ▸ hu)
                        · rw [m3] at hs
                          exact hfresh u hu (hfr.2.2.2.2.2.2 u (hsu ▸ hs))
                  have hnf : ∀ u ∈ ids,
                      (h.ReorderChildren A.2.children).filter (fun x => x.uuid == u) = [el u] := by
                    intro u hu
                    have hp := (hRC A.2.children).filter (fun x => x.uuid == u)
                    rw [hbase u hu] at hp
                    exact List.perm_singleton.mp hp
                  have hdpL : dp.cls = ClassId.LAYER := hdpK.trans hdk
                  have key := Group.moveInto_selected h.ReorderContainers hR el dp.uuid
                    tk.doc.fresh.1 CK ids tk.doc tk.doc.fresh.2.2 A.1
                    (GroupContainer.new tk.doc.fresh.1 tk.doc.fresh.2.1 ClassId.SYLLABLE)
                    { A.2 with children := h.ReorderChildren A.2.children } locals.elements hne
                    hparents hSmem hfreshc E1 E2 hkey0 hcu0 (by rw [hM]; exact a1)
                    (a6.trans hM2.1) ((a7.trans hM2.2.1).trans hck.symm) hnf
                  have hre : d1 = A.1.modifyParent dp.uuid (fun cs => h.ReorderContainers
                      (cs ++ [{ A.2 with children := h.ReorderChildren A.2.children }])) := by
                    rw [← hd1]
                    unfold Group.reorderLayer
                    rw [if_pos hdpL, GroupDoc.modifyParent_modifyParent]
                  rw [← hre] at key
                  refine hfin tk.doc.fresh.1 (hT.symm.trans (a6.trans hM2.1)) key.1 ?_ key.2.1
                    key.2.2
                  intro u hu
                  rw [hre] at hu
                  have h6 : u ∈ A.1.freshUuids := hu
                  have h7 := a5 u h6
                  rw [m3] at h7
                  exact hfr.2.2.2.2.2.2 u h7
              · rename_i parent hfp
                simp only [Option.some.injEq, Prod.mk.injEq] at hgrouped
                obtain ⟨hd1, hT⟩ := hgrouped
                have hpm : parent ∈ Group.fullParents locals.parents := by
                  rw [hfp]
                  exact List.mem_singleton.mpr rfl
                obtain ⟨q1, q2, q3, q4⟩ := Group.moveTo_selected h.ReorderChildren hRC el dp.uuid
                  CK ids tk.doc locals.elements parent hne hcu hsel1 E1 E2 (hPa parent hpm).1
                rw [hd1] at q1 q2 q3 q4
                refine hfin parent.uuid hT.symm q1 ?_ q3 q4
                intro u hu
                rw [q2] at hu
                exact hu
              · rename_i c1 c2 crest hfp
                rcases hkind with ⟨hg, hk, hck, _⟩ | ⟨hg, hk, hck, hdk⟩
                · simp only [if_pos hk, Option.some.injEq, Prod.mk.injEq] at hgrouped
                  obtain ⟨hd1, hT⟩ := hgrouped
                  have hspec := Group.moveInto_spec locals.elements (fun e he => (E1 e he).1)
                    tk.doc.fresh.2.2
                    (GroupContainer.new tk.doc.fresh.1 tk.doc.fresh.2.1 ClassId.NEUME)
                  generalize hM : Group.moveInto tk.doc.fresh.2.2
                    (GroupContainer.new tk.doc.fresh.1 tk.doc.fresh.2.1 ClassId.NEUME)
                    locals.elements = M at hspec hd1 hT
                  obtain ⟨m1, m2, m3, m4, m5⟩ := hspec
                  have hM2 : M.2.uuid = tk.doc.fresh.1 ∧ M.2.cls = ClassId.NEUME
                      ∧ M.2.children = locals.elements := by
                    rw [m1]
                    exact ⟨rfl, rfl, List.nil_append _⟩
                  have hnf : ∀ u ∈ ids, M.2.children.filter (fun x => x.uuid == u) = [el u] := by
                    intro u hu
                    have h5 := filter_uuid_of_pairwise locals.elements E3 (el u) (E2 u hu)
                    rw [huuid u hu] at h5
                    rw [hM2.2.2]
                    exact h5
                  have key := Group.moveInto_selected (fun l => l) (fun l => List.Perm.refl l) el
                    dp.uuid tk.doc.fresh.1 CK ids tk.doc tk.doc.fresh.2.2 M.1
                    (GroupContainer.new tk.doc.fresh.1 tk.doc.fresh.2.1 ClassId.NEUME)
                    M.2 locals.elements hne hparents hSmem hfreshc E1 E2 hkey0 hcu0
                    (by rw [hM]) hM2.1 (hM2.2.1.trans hck.symm) hnf
                  have hre : d1 = M.1.modifyParent dp.uuid (fun cs => (fun l => l) (cs ++ [M.2])) :=
                    hd1.symm
                  rw [← hre] at key
                  refine hfin tk.doc.fresh.1 (hT.symm.trans hM2.1) key.1 ?_ key.2.1 key.2.2
                  intro u hu
                  rw [hre] at hu
                  have h6 : u ∈ M.1.freshUuids := hu
                  rw [m3] at h6
                  exact hfr.2.2.2.2.2.2 u h6
                · have hKN : ¬ (K = ClassId.NC) := by
                    rw [hk]
                    decide
                  simp only [if_neg hKN] at hgrouped
                  rw [Option.map_eq_some'] at hgrouped
                  obtain ⟨r, hr, hrd⟩ := hgrouped
                  simp only [Prod.mk.injEq] at hrd
                  obtain ⟨hd1, hT⟩ := hrd
                  have hdpL : dp.cls = ClassId.LAYER := hdpK.trans hdk
                  obtain ⟨p1, p2, p3, p4, p5⟩ := Group.concatSyllables_selected h hR el ids tk.doc
                    dp _ locals.elements r hr hdpL hne hparents hSmem hfreshc
                    (fun u hu => by
                      obtain ⟨c, hc, _⟩ := hsel u hu
                      exact ⟨c, hc⟩)
                    E1 E2 E3 (fun c hc => (hPa c hc).2)
                  rw [hd1] at p2 p3 p4 p5
                  rw [hck]
                  rw [hck] at hfin
                  exact hfin tk.doc.fresh.1 (hT.symm.trans p1) p2 p3 p4 p5

/-- C16, amended: Group followed by Ungroup with the same ids separates the
selection.  Let the ids be distinct, none of them empty or a name still to be
given out, each the uuid of one element of the page, of one kind (note
components without a ligated attribute, or neumes), all below one second-level
parent; let the second-level parents and the containers have distinct uuids,
the containers and the selected elements distinct addresses, and the name
that is next to be given out be the uuid of no container; for note components
let some neume have all its children selected.  When Group returns true,
Ungroup with the same ids returns true; the first selected element is in the
container Group reported; every other selected element is the only child that
is no syl of a container made by Ungroup; no two selected elements are in one
container, whatever they shared before the Group; and every selected element
is the element it was before the Group, with the same pitches. -/
theorem C16_Group_then_Ungroup_separates (h : GroupHelpers)
    (hRC : ∀ l, (h.ReorderChildren l).Perm l) (hR : ∀ l, (h.ReorderContainers l).Perm l)
    (doubleUnit : Option Int) (groupType : String) (K CK DK : ClassId)
    (hkind : (groupType = "nc" ∧ K = ClassId.NC ∧ CK = ClassId.NEUME ∧ DK = ClassId.SYLLABLE)
      ∨ (groupType = "neume" ∧ K = ClassId.NEUME ∧ CK = ClassId.SYLLABLE
          ∧ DK = ClassId.LAYER))
    (tk tk1 : Toolkit GroupDoc) (el : String → GroupChild) (S id1 : String)
    (rest : List String)
    (hG : Group h groupType (id1 :: rest) tk = Outcome.returned true tk1)
    (hnd : (id1 :: rest).Nodup) (hempty : "" ∉ id1 :: rest)
    (hparents : (tk.doc.parents.map (fun p => p.uuid)).Nodup)
    (hS : ∀ p ∈ tk.doc.parents, p.uuid = S → p.cls = DK)
    (hcu : (tk.doc.containers.map (fun c => c.uuid)).Nodup)
    (hca : (tk.doc.containers.map (fun c => c.addr)).Nodup)
    (hea : ∀ u ∈ id1 :: rest, ∀ v ∈ id1 :: rest, (el u).addr = (el v).addr → u = v)
    (hsel : ∀ u ∈ id1 :: rest, ∃ c, tk.doc.entriesOf u = [(S, c, el u)] ∧ c.cls = CK
      ∧ (el u).cls = K ∧ (groupType = "nc" → (el u).ligated = none))
    (hfresh : ∀ u ∈ id1 :: rest, u ∉ tk.doc.freshUuids)
    (hfreshc : ∀ c ∈ tk.doc.containers, c.uuid ≠ tk.doc.fresh.1)
    (hfull : groupType = "nc" → ∃ c ∈ tk.doc.containers, c.children ≠ []
      ∧ c.relinquished = [] ∧ ∀ e ∈ c.children, e.uuid ∈ id1 :: rest) :
    ∃ tk2, Ungroup h doubleUnit groupType (id1 :: rest) tk1 = Outcome.returned true tk2
      ∧ (∃ f, tk2.doc.find id1 = some f ∧ f.par.uuid = tk1.m_editInfo)
      ∧ (∀ u ∈ rest, ∃ f, tk2.doc.find u = some f
          ∧ f.par.children.filter (fun e => e.cls ≠ ClassId.SYL) = [f.el]
          ∧ tk1.doc.nextAddr ≤ f.par.addr)
      ∧ (∀ u ∈ id1 :: rest, ∀ v ∈ id1 :: rest, u ≠ v →
          (tk2.doc.find u).map (fun f => f.par) ≠ (tk2.doc.find v).map (fun f => f.par))
      ∧ (∀ u ∈ id1 :: rest,
          (tk2.doc.find u).map (fun f => f.el) = (tk.doc.find u).map (fun f => f.el)
          ∧ (tk2.doc.find u).map (fun f => f.el.pitches)
              = (tk.doc.find u).map (fun f => f.el.pitches)) := by
  have hpage : tk1.doc.hasDrawingPage = true :=
    (Group_page h groupType (id1 :: rest) tk tk1 true hG).trans
      (Group_true_page h groupType (id1 :: rest) tk tk1 hG)
  have hK : K ≠ ClassId.SYL := by
    rcases hkind with ⟨_, hk, _⟩ | ⟨_, hk, _⟩ <;> rw [hk] <;> decide
  obtain ⟨g1, g2, g3, g4⟩ := Group_gathers h hRC hR groupType K CK DK hkind tk tk1 el S
    (id1 :: rest) hG (List.cons_ne_nil _ _) hnd hempty hparents hS hcu hca hea
    (fun u hu => by
      obtain ⟨c, hc, hcK, heK, _⟩ := hsel u hu
      exact ⟨c, hc, hcK, heK⟩)
    hfresh hfreshc hfull
  have hsel1 : ∀ u ∈ id1 :: rest, ∃ c, tk1.doc.entriesOf u = [(S, c, el u)]
      ∧ c.uuid = tk1.m_editInfo ∧ c.cls = CK ∧ (el u).cls = K
      ∧ (groupType = "nc" → (el u).ligated = none) := by
    intro u hu
    obtain ⟨c, hc, hcT, hcK⟩ := g3 u hu
    obtain ⟨_, _, _, heK, heL⟩ := hsel u hu
    exact ⟨c, hc, hcT, hcK, heK, heL⟩
  have hbefore : ∀ u ∈ id1 :: rest, (tk.doc.find u).map (fun f => f.el) = some (el u) := by
    intro u hu
    obtain ⟨c, hc, _⟩ := hsel u hu
    obtain ⟨f, hf, _, _, hfel⟩ := GroupDoc.find_of_entriesOf tk.doc u _ hc
    rw [hf]
    exact congrArg some hfel
  obtain ⟨tk2, hU, hsep⟩ := Ungroup_separates h hR doubleUnit groupType K CK DK hkind tk1
    hpage el tk1.m_editInfo S id1 rest hnd hempty g1 g2 hsel1 g4
  have hK1 : (el id1).cls ≠ ClassId.SYL := by
    obtain ⟨_, _, _, h1, _⟩ := hsel id1 (List.mem_cons_self _ _)
    rw [h1]
    exact hK
  obtain ⟨⟨f1, hf1, hf1el, hf1P, _⟩, hmoved, hapart⟩ :=
    Ungroup.Separated.find_spec el tk1.m_editInfo S id1 tk1.doc.nextAddr rest tk2.doc hsep
      hnd hK1
  have hel : ∀ u ∈ id1 :: rest, (tk2.doc.find u).map (fun f => f.el) = some (el u) := by
    intro u hu
    rcases List.mem_cons.mp hu with hu | hu
    · rw [hu, hf1]
      exact congrArg some hf1el
    · obtain ⟨f, hf, hfel, _⟩ := hmoved u hu
      rw [hf]
      exact congrArg some hfel
  refine ⟨tk2, hU, ⟨f1, hf1, hf1P⟩, ?_, hapart, ?_⟩
  · intro u hu
    obtain ⟨f, hf, hfel, hch, haddr, _⟩ := hmoved u hu
    exact ⟨f, hf, by rw [hfel]; exact hch, haddr⟩
  · intro u hu
    have h1 := hel u hu
    have h2 := hbefore u hu
    refine ⟨h1.trans h2.symm, ?_⟩
    have e1 : (tk2.doc.find u).map (fun f => f.el.pitches)
        = ((tk2.doc.find u).map (fun f => f.el)).map (fun e => e.pitches) := by
      rw [Option.map_map]
      rfl
    have e2 : (tk.doc.find u).map (fun f => f.el.pitches)
        = ((tk.doc.find u).map (fun f => f.el)).map (fun e => e.pitches) := by
      rw [Option.map_map]
      rfl
    rw [e1, e2, h1, h2]

/-- C16, amended, at an instance: on the page whose syllable holds the neumes
m1 = [a, b], m2 = [c, d], m3 = [e], `Group("nc", ["a", "b", "c"])` gathers a, b, c
in m1, its one full parent, and `Ungroup("nc", ["a", "b", "c"])` then leaves a in
m1 and b and c each alone in a new neume. -/
theorem C16_Group_then_Ungroup_separates_witness :
    ∃ tk1, Group sampleGroupHelpers "nc" ["a", "b", "c"]
        { doc := sampleGroupDoc, m_editInfo := "" } = Outcome.returned true tk1
      ∧ tk1.m_editInfo = "m1"
      ∧ ∃ tk2, Ungroup sampleGroupHelpers (some 100) "nc" ["a", "b", "c"] tk1
          = Outcome.returned true tk2
        ∧ (∃ f, tk2.doc.find "a" = some f ∧ f.par.uuid = tk1.m_editInfo)
        ∧ (∀ u ∈ ["b", "c"], ∃ f, tk2.doc.find u = some f
            ∧ f.par.children.filter (fun e => e.cls ≠ ClassId.SYL) = [f.el]
            ∧ tk1.doc.nextAddr ≤ f.par.addr)
        ∧ (∀ u ∈ ["a", "b", "c"], ∀ v ∈ ["a", "b", "c"], u ≠ v →
            (tk2.doc.find u).map (fun f => f.par) ≠ (tk2.doc.find v).map (fun f => f.par))
        ∧ (∀ u ∈ ["a", "b", "c"],
            (tk2.doc.find u).map (fun f => f.el)
              = (GroupDoc.find sampleGroupDoc u).map (fun f => f.el)
            ∧ (tk2.doc.find u).map (fun f => f.el.pitches)
                = (GroupDoc.find sampleGroupDoc u).map (fun f => f.el.pitches)) :=
  ⟨_, rfl, by decide,
    C16_Group_then_Ungroup_separates sampleGroupHelpers (fun l => List.Perm.refl l)
      (fun l => List.Perm.refl l) (some 100)
      "nc" ClassId.NC ClassId.NEUME ClassId.SYLLABLE (Or.inl ⟨rfl, rfl, rfl, rfl⟩)
      { doc := sampleGroupDoc, m_editInfo := "" } _
      (fun u => if u = "a" then sampleNc 1 "a" 1 else if u = "b" then sampleNc 2 "b" 2
        else sampleNc 3 "c" 3)
      "y1" "a" ["b", "c"] rfl (by decide) (by decide) (by decide) (by decide) (by decide)
      (by decide) (by decide)
      (by
        intro u hu
        simp only [List.mem_cons, List.mem_singleton, List.not_mem_nil, or_false] at hu
        rcases hu with rfl | rfl | rfl
        · exact ⟨_, rfl, rfl, rfl, fun _ => rfl⟩
        · exact ⟨_, rfl, rfl, rfl, fun _ => rfl⟩
        · exact ⟨_, rfl, rfl, rfl, fun _ => rfl⟩)
      (by decide) (by decide)
      (fun _ =>
        ⟨{ addr := 100, uuid := "m1", cls := ClassId.NEUME, zone := none,
           children := [sampleNc 1 "a" 1, sampleNc 2 "b" 2], relinquished := [] },
          (by decide), (by decide), rfl, (by decide)⟩)⟩

/-- An instance of the gathering for neumes: on the page whose layer holds the
syllables y1 = [n1, n2] and y2 = [n3, n4], `Group("neume", ["n2", "n3"])` finds no full
parent and leaves n2 and n3, as they were, in the new syllable it reports. -/
theorem Group_gathers_neume_instance :
    ∃ tk1, Group sampleGroupHelpers "neume" ["n2", "n3"]
        { doc := sampleNeumeGroupDoc, m_editInfo := "" } = Outcome.returned true tk1
      ∧ tk1.m_editInfo = "new1"
      ∧ ∀ u ∈ ["n2", "n3"], ∃ c, tk1.doc.entriesOf u
          = [("l1", c, if u = "n2" then sampleNeume 2 "n2" 2 else sampleNeume 3 "n3" 3)]
        ∧ c.uuid = tk1.m_editInfo ∧ c.cls = ClassId.SYLLABLE :=
  ⟨_, rfl, by decide,
    (Group_gathers sampleGroupHelpers (fun l => List.Perm.refl l) (fun l => List.Perm.refl l)
      "neume" ClassId.NEUME ClassId.SYLLABLE ClassId.LAYER (Or.inr ⟨rfl, rfl, rfl, rfl⟩)
      { doc := sampleNeumeGroupDoc, m_editInfo := "" } _
      (fun u => if u = "n2" then sampleNeume 2 "n2" 2 else sampleNeume 3 "n3" 3)
      "l1" ["n2", "n3"] rfl (by decide) (by decide) (by decide) (by decide) (by decide)
      (by decide) (by decide) (by decide)
      (by
        intro u hu
        simp only [List.mem_cons, List.mem_singleton, List.not_mem_nil, or_false] at hu
        rcases hu with rfl | rfl
        · exact ⟨_, rfl, rfl, rfl⟩
        · exact ⟨_, rfl, rfl, rfl⟩)
      (by decide) (by decide) (fun hh => absurd hh (by decide))).2.2.1⟩

/-- Group followed by Ungroup on note components of which one carries a ligated
attribute: on the neume m1 = [a, b, c], where b carries the attribute with the
value false, `Group("nc", ["a", "b", "c"])` reports m1, and `Ungroup` with the same ids
then passes b over: a and b are still together in m1, and only c is alone in a
new neume. -/
theorem Group_then_Ungroup_ligated_stays :
    ∃ tk1 tk2, Group sampleGroupHelpers "nc" ["a", "b", "c"]
          { doc := sampleLigatedGroupDoc, m_editInfo := "" } = Outcome.returned true tk1
      ∧ tk1.m_editInfo = "m1"
      ∧ Ungroup sampleGroupHelpers none "nc" ["a", "b", "c"] tk1 = Outcome.returned true tk2
      ∧ tk2.doc.parentOf "a" = some "m1" ∧ tk2.doc.parentOf "b" = some "m1"
      ∧ tk2.doc.parentOf "c" = some "new1" :=
  ⟨_, _, rfl, by decide, rfl, by decide, by decide, by decide⟩

/-- An instance of the gathering for note components of two full neumes: on the
page whose syllable holds the neumes m1 = [a, b], m2 = [c, d], m3 = [e],
`Group("nc", ["a", "b", "e"])` leaves a, b and e, as they were, in the new neume it
reports. -/
theorem Group_gathers_two_full_instance :
    ∃ tk1, Group sampleGroupHelpers "nc" ["a", "b", "e"]
        { doc := sampleGroupDoc, m_editInfo := "" } = Outcome.returned true tk1
      ∧ tk1.m_editInfo = "new1"
      ∧ ∀ u ∈ ["a", "b", "e"], ∃ c, tk1.doc.entriesOf u = [("y1", c, sampleNcOf u)]
        ∧ c.uuid = tk1.m_editInfo ∧ c.cls = ClassId.NEUME :=
  ⟨_, rfl, by decide,
    (Group_gathers sampleGroupHelpers (fun l => List.Perm.refl l) (fun l => List.Perm.refl l)
      "nc" ClassId.NC ClassId.NEUME ClassId.SYLLABLE (Or.inl ⟨rfl, rfl, rfl, rfl⟩)
      { doc := sampleGroupDoc, m_editInfo := "" } _ sampleNcOf
      "y1" ["a", "b", "e"] rfl (by decide) (by decide) (by decide) (by decide) (by decide)
      (by decide) (by decide) (by decide)
      (by
        intro u hu
        simp only [List.mem_cons, List.mem_singleton, List.not_mem_nil, or_false] at hu
        rcases hu with rfl | rfl | rfl
        · exact ⟨_, rfl, rfl, rfl⟩
        · exact ⟨_, rfl, rfl, rfl⟩
        · exact ⟨_, rfl, rfl, rfl⟩)
      (by decide) (by decide)
      (fun _ =>
        ⟨{ addr := 300, uuid := "m3", cls := ClassId.NEUME, zone := none,
           children := [sampleNc 5 "e" 5], relinquished := [] },
          (by decide), (by decide), rfl, (by decide)⟩)).2.2.1⟩

/-- An instance of the gathering for the neumes of two full syllables: on the
page whose layer holds the syllables y1 = [n1, t1] and y2 = [n2, t2],
`Group("neume", ["n1", "n2"])` leaves n1 and n2, as they were, in the new syllable it
reports. -/
theorem Group_gathers_concat_instance :
    ∃ tk1, Group sampleGroupHelpers "neume" ["n1", "n2"]
        { doc := sampleTextGroupDoc, m_editInfo := "" } = Outcome.returned true tk1
      ∧ tk1.m_editInfo = "new1"
      ∧ ∀ u ∈ ["n1", "n2"], ∃ c, tk1.doc.entriesOf u
          = [("l1", c, if u = "n1" then sampleNeume 1 "n1" 1 else sampleNeume 3 "n2" 2)]
        ∧ c.uuid = tk1.m_editInfo ∧ c.cls = ClassId.SYLLABLE :=
  ⟨_, rfl, by decide,
    (Group_gathers sampleGroupHelpers (fun l => List.Perm.refl l) (fun l => List.Perm.refl l)
      "neume" ClassId.NEUME ClassId.SYLLABLE ClassId.LAYER (Or.inr ⟨rfl, rfl, rfl, rfl⟩)
      { doc := sampleTextGroupDoc, m_editInfo := "" } _
      (fun u => if u = "n1" then sampleNeume 1 "n1" 1 else sampleNeume 3 "n2" 2)
      "l1" ["n1", "n2"] rfl (by decide) (by decide) (by decide) (by decide) (by decide)
      (by decide) (by decide) (by decide)
      (by
        intro u hu
        simp only [List.mem_cons, List.mem_singleton, List.not_mem_nil, or_false] at hu
        rcases hu with rfl | rfl
        · exact ⟨_, rfl, rfl, rfl⟩
        · exact ⟨_, rfl, rfl, rfl⟩)
      (by decide) (by decide) (fun hh => absurd hh (by decide))).2.2.1⟩

end Vrv
